import Mathlib

/-! # jiramail: attribute table, checksum and synchronisation engine

A shallow embedding of `internal/message/meta/meta.go`, `internal/message/write.go`,
`internal/message/message.go` and `internal/syncer/{issue,syncer,gc,board}.go`.

Modelling conventions
* A Go `string` is a list of characters (`Str`).  In Go `len` and slicing count bytes
  and the `%-Ns` padding of `fmt.Sprintf` counts runes; here all three count list
  elements, which is exact for strings of one-byte (ASCII) characters.  The theorems
  that state the widths, the cuts and the rows that `Table.Write` produces, or what is
  read back from them, therefore assume a table of ASCII strings (`AsciiTable`,
  `AsciiMail`), and every concrete input used below is ASCII.
* A Go map with string keys is an association list with pairwise distinct keys
  (`GoMap`); the unspecified iteration order of `range` is the list order.
  Column maps are never nil (the repository always makes them with `make` or a literal).
* `ColumnWidth` is a natural number (the claims concern widths that are at least 0).
* A run-time fault (nil dereference) is the result `none`.
-/

namespace Jiramail

/-- A Go string. -/
abbrev Str := List Char

/-! ## Go maps with string keys -/

/-- Lookup in an association list: the `v, ok := m[k]` form. -/
def alookup {β : Type} : List (Str × β) → Str → Option β
  | [], _ => none
  | (k', v) :: m, k => if k' = k then some v else alookup m k

/-- Assignment `m[k] = v` on an association list: overwrite in place or add a new key. -/
def aset {β : Type} : List (Str × β) → Str → β → List (Str × β)
  | [], k, v => [(k, v)]
  | (k', v') :: m, k, v => if k' = k then (k', v) :: m else (k', v') :: aset m k v

/-- Keys of an association list. -/
def akeys {β : Type} (m : List (Str × β)) : List Str := m.map Prod.fst

theorem mem_akeys_aset {β : Type} (m : List (Str × β)) (k : Str) (v : β) (x : Str)
    (hx : x ∈ akeys (aset m k v)) : x = k ∨ x ∈ akeys m := by
  induction m with
  | nil =>
    simp only [aset, akeys, List.map_cons, List.map_nil, List.mem_singleton] at hx
    exact Or.inl hx
  | cons e m ih =>
    obtain ⟨k2, v2⟩ := e
    by_cases h2 : k2 = k
    · simp only [aset, h2, if_true, akeys, List.map_cons, List.mem_cons] at hx ⊢
      rcases hx with hx | hx
      · exact Or.inl hx
      · exact Or.inr (Or.inr hx)
    · simp only [aset, h2, if_false, akeys, List.map_cons, List.mem_cons] at hx ⊢
      rcases hx with hx | hx
      · exact Or.inr (Or.inl hx)
      · rcases ih hx with h3 | h3
        · exact Or.inl h3
        · exact Or.inr (Or.inr h3)

theorem akeys_aset_nodup {β : Type} (m : List (Str × β)) (k : Str) (v : β)
    (h : (akeys m).Nodup) : (akeys (aset m k v)).Nodup := by
  induction m with
  | nil => exact List.nodup_singleton k
  | cons e m ih =>
    obtain ⟨k2, v2⟩ := e
    by_cases hk : k2 = k
    · simp only [aset, hk, if_true, akeys, List.map_cons] at h ⊢
      exact h
    · simp only [aset, hk, if_false, akeys, List.map_cons, List.nodup_cons] at h ⊢
      refine ⟨?_, ih h.2⟩
      intro hx
      rcases mem_akeys_aset m k v k2 hx with h3 | h3
      · exact hk h3
      · exact h.1 h3

theorem alookup_aset {β : Type} (m : List (Str × β)) (k : Str) (v : β) (k2 : Str) :
    alookup (aset m k v) k2 = if k = k2 then some v else alookup m k2 := by
  induction m with
  | nil => simp only [aset, alookup]
  | cons e m ih =>
    obtain ⟨k1, v1⟩ := e
    by_cases h1 : k1 = k
    · subst h1
      simp only [aset, if_true, alookup]
      by_cases h2 : k1 = k2
      · simp only [h2, if_true]
      · simp only [h2, if_false]
    · simp only [aset, h1, if_false, alookup, ih]
      by_cases h2 : k1 = k2
      · have h3 : ¬ k = k2 := fun h => h1 (h2.trans h.symm)
        simp only [h2, if_true, h3, if_false]
      · simp only [h2, if_false]

theorem alookup_none_of_not_mem {β : Type} (m : List (Str × β)) (k : Str)
    (h : k ∉ akeys m) : alookup m k = none := by
  induction m with
  | nil => rfl
  | cons e m ih =>
    obtain ⟨k1, v1⟩ := e
    simp only [akeys, List.map_cons, List.mem_cons, not_or] at h
    have h1 : ¬ k1 = k := fun h2 => h.1 h2.symm
    simp only [alookup, h1, if_false]
    exact ih h.2

/-- A Go map with string keys: association list with distinct keys. -/
structure GoMap (β : Type) where
  entries : List (Str × β)
  nodup : (akeys entries).Nodup

namespace GoMap

/-- The empty map. -/
def empty {β : Type} : GoMap β := ⟨[], List.nodup_nil⟩

/-- The two-valued lookup `v, ok := m[k]`. -/
def find {β : Type} (m : GoMap β) (k : Str) : Option β := alookup m.entries k

/-- The assignment `m[k] = v`. -/
def set {β : Type} (m : GoMap β) (k : Str) (v : β) : GoMap β :=
  ⟨aset m.entries k v, akeys_aset_nodup _ _ _ m.nodup⟩

/-- Keys in iteration order. -/
def keys {β : Type} (m : GoMap β) : List Str := akeys m.entries

/-- The lookup `m[k]` of a `map[string]string`, the zero value `""` for a missing key. -/
def get (m : GoMap Str) (k : Str) : Str := (alookup m.entries k).getD []

/-- The composite literal `map[string]string{k: v}`. -/
def single (k v : Str) : GoMap Str := (empty : GoMap Str).set k v

end GoMap

theorem GoMap.find_set {β : Type} (m : GoMap β) (k : Str) (v : β) (k2 : Str) :
    (m.set k v).find k2 = if k = k2 then some v else m.find k2 :=
  alookup_aset m.entries k v k2

theorem GoMap.get_set (m : GoMap Str) (k v k2 : Str) :
    (m.set k v).get k2 = if k = k2 then v else m.get k2 := by
  unfold GoMap.get GoMap.set
  simp only [alookup_aset]
  by_cases h : k = k2
  · simp only [h, if_true, Option.getD_some]
  · simp only [h, if_false]

theorem GoMap.get_empty (k : Str) : (GoMap.empty : GoMap Str).get k = [] := rfl

/-- A Go `map[string]string`. -/
abbrev ColMap := GoMap Str

/-! ## The string functions of the Go standard library that the code calls -/

/-- `unicode.IsSpace`. -/
def isSpace (c : Char) : Bool :=
  let n := c.toNat
  n = 0x20 || (0x09 ≤ n && n ≤ 0x0d) || n = 0x85 || n = 0xa0 || n = 0x1680 ||
  (0x2000 ≤ n && n ≤ 0x200a) || n = 0x2028 || n = 0x2029 || n = 0x202f || n = 0x205f ||
  n = 0x3000

/-- `strings.TrimSpace`. -/
def TrimSpace (s : Str) : Str := (s.dropWhile isSpace).rdropWhile isSpace

/-- `strings.ContainsAny(s, Delim)`. -/
def containsDelim (s : Str) : Bool := s.any (fun c => c = '|')

/-- `strings.SplitN(s, Delim, -1)`: the pieces between the delimiters, at least one. -/
def splitDelim : Str → List Str
  | [] => [[]]
  | c :: cs =>
    if c = '|' then [] :: splitDelim cs
    else match splitDelim cs with
      | [] => [[c]]
      | h :: t => (c :: h) :: t

/-- `strings.Replace(s, "-", "", -1)`. -/
def removeDashes (s : Str) : Str := s.filter (fun c => c ≠ '-')

/-- `strings.Repeat("-", n)`. -/
def dashes (n : Nat) : Str := List.replicate n '-'

/-- `fmt.Sprintf("%-Ns", s)` for the width `N = n`: pad with blanks on the right.
    Go counts the runes of `s`; the list length is that number for valid UTF-8. -/
def padRight (n : Nat) (s : Str) : Str := s ++ List.replicate (n - s.length) ' '

/-- `fmt.Sprintf("%d", i)`. -/
def decimal (i : Nat) : Str := Nat.toDigits 10 i

/-- `strings.HasPrefix`. -/
def HasPrefix (s p : Str) : Bool := p.isPrefixOf s

/-- `strings.HasSuffix`. -/
def HasSuffix (s p : Str) : Bool := p.isSuffixOf s

/-- `strings.TrimPrefix`. -/
def TrimPrefix (s p : Str) : Str := if HasPrefix s p then s.drop p.length else s

/-! ## internal/message/meta: Table -/

namespace meta

/-- `Delim = "|"`. -/
def Delim : Char := '|'

/-- `ColumnWidth = 40`, the width a parsed table starts with. -/
def ColumnWidth : Nat := 40

/-- `type Field struct { Name string; Column map[string]string }`. -/
structure Field where
  Name : Str
  Column : ColMap

/-- `type Table struct`, the unexported field `prefix` is called `pfx`. -/
structure Table where
  pfx : Str
  ColumnWidth : Nat
  Headers : List Str
  Data : List Field

/-- The zero value `Table{}`. -/
def Table.zero : Table := ⟨[], 0, [], []⟩

/-- `func (t *Table) Clone() *Table`. -/
def Table.Clone (t : Table) : Table :=
  { pfx := t.pfx, ColumnWidth := t.ColumnWidth, Headers := t.Headers, Data := t.Data }

/-- `func (t *Table) WithPrefix(v string) *Table`. -/
def Table.WithPrefix (t : Table) (v : Str) : Table :=
  { pfx := v, ColumnWidth := t.ColumnWidth, Headers := t.Headers, Data := t.Data }

/-- The first loop of `Append`: is there a field with this name already. -/
def hasField (data : List Field) (name : Str) : Bool :=
  data.any (fun field => decide (field.Name = name))

/-- The loop `for k := range nfield.Column` of `Append`: every key that is not in the
    set `x` built from the old `Headers` is appended. -/
def appendHeaders (old : List Str) (ks : List Str) : List Str :=
  ks.foldl (fun hs k => if k ∈ old then hs else hs ++ [k]) old

/-- `func (t *Table) Append(nfield Field)`. -/
def Table.Append (t : Table) (nfield : Field) : Table :=
  if hasField t.Data nfield.Name then t
  else { t with Headers := appendHeaders t.Headers nfield.Column.keys,
                Data := t.Data ++ [nfield] }

/-- The inner loop of `SetColumns`: `field.Column[k] = columns[k]` for every key. -/
def mergeColumns (into columns : ColMap) : ColMap :=
  columns.entries.foldl (fun m kv => m.set kv.1 kv.2) into

/-- The outer loop of `SetColumns` over `t.Data`: the first field called `name` gets the
    columns merged in; `none` when no field has that name (the loop falls through). -/
def setColumnsLoop (name : Str) (columns : ColMap) : List Field → Option (List Field)
  | [] => none
  | field :: rest =>
    if field.Name ≠ name then (setColumnsLoop name columns rest).map (fun r => field :: r)
    else some ({ field with Column := mergeColumns field.Column columns } :: rest)

/-- `func (t *Table) SetColumns(name string, columns map[string]string)`. -/
def Table.SetColumns (t : Table) (name : Str) (columns : ColMap) : Table :=
  match setColumnsLoop name columns t.Data with
  | some data => { t with Data := data }
  | none => t.Append { Name := name, Column := columns }

/-- `func (t *Table) Set(name string, column string, value string)`. -/
def Table.Set (t : Table) (name column value : Str) : Table :=
  t.SetColumns name (GoMap.single column value)

/-- The loops of `Get` over a field list. -/
def getLoop (name colname : Str) : List Field → Str
  | [] => []
  | field :: rest =>
    if field.Name = name then
      match field.Column.find colname with
      | some v => v
      | none => getLoop name colname rest
    else getLoop name colname rest

/-- `func (t *Table) Get(name, colname string) string`. -/
def Table.Get (t : Table) (name colname : Str) : Str := getLoop name colname t.Data

/-! ## internal/message/meta: Table.Write -/

/-- The loop computing `lenName`: the longest field name.  `len(field.Name)` is a number
    of bytes in Go and the list length here: the same for ASCII names. -/
def lenName (data : List Field) : Nat :=
  data.foldl (fun n field => if n < field.Name.length then field.Name.length else n) 0

/-- The body of the loop `for name, data := range field.Column` on `lenColumns`.
    `len(data)` is a number of bytes in Go and the list length here: the same for ASCII
    values. -/
def lenColumnsEntry (w : Nat) (lc : List (Str × Nat)) (e : Str × Str) : List (Str × Nat) :=
  if (alookup lc e.1).getD 0 < e.2.length then
    (if e.2.length > w then aset lc e.1 w else aset lc e.1 e.2.length)
  else lc

/-- The first loop of `Write`: `lenColumns` after all fields were visited. -/
def lenColumnsData (w : Nat) (data : List Field) : List (Str × Nat) :=
  data.foldl (fun lc field => field.Column.entries.foldl (lenColumnsEntry w) lc) []

/-- The second loop of `Write`: a shown column is at least as wide as its name. -/
def lenColumnsFloor (headers : List Str) (lc : List (Str × Nat)) : List (Str × Nat) :=
  headers.foldl (fun lc name =>
    match alookup lc name with
    | none => lc
    | some n => if n = 0 then lc else if n < name.length then aset lc name name.length else lc)
    lc

/-- The map `lenColumns` as the row loops of `Write` see it.  Its entries are numbers
    of bytes in Go and of characters here: the same for a table of ASCII strings
    (`AsciiTable`). -/
def lenColumns (t : Table) : List (Str × Nat) :=
  lenColumnsFloor t.Headers (lenColumnsData t.ColumnWidth t.Data)

/-- The third loop of `Write`: the header line (without the prefix). -/
def headerLine (t : Table) : Str :=
  t.Headers.foldl (fun header name =>
    match alookup (lenColumns t) name with
    | none => header
    | some n => if n = 0 then header else header ++ [' ', Delim, ' '] ++ padRight n name)
    (padRight (lenName t.Data) "Name".toList)

/-- One pass of the loop over `t.Headers` inside the row loop, for one column `name`:
    the accumulator is the row text `s` and `moreField`.  The test `len(v) > w` and the
    cuts `v[:w]`, `v[w:]` count bytes in Go and characters here: the same for ASCII
    values, while Go cuts a longer character in two. -/
def rowColumn (w : Nat) (lc : List (Str × Nat)) (field : Field) (acc : Str × Option Field)
    (name : Str) : Str × Option Field :=
  match alookup lc name with
  | none => acc
  | some n =>
    if n = 0 then acc
    else
      let v := field.Column.get name
      if v.length > w then
        let more := acc.2.getD { Name := [], Column := GoMap.empty }
        (acc.1 ++ [' ', Delim, ' '] ++ padRight n (v.take w),
         some { more with Column := more.Column.set name (v.drop w) })
      else
        (acc.1 ++ [' ', Delim, ' '] ++ padRight n (v.take v.length), acc.2)

/-- The text of the row of `field` and the `moreField` it leaves. -/
def rowOf (t : Table) (field : Field) : Str × Option Field :=
  t.Headers.foldl (rowColumn t.ColumnWidth (lenColumns t) field)
    (padRight (lenName t.Data) field.Name, none)

/-- The `LABEL: ... goto LABEL` loop for one field of `t.Data`: the lines written for it.
    Each jump costs one unit of `fuel`; `none` when the fuel runs out. -/
def fieldRows (t : Table) : Nat → Field → Option (List Str)
  | fuel, field =>
    match rowOf t field with
    | (s, none) => some [t.pfx ++ s ++ ['\n']]
    | (s, some more) =>
      match fuel with
      | 0 => none
      | fuel + 1 => (fieldRows t fuel more).map (fun rows => (t.pfx ++ s ++ ['\n']) :: rows)

/-- Jumps that the row loop can need for a field: the length of its longest value. -/
def fieldFuel (t : Table) (field : Field) : Nat :=
  t.Headers.foldl (fun n name => max n (field.Column.get name).length) 0

/-- The row loop of `Write` over the fields `data`. -/
def dataRows (t : Table) : List Field → Option (List Str)
  | [] => some []
  | field :: rest =>
    match fieldRows t (fieldFuel t field) field, dataRows t rest with
    | some a, some b => some (a ++ b)
    | _, _ => none

theorem lenColumnsData_le (w : Nat) (data : List Field) (k : Str) (n : Nat)
    (h : alookup (lenColumnsData w data) k = some n) : n ≤ w := by
  have entry : ∀ (es : List (Str × Str)) (lc : List (Str × Nat)),
      (∀ k n, alookup lc k = some n → n ≤ w) →
      ∀ k n, alookup (es.foldl (lenColumnsEntry w) lc) k = some n → n ≤ w := by
    intro es
    induction es with
    | nil => intro lc hlc; simpa using hlc
    | cons e es ih =>
      intro lc hlc
      rw [List.foldl_cons]
      apply ih
      intro k n hk
      unfold lenColumnsEntry at hk
      split at hk
      · split at hk
        · rw [alookup_aset] at hk
          split at hk
          · cases hk; exact le_refl _
          · exact hlc k n hk
        · rw [alookup_aset] at hk
          split at hk
          · cases hk; omega
          · exact hlc k n hk
      · exact hlc k n hk
  have fields : ∀ (fs : List Field) (lc : List (Str × Nat)),
      (∀ k n, alookup lc k = some n → n ≤ w) →
      ∀ k n, alookup (fs.foldl (fun lc field =>
        field.Column.entries.foldl (lenColumnsEntry w) lc) lc) k = some n → n ≤ w := by
    intro fs
    induction fs with
    | nil => intro lc hlc; simpa using hlc
    | cons f fs ih =>
      intro lc hlc
      rw [List.foldl_cons]
      exact ih _ (entry _ _ hlc)
  exact fields data [] (fun k n hk => by simp [alookup] at hk) k n h

theorem lenColumns_pos_width (t : Table) (k : Str) (n : Nat)
    (h : alookup (lenColumns t) k = some n) (hn : n ≠ 0) : 0 < t.ColumnWidth := by
  have floor : ∀ (hs : List Str) (lc : List (Str × Nat)),
      (∀ k n, alookup lc k = some n → n ≠ 0 → 0 < t.ColumnWidth) →
      ∀ k n, alookup (lenColumnsFloor hs lc) k = some n → n ≠ 0 → 0 < t.ColumnWidth := by
    intro hs
    induction hs with
    | nil => intro lc hlc; simpa [lenColumnsFloor] using hlc
    | cons name hs ih =>
      intro lc hlc
      unfold lenColumnsFloor
      rw [List.foldl_cons]
      apply ih
      intro k n hk hn
      split at hk
      · exact hlc k n hk hn
      · rename_i m hm
        split at hk
        · exact hlc k n hk hn
        · split at hk
          · rw [alookup_aset] at hk
            split at hk
            · exact hlc name m hm (by assumption)
            · exact hlc k n hk hn
          · exact hlc k n hk hn
  refine floor t.Headers _ ?_ k n h hn
  intro k n hk hn
  have := lenColumnsData_le _ _ _ _ hk
  omega

theorem le_fieldFuel (t : Table) (field : Field) (name : Str) (h : name ∈ t.Headers) :
    (field.Column.get name).length ≤ fieldFuel t field := by
  unfold fieldFuel
  have gen : ∀ (hs : List Str) (a : Nat),
      a ≤ hs.foldl (fun n name => max n (field.Column.get name).length) a ∧
      ∀ name ∈ hs, (field.Column.get name).length ≤
        hs.foldl (fun n name => max n (field.Column.get name).length) a := by
    intro hs
    induction hs with
    | nil => intro a; simp
    | cons x hs ih =>
      intro a
      rw [List.foldl_cons]
      refine ⟨le_trans (le_max_left _ _) (ih _).1, ?_⟩
      intro name hname
      rcases List.mem_cons.1 hname with h1 | h1
      · subst h1
        exact le_trans (le_max_right _ _) (ih _).1
      · exact (ih _).2 name h1
  exact (gen t.Headers 0).2 name h

theorem fieldFuel_le (t : Table) (field : Field) (b : Nat)
    (h : ∀ name, (field.Column.get name).length ≤ b) : fieldFuel t field ≤ b := by
  unfold fieldFuel
  have gen : ∀ (hs : List Str) (a : Nat), a ≤ b →
      hs.foldl (fun n name => max n (field.Column.get name).length) a ≤ b := by
    intro hs
    induction hs with
    | nil => intro a ha; simpa using ha
    | cons x hs ih =>
      intro a ha
      rw [List.foldl_cons]
      exact ih _ (max_le ha (h x))
  exact gen t.Headers 0 (Nat.zero_le _)

theorem rowOf_more_lt (t : Table) (field more : Field) (s : Str)
    (h : rowOf t field = (s, some more)) (name : Str) :
    (more.Column.get name).length < fieldFuel t field := by
  have gen : ∀ (hs : List Str) (acc : Str × Option Field),
      (∀ x ∈ hs, x ∈ t.Headers) →
      (∀ mf, acc.2 = some mf → ∀ k, (mf.Column.get k).length < fieldFuel t field) →
      ∀ mf, (hs.foldl (rowColumn t.ColumnWidth (lenColumns t) field) acc).2 = some mf →
        ∀ k, (mf.Column.get k).length < fieldFuel t field := by
    intro hs
    induction hs with
    | nil => intro acc _ hacc; simpa using hacc
    | cons x hs ih =>
      intro acc hsub hacc
      rw [List.foldl_cons]
      apply ih _ (fun y hy => hsub y (List.mem_cons_of_mem _ hy))
      intro mf hmf k
      unfold rowColumn at hmf
      split at hmf
      · exact hacc mf hmf k
      · rename_i n hn
        split at hmf
        · exact hacc mf hmf k
        · rename_i hn0
          have hw : 0 < t.ColumnWidth := lenColumns_pos_width t x n hn hn0
          have hx : (field.Column.get x).length ≤ fieldFuel t field :=
            le_fieldFuel t field x (hsub x (List.mem_cons_self _ _))
          simp only at hmf
          split at hmf
          · rename_i hlen
            simp only [Option.some.injEq] at hmf
            subst hmf
            simp only [GoMap.get_set]
            split
            · simp only [List.length_drop]
              omega
            · cases hacc2 : acc.2 with
              | none =>
                simp only [Option.getD_none, GoMap.get_empty, List.length_nil]
                omega
              | some mf0 =>
                simp only [Option.getD_some]
                exact hacc mf0 hacc2 k
          · exact hacc mf hmf k
  have := gen t.Headers (padRight (lenName t.Data) field.Name, none) (fun x hx => hx)
    (fun mf hmf => by simp at hmf) more
  unfold rowOf at h
  rw [h] at this
  exact this rfl name

theorem fieldRows_isSome (t : Table) (fuel : Nat) (field : Field)
    (h : fieldFuel t field ≤ fuel) : (fieldRows t fuel field).isSome = true := by
  induction fuel generalizing field with
  | zero =>
    unfold fieldRows
    split
    · rfl
    · rename_i s more hrow
      have := rowOf_more_lt t field more s hrow []
      omega
  | succ fuel ih =>
    unfold fieldRows
    split
    · rfl
    · rename_i s more hrow
      have hmore : fieldFuel t more ≤ fuel := by
        apply fieldFuel_le
        intro name
        have := rowOf_more_lt t field more s hrow name
        omega
      have := ih more hmore
      simp only [Option.isSome_map']
      exact this

theorem dataRows_isSome (t : Table) (data : List Field) : (dataRows t data).isSome = true := by
  induction data with
  | nil => rfl
  | cons field rest ih =>
    unfold dataRows
    have h1 := fieldRows_isSome t (fieldFuel t field) field (le_refl _)
    cases h2 : fieldRows t (fieldFuel t field) field with
    | none => rw [h2] at h1; cases h1
    | some a =>
      cases h3 : dataRows t rest with
      | none => rw [h3] at ih; cases ih
      | some b => rfl

/-- `func (t Table) Write(w io.Writer)`: the byte strings passed to `w.Write`, in order.
    The row loop always ends within the fuel it is given (`dataRows_isSome`).  The text
    is the one `meta.go` writes for a table of ASCII strings (`AsciiTable`), where the
    bytes that `len` and the cuts count are the characters counted here. -/
def Table.Write (t : Table) : List Str :=
  [t.pfx ++ headerLine t ++ ['\n'], t.pfx ++ dashes (headerLine t).length ++ ['\n']]
    ++ (dataRows t t.Data).get (dataRows_isSome t t.Data)
    ++ [t.pfx ++ dashes (headerLine t).length ++ ['\n']]

/-- `func (t Table) String() string`. -/
def Table.String (t : Table) : Str := t.Write.flatten

/-! ## internal/message/meta: Parser -/

/-- What the pointer `lastfield` points to.  `Append` stores a copy of the struct whose
    `Column` map is the same map, so a field that was appended shares its map with row
    `i` of `table.Data`; a field that `Append` dropped (its name was taken) does not. -/
inductive FieldRef where
  | row (i : Nat)
  | detached (f : Field)

/-- `type Parser struct`; a nil `err`, `table` or `lastfield` is `none`. -/
structure Parser where
  lines : Nat
  err : Option Str
  closed : Bool
  headers : List Str
  table : Option Table
  lastfield : Option FieldRef

/-- `func NewParser() *Parser`. -/
def NewParser : Parser :=
  { lines := 0, err := none, closed := false, headers := [], table := none, lastfield := none }

/-- The loop of case 1 over the pieces `a[i]`, `i > 0`, starting at index `i`: the trimmed
    piece, or the decimal numeral of `i` when that is empty. -/
def headerNames : Nat → List Str → List Str
  | _, [] => []
  | i, v :: rest =>
    (if (TrimSpace v).length = 0 then decimal i else TrimSpace v) :: headerNames (i + 1) rest

/-- The loop `for i := range a[1:]` with its `break` at `i >= len(p.headers)`:
    `f.Column[p.headers[i]] = strings.TrimSpace(a[i+1])`. -/
def fillColumns : List Str → List Str → ColMap → ColMap
  | h :: hs, v :: vs, m => fillColumns hs vs (m.set h (TrimSpace v))
  | _, _, m => m

/-- The field `f` that the default case builds from the pieces `a` of a row. -/
def rowField (headers : List Str) (a : List Str) : Field :=
  { Name := TrimSpace (a.headD []),
    Column := fillColumns headers (a.drop 1)
      (headers.foldl (fun m n => m.set n []) GoMap.empty) }

/-- Does the continuation loop reach `p.lastfield.Column[n] += ...` at all. -/
def hasOverflow (headers : List Str) (f : Field) : Bool :=
  headers.any (fun n => decide ((f.Column.get n).length > 0))

/-- The continuation loop `p.lastfield.Column[n] += f.Column[n]` on the map of `lastfield`. -/
def appendColumns (headers : List Str) (f : Field) (last : ColMap) : ColMap :=
  headers.foldl (fun m n =>
    if (f.Column.get n).length > 0 then m.set n (m.get n ++ f.Column.get n) else m) last

/-- The continuation loop on the field that `lastfield` points to. -/
def appendToField (headers : List Str) (f : Field) (last : Field) : Field :=
  { Name := last.Name, Column := appendColumns headers f last.Column }

/-- Apply `g` to element `i` of a list (nothing happens when `i` is out of range). -/
def modifyAt {α : Type} (g : α → α) : Nat → List α → List α
  | _, [] => []
  | 0, x :: xs => g x :: xs
  | i + 1, x :: xs => x :: modifyAt g i xs

/-- The continuation loop on row `i` of the table, whose map `lastfield` shares. -/
def appendToRow (headers : List Str) (f : Field) (i : Nat) (t : Table) : Table :=
  { t with Data := modifyAt (appendToField headers f) i t.Data }

/-- `func (p *Parser) Scan(s string) bool`: the new parser state and the returned
    boolean; `none` is a nil-pointer fault. -/
def Parser.Scan (p : Parser) (s : Str) : Option (Parser × Bool) :=
  if p.closed then some (p, false)
  else
    let s := TrimSpace s
    if s.length = 0 then some (p, true)
    else
      let p := { p with lines := p.lines + 1 }
      if p.lines = 1 then
        if !containsDelim s then some ({ p with lines := 0 }, true)
        else
          let headers := p.headers ++ headerNames 1 ((splitDelim s).drop 1)
          some ({ p with
                  headers := headers,
                  table := some { pfx := [], ColumnWidth := ColumnWidth,
                                  Headers := headers, Data := [] } }, true)
      else if p.lines = 2 then
        if (removeDashes s).length ≠ 0 then
          some ({ p with
                  err := some ("Unexpected header (line=".toList ++ decimal p.lines ++ [')']),
                  closed := true }, true)
        else some (p, true)
      else
        if (removeDashes s).length = 0 then some ({ p with closed := true }, false)
        else if !containsDelim s then
          some ({ p with
                  err := some ("Unexpected line format (line=".toList ++ decimal p.lines
                                ++ [')']),
                  closed := true }, false)
        else
          let f := rowField p.headers (splitDelim s)
          if f.Name = [] then
            if hasOverflow p.headers f then
              match p.lastfield with
              | none => none
              | some (FieldRef.detached last) =>
                some ({ p with
                        lastfield := some (FieldRef.detached (appendToField p.headers f last)) },
                      true)
              | some (FieldRef.row i) =>
                some ({ p with table := p.table.map (appendToRow p.headers f i) }, true)
            else some (p, true)
          else
            match p.table with
            | none => none
            | some t =>
              some ({ p with
                      table := some (t.Append f),
                      lastfield := some (if hasField t.Data f.Name then FieldRef.detached f
                                         else FieldRef.row t.Data.length) }, true)

/-- `func (p *Parser) Error() error`. -/
def Parser.Error (p : Parser) : Option Str := p.err

/-- `func (p *Parser) Table() *Table`. -/
def Parser.Table (p : Parser) : Option Table := p.table

/-- Feed lines to `Scan` one by one, whatever each call returns. -/
def scanAll (p : Parser) : List Str → Option Parser
  | [] => some p
  | s :: rest =>
    match p.Scan s with
    | none => none
    | some (q, _) => scanAll q rest

/-- The lines of a text: the pieces that end in a newline, and what is left after the
    last newline when that is not empty. -/
def splitLines : Str → List Str
  | [] => []
  | c :: cs =>
    if c = '\n' then [] :: splitLines cs
    else match splitLines cs with
      | [] => [[c]]
      | h :: t => (c :: h) :: t

end meta

/-! ## internal/message -/

namespace message

/-- `JiraStart = "{{{ jira"`. -/
def JiraStart : Str := ['{', '{', '{', ' ', 'j', 'i', 'r', 'a']

/-- `JiraEnd = "}}}"`. -/
def JiraEnd : Str := ['}', '}', '}']

/-- `JiraNewColumn = "Current"`. -/
def JiraNewColumn : Str := "Current".toList

/-- `JiraPrevColumn = "Previous"`. -/
def JiraPrevColumn : Str := "Previous".toList

/-- `JiraDiffColumn = "x"`. -/
def JiraDiffColumn : Str := "x".toList

/-- The header name `"X-Checksum"`. -/
def XChecksum : Str := "X-Checksum".toList

/-- `textproto.MIMEHeader`, a `map[string][]string`. -/
abbrev MIMEHeader := GoMap (List Str)

/-- `type Mail struct` (the recipient `Rcpt` plays no part in what is modelled); a nil
    `Meta` is `none`. -/
structure Mail where
  Header : MIMEHeader
  Meta : Option meta.Table
  Body : List Str

/-- `textproto.MIMEHeader.Get` for a key given in canonical form: the first value. -/
def headerGet (h : MIMEHeader) (key : Str) : Str :=
  match h.find key with
  | some (v :: _) => v
  | _ => []

/-- `func (m *Mail) HeaderID() string`; `none` is the panic on an empty identity (and the
    slice fault `id[1:0]` on an identity of one character that passes both tests). -/
def Mail.HeaderID (m : Mail) : Option Str :=
  let id := headerGet m.Header "Message-Id".toList
  if HasPrefix id ['<'] && HasSuffix id ['>'] then
    (if id.length < 2 then none else some ((id.take (id.length - 1)).drop 1))
  else if id.length = 0 then none
  else some id

/-- `func (m *Mail) HeaderChecksum() string`. -/
def Mail.HeaderChecksum (m : Mail) : Str := headerGet m.Header XChecksum

/-- The order `<` of Go strings is bytewise, which on UTF-8 text is the lexicographic
    order of the code points: `a <= b`. -/
def strLe : Str → Str → Bool
  | [], _ => true
  | _ :: _, [] => false
  | a :: as, b :: bs => if a.toNat < b.toNat then true else if b.toNat < a.toNat then false
                         else strLe as bs

/-- `sort.StringSlice.Sort` on the header names. -/
def sortNames (names : List Str) : List Str :=
  names.insertionSort (fun a b => strLe a b = true)

/-- `func writeMIMEHeader(w io.Writer, header textproto.MIMEHeader)`: the text written. -/
def writeMIMEHeader (header : MIMEHeader) : Str :=
  ((sortNames header.keys).map (fun name =>
      (((header.find name).getD []).map (fun value =>
        name ++ [':', ' '] ++ value ++ ['\n'])).flatten)).flatten ++ ['\n']

/-- `func writeMessage(w io.Writer, header textproto.MIMEHeader, body io.Reader)`. -/
def writeMessage (header : MIMEHeader) (body : Str) : Str := writeMIMEHeader header ++ body

/-- `func getBodyReader(m *Mail) io.Reader`: the text the reader yields. -/
def getBodyReader (m : Mail) : Str :=
  JiraStart ++ "\n# This block will be automatically deleted from the text.\n".toList
  ++ (match m.Meta with
      | some t =>
        if t.Data.length > 0 then ['#', '\n'] ++ (t.WithPrefix ['#', ' ']).String ++ ['#', '\n']
        else []
      | none => [])
  ++ JiraEnd ++ ['\n', '\n']
  ++ (m.Body.map (fun s => s ++ ['\n'])).flatten

/-- The loop of `MakeChecksum` that copies every header but `X-Checksum`. -/
def dropChecksum (h : MIMEHeader) : MIMEHeader :=
  ⟨h.entries.filter (fun e => decide (e.1 ≠ XChecksum)),
   (List.Nodup.sublist (List.Sublist.map Prod.fst (List.filter_sublist h.entries)) h.nodup)⟩

/-- The mail `temp` that `MakeChecksum` serialises. -/
def checksumMail (m : Mail) : Mail :=
  { Header := dropChecksum m.Header,
    Body := m.Body,
    Meta := m.Meta.map (fun t =>
      { t.Clone with Headers := [JiraNewColumn], ColumnWidth := 4096 }) }

/-- The bytes that `MakeChecksum` writes into the SHA-256 state `h`. -/
def checksumInput (m : Mail) : Str :=
  writeMessage (checksumMail m).Header (getBodyReader (checksumMail m))

/-- `func MakeChecksum(m *Mail) (string, error)`; `sha256 data` stands for
    `fmt.Sprintf("%x", h.Sum(nil))` after `data` was written to `h` (writing to a hash
    never fails, so the error is always nil). -/
def MakeChecksum (sha256 : Str → Str) (m : Mail) : Str :=
  "sha256:".toList ++ sha256 (checksumInput m)

/-- The table settings `Write` puts into `m.Meta` before rendering. -/
def withStorageColumns (m : Mail) (n : Nat) : Mail :=
  { m with Meta := m.Meta.map (fun t =>
      { t with Headers := [JiraPrevColumn, JiraDiffColumn, JiraNewColumn], ColumnWidth := n }) }

/-- `func Write(w io.Writer, m *Mail, n int) error`: the text written (when `w` accepts it). -/
def Write (m : Mail) (n : Nat) : Str :=
  writeMessage (withStorageColumns m n).Header (getBodyReader (withStorageColumns m n))

/-- The part of `config.Mail` that `ReadMail` and `Write` use. -/
structure MailConfig where
  MailQuote : List Str
  JiraTableColumnWidth : Nat

/-- State of the scanner loop of `ReadMail`. -/
structure ReadState where
  ismeta : Bool
  metaparser : meta.Parser
  Body : List Str

/-- One turn of the loop `for scanner.Scan()` of `ReadMail` on the line `text`:
    `none` is a fault inside `Parser.Scan`, `some (Except.error e)` the early
    `return nil, err`. -/
def readLine (cfg : MailConfig) (st : ReadState) (text : Str) :
    Option (Except Str ReadState) :=
  let s := TrimSpace text
  if s = JiraStart || HasSuffix s ([' '] ++ JiraStart) then
    some (Except.ok { st with ismeta := true })
  else if s = JiraEnd || HasSuffix s ([' '] ++ JiraEnd) then
    some (Except.ok { st with ismeta := false })
  else
    let s := cfg.MailQuote.foldl TrimPrefix s
    if st.ismeta then
      if !HasPrefix s ['#'] then some (Except.ok st)
      else
        match st.metaparser.Scan (TrimPrefix s ['#']) with
        | none => none
        | some (p, ok) =>
          if !ok then
            match p.Error with
            | some e => some (Except.error e)
            | none => some (Except.ok { st with metaparser := p })
          else some (Except.ok { st with metaparser := p })
    else if s.length > 0 then some (Except.ok { st with Body := st.Body ++ [s] })
    else some (Except.ok st)

/-- The loop `for scanner.Scan()` of `ReadMail`. -/
def readLines (cfg : MailConfig) : ReadState → List Str → Option (Except Str ReadState)
  | st, [] => some (Except.ok st)
  | st, text :: rest =>
    match readLine cfg st text with
    | none => none
    | some (Except.error e) => some (Except.error e)
    | some (Except.ok st2) => readLines cfg st2 rest

/-- `func ReadMail(cfg *config.Configuration, rd io.Reader) (msg *Mail, err error)`.
    The standard library reads the header block (`tp.ReadMIMEHeader`) and cuts the rest
    into lines (`bufio.Scanner`); `header` and `lines` are what it hands over. -/
def ReadMail (cfg : MailConfig) (header : MIMEHeader) (lines : List Str) :
    Option (Except Str Mail) :=
  match readLines cfg { ismeta := false, metaparser := meta.NewParser, Body := [] } lines with
  | none => none
  | some (Except.error e) => some (Except.error e)
  | some (Except.ok st) =>
    some (Except.ok
      { Header := header,
        Meta := st.metaparser.Table.map (fun t =>
          { t with ColumnWidth := cfg.JiraTableColumnWidth }),
        Body := st.Body })

end message

/-! ## internal/syncer -/

namespace syncer

open message

/-- An error value: a `*maildir.KeyError` with its count `N`, or any other error. -/
inductive Error where
  | key (n : Nat)
  | other (msg : Str)
  deriving DecidableEq

/-- The body of the loop over `prevmsg.Meta.Data` in `JiraSyncer.issue`. -/
def diffField (prev : meta.Table) (msg : meta.Table) (field : meta.Field) : meta.Table :=
  let curv := msg.Get field.Name JiraNewColumn
  let prevv := prev.Get field.Name JiraNewColumn
  let msg := if curv ≠ prevv then msg.Set field.Name JiraDiffColumn ['!'] else msg
  msg.Set field.Name JiraPrevColumn prevv

/-- The loop `for _, field := range prevmsg.Meta.Data` of `JiraSyncer.issue` on `msg.Meta`. -/
def diffLoop (prev : meta.Table) (msg : meta.Table) : meta.Table :=
  prev.Data.foldl (diffField prev) msg

/-- The block `if prevmsg != nil && prevmsg.Meta != nil` of `JiraSyncer.issue`.  A mail of
    the converter always has a table (`NewMail`); `msg.Meta.Get` on a nil table is a fault. -/
def diffMail (prevmsg : Option Mail) (msg : Mail) : Option Mail :=
  match prevmsg with
  | none => some msg
  | some pm =>
    match pm.Meta with
    | none => some msg
    | some pt =>
      match msg.Meta with
      | none => if pt.Data.length = 0 then some msg else none
      | some mt => some { msg with Meta := some (diffLoop pt mt) }

/-- What the mailbox and the file system answer during one call of `writeMessage`. -/
structure Store where
  Filename : Str → Except Error Str
  GetChecksum : Str → Except Error Str
  NewDeliveryKey : Str → Option Error
  WriteDelivery : Str → Option Error
  Flags : Str → Except Error Str
  Purge : Str → Option Error
  Close : Option Error

/-- The calls of `writeMessage` that change the mailbox. -/
inductive StoreOp where
  | newDelivery (key : Str)
  | write (text : Str)
  | abort
  | purge (key : Str)
  | close
  deriving DecidableEq

/-- `func getMessageHash(cfg, mdir, key) (string, error)`. -/
def getMessageHash (st : Store) (key : Str) : Except Error Str :=
  match st.Filename key with
  | Except.error (Error.key 0) => Except.ok []
  | Except.error e => Except.error e
  | Except.ok fp => st.GetChecksum fp

/-- `func CloseDelivery(mdir maildir.Dir, key string, d *maildir.Delivery) error`:
    the mailbox calls made and the error returned. -/
def CloseDelivery (st : Store) (key : Str) : List StoreOp × Option Error :=
  match (match st.Flags key with
         | Except.error (Error.key n) => if n ≠ 0 then some (Error.key n) else none
         | _ => none) with
  | some e => ([], some e)
  | none =>
    match (match st.Purge key with
           | some (Error.key n) => if n ≠ 0 then some (Error.key n) else none
           | _ => none) with
    | some e => ([StoreOp.purge key], some e)
    | none => ([StoreOp.purge key, StoreOp.close], st.Close)

/-- Result of `writeMessage`: the mailbox calls made, the seen set and the error. -/
structure WriteResult where
  ops : List StoreOp
  msgids : List Str
  err : Option Error

/-- `func (s *JiraSyncer) writeMessage(mdir maildir.Dir, msg *message.Mail) error`;
    `msgids` is the set `s.msgids`, `width` is `s.config.Mail.JiraTableColumnWidth`;
    `none` is the panic of `HeaderID`. -/
def writeMessage (sha256 : Str → Str) (st : Store) (width : Nat) (msgids : List Str)
    (msg : Mail) : Option WriteResult :=
  match msg.HeaderID with
  | none => none
  | some messageID =>
    match getMessageHash st messageID with
    | Except.error e => some { ops := [], msgids := msgids, err := some e }
    | Except.ok curMessageHash =>
      let newMessageHash := MakeChecksum sha256 msg
      if curMessageHash = newMessageHash then
        some { ops := [], msgids := messageID :: msgids, err := none }
      else
        match st.NewDeliveryKey messageID with
        | some e => some { ops := [], msgids := msgids, err := some e }
        | none =>
          let text := message.Write
            { msg with Header := msg.Header.set XChecksum [newMessageHash] } width
          match st.WriteDelivery text with
          | some e =>
            some { ops := [StoreOp.newDelivery messageID, StoreOp.write text, StoreOp.abort],
                   msgids := msgids, err := some e }
          | none =>
            match CloseDelivery st messageID with
            | (ops, some e) =>
              some { ops := [StoreOp.newDelivery messageID, StoreOp.write text] ++ ops,
                     msgids := msgids, err := some e }
            | (ops, none) =>
              some { ops := [StoreOp.newDelivery messageID, StoreOp.write text] ++ ops,
                     msgids := messageID :: msgids, err := none }

/-- `tagDeleted = "[DELETED]"`. -/
def tagDeleted : Str := "[DELETED]".toList

/-- The policy value `"tag"` of `Remote.Delete`. -/
def policyTag : Str := "tag".toList

/-- The calls `CleanDir` makes for the stored identities. -/
inductive GcOp where
  | filename (key : Str)
  | openFile (key : Str)
  | tag (key : Str)
  | purge (key : Str)
  | clean
  deriving DecidableEq

/-- The loop `for _, msgid := range msgids` of `CleanDir`.  `fails done op` is the error
    (if any) with which the call `op` ends when the calls `done` were made before it;
    the result is the list of calls made and the error returned. -/
def cleanLoop (seen : List Str) (policy : Str) (fails : List GcOp → GcOp → Option Error) :
    List Str → List GcOp → List GcOp × Option Error
  | [], done => (done, none)
  | msgid :: rest, done =>
    if msgid ∈ seen then cleanLoop seen policy fails rest done
    else if policy = policyTag then
      match fails done (GcOp.filename msgid) with
      | some e => (done ++ [GcOp.filename msgid], some e)
      | none =>
        match fails (done ++ [GcOp.filename msgid]) (GcOp.openFile msgid) with
        | some e => (done ++ [GcOp.filename msgid, GcOp.openFile msgid], some e)
        | none =>
          match fails (done ++ [GcOp.filename msgid, GcOp.openFile msgid]) (GcOp.tag msgid) with
          | some e =>
            (done ++ [GcOp.filename msgid, GcOp.openFile msgid, GcOp.tag msgid], some e)
          | none =>
            cleanLoop seen policy fails rest
              (done ++ [GcOp.filename msgid, GcOp.openFile msgid, GcOp.tag msgid])
    else
      match fails done (GcOp.purge msgid) with
      | some e => (done ++ [GcOp.purge msgid], some e)
      | none => cleanLoop seen policy fails rest (done ++ [GcOp.purge msgid])

/-- `func (s *JiraSyncer) CleanDir(mdir maildir.Dir) error`: `keys` is the answer of
    `mdir.Keys()`, `seen` the set `s.msgids`, `policy` is `s.config.Remote[s.remote].Delete`. -/
def CleanDir (keys : Except Error (List Str)) (seen : List Str) (policy : Str)
    (fails : List GcOp → GcOp → Option Error) : List GcOp × Option Error :=
  match keys with
  | Except.error e => ([], some e)
  | Except.ok msgids =>
    match cleanLoop seen policy fails msgids [] with
    | (done, some e) => (done, some e)
    | (done, none) => (done ++ [GcOp.clean], fails done GcOp.clean)

/-- The `Subject` that `tagDeletedMessage` leaves in the record. -/
def tagSubject (subject : Str) : Str :=
  if HasPrefix subject tagDeleted then subject else tagDeleted ++ [' '] ++ subject

end syncer

/-! ## Predicates used in the statements -/

namespace syncer

/-- A table as the converter makes it: every column key of every field is `Current`. -/
def OnlyCurrent (t : meta.Table) : Bool :=
  t.Data.all (fun field =>
    field.Column.keys.all (fun k => decide (k = message.JiraNewColumn)))

/-- The names of the fields of a table, in order. -/
def fieldNames (t : meta.Table) : List Str := t.Data.map (fun field => field.Name)

end syncer

namespace meta

/-- The update of `lenColumns[name]` by one value `v` of the column, on the looked-up
    entry (`none`: no entry yet). -/
def widthStep (w : Nat) (o : Option Nat) (v : Str) : Option Nat :=
  if o.getD 0 < v.length then some (if v.length > w then w else v.length) else o

/-- The entry of a column in `lenColumns` after the first loop of `Write`, from the values
    the fields hold in that column. -/
def widthOfValues (w : Nat) (vals : List Str) : Option Nat := vals.foldl (widthStep w) none

/-- The second loop of `Write` on the entry of the column `name`. -/
def floorName (name : Str) : Option Nat → Option Nat
  | none => none
  | some n => if n = 0 then some n else if n < name.length then some name.length else some n

/-- The width `Write` gives the column `c`: its entry in `lenColumns`, 0 when there is no
    entry (a column of width 0 is not displayed). -/
def shownWidth (t : Table) (c : Str) : Nat := (alookup (lenColumns t) c).getD 0

/-- The columns of `Headers` that `Write` displays, in order. -/
def shownColumns (t : Table) : List Str :=
  t.Headers.filter (fun c => decide (shownWidth t c ≠ 0))

/-- The text of one cell of a row: delimiter and padded value. -/
def cellText (t : Table) (vals : Str → Str) (c : Str) : Str :=
  [' ', Delim, ' '] ++ padRight (shownWidth t c) ((vals c).take t.ColumnWidth)

/-- The text of a row (without prefix and newline) with the name `name` whose cell in
    column `c` shows the first `ColumnWidth` characters of `vals c`. -/
def rowText (t : Table) (name : Str) (vals : Str → Str) : Str :=
  padRight (lenName t.Data) name ++ ((shownColumns t).map (cellText t vals)).flatten

/-- Does some displayed column hold more than `ColumnWidth` characters of `vals`. -/
def overflows (t : Table) (vals : Str → Str) : Bool :=
  (shownColumns t).any (fun c => decide ((vals c).length > t.ColumnWidth))

/-- The rows of one field (without prefix and newline), by repeated cutting: the row of
    the first `ColumnWidth` characters of every value and, while a displayed value is
    longer than that, the rows of what is left, with an empty name. -/
def cutRows (t : Table) : Nat → Str → (Str → Str) → List Str
  | 0, name, vals => [rowText t name vals]
  | fuel + 1, name, vals =>
    rowText t name vals ::
      (if overflows t vals then cutRows t fuel [] (fun c => (vals c).drop t.ColumnWidth)
       else [])

/-- The values that the fields hold in the column `c`, in order. -/
def columnValues (data : List Field) (c : Str) : List Str :=
  data.map (fun field => field.Column.get c)

/-- Two tables that agree on prefix, width, displayed columns, field names and on the
    values of the displayed columns. -/
structure SameShown (t1 t2 : Table) : Prop where
  pfx : t1.pfx = t2.pfx
  width : t1.ColumnWidth = t2.ColumnWidth
  headers : t1.Headers = t2.Headers
  names : t1.Data.map (fun f => f.Name) = t2.Data.map (fun f => f.Name)
  values : ∀ c ∈ t1.Headers, columnValues t1.Data c = columnValues t2.Data c

end meta

/-! ## Example data -/

namespace examples

open meta message

/-- A header map with a subject and a stale checksum. -/
def headerA : MIMEHeader :=
  ((GoMap.empty : MIMEHeader).set "Subject".toList ["[J-1] title".toList]).set XChecksum
    ["sha256:00".toList]

/-- The same header map without checksum. -/
def headerB : MIMEHeader :=
  (GoMap.empty : MIMEHeader).set "Subject".toList ["[J-1] title".toList]

/-- A stored table: narrow, with history columns. -/
def tableA : Table :=
  { pfx := [], ColumnWidth := 3, Headers := [JiraPrevColumn, JiraDiffColumn, JiraNewColumn],
    Data := [⟨"Status".toList,
      ((GoMap.single JiraNewColumn "Open".toList).set JiraPrevColumn "Closed".toList).set
        JiraDiffColumn "!".toList⟩] }

/-- A converted table: only the current value. -/
def tableB : Table := Table.zero.Set "Status".toList JiraNewColumn "Open".toList

/-- A mail around `tableA`. -/
def mailA : Mail := { Header := headerA, Meta := some tableA, Body := ["text".toList] }

/-- A mail around `tableB`. -/
def mailB : Mail := { Header := headerB, Meta := some tableB, Body := ["text".toList] }

end examples

namespace meta

/-- Every piece of `w` characters that `Write` cuts from `v` (at the multiples of `w`)
    is free of white space at both ends. -/
def CutsTrimmed (w : Nat) (v : Str) : Prop :=
  ∀ k, k ≤ v.length → TrimSpace ((v.drop (k * w)).take w) = (v.drop (k * w)).take w

instance (w : Nat) (v : Str) : Decidable (CutsTrimmed w v) := by
  unfold CutsTrimmed
  infer_instance

/-- A text that survives a cell of the table: no delimiter and no newline in it. -/
def CellSafe (s : Str) : Prop := '|' ∉ s ∧ '\n' ∉ s

instance (s : Str) : Decidable (CellSafe s) := by
  unfold CellSafe
  infer_instance

/-- A name that the parser reads back as it is: not empty, no white space at its ends,
    no delimiter and no newline in it. -/
def NameSafe (s : Str) : Prop := s ≠ [] ∧ TrimSpace s = s ∧ CellSafe s

instance (s : Str) : Decidable (NameSafe s) := by
  unfold NameSafe
  infer_instance

/-- The tables whose text the parser can read back: no line prefix, at least one displayed
    column, displayed column names and field names that are safe and pairwise distinct,
    displayed values without delimiter and newline, and nothing but empty values in the
    columns that are not in `Headers`. -/
structure Printable (t : Table) : Prop where
  noPrefix : t.pfx = []
  someColumn : shownColumns t ≠ []
  columnsDistinct : (shownColumns t).Nodup
  columnNames : ∀ c ∈ shownColumns t, NameSafe c
  namesDistinct : (t.Data.map (fun f => f.Name)).Nodup
  fieldNames : ∀ f ∈ t.Data, NameSafe f.Name
  values : ∀ f ∈ t.Data, ∀ c ∈ shownColumns t, CellSafe (f.Column.get c)
  otherColumns : ∀ f ∈ t.Data, ∀ k ∈ f.Column.keys, k ∈ t.Headers ∨ f.Column.get k = []

/-- What the parser makes of a field `f` of a table with the displayed columns `cols`:
    the same name, the same value in the displayed columns and no other value. -/
def ReadBack (cols : List Str) (f pf : Field) : Prop :=
  pf.Name = f.Name ∧ ∀ c, pf.Column.get c = if c ∈ cols then f.Column.get c else []

/-- Parse the text of a table with a fresh parser: `NewParser`, `Scan` on every line of
    `t.String()` in turn, then `Table()`; `none` is a fault or a nil table. -/
def parseBack (t : Table) : Option Table :=
  (scanAll NewParser (splitLines t.String)).bind (fun p => p.Table)

end meta

namespace examples

open meta message

/-- A table with a delimiter inside a value that is shorter than the column width. -/
def tablePipe : Table :=
  { pfx := [], ColumnWidth := 40, Headers := [JiraNewColumn],
    Data := [⟨"Status".toList, GoMap.single JiraNewColumn "a|b".toList⟩] }

/-- A table of width 2 whose value has a blank where it is cut. -/
def tableBlank : Table :=
  { pfx := [], ColumnWidth := 2, Headers := [JiraNewColumn],
    Data := [⟨"F".toList, GoMap.single JiraNewColumn "ab cd".toList⟩] }

/-- A table of width 3 with a value that wraps into three rows. -/
def tableWrap : Table :=
  { pfx := [], ColumnWidth := 3, Headers := [JiraPrevColumn, JiraDiffColumn, JiraNewColumn],
    Data := [⟨"Status".toList, GoMap.single JiraNewColumn "Open now".toList⟩,
             ⟨"Type".toList, (GoMap.single JiraNewColumn "Bug".toList).set JiraDiffColumn
                "!".toList⟩] }

/-- A table whose values fit the column width. -/
def tableFit : Table :=
  { pfx := [], ColumnWidth := 40, Headers := [JiraPrevColumn, JiraDiffColumn, JiraNewColumn],
    Data := [⟨"Status".toList, GoMap.single JiraNewColumn "Open now".toList⟩,
             ⟨"Type".toList, (GoMap.single JiraNewColumn "Bug".toList).set JiraDiffColumn
                "!".toList⟩] }

end examples

namespace message

open meta

/-- The value does not end in a blank (the character `Write` pads cells with). -/
def EndsClean (v : Str) : Prop := v.getLast? ≠ some ' '

instance (v : Str) : Decidable (EndsClean v) := by
  unfold EndsClean
  infer_instance

/-- The table that `MakeChecksum` renders: prefix `# `, width 4096, the one display
    column `Current`, the fields of `t`. -/
def checksumTable (t : Table) : Table :=
  { pfx := ['#', ' '], ColumnWidth := 4096, Headers := [JiraNewColumn], Data := t.Data }

/-- Two mails that are equal except in one place: the `Current` value of one table field
    (neither value ending in a blank), or one body line, or one value of one header other
    than `X-Checksum`. -/
inductive OneChange (m1 m2 : Mail) : Prop where
  | current (t1 t2 : Table) (before after : List Field) (f1 f2 : Field)
      (hm1 : m1.Meta = some t1) (hm2 : m2.Meta = some t2)
      (hd1 : t1.Data = before ++ f1 :: after) (hd2 : t2.Data = before ++ f2 :: after)
      (hname : f1.Name = f2.Name)
      (hne : f1.Column.get JiraNewColumn ≠ f2.Column.get JiraNewColumn)
      (hc1 : EndsClean (f1.Column.get JiraNewColumn))
      (hc2 : EndsClean (f2.Column.get JiraNewColumn))
      (hheader : m1.Header = m2.Header) (hbody : m1.Body = m2.Body) : OneChange m1 m2
  | body (before after : List Str) (l1 l2 : Str)
      (hb1 : m1.Body = before ++ l1 :: after) (hb2 : m2.Body = before ++ l2 :: after)
      (hne : l1 ≠ l2) (hheader : m1.Header = m2.Header) (hmeta : m1.Meta = m2.Meta) :
      OneChange m1 m2
  | header (k : Str) (before after : List Str) (v1 v2 : Str) (hk : k ≠ XChecksum)
      (hv1 : m1.Header.find k = some (before ++ v1 :: after))
      (hv2 : m2.Header.find k = some (before ++ v2 :: after))
      (hne : v1 ≠ v2) (hrest : ∀ k2, k2 ≠ k → m1.Header.find k2 = m2.Header.find k2)
      (hbody : m1.Body = m2.Body) (hmeta : m1.Meta = m2.Meta) : OneChange m1 m2

end message

namespace meta

/-- Two tables that `Write` lays out alike: same name width, same column width, same
    displayed columns of the same widths. -/
def SameLayout (t1 t2 : Table) : Prop :=
  lenName t1.Data = lenName t2.Data ∧ t1.ColumnWidth = t2.ColumnWidth ∧
  shownColumns t1 = shownColumns t2 ∧ ∀ c ∈ shownColumns t1, shownWidth t1 c = shownWidth t2 c

end meta

namespace examples

open meta message

/-- A mail whose field `Status` has the current value `Open`. -/
def mailOpen : Mail :=
  { Header := headerB, Meta := some (Table.zero.Set "Status".toList JiraNewColumn "Open".toList),
    Body := ["text".toList] }

/-- The same mail with a blank after the current value. -/
def mailOpenBlank : Mail :=
  { Header := headerB, Meta := some (Table.zero.Set "Status".toList JiraNewColumn "Open ".toList),
    Body := ["text".toList] }

/-- The same mail with the current value `Closed`. -/
def mailClosed : Mail :=
  { Header := headerB,
    Meta := some (Table.zero.Set "Status".toList JiraNewColumn "Closed".toList),
    Body := ["text".toList] }

end examples

namespace syncer

open meta message

/-- The mail as `writeMessage` hands it to `message.Write`: with the checksum stamp. -/
def stamp (sha256 : Str → Str) (msg : Mail) : Mail :=
  { msg with Header := msg.Header.set XChecksum [MakeChecksum sha256 msg] }

/-- The lines that `bufio.Scanner` finds after the header block of the text that
    `message.Write` wrote for `m` at width `n` (a `\r` that the scanner would drop at the
    end of a line is white space, which `ReadMail` trims anyway). -/
def storedLines (m : Mail) (n : Nat) : List Str :=
  splitLines (getBodyReader (withStorageColumns m n))

/-- `message.ReadMail` on the stored copy of `m`: the header block is read back as it was
    written, the lines after it are the lines of the body text. -/
def readStored (cfg : MailConfig) (m : Mail) : Option (Except Str Mail) :=
  ReadMail cfg m.Header (storedLines m cfg.JiraTableColumnWidth)

/-- The second pass over the record `r` whose first pass found the stored copy `prev0`:
    the mail that the second pass hands to `writeMessage`, and the stored checksum it is
    compared with.  `none`: a fault or a read error on the way. -/
def secondPass (sha256 : Str → Str) (cfg : MailConfig) (prev0 : Option Mail) (r : Mail) :
    Option (Mail × Str) :=
  match diffMail prev0 r with
  | none => none
  | some msg1 =>
    match readStored cfg (stamp sha256 msg1) with
    | some (Except.ok prev1) =>
      match diffMail (some prev1) r with
      | none => none
      | some msg2 => some (msg2, prev1.HeaderChecksum)
    | _ => none

end syncer

namespace examples

open meta message

/-- The default mail settings of `config.Read`. -/
def defaultConfig : MailConfig := { MailQuote := ["> ".toList], JiraTableColumnWidth := 55 }

/-- A converted record with a delimiter in a field name. -/
def mailPipeName : Mail :=
  { Header := (GoMap.empty : MIMEHeader).set "Message-Id".toList ["<a>".toList],
    Meta := some (Table.zero.Set "a|b".toList JiraNewColumn "v".toList),
    Body := ["text".toList] }

/-- The table of a converted record with plain names and values. -/
def tablePlain : Table :=
  (Table.zero.Set "Type".toList JiraNewColumn "Bug".toList).Set
    "Status".toList JiraNewColumn "In Progress".toList

/-- A converted record with plain names and values. -/
def mailPlain : Mail :=
  { Header := (GoMap.empty : MIMEHeader).set "Message-Id".toList ["<a>".toList],
    Meta := some tablePlain,
    Body := ["text".toList] }

/-- The table of an older stored copy of that record: another status, and a field that
    the record has no more. -/
def tableOlder : Table :=
  ((Table.zero.Set "Type".toList JiraNewColumn "Bug".toList).Set
    "Status".toList JiraNewColumn "Open".toList).Set
    "Assignee".toList JiraNewColumn "nobody".toList

/-- An older stored copy of that record, as `ReadMail` returns it. -/
def mailOlder : Mail :=
  { Header := ((GoMap.empty : MIMEHeader).set "Message-Id".toList ["<a>".toList]).set
      XChecksum ["sha256:0".toList],
    Meta := some tableOlder,
    Body := ["text".toList] }

/-- What the first pass makes of the converted record when it finds the older copy. -/
def mailDiffed : Mail :=
  { Header := mailPlain.Header, Meta := some (syncer.diffLoop tableOlder tablePlain),
    Body := mailPlain.Body }

end examples

namespace syncer

open meta message

/-- Does `ReadMail` take the line `text` for the start or the end of the block. -/
def isMarker (text : Str) : Bool :=
  (decide (TrimSpace text = JiraStart) || HasSuffix (TrimSpace text) ([' '] ++ JiraStart)) ||
  (decide (TrimSpace text = JiraEnd) || HasSuffix (TrimSpace text) ([' '] ++ JiraEnd))

/-- The table that `message.Write` renders at width `n`: the three storage columns, the
    width `n` and the line prefix of `getBodyReader`. -/
def storageTable (t : Table) (n : Nat) : Table :=
  ({ t with Headers := [JiraPrevColumn, JiraDiffColumn, JiraNewColumn],
            ColumnWidth := n } : Table).WithPrefix ['#', ' ']

/-- A class of tables whose stored text `ReadMail` reads back with all field names: at
    width `n` at least one storage column is displayed, the field names are safe and
    pairwise distinct, the displayed values hold no newline (they may hold the
    delimiter), and no line of the rendered table is taken for a block marker. -/
def Storable (n : Nat) (t : Table) : Prop :=
  shownColumns (storageTable t n) ≠ [] ∧
  (t.Data.map (fun f => f.Name)).Nodup ∧
  (∀ f ∈ t.Data, NameSafe f.Name) ∧
  (∀ f ∈ t.Data, ∀ c ∈ shownColumns (storageTable t n), '\n' ∉ f.Column.get c) ∧
  (∀ line ∈ (storageTable t n).Write, isMarker line = false)

instance (n : Nat) (t : Table) : Decidable (Storable n t) := by
  unfold Storable
  infer_instance

/-- The field names of a table with the `Current` value of each field, in order. -/
def currentOf (data : List Field) : List (Str × Str) :=
  data.map (fun f => (f.Name, f.Column.get JiraNewColumn))

/-- What a `Set` of another column than `Current` does to the names and `Current`
    values: a name that is not there yet is appended with an empty value. -/
def addName (acc : List (Str × Str)) (name : Str) : List (Str × Str) :=
  if name ∈ acc.map Prod.fst then acc else acc ++ [(name, [])]

end syncer

namespace meta

/-- The lines of the text of a table, without prefix and newline. -/
def tableLines (t : Table) : List Str :=
  [headerLine t, dashes (headerLine t).length]
    ++ (t.Data.map (fun f => cutRows t (fieldFuel t f) f.Name f.Column.get)).flatten
    ++ [dashes (headerLine t).length]

end meta

/-! ## The table with its maps on a heap

`Field.Column` is a Go map, that is a reference: a write through one field is seen by
every field that holds the same map.  The definitions above take a map for its content,
which is right as long as no two fields share a map.  The definitions below keep the maps
on a heap, so that sharing (or its absence) can be stated. -/

namespace meta

/-- A reference to a Go map: its index among the maps allocated so far. -/
abbrev Ref := Nat

/-- The maps allocated so far. -/
structure Heap where
  maps : List ColMap

/-- The map that a reference points to. -/
def Heap.get (h : Heap) (r : Ref) : ColMap := h.maps.getD r GoMap.empty

/-- A write into the map that a reference points to. -/
def Heap.set (h : Heap) (r : Ref) (m : ColMap) : Heap := ⟨h.maps.set r m⟩

/-- A map literal or `make`: the new heap and the reference to the new map. -/
def Heap.alloc (h : Heap) (m : ColMap) : Heap × Ref := (⟨h.maps ++ [m]⟩, h.maps.length)

/-- `type Field struct` with `Column` as a reference. -/
structure RField where
  Name : Str
  Column : Ref

/-- `type Table struct` whose fields hold references. -/
structure RTable where
  pfx : Str
  ColumnWidth : Nat
  Headers : List Str
  Data : List RField

/-- The loops of `Get` over a field list, the maps read from the heap. -/
def rgetLoop (h : Heap) (name colname : Str) : List RField → Str
  | [] => []
  | field :: rest =>
    if field.Name = name then
      match (h.get field.Column).find colname with
      | some v => v
      | none => rgetLoop h name colname rest
    else rgetLoop h name colname rest

/-- `func (t *Table) Get(name, colname string) string` on the heap. -/
def RTable.Get (h : Heap) (t : RTable) (name colname : Str) : Str :=
  rgetLoop h name colname t.Data

/-- `func (t *Table) Append(nfield Field)` on the heap: the heap is only read. -/
def RTable.Append (h : Heap) (t : RTable) (nfield : RField) : RTable :=
  if t.Data.any (fun field => decide (field.Name = nfield.Name)) then t
  else { t with Headers := appendHeaders t.Headers (h.get nfield.Column).keys,
                Data := t.Data ++ [nfield] }

/-- The outer loop of `SetColumns` on the heap: the map of the first field called `name`
    gets the entries of the map `columns`; `none` when no field has that name. -/
def rsetColumnsLoop (h : Heap) (name : Str) (columns : Ref) : List RField → Option Heap
  | [] => none
  | field :: rest =>
    if field.Name ≠ name then rsetColumnsLoop h name columns rest
    else some (h.set field.Column (mergeColumns (h.get field.Column) (h.get columns)))

/-- `func (t *Table) SetColumns(name string, columns map[string]string)` on the heap. -/
def RTable.SetColumns (h : Heap) (t : RTable) (name : Str) (columns : Ref) : Heap × RTable :=
  match rsetColumnsLoop h name columns t.Data with
  | some h2 => (h2, t)
  | none => (h, t.Append h { Name := name, Column := columns })

/-- `func (t *Table) Set(name string, column string, value string)` on the heap: the map
    literal is allocated, then `SetColumns` is called with it. -/
def RTable.Set (h : Heap) (t : RTable) (name column value : Str) : Heap × RTable :=
  t.SetColumns (h.alloc (GoMap.single column value)).1 name
    (h.alloc (GoMap.single column value)).2

/-- The table of contents that a table of references stands for on a heap. -/
def RTable.view (h : Heap) (t : RTable) : Table :=
  { pfx := t.pfx, ColumnWidth := t.ColumnWidth, Headers := t.Headers,
    Data := t.Data.map (fun field => { Name := field.Name, Column := h.get field.Column }) }

end meta

namespace syncer

open meta message

/-- The body of the loop over `prevmsg.Meta.Data` in `JiraSyncer.issue` on the heap: the
    state is the heap and the table `msg.Meta`; `prevmsg.Meta` is only read. -/
def rdiffField (prev : RTable) (s : Heap × RTable) (field : RField) : Heap × RTable :=
  let curv := s.2.Get s.1 field.Name JiraNewColumn
  let prevv := prev.Get s.1 field.Name JiraNewColumn
  let s1 := if curv ≠ prevv then s.2.Set s.1 field.Name JiraDiffColumn ['!'] else s
  s1.2.Set s1.1 field.Name JiraPrevColumn prevv

/-- The loop `for _, field := range prevmsg.Meta.Data` of `JiraSyncer.issue` on the heap. -/
def rdiffLoop (h : Heap) (prev msg : RTable) : Heap × RTable :=
  prev.Data.foldl (rdiffField prev) (h, msg)

/-- The two tables as `JiraSyncer.issue` gets them, one from the converter and one from
    `ReadMail`: every map is allocated, the fields of `msg` hold pairwise different maps,
    and no map of `prev` is a map of `msg`. -/
def Separate (h : Heap) (prev msg : RTable) : Prop :=
  (msg.Data.map (fun f => f.Column)).Nodup ∧
  (∀ f ∈ msg.Data, f.Column < h.maps.length) ∧
  (∀ f ∈ prev.Data, f.Column < h.maps.length) ∧
  (∀ f ∈ prev.Data, ∀ g ∈ msg.Data, f.Column ≠ g.Column)

instance (h : Heap) (prev msg : RTable) : Decidable (Separate h prev msg) := by
  unfold Separate
  infer_instance

end syncer

namespace examples

open meta message

/-- A heap with three maps: the map of the field `Status` of a stored copy, and the maps
    of the fields `Status` and `Labels` of a converted record. -/
def heapDiff : Heap :=
  ⟨[GoMap.single JiraNewColumn "Open".toList, GoMap.single JiraNewColumn "Closed".toList,
    GoMap.single JiraNewColumn "ui".toList]⟩

/-- The table of the stored copy on `heapDiff`. -/
def rtableStored : RTable := ⟨[], 55, [JiraNewColumn], [⟨"Status".toList, 0⟩]⟩

/-- The table of the converted record on `heapDiff`. -/
def rtableFresh : RTable :=
  ⟨[], 0, [JiraNewColumn], [⟨"Status".toList, 1⟩, ⟨"Labels".toList, 2⟩]⟩

end examples

namespace examples

open syncer

/-- A mailbox in which reading the flags and purging both fail with an error that is not
    a key error, and closing the delivery succeeds. -/
def storeDenied : Store :=
  { Filename := fun _ => Except.ok "f".toList,
    GetChecksum := fun _ => Except.ok [],
    NewDeliveryKey := fun _ => none,
    WriteDelivery := fun _ => none,
    Flags := fun _ => Except.error (Error.other "permission denied".toList),
    Purge := fun _ => some (Error.other "permission denied".toList),
    Close := none }

/-- A mailbox in which two stored copies match the key, so that reading the flags fails
    with a key error of two matches. -/
def storeTwoCopies : Store :=
  { Filename := fun _ => Except.error (Error.key 2),
    GetChecksum := fun _ => Except.ok [],
    NewDeliveryKey := fun _ => none,
    WriteDelivery := fun _ => none,
    Flags := fun _ => Except.error (Error.key 2),
    Purge := fun _ => some (Error.key 2),
    Close := none }

end examples

/-! ## The wrapping rule in the words of the specification -/

namespace meta

/-- The quotient `a / w` rounded up. -/
def ceilDiv (a w : Nat) : Nat := (a + w - 1) / w

/-- The characters `[a, b)` of a text. -/
def slice (v : Str) (a b : Nat) : Str := (v.take b).drop a

/-- The number of rows of a field by the wrapping rule: the largest number of pieces of
    `ColumnWidth` characters that a displayed value is cut into, and at least one. -/
def rowCount (t : Table) (f : Field) : Nat :=
  ((shownColumns t).map (fun c => ceilDiv (f.Column.get c).length t.ColumnWidth)).foldl max 1

/-- Row `k` of a field by the wrapping rule (without prefix and newline): the padded
    name, which is empty after the first row, and for every displayed column the
    delimiter and the padded characters `[k*W, min((k+1)*W, len))` of the value. -/
def wrappedRow (t : Table) (f : Field) (k : Nat) : Str :=
  padRight (lenName t.Data) (if k = 0 then f.Name else []) ++
    ((shownColumns t).map (fun c =>
      [' ', Delim, ' '] ++ padRight (shownWidth t c)
        (slice (f.Column.get c) (k * t.ColumnWidth)
          (min ((k + 1) * t.ColumnWidth) (f.Column.get c).length)))).flatten

/-- The rows of a field by the wrapping rule. -/
def wrappedRows (t : Table) (f : Field) : List Str :=
  (List.range (rowCount t f)).map (wrappedRow t f)

end meta

namespace meta

/-- The length of the longest value that a field holds in the column `c` (0 when no field
    holds one). -/
def longestValue (t : Table) (c : Str) : Nat :=
  ((columnValues t.Data c).map List.length).foldl max 0

end meta

namespace meta

/-- What an operation on the table may do to a field when it works on the name `name`:
    keep the name, and keep the whole field when it has another name. -/
def KeptField (name : Str) (f g : Field) : Prop :=
  g.Name = f.Name ∧ (f.Name ≠ name → g = f)

end meta

namespace syncer

open message

/-- `func (s *JiraSyncer) tagDeletedMessage(f *os.File) error` on the mail that `ReadMail`
    returned: the mail that is written back to the file, `none` when the function
    returns before writing because the `Subject` carries the tag already. -/
def tagDeletedMessage (msg : Mail) : Option Mail :=
  let subject := headerGet msg.Header "Subject".toList
  if HasPrefix subject tagDeleted then none
  else some { msg with
              Header := msg.Header.set "Subject".toList [tagDeleted ++ [' '] ++ subject] }

/-- The `Subject` of the record after `tagDeletedMessage`: the one written, or the old one
    when nothing was written. -/
def subjectAfterTag (msg : Mail) : Str :=
  match tagDeletedMessage msg with
  | some written => headerGet written.Header "Subject".toList
  | none => headerGet msg.Header "Subject".toList

end syncer

namespace examples

open meta

/-- The parser after the lines `   | Current` and `------------`. -/
def parserCurrent : Parser :=
  { lines := 2, err := none, closed := false, headers := ["Current".toList],
    table := some { pfx := [], ColumnWidth := ColumnWidth, Headers := ["Current".toList],
                    Data := [] },
    lastfield := none }

end examples

/-- The value of a decimal digit character. -/
def digitValue (c : Char) : Nat := c.toNat - 48

/-- The number that a text of decimal digits denotes. -/
def digitsValue : Str → Nat
  | [] => 0
  | c :: cs => digitValue c * 10 ^ cs.length + digitsValue cs

/-! ## internal/syncer: the board filter of Boards -/

namespace syncer

/-- The part of `config.Remote` that `JiraSyncer.Boards` reads. -/
structure Remote where
  ProjectMatch : Str
  BoardMatch : Str

/-- The variable `re` of `Boards` after
    `if len(ProjectMatch) > 0 { re = regexp.MustCompile(BoardMatch) }`:
    the pattern compiled, `none` for the nil pointer. -/
def boardRegexp (remote : Remote) : Option Str :=
  if remote.ProjectMatch.length > 0 then some remote.BoardMatch else none

/-- The tests at the head of the callback of `Boards` on a board of type `boardType` and
    name `boardName`: does the callback go on to process the board.  The regular
    expressions are the standard library's: `matchString pattern s` stands for
    `regexp.MustCompile(pattern).MatchString(s)`. -/
def boardProcessed (matchString : Str → Str → Bool) (remote : Remote)
    (boardType boardName : Str) : Bool :=
  if boardType ≠ "scrum".toList then false
  else
    match boardRegexp remote with
    | some pattern => if !matchString pattern boardName then false else true
    | none => true

end syncer

namespace examples

open meta message

/-- A stored record with a `Subject`. -/
def mailSubject : Mail :=
  { Header := ((GoMap.empty : MIMEHeader).set "Message-Id".toList ["<a>".toList]).set
      "Subject".toList ["[KEY-1] Broken build".toList],
    Meta := none,
    Body := ["text".toList] }

end examples

/-! ## Strings of one-byte characters

`meta.go` measures values with `len` and cuts them with `v[:w]`, `v[w:]`, which count
bytes, and pads with `%-*s`, which counts runes; lists of characters have one length.
The three agree on strings of ASCII characters, and this is the domain on which the
embedding of `Table.Write` is the code: the theorems that state the widths, the cuts and
the rows of the rendered text, or what is read back from them, assume `AsciiTable`. -/

namespace meta

/-- Every character of `s` is one byte in UTF-8. -/
def Ascii (s : Str) : Prop := ∀ c ∈ s, c.toNat < 128

instance (s : Str) : Decidable (Ascii s) := by
  unfold Ascii
  infer_instance

/-- `len(s)`: the number of bytes of the UTF-8 encoding of `s`. -/
def utf8Len (s : Str) : Nat := (s.map Char.utf8Size).sum

/-- The strings that `Write` measures, cuts and pads are ASCII: the column names of
    `Headers`, the field names and the values of every field. -/
def AsciiTable (t : Table) : Prop :=
  (∀ c ∈ t.Headers, Ascii c) ∧
  ∀ f ∈ t.Data, Ascii f.Name ∧ ∀ e ∈ f.Column.entries, Ascii e.2

instance (t : Table) : Decidable (AsciiTable t) := by
  unfold AsciiTable
  infer_instance

end meta

namespace examples

open syncer message meta

/-- A converted record with the identity `a`. -/
def mailFresh : Mail :=
  { Header := ((GoMap.empty : MIMEHeader).set "Message-Id".toList ["<a>".toList]).set
      "Subject".toList ["[J-1] title".toList],
    Meta := some tableB, Body := ["text".toList] }

/-- A mailbox without a stored copy of any record: looking up a key, its flags or purging
    it fails with a key error of zero matches; deliveries succeed. -/
def storeNoCopy : Store :=
  { Filename := fun _ => Except.error (Error.key 0),
    GetChecksum := fun _ => Except.ok [],
    NewDeliveryKey := fun _ => none,
    WriteDelivery := fun _ => none,
    Flags := fun _ => Except.error (Error.key 0),
    Purge := fun _ => some (Error.key 0),
    Close := none }

/-- A mailbox in which every record has a stored copy with the checksum `sum`. -/
def storeCopy (sum : Str) : Store :=
  { Filename := fun _ => Except.ok "f".toList,
    GetChecksum := fun _ => Except.ok sum,
    NewDeliveryKey := fun _ => none,
    WriteDelivery := fun _ => none,
    Flags := fun _ => Except.ok [],
    Purge := fun _ => none,
    Close := none }

end examples

namespace syncer

open meta message

/-- The field names of the table of a mail, in order; none for a mail without table. -/
def mailNames (m : Mail) : List Str :=
  match m.Meta with
  | none => []
  | some t => fieldNames t

/-- The names for which the diff loop of `JiraSyncer.issue` appends a field to a table
    with the field names `base` when it runs over stored fields with the names `ns`:
    the names of `ns` that the table does not have yet, each once, in order. -/
def addedNames (base : List Str) : List Str → List Str
  | [] => []
  | n :: ns => if n ∈ base then addedNames base ns else n :: addedNames (base ++ [n]) ns

/-- Does `ReadMail` take the line `text` for the start of the block. -/
def isStart (text : Str) : Bool :=
  decide (TrimSpace text = JiraStart) || HasSuffix (TrimSpace text) ([' '] ++ JiraStart)

/-- The lines of the body text that `getBodyReader` puts after the block. -/
def bodyLines (m : Mail) : List Str :=
  splitLines ((m.Body.map (fun s => s ++ ['\n'])).flatten)

/-- The storage columns that `message.Write` displays for a mail at width `n`; none for a
    mail without table. -/
def mailShown (m : Mail) (n : Nat) : List Str :=
  match m.Meta with
  | none => []
  | some t => shownColumns (storageTable t n)

/-- A class of mails from whose stored text `ReadMail` reads no table: at width `n` no
    storage column is displayed (the table is empty, as for a comment record, or holds
    empty values only, or is missing), no field name holds the delimiter, and no line of
    the body is taken for the start of a block. -/
def NothingShown (n : Nat) (m : Mail) : Prop :=
  mailShown m n = [] ∧ (∀ name ∈ mailNames m, '|' ∉ name) ∧
  ∀ l ∈ bodyLines m, isStart l = false

instance (n : Nat) (m : Mail) : Decidable (NothingShown n m) := by
  unfold NothingShown
  infer_instance

/-- The table of the mail, if it has one, is a table of ASCII strings. -/
def AsciiMail (m : Mail) : Prop :=
  match m.Meta with
  | none => True
  | some t => AsciiTable t

instance (m : Mail) : Decidable (AsciiMail m) := by
  unfold AsciiMail
  cases m.Meta <;> infer_instance

end syncer

namespace examples

open meta message

/-- A converted comment record: a mail with an empty table. -/
def mailComment : Mail :=
  { Header := (GoMap.empty : MIMEHeader).set "Message-Id".toList ["<c>".toList],
    Meta := some Table.zero,
    Body := ["a | b".toList, "second line".toList] }

/-- A converted record with a delimiter inside a value. -/
def mailPipeValue : Mail :=
  { Header := (GoMap.empty : MIMEHeader).set "Message-Id".toList ["<a>".toList],
    Meta := some (Table.zero.Set "Summary".toList JiraNewColumn "a | b".toList),
    Body := ["text".toList] }

end examples

namespace examples

open meta message

/-- A converted comment record whose body quotes a block with a table. -/
def mailBodyBlock : Mail :=
  { Header := (GoMap.empty : MIMEHeader).set "Message-Id".toList ["<c>".toList],
    Meta := some Table.zero,
    Body := ["\x7b\x7b\x7b jira".toList, "# Name | Current".toList, "# ----".toList,
      "# F | v".toList, "# ----".toList] }

/-- A converted record whose only field has an empty value. -/
def mailEmptyValue : Mail :=
  { Header := (GoMap.empty : MIMEHeader).set "Message-Id".toList ["<a>".toList],
    Meta := some (Table.zero.Set "A".toList JiraNewColumn []),
    Body := ["text".toList] }

/-- An older stored copy of that record with another field, whose value is empty too. -/
def mailEmptyOlder : Mail :=
  { Header := (GoMap.empty : MIMEHeader).set "Message-Id".toList ["<a>".toList],
    Meta := some (Table.zero.Set "F".toList JiraNewColumn []),
    Body := ["text".toList] }

/-- A converted record with a value of two lines, the second of which reads as a row. -/
def mailNewlineValue : Mail :=
  { Header := (GoMap.empty : MIMEHeader).set "Message-Id".toList ["<a>".toList],
    Meta := some (Table.zero.Set "A".toList JiraNewColumn "x\n# F | v".toList),
    Body := ["text".toList] }

end examples

/-! # Theorems -/

namespace meta

/-! ## Get after Set -/

theorem mergeColumns_single (m : ColMap) (c v : Str) :
    mergeColumns m (GoMap.single c v) = m.set c v := rfl

theorem hasField_cons (f : Field) (rest : List Field) (name : Str) :
    hasField (f :: rest) name = (decide (f.Name = name) || hasField rest name) := rfl

theorem getLoop_of_not_hasField (name colname : Str) (data : List Field)
    (h : hasField data name = false) : getLoop name colname data = [] := by
  induction data with
  | nil => rfl
  | cons f rest ih =>
    rw [hasField_cons, Bool.or_eq_false_iff, decide_eq_false_iff_not] at h
    simp only [getLoop, h.1, if_false]
    exact ih h.2

theorem getLoop_append_new (name colname : Str) (data : List Field) (nf : Field)
    (hnew : hasField data nf.Name = false) :
    getLoop name colname (data ++ [nf]) =
      if nf.Name = name then (nf.Column.find colname).getD []
      else getLoop name colname data := by
  induction data with
  | nil =>
    simp only [List.nil_append, getLoop]
    by_cases h : nf.Name = name
    · simp only [h, if_true]
      cases nf.Column.find colname <;> rfl
    · simp only [h, if_false]
  | cons f rest ih =>
    rw [hasField_cons, Bool.or_eq_false_iff, decide_eq_false_iff_not] at hnew
    have ih2 := ih hnew.2
    simp only [List.cons_append, getLoop, List.append_eq, ih2]
    by_cases h : f.Name = name
    · have h3 : ¬ nf.Name = name := fun h4 => hnew.1 (h.trans h4.symm)
      simp only [h, if_true, h3, if_false]
    · simp only [h, if_false]

theorem setColumnsLoop_none (name : Str) (columns : ColMap) (data : List Field)
    (h : setColumnsLoop name columns data = none) : hasField data name = false := by
  induction data with
  | nil => rfl
  | cons f rest ih =>
    unfold setColumnsLoop at h
    by_cases h1 : f.Name = name
    · simp [h1] at h
    · simp only [ne_eq, h1, not_false_eq_true, if_true, Option.map_eq_none'] at h
      rw [hasField_cons, ih h]
      simp [h1]

theorem getLoop_setColumnsLoop (name c v : Str) (data data2 : List Field)
    (h : setColumnsLoop name (GoMap.single c v) data = some data2) (f2 c2 : Str) :
    getLoop f2 c2 data2 = if name = f2 ∧ c = c2 then v else getLoop f2 c2 data := by
  induction data generalizing data2 with
  | nil => simp [setColumnsLoop] at h
  | cons f rest ih =>
    unfold setColumnsLoop at h
    by_cases h1 : f.Name = name
    · simp only [ne_eq, h1, not_true_eq_false, if_false, Option.some.injEq] at h
      subst h
      simp only [getLoop, mergeColumns_single, GoMap.find_set]
      by_cases h2 : f.Name = f2
      · have h3 : name = f2 := h1.symm.trans h2
        by_cases h4 : c = c2
        · simp [h2, h3, h4]
        · simp [h2, h3, h4]
      · have h3 : ¬ name = f2 := fun h4 => h2 (h1.trans h4)
        simp [h2, h3]
    · simp only [ne_eq, h1, not_false_eq_true, if_true, Option.map_eq_some'] at h
      obtain ⟨r, hr, hd⟩ := h
      subst hd
      have ih2 := ih r hr
      simp only [getLoop, ih2]
      by_cases h2 : f.Name = f2
      · have h3 : ¬ name = f2 := fun h4 => h1 (h2.trans h4.symm)
        simp [h2, h3]
      · simp [h2]

/-- Reading a cell after an assignment: the assigned cell holds the new value, every
    other cell is as before. -/
theorem Get_Set (t : Table) (name c v f2 c2 : Str) :
    (t.Set name c v).Get f2 c2 = if name = f2 ∧ c = c2 then v else t.Get f2 c2 := by
  unfold Table.Set Table.SetColumns
  cases h : setColumnsLoop name (GoMap.single c v) t.Data with
  | some data2 =>
    simp only [Table.Get]
    exact getLoop_setColumnsLoop name c v t.Data data2 h f2 c2
  | none =>
    have hnf := setColumnsLoop_none _ _ _ h
    simp only [Table.Append, hnf, Bool.false_eq_true, if_false, Table.Get]
    rw [getLoop_append_new _ _ _ _ hnf]
    simp only
    by_cases h2 : name = f2
    · subst h2
      simp only [if_true, true_and]
      rw [getLoop_of_not_hasField _ _ _ hnf]
      unfold GoMap.single
      rw [GoMap.find_set]
      by_cases h4 : c = c2
      · simp [h4]
      · simp [h4, GoMap.find, GoMap.empty, alookup]
    · simp [h2]

end meta

namespace syncer

open message meta

/-! ## The diff loop of JiraSyncer.issue -/

theorem Get_diff_of_OnlyCurrent (t : Table) (h : OnlyCurrent t = true) (F : Str) :
    t.Get F JiraDiffColumn = [] := by
  have gen : ∀ data : List Field,
      data.all (fun field =>
        field.Column.keys.all (fun k => decide (k = message.JiraNewColumn))) = true →
      getLoop F JiraDiffColumn data = [] := by
    intro data
    induction data with
    | nil => intro _; rfl
    | cons f rest ih =>
      intro h
      simp only [List.all_cons, Bool.and_eq_true] at h
      have hk : JiraDiffColumn ∉ akeys f.Column.entries := by
        intro hmem
        have h1 := h.1
        simp only [List.all_eq_true, decide_eq_true_eq] at h1
        exact absurd (h1 _ hmem) (by decide)
      have hfind : f.Column.find JiraDiffColumn = none := alookup_none_of_not_mem _ _ hk
      simp only [getLoop, hfind]
      have := ih h.2
      split <;> exact this
  exact gen t.Data h

theorem diffField_Get (P M : Table) (field : Field) (F c : Str) :
    (diffField P M field).Get F c =
      if field.Name = F ∧ c = JiraPrevColumn then P.Get field.Name JiraNewColumn
      else if field.Name = F ∧ c = JiraDiffColumn ∧
              M.Get field.Name JiraNewColumn ≠ P.Get field.Name JiraNewColumn then ['!']
      else M.Get F c := by
  have hpd : ¬ JiraPrevColumn = JiraDiffColumn := by decide
  have hdp : ¬ JiraDiffColumn = JiraPrevColumn := by decide
  unfold diffField
  simp only [Get_Set]
  by_cases h1 : field.Name = F
  · subst h1
    by_cases h2 : c = JiraPrevColumn
    · subst h2
      simp
    · have h2b : ¬ JiraPrevColumn = c := fun h => h2 h.symm
      by_cases h3 : c = JiraDiffColumn
      · subst h3
        by_cases h4 : M.Get field.Name JiraNewColumn = P.Get field.Name JiraNewColumn
        · simp [hpd, hdp, h4]
        · simp [hpd, hdp, h4, Get_Set]
      · have h3b : ¬ JiraDiffColumn = c := fun h => h3 h.symm
        by_cases h4 : M.Get field.Name JiraNewColumn = P.Get field.Name JiraNewColumn
        · simp [h2, h2b, h3, h4]
        · simp [h2, h2b, h3, h3b, h4, Get_Set]
  · by_cases h4 : M.Get field.Name JiraNewColumn = P.Get field.Name JiraNewColumn
    · simp [h1, h4]
    · simp [h1, h4, Get_Set]

theorem diffLoop_Current (P : Table) (fs : List Field) (M : Table) (F : Str) :
    (fs.foldl (diffField P) M).Get F JiraNewColumn = M.Get F JiraNewColumn := by
  induction fs generalizing M with
  | nil => rfl
  | cons f fs ih =>
    rw [List.foldl_cons, ih, diffField_Get]
    have h1 : ¬ JiraNewColumn = JiraPrevColumn := by decide
    have h2 : ¬ JiraNewColumn = JiraDiffColumn := by decide
    simp [h1, h2]

theorem diffLoop_Previous (P : Table) (fs : List Field) (M : Table) (F : Str)
    (hF : F ∈ fs.map (fun field => field.Name)) :
    (fs.foldl (diffField P) M).Get F JiraPrevColumn = P.Get F JiraNewColumn := by
  induction fs generalizing M with
  | nil => simp at hF
  | cons f fs ih =>
    rw [List.foldl_cons]
    by_cases hmem : F ∈ fs.map (fun field => field.Name)
    · exact ih _ hmem
    · have hf : f.Name = F := by
        simp only [List.map_cons, List.mem_cons] at hF
        rcases hF with h | h
        · exact h.symm
        · exact absurd h hmem
      have keep : ∀ (gs : List Field) (M2 : Table),
          F ∉ gs.map (fun field => field.Name) →
          (gs.foldl (diffField P) M2).Get F JiraPrevColumn = M2.Get F JiraPrevColumn := by
        intro gs
        induction gs with
        | nil => intro M2 _; rfl
        | cons g gs ihg =>
          intro M2 hg
          simp only [List.map_cons, List.mem_cons, not_or] at hg
          rw [List.foldl_cons, ihg _ hg.2, diffField_Get]
          have : ¬ g.Name = F := fun h => hg.1 h.symm
          simp [this]
      rw [keep fs _ hmem, diffField_Get]
      simp [hf]

theorem diffLoop_Diff (P : Table) (fs : List Field) (M : Table) (F : Str) :
    (fs.foldl (diffField P) M).Get F JiraDiffColumn =
      if F ∈ fs.map (fun field => field.Name) ∧
          M.Get F JiraNewColumn ≠ P.Get F JiraNewColumn then ['!']
      else M.Get F JiraDiffColumn := by
  induction fs generalizing M with
  | nil => simp
  | cons f fs ih =>
    rw [List.foldl_cons, ih, diffField_Get, diffField_Get]
    have h1 : ¬ JiraNewColumn = JiraPrevColumn := by decide
    have h2 : ¬ JiraNewColumn = JiraDiffColumn := by decide
    have h3 : ¬ JiraDiffColumn = JiraPrevColumn := by decide
    simp only [h1, h2, h3, and_false, false_and, if_false, List.map_cons, List.mem_cons, ne_eq]
    by_cases hf : f.Name = F
    · subst hf
      by_cases hne : M.Get f.Name JiraNewColumn = P.Get f.Name JiraNewColumn
      · simp [hne]
      · simp [hne]
    · have hf2 : ¬ F = f.Name := fun h => hf h.symm
      simp [hf, hf2]

/-- C5. Diff correctness: after the diff loop of `JiraSyncer.issue` on a previously stored
    table `P` and a freshly converted table `N` (only `Current` values), every field `F` of
    `P` has `x` equal to `!` exactly when the `Current` value of `P` differs from the one
    `N` had, and has `Previous` equal to the `Current` value of `P`. -/
theorem diff_correct (P N : Table) (hN : OnlyCurrent N = true) (F : Str)
    (hF : F ∈ fieldNames P) :
    ((diffLoop P N).Get F JiraDiffColumn = ['!'] ↔
        P.Get F JiraNewColumn ≠ N.Get F JiraNewColumn) ∧
    (diffLoop P N).Get F JiraPrevColumn = P.Get F JiraNewColumn := by
  unfold fieldNames at hF
  refine ⟨?_, diffLoop_Previous P P.Data N F hF⟩
  unfold diffLoop
  rw [diffLoop_Diff, Get_diff_of_OnlyCurrent N hN]
  by_cases hne : N.Get F JiraNewColumn = P.Get F JiraNewColumn
  · simp [hne]
  · have hne2 : ¬ P.Get F JiraNewColumn = N.Get F JiraNewColumn := fun h => hne h.symm
    simp [hF, hne, hne2]

end syncer

namespace meta

/-! ## Set and the column list -/

theorem Set_existing_Headers (t : Table) (name c v : Str) (h : hasField t.Data name = true) :
    (t.Set name c v).Headers = t.Headers := by
  unfold Table.Set Table.SetColumns
  cases hl : setColumnsLoop name (GoMap.single c v) t.Data with
  | some data2 => rfl
  | none =>
    have := setColumnsLoop_none _ _ _ hl
    rw [this] at h
    cases h

/-- C9 (the code at the failing input). `Set` on a field that exists already stores the
    value but leaves `Headers` as it was: after `Set("Status", "Current", "Open")` and
    `Set("Status", "x", "!")` on an empty table the column `x` holds `!` and is not in
    `Headers`, which is `["Current"]`. -/
theorem Set_existing_field_column_not_in_Headers :
    ((Table.zero.Set "Status".toList "Current".toList "Open".toList).Set
        "Status".toList "x".toList "!".toList).Headers = ["Current".toList] ∧
    "x".toList ∉ ((Table.zero.Set "Status".toList "Current".toList "Open".toList).Set
        "Status".toList "x".toList "!".toList).Headers ∧
    ((Table.zero.Set "Status".toList "Current".toList "Open".toList).Set
        "Status".toList "x".toList "!".toList).Get "Status".toList "x".toList = "!".toList := by
  decide

/-! ## Format errors of the parser -/

/-- C10 (the code at the failing input). A second line that is not a separator makes
    `Scan` set the error and close the parser, and yet return `true`. -/
theorem Scan_bad_separator_returns_true :
    ((NewParser.Scan "Name | Current".toList).bind (fun r => r.1.Scan "Status | Open".toList)).map
      (fun r => (r.2, r.1.closed, r.1.Error)) =
    some (true, true, some "Unexpected header (line=2)".toList) := by
  rfl

theorem Scan_closed (p : Parser) (h : p.closed = true) (s : Str) : p.Scan s = some (p, false) := by
  unfold Parser.Scan
  simp [h]

end meta

namespace syncer

open message meta

/-- C5 (witness). Stored `Status = Open`, converted `Status = Closed`. -/
theorem diff_correct_witness :
    OnlyCurrent (Table.zero.Set "Status".toList JiraNewColumn "Closed".toList) = true ∧
    "Status".toList ∈ fieldNames (Table.zero.Set "Status".toList JiraNewColumn "Open".toList) ∧
    (((diffLoop (Table.zero.Set "Status".toList JiraNewColumn "Open".toList)
          (Table.zero.Set "Status".toList JiraNewColumn "Closed".toList)).Get
          "Status".toList JiraDiffColumn = ['!'] ↔
        (Table.zero.Set "Status".toList JiraNewColumn "Open".toList).Get
          "Status".toList JiraNewColumn ≠
        (Table.zero.Set "Status".toList JiraNewColumn "Closed".toList).Get
          "Status".toList JiraNewColumn) ∧
     (diffLoop (Table.zero.Set "Status".toList JiraNewColumn "Open".toList)
          (Table.zero.Set "Status".toList JiraNewColumn "Closed".toList)).Get
          "Status".toList JiraPrevColumn =
        (Table.zero.Set "Status".toList JiraNewColumn "Open".toList).Get
          "Status".toList JiraNewColumn) :=
  ⟨by decide, by decide,
   diff_correct (Table.zero.Set "Status".toList JiraNewColumn "Open".toList)
     (Table.zero.Set "Status".toList JiraNewColumn "Closed".toList) (by decide)
     "Status".toList (by decide)⟩

/-! ## Garbage collection -/

/-- The calls `CleanDir` makes for one unseen identity when nothing fails. -/
theorem cleanLoop_ok (seen : List Str) (policy : Str) (fails : List GcOp → GcOp → Option Error)
    (hok : ∀ done op, fails done op = none) (keys : List Str) (done : List GcOp) :
    cleanLoop seen policy fails keys done =
      (done ++ ((keys.filter (fun k => decide (k ∉ seen))).map (fun k =>
          if policy = policyTag then [GcOp.filename k, GcOp.openFile k, GcOp.tag k]
          else [GcOp.purge k])).flatten, none) := by
  induction keys generalizing done with
  | nil => simp [cleanLoop]
  | cons k rest ih =>
    unfold cleanLoop
    by_cases hs : k ∈ seen
    · simp only [hs, if_true, ih, List.filter_cons, not_true_eq_false, decide_False]
      rfl
    · by_cases hp : policy = policyTag
      · simp only [hs, if_false, hp, if_true, hok]
        rw [← hp, ih]
        simp [hs, hp]
      · simp only [hs, if_false, hp, hok]
        rw [ih]
        simp [hs, hp]

/-- C7. Garbage collection acts exactly on the unseen identities: when no storage call
    fails, `CleanDir` returns no error, tags (policy `tag`) or purges (any other policy)
    every stored identity that is not in the seen set, and tags or purges nothing else;
    in particular no identity of the seen set. -/
theorem CleanDir_acts_on_unseen (K seen : List Str) (policy : Str)
    (fails : List GcOp → GcOp → Option Error) (hok : ∀ done op, fails done op = none) :
    (CleanDir (Except.ok K) seen policy fails).2 = none ∧
    (∀ k ∈ K, k ∉ seen →
      (if policy = policyTag then GcOp.tag k else GcOp.purge k) ∈
        (CleanDir (Except.ok K) seen policy fails).1) ∧
    (∀ k, GcOp.tag k ∈ (CleanDir (Except.ok K) seen policy fails).1 ∨
          GcOp.purge k ∈ (CleanDir (Except.ok K) seen policy fails).1 → k ∈ K ∧ k ∉ seen) ∧
    (∀ k ∈ seen, GcOp.tag k ∉ (CleanDir (Except.ok K) seen policy fails).1 ∧
          GcOp.purge k ∉ (CleanDir (Except.ok K) seen policy fails).1) := by
  have hrun : CleanDir (Except.ok K) seen policy fails =
      (((K.filter (fun k => decide (k ∉ seen))).map (fun k =>
          if policy = policyTag then [GcOp.filename k, GcOp.openFile k, GcOp.tag k]
          else [GcOp.purge k])).flatten ++ [GcOp.clean], none) := by
    unfold CleanDir
    simp only [cleanLoop_ok seen policy fails hok K [], List.nil_append, hok]
  have hacts : ∀ k, GcOp.tag k ∈ (CleanDir (Except.ok K) seen policy fails).1 ∨
      GcOp.purge k ∈ (CleanDir (Except.ok K) seen policy fails).1 → k ∈ K ∧ k ∉ seen := by
    intro k hk
    rw [hrun] at hk
    simp only [List.mem_append, List.mem_flatten, List.mem_map, List.mem_filter,
      decide_eq_true_eq, List.mem_singleton] at hk
    rcases hk with (⟨l, ⟨a, ha, hl⟩, hin⟩ | h) | (⟨l, ⟨a, ha, hl⟩, hin⟩ | h)
    · subst hl
      split at hin
      · simp at hin
        rw [hin]; exact ha
      · simp at hin
    · cases h
    · subst hl
      split at hin
      · simp at hin
      · simp at hin
        rw [hin]; exact ha
    · cases h
  refine ⟨by rw [hrun], ?_, hacts, ?_⟩
  · intro k hk hns
    rw [hrun]
    simp only [List.mem_append, List.mem_flatten, List.mem_map, List.mem_filter,
      decide_eq_true_eq]
    left
    refine ⟨_, ⟨k, ⟨hk, hns⟩, rfl⟩, ?_⟩
    by_cases hp : policy = policyTag
    · simp [hp]
    · simp [hp]
  · intro k hk
    constructor
    · intro h
      exact (hacts k (Or.inl h)).2 hk
    · intro h
      exact (hacts k (Or.inr h)).2 hk

/-- C7 (witness). Three stored identities, one of them seen, policy `tag`. -/
theorem CleanDir_acts_on_unseen_witness :
    (∀ (done : List GcOp) (op : GcOp), (fun _ _ => (none : Option Error)) done op = none) ∧
    (CleanDir (Except.ok ["a".toList, "b".toList, "c".toList]) ["b".toList] policyTag
        (fun _ _ => none)).1 =
      [GcOp.filename "a".toList, GcOp.openFile "a".toList, GcOp.tag "a".toList,
       GcOp.filename "c".toList, GcOp.openFile "c".toList, GcOp.tag "c".toList, GcOp.clean] ∧
    (CleanDir (Except.ok ["a".toList, "b".toList, "c".toList]) ["b".toList] policyTag
        (fun _ _ => none)).2 = none :=
  ⟨fun _ _ => rfl, by decide,
   (CleanDir_acts_on_unseen ["a".toList, "b".toList, "c".toList] ["b".toList] policyTag
      (fun _ _ => none) (fun _ _ => rfl)).1⟩

end syncer

namespace syncer

open message meta

/-! ## The checksum gate of writeMessage -/

theorem MakeChecksum_ne_nil (sha256 : Str → Str) (msg : Mail) : [] ≠ MakeChecksum sha256 msg := by
  unfold MakeChecksum
  intro h
  have := congrArg List.length h
  simp at this

/-- What a result of `writeMessage` tells: once the stored checksum `cur` was read and the
    mailbox grants a delivery, a delivery was created exactly when `cur` differs from the
    new checksum, and it was never created otherwise; an absent stored copy reads as the
    empty checksum; and a return without error has the identity in the seen set. -/
theorem writeMessage_of_result (sha256 : Str → Str) (st : Store) (width : Nat) (msgids : List Str)
    (msg : Mail) (id : Str) (r : WriteResult) (hid : msg.HeaderID = some id)
    (hr : writeMessage sha256 st width msgids msg = some r) :
    (∀ cur, getMessageHash st id = Except.ok cur → st.NewDeliveryKey id = none →
      (StoreOp.newDelivery id ∈ r.ops ↔ cur ≠ MakeChecksum sha256 msg)) ∧
    (StoreOp.newDelivery id ∈ r.ops →
      ∃ cur, getMessageHash st id = Except.ok cur ∧ cur ≠ MakeChecksum sha256 msg) ∧
    (st.Filename id = Except.error (Error.key 0) →
      getMessageHash st id = Except.ok [] ∧ [] ≠ MakeChecksum sha256 msg) ∧
    (r.err = none → id ∈ r.msgids) := by
  unfold writeMessage at hr
  simp only [hid] at hr
  refine ⟨?_, ?_, ?_, ?_⟩
  · intro cur hcur hnew
    simp only [hcur, hnew] at hr
    by_cases heq : cur = MakeChecksum sha256 msg
    · simp only [heq, if_true, Option.some.injEq] at hr
      subst hr
      simp [heq]
    · simp only [heq, if_false] at hr
      split at hr
      · simp only [Option.some.injEq] at hr
        subst hr
        simp [heq]
      · split at hr
        · simp only [Option.some.injEq] at hr
          subst hr
          simp [heq]
        · simp only [Option.some.injEq] at hr
          subst hr
          simp [heq]
  · intro hmem
    cases hcur : getMessageHash st id with
    | error e =>
      simp only [hcur, Option.some.injEq] at hr
      subst hr
      simp at hmem
    | ok cur =>
      refine ⟨cur, rfl, ?_⟩
      intro heq
      simp only [hcur, heq, if_true, Option.some.injEq] at hr
      subst hr
      simp at hmem
  · intro hf
    refine ⟨?_, MakeChecksum_ne_nil sha256 msg⟩
    unfold getMessageHash
    rw [hf]
  · intro herr
    cases hcur : getMessageHash st id with
    | error e =>
      simp only [hcur, Option.some.injEq] at hr
      subst hr
      simp at herr
    | ok cur =>
      simp only [hcur] at hr
      split at hr
      · simp only [Option.some.injEq] at hr
        subst hr
        simp
      · split at hr
        · simp only [Option.some.injEq] at hr
          subst hr
          simp at herr
        · split at hr
          · simp only [Option.some.injEq] at hr
            subst hr
            simp at herr
          · split at hr
            · simp only [Option.some.injEq] at hr
              subst hr
              simp at herr
            · simp only [Option.some.injEq] at hr
              subst hr
              simp

end syncer

namespace syncer

open message meta examples

/-- A record with an identity always gets a result from `writeMessage`. -/
theorem writeMessage_isSome (sha256 : Str → Str) (st : Store) (width : Nat)
    (msgids : List Str) (msg : Mail) (id : Str) (hid : msg.HeaderID = some id) :
    ∃ r, writeMessage sha256 st width msgids msg = some r := by
  unfold writeMessage
  simp only [hid]
  cases getMessageHash st id with
  | error e => exact ⟨_, rfl⟩
  | ok cur =>
    simp only []
    split
    · exact ⟨_, rfl⟩
    · cases st.NewDeliveryKey id with
      | some e => exact ⟨_, rfl⟩
      | none =>
        simp only []
        cases st.WriteDelivery _ with
        | some e => exact ⟨_, rfl⟩
        | none =>
          simp only []
          rcases CloseDelivery st id with ⟨ops, _ | e⟩
          · exact ⟨_, rfl⟩
          · exact ⟨_, rfl⟩

/-- Equal checksums: `writeMessage` makes no mailbox call and adds the identity to the
    seen set. -/
theorem writeMessage_skip (sha256 : Str → Str) (st : Store) (width : Nat)
    (msgids : List Str) (msg : Mail) (id : Str) (hid : msg.HeaderID = some id)
    (hcur : getMessageHash st id = Except.ok (MakeChecksum sha256 msg)) :
    writeMessage sha256 st width msgids msg = some ⟨[], id :: msgids, none⟩ := by
  unfold writeMessage
  simp only [hid, hcur, if_true]

/-- Different checksums and a granted delivery: the first two mailbox calls of
    `writeMessage` create the delivery and write the record with the new checksum. -/
theorem writeMessage_writes (sha256 : Str → Str) (st : Store) (width : Nat)
    (msgids : List Str) (msg : Mail) (id cur : Str) (r : WriteResult)
    (hid : msg.HeaderID = some id) (hcur : getMessageHash st id = Except.ok cur)
    (hne : cur ≠ MakeChecksum sha256 msg) (hnew : st.NewDeliveryKey id = none)
    (hr : writeMessage sha256 st width msgids msg = some r) :
    ∃ rest, r.ops = StoreOp.newDelivery id :: StoreOp.write (message.Write
      { msg with Header := msg.Header.set XChecksum [MakeChecksum sha256 msg] } width)
        :: rest := by
  unfold writeMessage at hr
  simp only [hid, hcur, hne, if_false, hnew] at hr
  split at hr
  · simp only [Option.some.injEq] at hr
    subst hr
    exact ⟨_, rfl⟩
  · split at hr
    · simp only [Option.some.injEq] at hr
      subst hr
      exact ⟨_, rfl⟩
    · simp only [Option.some.injEq] at hr
      subst hr
      exact ⟨_, rfl⟩

/-- A return without error: the seen set is the old one with the identity added. -/
theorem writeMessage_seen (sha256 : Str → Str) (st : Store) (width : Nat)
    (msgids : List Str) (msg : Mail) (id : Str) (r : WriteResult)
    (hid : msg.HeaderID = some id)
    (hr : writeMessage sha256 st width msgids msg = some r) (herr : r.err = none) :
    r.msgids = id :: msgids := by
  unfold writeMessage at hr
  simp only [hid] at hr
  cases hcur : getMessageHash st id with
  | error e =>
    simp only [hcur, Option.some.injEq] at hr
    subst hr
    simp at herr
  | ok cur =>
    simp only [hcur] at hr
    split at hr
    · simp only [Option.some.injEq] at hr
      subst hr
      rfl
    · split at hr
      · simp only [Option.some.injEq] at hr
        subst hr
        simp at herr
      · split at hr
        · simp only [Option.some.injEq] at hr
          subst hr
          simp at herr
        · split at hr
          · simp only [Option.some.injEq] at hr
            subst hr
            simp at herr
          · simp only [Option.some.injEq] at hr
            subst hr
            rfl

/-- C8. The checksum gate of `writeMessage`: for every record with an identity `id`,
    `writeMessage` returns a result `r`, and for this result: once the stored checksum
    `cur` was read and the mailbox grants a delivery, a delivery is created exactly when
    `cur` differs from the new checksum; a delivery is created only if a stored checksum
    was read that differs from the new one; if the two are equal no mailbox call is made
    and the result is the seen set with `id` added and no error; if they differ and the
    mailbox grants the delivery, the first calls create the delivery for `id` and write
    the record stamped with the new checksum; an absent stored copy (key error with zero
    matches) reads as the empty checksum, which differs from every new checksum; and on
    every return without error, written or skipped, the seen set is the old one with
    `id` added. -/
theorem writeMessage_gate (sha256 : Str → Str) (st : Store) (width : Nat) (msgids : List Str)
    (msg : Mail) (id : Str) (hid : msg.HeaderID = some id) :
    ∃ r, writeMessage sha256 st width msgids msg = some r ∧
      (∀ cur, getMessageHash st id = Except.ok cur → st.NewDeliveryKey id = none →
        (StoreOp.newDelivery id ∈ r.ops ↔ cur ≠ MakeChecksum sha256 msg)) ∧
      (StoreOp.newDelivery id ∈ r.ops →
        ∃ cur, getMessageHash st id = Except.ok cur ∧ cur ≠ MakeChecksum sha256 msg) ∧
      (getMessageHash st id = Except.ok (MakeChecksum sha256 msg) →
        r = ⟨[], id :: msgids, none⟩) ∧
      (∀ cur, getMessageHash st id = Except.ok cur → cur ≠ MakeChecksum sha256 msg →
        st.NewDeliveryKey id = none →
        ∃ rest, r.ops = StoreOp.newDelivery id :: StoreOp.write (message.Write
          { msg with Header := msg.Header.set XChecksum [MakeChecksum sha256 msg] } width)
            :: rest) ∧
      (st.Filename id = Except.error (Error.key 0) →
        getMessageHash st id = Except.ok [] ∧ [] ≠ MakeChecksum sha256 msg) ∧
      (r.err = none → r.msgids = id :: msgids ∧ id ∈ r.msgids) := by
  obtain ⟨r, hr⟩ := writeMessage_isSome sha256 st width msgids msg id hid
  obtain ⟨h1, h2, h3, h4⟩ := writeMessage_of_result sha256 st width msgids msg id r hid hr
  refine ⟨r, hr, h1, h2, ?_, ?_, h3, fun herr => ⟨?_, h4 herr⟩⟩
  · intro hcur
    have := writeMessage_skip sha256 st width msgids msg id hid hcur
    rw [hr] at this
    exact Option.some.inj this
  · intro cur hcur hne hnew
    exact writeMessage_writes sha256 st width msgids msg id cur r hid hcur hne hnew hr
  · exact writeMessage_seen sha256 st width msgids msg id r hid hr herr

set_option maxRecDepth 100000 in
/-- C8 (witness). The record `<a>` on the two paths.  In a mailbox without a stored copy
    the delivery is created, the stamped record is written, the delivery is closed and `a`
    is in the seen set; in a mailbox whose stored copy carries the checksum that is
    computed again no mailbox call is made and `a` is in the seen set. -/
theorem writeMessage_gate_witness :
    mailFresh.HeaderID = some "a".toList ∧
    writeMessage (fun _ => "ab".toList) storeNoCopy 40 [] mailFresh =
      some ⟨[StoreOp.newDelivery "a".toList,
        StoreOp.write ("Message-Id: <a>\nSubject: [J-1] title\nX-Checksum: sha256:ab\n\n" ++
          "\x7b\x7b\x7b jira\n# This block will be automatically deleted from the text.\n" ++
          "#\n# Name   | Current\n# ----------------\n# Status | Open   \n" ++
          "# ----------------\n#\n\x7d\x7d\x7d\n\ntext\n").toList,
        StoreOp.purge "a".toList, StoreOp.close], ["a".toList], none⟩ ∧
    writeMessage (fun _ => "ab".toList) (storeCopy "sha256:ab".toList) 40 [] mailFresh =
      some ⟨[], ["a".toList], none⟩ ∧
    ∃ r, writeMessage (fun _ => "ab".toList) storeNoCopy 40 [] mailFresh = some r ∧
      StoreOp.newDelivery "a".toList ∈ r.ops :=
  ⟨by decide, by rfl, by rfl,
   (writeMessage_gate (fun _ => "ab".toList) storeNoCopy 40 [] mailFresh "a".toList
      (by decide)).elim (fun r h => ⟨r, h.1,
        (h.2.1 [] (by rfl) (by rfl)).2 (MakeChecksum_ne_nil _ _)⟩)⟩

end syncer

namespace meta

/-! ## What the rendering of a table depends on -/

theorem alookup_lenColumnsEntry (w : Nat) (lc : List (Str × Nat)) (k v c : Str) :
    alookup (lenColumnsEntry w lc (k, v)) c =
      if k = c then widthStep w (alookup lc c) v else alookup lc c := by
  unfold lenColumnsEntry widthStep
  by_cases hk : k = c
  · subst hk
    simp only [if_true]
    split
    · split <;> simp [alookup_aset]
    · rfl
  · simp only [hk, if_false]
    split
    · split <;> simp [alookup_aset, hk]
    · rfl

theorem widthStep_nil (w : Nat) (o : Option Nat) : widthStep w o [] = o := by
  simp [widthStep]

theorem alookup_foldl_lenColumnsEntry (w : Nat) (es : List (Str × Str))
    (hes : (akeys es).Nodup) (lc : List (Str × Nat)) (c : Str) :
    alookup (es.foldl (lenColumnsEntry w) lc) c =
      widthStep w (alookup lc c) ((alookup es c).getD []) := by
  induction es generalizing lc with
  | nil => simp [alookup, widthStep_nil]
  | cons e es ih =>
    obtain ⟨k, v⟩ := e
    simp only [akeys, List.map_cons, List.nodup_cons] at hes
    rw [List.foldl_cons, ih hes.2, alookup_lenColumnsEntry]
    by_cases hk : k = c
    · subst hk
      have : alookup es k = none := alookup_none_of_not_mem es k hes.1
      simp [alookup, this, widthStep_nil]
    · simp [alookup, hk]

theorem alookup_lenColumnsData_gen (w : Nat) (data : List Field) (lc : List (Str × Nat))
    (c : Str) :
    alookup (data.foldl (fun lc field =>
      field.Column.entries.foldl (lenColumnsEntry w) lc) lc) c =
      (columnValues data c).foldl (widthStep w) (alookup lc c) := by
  induction data generalizing lc with
  | nil => rfl
  | cons f rest ih =>
    rw [List.foldl_cons, ih, alookup_foldl_lenColumnsEntry w _ f.Column.nodup]
    rfl

theorem alookup_lenColumnsData (w : Nat) (data : List Field) (c : Str) :
    alookup (lenColumnsData w data) c = widthOfValues w (columnValues data c) :=
  alookup_lenColumnsData_gen w data [] c

theorem floorName_idem (name : Str) (o : Option Nat) :
    floorName name (floorName name o) = floorName name o := by
  cases o with
  | none => rfl
  | some n =>
    unfold floorName
    by_cases h0 : n = 0
    · simp [h0]
    · by_cases h1 : n < name.length
      · have h2 : name.length ≠ 0 := by omega
        simp [h0, h1, h2]
      · simp [h0, h1]

theorem alookup_lenColumnsFloor (hs : List Str) (lc : List (Str × Nat)) (c : Str) :
    alookup (lenColumnsFloor hs lc) c =
      if c ∈ hs then floorName c (alookup lc c) else alookup lc c := by
  unfold lenColumnsFloor
  induction hs generalizing lc with
  | nil => simp
  | cons name hs ih =>
    rw [List.foldl_cons, ih]
    have hstep : alookup (match alookup lc name with
        | none => lc
        | some n => if n = 0 then lc else if n < name.length then aset lc name name.length
                    else lc) c = if name = c then floorName c (alookup lc c) else alookup lc c := by
      by_cases hn : name = c
      · subst hn
        simp only [if_true]
        cases hl : alookup lc name with
        | none => simp [floorName, hl]
        | some n =>
          simp only [floorName]
          by_cases h0 : n = 0
          · simp [h0, hl]
          · by_cases h1 : n < name.length
            · simp [h0, h1, alookup_aset]
            · simp [h0, h1, hl]
      · simp only [hn, if_false]
        split
        · rfl
        · split
          · rfl
          · split
            · simp [alookup_aset, hn]
            · rfl
    rw [hstep]
    by_cases hn : name = c
    · subst hn
      simp [floorName_idem]
    · have hn2 : ¬ c = name := fun h => hn h.symm
      simp [hn, hn2]

/-- The entry of a displayed column in `lenColumns`: a function of the values the fields
    hold in that column. -/
theorem alookup_lenColumns (t : Table) (c : Str) (hc : c ∈ t.Headers) :
    alookup (lenColumns t) c =
      floorName c (widthOfValues t.ColumnWidth (columnValues t.Data c)) := by
  unfold lenColumns
  rw [alookup_lenColumnsFloor, alookup_lenColumnsData]
  simp [hc]

end meta

namespace meta

theorem foldl_congr_mem {α β : Type} (g1 g2 : β → α → β) (l : List α) (b : β)
    (h : ∀ acc, ∀ x ∈ l, g1 acc x = g2 acc x) : l.foldl g1 b = l.foldl g2 b := by
  induction l generalizing b with
  | nil => rfl
  | cons x l ih =>
    rw [List.foldl_cons, List.foldl_cons, h b x (List.mem_cons_self _ _)]
    exact ih _ (fun acc y hy => h acc y (List.mem_cons_of_mem _ hy))

theorem lenName_eq_of_names (d1 d2 : List Field)
    (h : d1.map (fun f => f.Name) = d2.map (fun f => f.Name)) : lenName d1 = lenName d2 := by
  have key : ∀ d : List Field, lenName d =
      (d.map (fun f => f.Name)).foldl (fun n (s : Str) => if n < s.length then s.length else n)
        0 := by
    intro d
    unfold lenName
    rw [List.foldl_map]
  rw [key, key, h]

theorem SameShown.lenColumns {t1 t2 : Table} (h : SameShown t1 t2) (c : Str)
    (hc : c ∈ t1.Headers) : alookup (lenColumns t1) c = alookup (lenColumns t2) c := by
  rw [alookup_lenColumns t1 c hc, alookup_lenColumns t2 c (h.headers ▸ hc), h.width,
    h.values c hc]

theorem SameShown.headerLine {t1 t2 : Table} (h : SameShown t1 t2) :
    headerLine t1 = headerLine t2 := by
  unfold meta.headerLine
  rw [← h.headers, lenName_eq_of_names _ _ h.names]
  apply foldl_congr_mem
  intro acc c hc
  rw [h.lenColumns c hc]

theorem SameShown.rowOf {t1 t2 : Table} (h : SameShown t1 t2) (f1 f2 : Field)
    (hname : f1.Name = f2.Name) (hval : ∀ c ∈ t1.Headers, f1.Column.get c = f2.Column.get c) :
    rowOf t1 f1 = rowOf t2 f2 := by
  unfold meta.rowOf
  rw [← h.headers, lenName_eq_of_names _ _ h.names, hname, ← h.width]
  apply foldl_congr_mem
  intro acc c hc
  unfold rowColumn
  rw [h.lenColumns c hc, hval c hc]

theorem SameShown.fieldRows {t1 t2 : Table} (h : SameShown t1 t2) (fuel : Nat) (f1 f2 : Field)
    (hname : f1.Name = f2.Name) (hval : ∀ c ∈ t1.Headers, f1.Column.get c = f2.Column.get c) :
    fieldRows t1 fuel f1 = fieldRows t2 fuel f2 := by
  induction fuel generalizing f1 f2 with
  | zero =>
    unfold meta.fieldRows
    rw [h.rowOf f1 f2 hname hval, h.pfx]
  | succ fuel ih =>
    unfold meta.fieldRows
    rw [h.rowOf f1 f2 hname hval, h.pfx]
    split
    · rfl
    · rename_i s more hrow
      simp only
      rw [ih more more rfl (fun _ _ => rfl)]

theorem SameShown.fieldFuel {t1 t2 : Table} (h : SameShown t1 t2) (f1 f2 : Field)
    (hval : ∀ c ∈ t1.Headers, f1.Column.get c = f2.Column.get c) :
    fieldFuel t1 f1 = fieldFuel t2 f2 := by
  unfold meta.fieldFuel
  rw [← h.headers]
  apply foldl_congr_mem
  intro acc c hc
  rw [hval c hc]

theorem SameShown.dataRows {t1 t2 : Table} (h : SameShown t1 t2) (d1 d2 : List Field)
    (hn : d1.map (fun f => f.Name) = d2.map (fun f => f.Name))
    (hv : ∀ c ∈ t1.Headers, columnValues d1 c = columnValues d2 c) :
    dataRows t1 d1 = dataRows t2 d2 := by
  induction d1 generalizing d2 with
  | nil =>
    cases d2 with
    | nil => rfl
    | cons g d2 => simp at hn
  | cons f d1 ih =>
    cases d2 with
    | nil => simp at hn
    | cons g d2 =>
      simp only [List.map_cons, List.cons.injEq] at hn
      have hvf : ∀ c ∈ t1.Headers, f.Column.get c = g.Column.get c := by
        intro c hc
        have := hv c hc
        simp only [columnValues, List.map_cons, List.cons.injEq] at this
        exact this.1
      have hvr : ∀ c ∈ t1.Headers, columnValues d1 c = columnValues d2 c := by
        intro c hc
        have := hv c hc
        simp only [columnValues, List.map_cons, List.cons.injEq] at this
        exact this.2
      unfold meta.dataRows
      rw [h.fieldFuel f g hvf, h.fieldRows _ f g hn.1 hvf, ih d2 hn.2 hvr]

theorem Option.get_congr {α : Type} {o1 o2 : Option α} (h : o1 = o2) (h1 : o1.isSome = true)
    (h2 : o2.isSome = true) : o1.get h1 = o2.get h2 := by
  subst h
  rfl

/-- The text of a table depends only on its prefix, width, displayed columns, field names
    and the values in the displayed columns. -/
theorem SameShown.Write {t1 t2 : Table} (h : SameShown t1 t2) : t1.Write = t2.Write := by
  unfold Table.Write
  rw [h.headerLine, h.pfx, Option.get_congr (h.dataRows t1.Data t2.Data h.names h.values)]

end meta

namespace message

open meta

/-! ## Checksum stability -/

theorem Char.toNat_injective (a b : Char) (h : a.toNat = b.toNat) : a = b := by
  apply Char.ext
  apply UInt32.ext
  exact h

theorem strLe_refl (a : Str) : strLe a a = true := by
  induction a with
  | nil => rfl
  | cons x xs ih => simp [strLe, ih]

theorem strLe_total (a b : Str) : strLe a b = true ∨ strLe b a = true := by
  induction a generalizing b with
  | nil => exact Or.inl rfl
  | cons x xs ih =>
    cases b with
    | nil => exact Or.inr rfl
    | cons y ys =>
      simp only [strLe]
      by_cases h1 : x.toNat < y.toNat
      · simp [h1]
      · by_cases h2 : y.toNat < x.toNat
        · simp [h1, h2]
        · simp only [h1, h2, if_false]
          exact ih ys

theorem strLe_antisymm (a b : Str) (h1 : strLe a b = true) (h2 : strLe b a = true) : a = b := by
  induction a generalizing b with
  | nil =>
    cases b with
    | nil => rfl
    | cons y ys => simp [strLe] at h2
  | cons x xs ih =>
    cases b with
    | nil => simp [strLe] at h1
    | cons y ys =>
      simp only [strLe] at h1 h2
      by_cases h3 : x.toNat < y.toNat
      · have h4 : ¬ y.toNat < x.toNat := by omega
        simp [h3, h4] at h2
      · by_cases h4 : y.toNat < x.toNat
        · simp [h3, h4] at h1
        · simp only [h3, h4, if_false] at h1 h2
          have hxy : x = y := Char.toNat_injective x y (by omega)
          rw [hxy, ih ys h1 h2]

theorem strLe_trans (a b c : Str) (h1 : strLe a b = true) (h2 : strLe b c = true) :
    strLe a c = true := by
  induction a generalizing b c with
  | nil => rfl
  | cons x xs ih =>
    cases b with
    | nil => simp [strLe] at h1
    | cons y ys =>
      cases c with
      | nil => simp [strLe] at h2
      | cons z zs =>
        simp only [strLe] at h1 h2 ⊢
        by_cases hxy : x.toNat < y.toNat
        · by_cases hyz : y.toNat < z.toNat
          · have : x.toNat < z.toNat := by omega
            simp [this]
          · by_cases hzy : z.toNat < y.toNat
            · simp [hyz, hzy] at h2
            · have : x.toNat < z.toNat := by omega
              simp [this]
        · by_cases hyx : y.toNat < x.toNat
          · simp [hxy, hyx] at h1
          · simp only [hxy, hyx, if_false] at h1
            by_cases hyz : y.toNat < z.toNat
            · have : x.toNat < z.toNat := by omega
              simp [this]
            · by_cases hzy : z.toNat < y.toNat
              · simp [hyz, hzy] at h2
              · simp only [hyz, hzy, if_false] at h2
                have e1 : ¬ x.toNat < z.toNat := by omega
                have e2 : ¬ z.toNat < x.toNat := by omega
                simp only [e1, e2, if_false]
                exact ih ys zs h1 h2

theorem sortNames_eq_of_perm (l1 l2 : List Str) (h : l1.Perm l2) :
    sortNames l1 = sortNames l2 := by
  unfold sortNames
  haveI : IsTotal Str (fun a b => strLe a b = true) := ⟨strLe_total⟩
  haveI : IsTrans Str (fun a b => strLe a b = true) := ⟨strLe_trans⟩
  haveI : IsAntisymm Str (fun a b => strLe a b = true) := ⟨strLe_antisymm⟩
  apply List.eq_of_perm_of_sorted (r := fun a b => strLe a b = true)
  · exact ((List.perm_insertionSort _ l1).trans h).trans (List.perm_insertionSort _ l2).symm
  · exact List.sorted_insertionSort _ l1
  · exact List.sorted_insertionSort _ l2

theorem mem_akeys_iff {β : Type} (m : List (Str × β)) (k : Str) :
    k ∈ akeys m ↔ alookup m k ≠ none := by
  induction m with
  | nil =>
    constructor
    · intro h; cases h
    · intro h; exact absurd rfl h
  | cons e m ih =>
    obtain ⟨k1, v1⟩ := e
    by_cases h : k1 = k
    · simp only [akeys, List.map_cons, List.mem_cons, h, true_or, alookup, if_true, ne_eq,
        not_false_eq_true, reduceCtorEq]
    · have h2 : ¬ k = k1 := fun h3 => h h3.symm
      simp only [akeys, List.map_cons, List.mem_cons, h2, false_or, alookup, h, if_false]
      exact ih

theorem writeMIMEHeader_congr (h1 h2 : MIMEHeader) (h : ∀ k, h1.find k = h2.find k) :
    writeMIMEHeader h1 = writeMIMEHeader h2 := by
  have hperm : h1.keys.Perm h2.keys := by
    unfold GoMap.keys
    rw [List.perm_ext_iff_of_nodup h1.nodup h2.nodup]
    intro k
    rw [mem_akeys_iff, mem_akeys_iff]
    have := h k
    unfold GoMap.find at this
    rw [this]
  unfold writeMIMEHeader
  rw [sortNames_eq_of_perm _ _ hperm]
  congr 2
  apply List.map_congr_left
  intro name _
  rw [h name]

theorem alookup_filter_ne {β : Type} (m : List (Str × β)) (x k : Str)
    (p : Str × β → Bool) (hp : ∀ e, p e = true ↔ e.1 ≠ x) :
    alookup (m.filter p) k = if k = x then none else alookup m k := by
  induction m with
  | nil =>
    simp only [List.filter_nil, alookup]
    split <;> rfl
  | cons e m ih =>
    obtain ⟨k1, v1⟩ := e
    by_cases h1 : k1 = x
    · have hpe : p (k1, v1) = false := by
        cases hq : p (k1, v1) with
        | false => rfl
        | true => exact absurd h1 ((hp (k1, v1)).1 hq)
      rw [List.filter_cons, hpe]
      simp only [Bool.false_eq_true, if_false, ih, alookup]
      by_cases h2 : k = x
      · simp only [h2, if_true]
      · have h3 : ¬ k1 = k := fun h => h2 (h.symm.trans h1)
        simp only [h2, if_false, h3]
    · have hpe : p (k1, v1) = true := (hp (k1, v1)).2 h1
      rw [List.filter_cons, hpe]
      simp only [if_true, alookup, ih]
      by_cases h2 : k1 = k
      · have h3 : ¬ k = x := fun h => h1 (h2.trans h)
        simp only [h2, if_true, h3, if_false]
      · simp only [h2, if_false]

theorem find_dropChecksum (h : MIMEHeader) (k : Str) :
    (dropChecksum h).find k = if k = XChecksum then none else h.find k :=
  alookup_filter_ne h.entries XChecksum k _ (fun e => by simp)

/-- The bytes that `MakeChecksum` hashes depend on the header map without `X-Checksum`,
    the body lines, the field names and the `Current` values only. -/
theorem checksumInput_eq_of_current (m1 m2 : Mail) (t1 t2 : Table)
    (hheader : ∀ k, k ≠ XChecksum → m1.Header.find k = m2.Header.find k)
    (hbody : m1.Body = m2.Body)
    (ht1 : m1.Meta = some t1) (ht2 : m2.Meta = some t2)
    (hnames : t1.Data.map (fun f => f.Name) = t2.Data.map (fun f => f.Name))
    (hcurrent : columnValues t1.Data JiraNewColumn = columnValues t2.Data JiraNewColumn) :
    checksumInput m1 = checksumInput m2 := by
  have hhdr : writeMIMEHeader (dropChecksum m1.Header) = writeMIMEHeader (dropChecksum m2.Header) := by
    apply writeMIMEHeader_congr
    intro k
    rw [find_dropChecksum, find_dropChecksum]
    by_cases hk : k = XChecksum
    · simp [hk]
    · simp [hk, hheader k hk]
  have hlen : t1.Data.length = t2.Data.length := by
    have := congrArg List.length hnames
    simpa using this
  have hsame : SameShown
      (({ t1.Clone with Headers := [JiraNewColumn], ColumnWidth := 4096 } : Table).WithPrefix
        ['#', ' '])
      (({ t2.Clone with Headers := [JiraNewColumn], ColumnWidth := 4096 } : Table).WithPrefix
        ['#', ' ']) := by
    refine ⟨rfl, rfl, rfl, hnames, ?_⟩
    intro c hc
    simp only [Table.WithPrefix, List.mem_singleton] at hc
    subst hc
    exact hcurrent
  unfold checksumInput writeMessage checksumMail getBodyReader
  simp only [ht1, ht2, Option.map_some', hbody, hhdr, Table.String]
  rw [hsame.Write]
  simp only [Table.Clone, hlen]

/-- C3. Checksum stability: two mails with the same header map once `X-Checksum` is
    removed, the same body lines, and tables with the same field names in the same order
    and the same `Current` value in every field get the same digest from `MakeChecksum`,
    whatever the width, the prefix, the display columns and the other columns of their
    tables and whatever their `X-Checksum` header. -/
theorem MakeChecksum_stable (sha256 : Str → Str) (m1 m2 : Mail) (t1 t2 : Table)
    (hheader : ∀ k, k ≠ XChecksum → m1.Header.find k = m2.Header.find k)
    (hbody : m1.Body = m2.Body)
    (ht1 : m1.Meta = some t1) (ht2 : m2.Meta = some t2)
    (hnames : t1.Data.map (fun f => f.Name) = t2.Data.map (fun f => f.Name))
    (hcurrent : columnValues t1.Data JiraNewColumn = columnValues t2.Data JiraNewColumn) :
    MakeChecksum sha256 m1 = MakeChecksum sha256 m2 := by
  unfold MakeChecksum
  rw [checksumInput_eq_of_current m1 m2 t1 t2 hheader hbody ht1 ht2 hnames hcurrent]

end message

namespace message

open meta examples

/-- C3 (witness). A stored mail (narrow table with history columns, stale checksum header)
    and the freshly converted mail of the same record. -/
theorem MakeChecksum_stable_witness :
    (∀ k, k ≠ XChecksum → mailA.Header.find k = mailB.Header.find k) ∧
    mailA.Body = mailB.Body ∧
    tableA.Data.map (fun f => f.Name) = tableB.Data.map (fun f => f.Name) ∧
    columnValues tableA.Data JiraNewColumn = columnValues tableB.Data JiraNewColumn ∧
    MakeChecksum (fun s => s) mailA = MakeChecksum (fun s => s) mailB :=
  ⟨fun k hk => by
      simp only [mailA, mailB, headerA, headerB, GoMap.find_set]
      simp [hk.symm],
   rfl, by decide, by decide,
   MakeChecksum_stable (fun s => s) mailA mailB tableA tableB
     (fun k hk => by
        simp only [mailA, mailB, headerA, headerB, GoMap.find_set]
        simp [hk.symm])
     rfl rfl rfl (by decide) (by decide)⟩

end message

namespace meta

/-! ## The rows of a field -/

theorem shownWidth_ne_zero_iff (t : Table) (c : Str) :
    shownWidth t c ≠ 0 ↔ ∃ n, alookup (lenColumns t) c = some n ∧ n ≠ 0 := by
  unfold shownWidth
  cases alookup (lenColumns t) c with
  | none => simp
  | some n => simp

theorem rowColumn_eq (t : Table) (field : Field) (acc : Str × Option Field) (c : Str) :
    rowColumn t.ColumnWidth (lenColumns t) field acc c =
      if shownWidth t c = 0 then acc
      else (acc.1 ++ cellText t field.Column.get c,
            if (field.Column.get c).length > t.ColumnWidth then
              some { Name := (acc.2.getD { Name := [], Column := GoMap.empty }).Name,
                     Column := (acc.2.getD { Name := [], Column := GoMap.empty }).Column.set c
                        ((field.Column.get c).drop t.ColumnWidth) }
            else acc.2) := by
  unfold rowColumn cellText shownWidth
  cases h : alookup (lenColumns t) c with
  | none => simp
  | some n =>
    by_cases h0 : n = 0
    · simp [h0]
    · simp only [h0, if_false, Option.getD_some]
      by_cases hlen : (field.Column.get c).length > t.ColumnWidth
      · simp only [hlen, if_true, List.append_assoc]
      · simp only [hlen, if_false]
        have : (field.Column.get c).length ≤ t.ColumnWidth := by omega
        rw [List.take_length, List.take_of_length_le this, List.append_assoc]

theorem rowOf_fst_gen (t : Table) (field : Field) (hs : List Str) (acc : Str × Option Field) :
    (hs.foldl (rowColumn t.ColumnWidth (lenColumns t) field) acc).1 =
      acc.1 ++ ((hs.filter (fun c => decide (shownWidth t c ≠ 0))).map
        (cellText t field.Column.get)).flatten := by
  induction hs generalizing acc with
  | nil => simp
  | cons c hs ih =>
    rw [List.foldl_cons, ih, rowColumn_eq]
    by_cases h0 : shownWidth t c = 0
    · simp [h0]
    · simp [h0, List.append_assoc]

/-- The text of the row that `Write` makes for `field`. -/
theorem rowOf_fst (t : Table) (field : Field) :
    (rowOf t field).1 = rowText t field.Name field.Column.get := by
  unfold rowOf rowText shownColumns
  rw [rowOf_fst_gen]

theorem rowOf_snd_gen (t : Table) (field : Field) (hs : List Str) (acc : Str × Option Field) :
    ((hs.foldl (rowColumn t.ColumnWidth (lenColumns t) field) acc).2 = none ↔
      acc.2 = none ∧ ∀ c ∈ hs, shownWidth t c ≠ 0 →
        (field.Column.get c).length ≤ t.ColumnWidth) ∧
    (∀ m, (hs.foldl (rowColumn t.ColumnWidth (lenColumns t) field) acc).2 = some m →
      m.Name = (acc.2.getD { Name := [], Column := GoMap.empty }).Name ∧
      ∀ c, m.Column.get c =
        if c ∈ hs ∧ shownWidth t c ≠ 0 ∧ (field.Column.get c).length > t.ColumnWidth then
          (field.Column.get c).drop t.ColumnWidth
        else (acc.2.getD { Name := [], Column := GoMap.empty }).Column.get c) := by
  induction hs generalizing acc with
  | nil =>
    refine ⟨by simp, ?_⟩
    intro m hm
    simp only [List.foldl_nil] at hm
    simp [hm]
  | cons x hs ih =>
    rw [List.foldl_cons, rowColumn_eq]
    by_cases h0 : shownWidth t x = 0
    · simp only [h0, if_true]
      obtain ⟨ih1, ih2⟩ := ih acc
      constructor
      · rw [ih1]
        constructor
        · rintro ⟨ha, hb⟩
          refine ⟨ha, ?_⟩
          intro c hc hsh
          rcases List.mem_cons.1 hc with h | h
          · subst h; exact absurd h0 hsh
          · exact hb c h hsh
        · rintro ⟨ha, hb⟩
          exact ⟨ha, fun c hc => hb c (List.mem_cons_of_mem _ hc)⟩
      · intro m hm
        obtain ⟨hn, hg⟩ := ih2 m hm
        refine ⟨hn, ?_⟩
        intro c
        rw [hg c]
        by_cases hcx : c = x
        · subst hcx
          simp [h0]
        · simp [hcx]
    · simp only [h0, if_false]
      by_cases hlen : (field.Column.get x).length > t.ColumnWidth
      · simp only [hlen, if_true]
        obtain ⟨ih1, ih2⟩ := ih (acc.1 ++ cellText t field.Column.get x,
          some { Name := (acc.2.getD { Name := [], Column := GoMap.empty }).Name,
                 Column := (acc.2.getD { Name := [], Column := GoMap.empty }).Column.set x
                    ((field.Column.get x).drop t.ColumnWidth) })
        constructor
        · rw [ih1]
          constructor
          · rintro ⟨ha, _⟩
            cases ha
          · rintro ⟨_, hb⟩
            have := hb x (List.mem_cons_self _ _) h0
            omega
        · intro m hm
          obtain ⟨hn, hg⟩ := ih2 m hm
          simp only [Option.getD_some] at hn hg
          refine ⟨hn, ?_⟩
          intro c
          rw [hg c, GoMap.get_set]
          by_cases hcx : x = c
          · subst hcx
            simp [h0, hlen]
          · have hcx2 : ¬ c = x := fun h => hcx h.symm
            simp [hcx, hcx2]
      · simp only [hlen, if_false]
        obtain ⟨ih1, ih2⟩ := ih (acc.1 ++ cellText t field.Column.get x, acc.2)
        constructor
        · rw [ih1]
          constructor
          · rintro ⟨ha, hb⟩
            refine ⟨ha, ?_⟩
            intro c hc hsh
            rcases List.mem_cons.1 hc with h | h
            · subst h; omega
            · exact hb c h hsh
          · rintro ⟨ha, hb⟩
            exact ⟨ha, fun c hc => hb c (List.mem_cons_of_mem _ hc)⟩
        · intro m hm
          obtain ⟨hn, hg⟩ := ih2 m hm
          refine ⟨hn, ?_⟩
          intro c
          rw [hg c]
          by_cases hcx : c = x
          · subst hcx
            simp [hlen]
          · simp [hcx]

theorem mem_shownColumns (t : Table) (c : Str) :
    c ∈ shownColumns t ↔ c ∈ t.Headers ∧ shownWidth t c ≠ 0 := by
  simp [shownColumns]

/-- Whether the row of `field` leaves a `moreField`. -/
theorem rowOf_snd_none (t : Table) (field : Field) :
    (rowOf t field).2 = none ↔ overflows t field.Column.get = false := by
  unfold rowOf
  rw [(rowOf_snd_gen t field t.Headers _).1]
  simp only [true_and]
  unfold overflows
  rw [List.any_eq_false]
  constructor
  · intro h c hc
    rw [mem_shownColumns] at hc
    have := h c hc.1 hc.2
    simp only [gt_iff_lt, decide_eq_true_eq, not_lt]
    exact this
  · intro h c hc hsh
    have := h c ((mem_shownColumns t c).2 ⟨hc, hsh⟩)
    simp only [gt_iff_lt, decide_eq_true_eq, not_lt] at this
    exact this

/-- The `moreField` that the row of `field` leaves: no name, and in every displayed
    column what is left of the value after `ColumnWidth` characters. -/
theorem rowOf_snd_some (t : Table) (field m : Field) (h : (rowOf t field).2 = some m) :
    m.Name = [] ∧ ∀ c ∈ shownColumns t,
      m.Column.get c = (field.Column.get c).drop t.ColumnWidth := by
  unfold rowOf at h
  obtain ⟨hn, hg⟩ := (rowOf_snd_gen t field t.Headers _).2 m h
  refine ⟨hn, ?_⟩
  intro c hc
  rw [mem_shownColumns] at hc
  rw [hg c]
  by_cases hlen : (field.Column.get c).length > t.ColumnWidth
  · simp [hc.1, hc.2, hlen]
  · have : (field.Column.get c).length ≤ t.ColumnWidth := by omega
    simp only [hlen, and_false, if_false, Option.getD_none, GoMap.get_empty]
    exact (List.drop_of_length_le this).symm

theorem rowText_congr (t : Table) (name : Str) (v1 v2 : Str → Str)
    (h : ∀ c ∈ shownColumns t, v1 c = v2 c) : rowText t name v1 = rowText t name v2 := by
  unfold rowText
  congr 2
  apply List.map_congr_left
  intro c hc
  unfold cellText
  rw [h c hc]

theorem overflows_congr (t : Table) (v1 v2 : Str → Str)
    (h : ∀ c ∈ shownColumns t, v1 c = v2 c) : overflows t v1 = overflows t v2 := by
  unfold overflows
  rw [Bool.eq_iff_iff, List.any_eq_true, List.any_eq_true]
  constructor
  · rintro ⟨c, hc, hx⟩
    exact ⟨c, hc, by rw [← h c hc]; exact hx⟩
  · rintro ⟨c, hc, hx⟩
    exact ⟨c, hc, by rw [h c hc]; exact hx⟩

theorem cutRows_congr (t : Table) (fuel : Nat) (name : Str) (v1 v2 : Str → Str)
    (h : ∀ c ∈ shownColumns t, v1 c = v2 c) : cutRows t fuel name v1 = cutRows t fuel name v2 := by
  induction fuel generalizing name v1 v2 with
  | zero =>
    unfold cutRows
    rw [rowText_congr t name v1 v2 h]
  | succ fuel ih =>
    unfold cutRows
    rw [rowText_congr t name v1 v2 h, overflows_congr t v1 v2 h]
    rw [ih [] (fun c => (v1 c).drop t.ColumnWidth) (fun c => (v2 c).drop t.ColumnWidth)
      (fun c hc => by simp only; rw [h c hc])]

/-- The lines that the row loop of `Write` makes for one field are the rows obtained by
    repeated cutting of its values. -/
theorem fieldRows_eq_cutRows (t : Table) (fuel : Nat) (field : Field) (rows : List Str)
    (h : fieldRows t fuel field = some rows) :
    rows = (cutRows t fuel field.Name field.Column.get).map
      (fun s => t.pfx ++ s ++ ['\n']) := by
  induction fuel generalizing field rows with
  | zero =>
    unfold fieldRows at h
    split at h
    · rename_i s hrow
      simp only [Option.some.injEq] at h
      subst h
      have := rowOf_fst t field
      rw [hrow] at this
      simp only at this
      simp only [cutRows, this, List.map_cons, List.map_nil]
    · simp at h
  | succ fuel ih =>
    unfold fieldRows at h
    split at h
    · rename_i s hrow
      simp only [Option.some.injEq] at h
      subst h
      have h1 := rowOf_fst t field
      have h2 := (rowOf_snd_none t field).1 (by rw [hrow])
      rw [hrow] at h1
      simp only at h1
      simp only [cutRows, h1, h2, Bool.false_eq_true, if_false, List.map_cons, List.map_nil]
    · rename_i s more hrow
      simp only [Option.map_eq_some'] at h
      obtain ⟨rest, hrest, hrows⟩ := h
      subst hrows
      have h1 := rowOf_fst t field
      rw [hrow] at h1
      simp only at h1
      have h2 : overflows t field.Column.get = true := by
        cases ho : overflows t field.Column.get with
        | true => rfl
        | false =>
          have := (rowOf_snd_none t field).2 ho
          rw [hrow] at this
          cases this
      obtain ⟨hn, hg⟩ := rowOf_snd_some t field more (by rw [hrow])
      have h3 := ih more rest hrest
      rw [hn, cutRows_congr t fuel [] more.Column.get
        (fun c => (field.Column.get c).drop t.ColumnWidth) hg] at h3
      simp only [cutRows, h1, h2, if_true, h3, List.map_cons]

/-- The rows of all fields, by repeated cutting. -/
theorem dataRows_eq_cutRows (t : Table) (data : List Field) (rows : List Str)
    (h : dataRows t data = some rows) :
    rows = ((data.map (fun f => cutRows t (fieldFuel t f) f.Name f.Column.get)).flatten).map
      (fun s => t.pfx ++ s ++ ['\n']) := by
  induction data generalizing rows with
  | nil =>
    simp only [dataRows, Option.some.injEq] at h
    subst h
    rfl
  | cons f rest ih =>
    unfold dataRows at h
    cases h1 : fieldRows t (fieldFuel t f) f with
    | none => simp [h1] at h
    | some a =>
      cases h2 : dataRows t rest with
      | none => simp [h1, h2] at h
      | some b =>
        simp only [h1, h2, Option.some.injEq] at h
        subst h
        rw [fieldRows_eq_cutRows t _ f a h1, ih b h2]
        simp only [List.map_cons, List.flatten_cons, List.map_append]

/-- The text that `Write` produces, line by line. -/
theorem Write_eq (t : Table) :
    t.Write = ([headerLine t, dashes (headerLine t).length]
      ++ (t.Data.map (fun f => cutRows t (fieldFuel t f) f.Name f.Column.get)).flatten
      ++ [dashes (headerLine t).length]).map (fun s => t.pfx ++ s ++ ['\n']) := by
  unfold Table.Write
  have h := dataRows_eq_cutRows t t.Data _ (Option.some_get (dataRows_isSome t t.Data)).symm
  rw [h]
  simp only [List.map_append, List.map_cons, List.map_nil, List.cons_append, List.nil_append]

end meta

/-! ## Lines, trimming and splitting -/

theorem splitLines_append_newline (l rest : Str) (h : '\n' ∉ l) :
    meta.splitLines (l ++ '\n' :: rest) = l :: meta.splitLines rest := by
  induction l with
  | nil => simp [meta.splitLines]
  | cons c cs ih =>
    simp only [List.mem_cons, not_or] at h
    have hc : ¬ c = '\n' := fun e => h.1 e.symm
    simp only [List.cons_append, meta.splitLines, hc, if_false, List.append_eq, ih h.2]

theorem splitLines_flatten (ls : List Str) (h : ∀ l ∈ ls, '\n' ∉ l) :
    meta.splitLines ((ls.map (fun l => l ++ ['\n'])).flatten) = ls := by
  induction ls with
  | nil => rfl
  | cons l ls ih =>
    simp only [List.map_cons, List.flatten_cons, List.append_assoc, List.singleton_append]
    rw [splitLines_append_newline l _ (h l (List.mem_cons_self _ _)),
      ih (fun x hx => h x (List.mem_cons_of_mem _ hx))]

theorem rdropWhile_append_of_all (p : Char → Bool) (l ws : Str) (h : ∀ c ∈ ws, p c = true) :
    (l ++ ws).rdropWhile p = l.rdropWhile p := by
  induction ws using List.reverseRecOn with
  | nil => simp
  | append_singleton ws c ih =>
    rw [← List.append_assoc, List.rdropWhile_concat_pos _ _ _ (h c (by simp))]
    exact ih (fun x hx => h x (by simp [hx]))

theorem TrimSpace_append_spaces (x ws : Str) (h : ∀ c ∈ ws, isSpace c = true) :
    TrimSpace (x ++ ws) = TrimSpace x := by
  unfold TrimSpace
  induction x with
  | nil =>
    have : List.dropWhile isSpace ws = [] := by
      rw [List.dropWhile_eq_nil_iff]
      exact h
    simp [this]
  | cons c cs ih =>
    by_cases hc : isSpace c = true
    · simp only [List.cons_append, List.dropWhile_cons_of_pos hc]
      exact ih
    · simp only [List.cons_append, List.dropWhile_cons_of_neg hc]
      rw [← List.cons_append, rdropWhile_append_of_all _ _ _ h]

theorem TrimSpace_spaces_append (ws x : Str) (h : ∀ c ∈ ws, isSpace c = true) :
    TrimSpace (ws ++ x) = TrimSpace x := by
  unfold TrimSpace
  rw [List.dropWhile_append_of_pos h]

theorem isSpace_blank : isSpace ' ' = true := by decide

theorem isSpace_delim : isSpace '|' = false := by decide

theorem TrimSpace_padRight (n : Nat) (x : Str) : TrimSpace (padRight n x) = TrimSpace x := by
  unfold padRight
  apply TrimSpace_append_spaces
  intro c hc
  rw [List.eq_of_mem_replicate hc]
  exact isSpace_blank

theorem mem_dropWhile_of_not (p : Char → Bool) (s : Str) (c : Char) (hc : c ∈ s)
    (hp : p c = false) : c ∈ s.dropWhile p := by
  induction s with
  | nil => cases hc
  | cons x xs ih =>
    by_cases hx : p x = true
    · rw [List.dropWhile_cons_of_pos hx]
      rcases List.mem_cons.1 hc with h | h
      · subst h
        rw [hp] at hx
        cases hx
      · exact ih h
    · rw [List.dropWhile_cons_of_neg hx]
      exact hc

theorem mem_TrimSpace_of_not_space (s : Str) (c : Char) (hc : c ∈ s) (hp : isSpace c = false) :
    c ∈ TrimSpace s := by
  unfold TrimSpace List.rdropWhile
  rw [List.mem_reverse]
  apply mem_dropWhile_of_not _ _ _ _ hp
  rw [List.mem_reverse]
  exact mem_dropWhile_of_not _ _ _ hc hp

theorem mem_of_mem_TrimSpace (s : Str) (c : Char) (hc : c ∈ TrimSpace s) : c ∈ s := by
  unfold TrimSpace at hc
  have h1 : c ∈ s.dropWhile isSpace := (List.rdropWhile_prefix isSpace _).subset hc
  exact (List.dropWhile_suffix isSpace).subset h1

theorem splitDelim_ne_nil (s : Str) : splitDelim s ≠ [] := by
  induction s with
  | nil => simp [splitDelim]
  | cons c cs ih =>
    unfold splitDelim
    split
    · simp
    · split
      · simp
      · simp

theorem splitDelim_append_delim (a b : Str) (h : '|' ∉ a) :
    splitDelim (a ++ '|' :: b) = a :: splitDelim b := by
  induction a with
  | nil => simp [splitDelim]
  | cons c cs ih =>
    simp only [List.mem_cons, not_or] at h
    have hc : ¬ c = '|' := fun e => h.1 e.symm
    simp only [List.cons_append, splitDelim, hc, if_false, List.append_eq, ih h.2]

theorem splitDelim_no_delim (a : Str) (h : '|' ∉ a) : splitDelim a = [a] := by
  induction a with
  | nil => rfl
  | cons c cs ih =>
    simp only [List.mem_cons, not_or] at h
    have hc : ¬ c = '|' := fun e => h.1 e.symm
    simp only [splitDelim, hc, if_false, ih h.2]

theorem splitDelim_cons_space (c : Char) (s : Str) (hc : isSpace c = true) :
    ∃ h t, splitDelim s = h :: t ∧ splitDelim (c :: s) = (c :: h) :: t := by
  have hne : ¬ c = '|' := by
    intro e
    rw [e, isSpace_delim] at hc
    cases hc
  cases hs : splitDelim s with
  | nil => exact absurd hs (splitDelim_ne_nil s)
  | cons h t =>
    refine ⟨h, t, rfl, ?_⟩
    simp only [splitDelim, hne, if_false, hs]

theorem map_TrimSpace_splitDelim_dropWhile (s : Str) :
    (splitDelim (s.dropWhile isSpace)).map TrimSpace = (splitDelim s).map TrimSpace := by
  induction s with
  | nil => rfl
  | cons c cs ih =>
    by_cases hc : isSpace c = true
    · rw [List.dropWhile_cons_of_pos hc, ih]
      obtain ⟨h, t, h1, h2⟩ := splitDelim_cons_space c cs hc
      rw [h1, h2]
      simp only [List.map_cons, List.cons.injEq, and_true]
      exact (TrimSpace_spaces_append [c] h (by simpa using hc)).symm
    · rw [List.dropWhile_cons_of_neg hc]

theorem splitDelim_concat_space (s : Str) (c : Char) (hc : isSpace c = true) :
    ∃ i l, splitDelim s = i ++ [l] ∧ splitDelim (s ++ [c]) = i ++ [l ++ [c]] := by
  have hne : ¬ c = '|' := by
    intro e
    rw [e, isSpace_delim] at hc
    cases hc
  induction s with
  | nil =>
    refine ⟨[], [], rfl, ?_⟩
    simp [splitDelim, hne]
  | cons x xs ih =>
    obtain ⟨i, l, h1, h2⟩ := ih
    by_cases hx : x = '|'
    · refine ⟨[] :: i, l, ?_, ?_⟩
      · simp [splitDelim, hx, h1]
      · simp [splitDelim, hx, h2]
    · cases i with
      | nil =>
        refine ⟨[], x :: l, ?_, ?_⟩
        · simp only [splitDelim, hx, if_false, h1, List.nil_append]
        · simp only [List.cons_append, splitDelim, hx, if_false, List.append_eq, h2,
            List.nil_append]
      | cons i0 i =>
        refine ⟨(x :: i0) :: i, l, ?_, ?_⟩
        · simp only [splitDelim, hx, if_false, h1, List.cons_append]
        · simp only [List.cons_append, splitDelim, hx, if_false, List.append_eq, h2]

theorem map_TrimSpace_splitDelim_rdropWhile (s : Str) :
    (splitDelim (s.rdropWhile isSpace)).map TrimSpace = (splitDelim s).map TrimSpace := by
  induction s using List.reverseRecOn with
  | nil => rfl
  | append_singleton s c ih =>
    by_cases hc : isSpace c = true
    · rw [List.rdropWhile_concat_pos _ _ _ hc, ih]
      obtain ⟨i, l, h1, h2⟩ := splitDelim_concat_space s c hc
      rw [h1, h2]
      simp only [List.map_append, List.map_cons, List.map_nil, List.append_cancel_left_eq,
        List.cons.injEq, and_true]
      exact (TrimSpace_append_spaces l [c] (by simpa using hc)).symm
    · rw [List.rdropWhile_concat_neg _ _ _ hc]

/-- Trimming a line before it is split changes no trimmed piece. -/
theorem map_TrimSpace_splitDelim_TrimSpace (s : Str) :
    (splitDelim (TrimSpace s)).map TrimSpace = (splitDelim s).map TrimSpace := by
  calc (splitDelim (TrimSpace s)).map TrimSpace
      = (splitDelim ((s.dropWhile isSpace).rdropWhile isSpace)).map TrimSpace := rfl
    _ = (splitDelim s).map TrimSpace := by
        rw [map_TrimSpace_splitDelim_rdropWhile, map_TrimSpace_splitDelim_dropWhile]

namespace meta

/-! ## Splitting a rendered row -/

theorem splitDelim_cells (a0 : Str) (xs : List Str) (h0 : '|' ∉ a0) (hx : ∀ x ∈ xs, '|' ∉ x) :
    (splitDelim (a0 ++ (xs.map (fun x => [' ', Delim, ' '] ++ x)).flatten)).map TrimSpace =
      TrimSpace a0 :: xs.map TrimSpace := by
  induction xs generalizing a0 with
  | nil => simp [splitDelim_no_delim a0 h0]
  | cons x xs ih =>
    have e : a0 ++ ((x :: xs).map (fun x => [' ', Delim, ' '] ++ x)).flatten =
        (a0 ++ [' ']) ++ '|' :: ((' ' :: x) ++ (xs.map (fun x => [' ', Delim, ' '] ++ x)).flatten) := by
      simp [Delim]
    have h1 : '|' ∉ a0 ++ [' '] := by
      simp only [List.mem_append, List.mem_singleton, not_or]
      exact ⟨h0, by decide⟩
    have h2 : '|' ∉ ' ' :: x := by
      simp only [List.mem_cons, not_or]
      exact ⟨by decide, hx x (List.mem_cons_self _ _)⟩
    rw [e, splitDelim_append_delim _ _ h1, List.map_cons,
      ih (' ' :: x) h2 (fun y hy => hx y (List.mem_cons_of_mem _ hy))]
    have t1 : TrimSpace (a0 ++ [' ']) = TrimSpace a0 :=
      TrimSpace_append_spaces a0 [' '] (by simp [isSpace_blank])
    have t2 : TrimSpace (' ' :: x) = TrimSpace x :=
      TrimSpace_spaces_append [' '] x (by simp [isSpace_blank])
    rw [t1, t2, List.map_cons]

theorem not_mem_padRight (n : Nat) (x : Str) (c : Char) (hc : c ≠ ' ') (h : c ∉ x) :
    c ∉ padRight n x := by
  unfold padRight
  simp only [List.mem_append, not_or]
  refine ⟨h, ?_⟩
  intro hm
  exact hc (List.eq_of_mem_replicate hm)

theorem rowText_eq_cells (t : Table) (name : Str) (vals : Str → Str) :
    rowText t name vals = padRight (lenName t.Data) name ++
      (((shownColumns t).map (fun c =>
          padRight (shownWidth t c) ((vals c).take t.ColumnWidth))).map
        (fun x => [' ', Delim, ' '] ++ x)).flatten := by
  unfold rowText cellText
  rw [List.map_map]
  rfl

/-- The trimmed pieces of a rendered row: the trimmed name and the trimmed cut of every
    displayed value. -/
theorem splitDelim_rowText (t : Table) (name : Str) (vals : Str → Str) (hn : '|' ∉ name)
    (hv : ∀ c ∈ shownColumns t, '|' ∉ vals c) :
    (splitDelim (rowText t name vals)).map TrimSpace =
      TrimSpace name :: (shownColumns t).map (fun c => TrimSpace ((vals c).take t.ColumnWidth)) := by
  rw [rowText_eq_cells, splitDelim_cells]
  · rw [TrimSpace_padRight, List.map_map]
    congr 1
    apply List.map_congr_left
    intro c _
    exact TrimSpace_padRight _ _
  · exact not_mem_padRight _ _ _ (by decide) hn
  · intro x hx
    rw [List.mem_map] at hx
    obtain ⟨c, hc, rfl⟩ := hx
    apply not_mem_padRight _ _ _ (by decide)
    intro hm
    exact hv c hc (List.mem_of_mem_take hm)

theorem headerLine_gen (t : Table) (hs : List Str) (acc : Str) :
    hs.foldl (fun header name =>
      match alookup (lenColumns t) name with
      | none => header
      | some n => if n = 0 then header else header ++ [' ', Delim, ' '] ++ padRight n name) acc =
    acc ++ (((hs.filter (fun c => decide (shownWidth t c ≠ 0))).map
      (fun c => padRight (shownWidth t c) c)).map (fun x => [' ', Delim, ' '] ++ x)).flatten := by
  induction hs generalizing acc with
  | nil => simp
  | cons c hs ih =>
    rw [List.foldl_cons, ih]
    unfold shownWidth
    cases h : alookup (lenColumns t) c with
    | none => simp [h]
    | some n =>
      by_cases h0 : n = 0
      · simp [h, h0]
      · simp [h, h0, List.append_assoc]

/-- The header line: `Name` and the displayed column names, each padded to its width. -/
theorem headerLine_eq_cells (t : Table) :
    headerLine t = padRight (lenName t.Data) "Name".toList ++
      (((shownColumns t).map (fun c => padRight (shownWidth t c) c)).map
        (fun x => [' ', Delim, ' '] ++ x)).flatten := by
  unfold headerLine shownColumns
  rw [headerLine_gen]

theorem splitDelim_headerLine (t : Table) (hc : ∀ c ∈ shownColumns t, '|' ∉ c) :
    (splitDelim (headerLine t)).map TrimSpace =
      "Name".toList :: (shownColumns t).map TrimSpace := by
  rw [headerLine_eq_cells, splitDelim_cells]
  · rw [TrimSpace_padRight, List.map_map]
    congr 1
    apply List.map_congr_left
    intro c _
    exact TrimSpace_padRight _ _
  · exact not_mem_padRight _ _ _ (by decide) (by decide)
  · intro x hx
    rw [List.mem_map] at hx
    obtain ⟨c, hcm, rfl⟩ := hx
    exact not_mem_padRight _ _ _ (by decide) (hc c hcm)

end meta

namespace meta

/-! ## Single steps of the parser -/

theorem TrimSpace_of_no_space (s : Str) (h : ∀ c ∈ s, isSpace c = false) : TrimSpace s = s := by
  unfold TrimSpace
  have h1 : s.dropWhile isSpace = s := by
    cases s with
    | nil => rfl
    | cons c cs =>
      have : ¬ isSpace c = true := by rw [h c (List.mem_cons_self _ _)]; simp
      rw [List.dropWhile_cons_of_neg this]
  rw [h1]
  induction s using List.reverseRecOn with
  | nil => rfl
  | append_singleton s c _ =>
    have : ¬ isSpace c = true := by rw [h c (by simp)]; simp
    rw [List.rdropWhile_concat_neg _ _ _ this]

theorem TrimSpace_dashes (n : Nat) : TrimSpace (dashes n) = dashes n := by
  apply TrimSpace_of_no_space
  intro c hc
  rw [List.eq_of_mem_replicate hc]
  decide

theorem removeDashes_dashes (n : Nat) : removeDashes (dashes n) = [] := by
  unfold removeDashes dashes
  rw [List.filter_eq_nil_iff]
  intro c hc
  rw [List.eq_of_mem_replicate hc]
  decide

theorem containsDelim_iff (s : Str) : containsDelim s = true ↔ '|' ∈ s := by
  unfold containsDelim
  rw [List.any_eq_true]
  constructor
  · rintro ⟨c, hc, h⟩
    simp only [decide_eq_true_eq] at h
    rw [← h]; exact hc
  · intro h
    exact ⟨'|', h, by simp⟩

theorem removeDashes_ne_nil (s : Str) (h : '|' ∈ s) : (removeDashes s).length ≠ 0 := by
  have : '|' ∈ removeDashes s := by
    unfold removeDashes
    rw [List.mem_filter]
    exact ⟨h, by decide⟩
  intro h0
  rw [List.length_eq_zero] at h0
  rw [h0] at this
  cases this

theorem headerNames_of_nonempty (i : Nat) (vs : List Str) (h : ∀ v ∈ vs, TrimSpace v ≠ []) :
    headerNames i vs = vs.map TrimSpace := by
  induction vs generalizing i with
  | nil => rfl
  | cons v vs ih =>
    have hv : (TrimSpace v).length ≠ 0 := by
      intro h0
      exact h v (List.mem_cons_self _ _) (List.length_eq_zero.1 h0)
    simp only [headerNames, hv, if_false, List.map_cons,
      ih (i + 1) (fun x hx => h x (List.mem_cons_of_mem _ hx))]

/-- The first line with a delimiter: the column list is read and the table is made. -/
theorem Scan_first (line : Str) (hd : '|' ∈ line) :
    NewParser.Scan line =
      some (⟨1, none, false, headerNames 1 ((splitDelim (TrimSpace line)).drop 1),
              some ⟨[], ColumnWidth, headerNames 1 ((splitDelim (TrimSpace line)).drop 1), []⟩,
              none⟩, true) := by
  have h1 : '|' ∈ TrimSpace line := mem_TrimSpace_of_not_space line '|' hd isSpace_delim
  have h2 : (TrimSpace line).length ≠ 0 := by
    intro h0
    rw [List.length_eq_zero] at h0
    rw [h0] at h1
    cases h1
  have h3 : containsDelim (TrimSpace line) = true := (containsDelim_iff _).2 h1
  unfold Parser.Scan NewParser
  simp [h2, h3]

/-- The separator line after the header line. -/
theorem Scan_separator (p : Parser) (n : Nat) (hc : p.closed = false) (hl : p.lines = 1)
    (hn : n ≠ 0) :
    p.Scan (dashes n) =
      some (⟨2, p.err, p.closed, p.headers, p.table, p.lastfield⟩, true) := by
  have h2 : (dashes n).length ≠ 0 := by simp [dashes, hn]
  unfold Parser.Scan
  simp [hc, hl, TrimSpace_dashes, h2, removeDashes_dashes]

/-- A separator line after the rows closes the parser. -/
theorem Scan_last (p : Parser) (n : Nat) (hc : p.closed = false) (hl : 2 ≤ p.lines)
    (hn : n ≠ 0) :
    p.Scan (dashes n) =
      some (⟨p.lines + 1, p.err, true, p.headers, p.table, p.lastfield⟩, false) := by
  have h2 : (dashes n).length ≠ 0 := by simp [dashes, hn]
  have h3 : ¬ p.lines + 1 = 1 := by omega
  have h4 : ¬ p.lines + 1 = 2 := by omega
  unfold Parser.Scan
  simp [hc, TrimSpace_dashes, h2, removeDashes_dashes, h3, h4]

/-- A row with a name that is not in the table yet: the field is appended. -/
theorem Scan_named (p : Parser) (t : Table) (line : Str) (hc : p.closed = false)
    (hl : 2 ≤ p.lines) (hd : '|' ∈ line) (ht : p.table = some t)
    (hname : (rowField p.headers (splitDelim (TrimSpace line))).Name ≠ [])
    (hnew : hasField t.Data (rowField p.headers (splitDelim (TrimSpace line))).Name = false) :
    p.Scan line =
      some (⟨p.lines + 1, p.err, false, p.headers,
              some (t.Append (rowField p.headers (splitDelim (TrimSpace line)))),
              some (FieldRef.row t.Data.length)⟩, true) := by
  have h1 : '|' ∈ TrimSpace line := mem_TrimSpace_of_not_space line '|' hd isSpace_delim
  have h2 : (TrimSpace line).length ≠ 0 := by
    intro h0
    rw [List.length_eq_zero] at h0
    rw [h0] at h1
    cases h1
  have h3 : containsDelim (TrimSpace line) = true := (containsDelim_iff _).2 h1
  have h4 := removeDashes_ne_nil _ h1
  have h5 : ¬ p.lines + 1 = 1 := by omega
  have h6 : ¬ p.lines + 1 = 2 := by omega
  unfold Parser.Scan
  simp only [hc, Bool.false_eq_true, if_false, h2, h5, h6, h4, h3, Bool.not_true, hname, ht,
    hnew]

/-- A row without name: its cells are appended to the last appended field. -/
theorem Scan_continuation (p : Parser) (i : Nat) (line : Str) (hc : p.closed = false)
    (hl : 2 ≤ p.lines) (hd : '|' ∈ line) (hlast : p.lastfield = some (FieldRef.row i))
    (hname : (rowField p.headers (splitDelim (TrimSpace line))).Name = []) :
    p.Scan line =
      some (⟨p.lines + 1, p.err, false, p.headers,
              (if hasOverflow p.headers (rowField p.headers (splitDelim (TrimSpace line))) then
                p.table.map (appendToRow p.headers
                  (rowField p.headers (splitDelim (TrimSpace line))) i)
               else p.table),
              p.lastfield⟩, true) := by
  have h1 : '|' ∈ TrimSpace line := mem_TrimSpace_of_not_space line '|' hd isSpace_delim
  have h2 : (TrimSpace line).length ≠ 0 := by
    intro h0
    rw [List.length_eq_zero] at h0
    rw [h0] at h1
    cases h1
  have h3 : containsDelim (TrimSpace line) = true := (containsDelim_iff _).2 h1
  have h4 := removeDashes_ne_nil _ h1
  have h5 : ¬ p.lines + 1 = 1 := by omega
  have h6 : ¬ p.lines + 1 = 2 := by omega
  unfold Parser.Scan
  simp only [hc, Bool.false_eq_true, if_false, h2, h5, h6, h4, h3, Bool.not_true, hname,
    if_true, hlast]
  split <;> rfl

end meta

namespace meta

/-! ## The field read from a row -/

theorem fillColumns_get (g : Str → Str) (hs : List Str) (vs : List Str) (m : ColMap)
    (h : vs.map TrimSpace = hs.map g) (c : Str) :
    (fillColumns hs vs m).get c = if c ∈ hs then g c else m.get c := by
  induction hs generalizing vs m with
  | nil =>
    cases vs with
    | nil => simp [fillColumns]
    | cons v vs => simp at h
  | cons d hs ih =>
    cases vs with
    | nil => simp at h
    | cons v vs =>
      simp only [List.map_cons, List.cons.injEq] at h
      simp only [fillColumns]
      rw [ih vs _ h.2, GoMap.get_set, h.1]
      by_cases hc : c ∈ hs
      · simp only [hc, if_true, List.mem_cons, or_true]
      · by_cases hd : d = c
        · subst hd
          simp
        · have hd2 : ¬ c = d := fun e => hd e.symm
          simp [hc, hd, hd2]

theorem mem_keys_set (m : ColMap) (k v x : Str) (h : x ∈ (m.set k v).keys) :
    x = k ∨ x ∈ m.keys :=
  mem_akeys_aset m.entries k v x h

theorem fillColumns_keys (hs : List Str) (vs : List Str) (m : ColMap) (x : Str)
    (h : x ∈ (fillColumns hs vs m).keys) : x ∈ hs ∨ x ∈ m.keys := by
  induction hs generalizing vs m with
  | nil =>
    cases vs <;> simp only [fillColumns] at h <;> exact Or.inr h
  | cons d hs ih =>
    cases vs with
    | nil => simp only [fillColumns] at h; exact Or.inr h
    | cons v vs =>
      simp only [fillColumns] at h
      rcases ih vs _ h with h1 | h1
      · exact Or.inl (List.mem_cons_of_mem _ h1)
      · rcases mem_keys_set _ _ _ _ h1 with h2 | h2
        · exact Or.inl (h2 ▸ List.mem_cons_self _ _)
        · exact Or.inr h2

theorem emptyColumns_get (hs : List Str) (m : ColMap) (c : Str) (hm : m.get c = []) :
    (hs.foldl (fun m n => m.set n []) m).get c = [] := by
  induction hs generalizing m with
  | nil => exact hm
  | cons d hs ih =>
    rw [List.foldl_cons]
    apply ih
    rw [GoMap.get_set]
    split
    · rfl
    · exact hm

theorem emptyColumns_keys (hs : List Str) (m : ColMap) (x : Str)
    (h : x ∈ (hs.foldl (fun m n => m.set n []) m).keys) : x ∈ hs ∨ x ∈ m.keys := by
  induction hs generalizing m with
  | nil => exact Or.inr h
  | cons d hs ih =>
    rw [List.foldl_cons] at h
    rcases ih _ h with h1 | h1
    · exact Or.inl (List.mem_cons_of_mem _ h1)
    · rcases mem_keys_set _ _ _ _ h1 with h2 | h2
      · exact Or.inl (h2 ▸ List.mem_cons_self _ _)
      · exact Or.inr h2

/-- The field that the parser builds from a row whose trimmed pieces are a name and one
    value for every column. -/
theorem rowField_of_pieces (hs : List Str) (a : List Str) (nm : Str) (g : Str → Str)
    (h : a.map TrimSpace = nm :: hs.map g) :
    (rowField hs a).Name = nm ∧
    (∀ c, (rowField hs a).Column.get c = if c ∈ hs then g c else []) ∧
    (∀ x ∈ (rowField hs a).Column.keys, x ∈ hs) := by
  cases a with
  | nil => simp at h
  | cons a0 as =>
    simp only [List.map_cons, List.cons.injEq] at h
    refine ⟨h.1, ?_, ?_⟩
    · intro c
      simp only [rowField, List.drop_succ_cons, List.drop_zero]
      rw [fillColumns_get g hs as _ h.2, emptyColumns_get hs _ c (GoMap.get_empty c)]
    · intro x hx
      simp only [rowField, List.drop_succ_cons, List.drop_zero] at hx
      rcases fillColumns_keys _ _ _ _ hx with h1 | h1
      · exact h1
      · rcases emptyColumns_keys _ _ _ h1 with h2 | h2
        · exact h2
        · cases h2

theorem appendHeaders_of_subset (old ks : List Str) (h : ∀ k ∈ ks, k ∈ old) :
    appendHeaders old ks = old := by
  unfold appendHeaders
  have gen : ∀ (ks : List Str) (acc : List Str), (∀ k ∈ ks, k ∈ old) →
      ks.foldl (fun hs k => if k ∈ old then hs else hs ++ [k]) acc = acc := by
    intro ks
    induction ks with
    | nil => intro acc _; rfl
    | cons k ks ih =>
      intro acc hk
      rw [List.foldl_cons]
      simp only [hk k (List.mem_cons_self _ _), if_true]
      exact ih acc (fun x hx => hk x (List.mem_cons_of_mem _ hx))
  exact gen ks old h

theorem appendColumns_get (hs : List Str) (hnd : hs.Nodup) (f : Field) (m : ColMap) (c : Str) :
    (appendColumns hs f m).get c =
      if c ∈ hs then m.get c ++ f.Column.get c else m.get c := by
  unfold appendColumns
  induction hs generalizing m with
  | nil => simp
  | cons d hs ih =>
    rw [List.nodup_cons] at hnd
    rw [List.foldl_cons, ih hnd.2]
    by_cases hc : c ∈ hs
    · have hcd : ¬ d = c := fun e => hnd.1 (e ▸ hc)
      simp only [hc, if_true, List.mem_cons, or_true]
      split
      · rw [GoMap.get_set]
        simp [hcd]
      · rfl
    · simp only [hc, if_false, List.mem_cons, or_false]
      by_cases hcd : c = d
      · subst hcd
        simp only [if_true]
        split
        · rw [GoMap.get_set]
          simp
        · rename_i hlen
          have : f.Column.get c = [] := by
            apply List.length_eq_zero.1
            omega
          rw [this, List.append_nil]
      · have hcd2 : ¬ d = c := fun e => hcd e.symm
        simp only [hcd, if_false]
        split
        · rw [GoMap.get_set]
          simp [hcd2]
        · rfl

theorem modifyAt_length_append {α : Type} (g : α → α) (l : List α) (x : α) :
    modifyAt g l.length (l ++ [x]) = l ++ [g x] := by
  induction l with
  | nil => rfl
  | cons y l ih => simp [modifyAt, ih]

end meta

namespace meta

/-! ## Scanning the rows of a field -/

theorem scanAll_append (p : Parser) (xs ys : List Str) :
    scanAll p (xs ++ ys) = (scanAll p xs).bind (fun q => scanAll q ys) := by
  induction xs generalizing p with
  | nil => rfl
  | cons x xs ih =>
    simp only [List.cons_append, scanAll]
    cases h : p.Scan x with
    | none => rfl
    | some r => exact ih r.1

theorem delim_mem_rowText (t : Table) (name : Str) (vals : Str → Str)
    (h : shownColumns t ≠ []) : '|' ∈ rowText t name vals := by
  unfold rowText
  cases hs : shownColumns t with
  | nil => exact absurd hs h
  | cons c cs =>
    simp [cellText, Delim]

theorem delim_mem_headerLine (t : Table) (h : shownColumns t ≠ []) : '|' ∈ headerLine t := by
  rw [headerLine_eq_cells]
  cases hs : shownColumns t with
  | nil => exact absurd hs h
  | cons c cs =>
    simp [Delim]

/-- The field that the parser reads from a rendered row. -/
theorem rowField_rowText (t : Table) (name : Str) (vals : Str → Str) (hn : '|' ∉ name)
    (hv : ∀ c ∈ shownColumns t, '|' ∉ vals c) :
    (rowField (shownColumns t) (splitDelim (TrimSpace (rowText t name vals)))).Name =
      TrimSpace name ∧
    (∀ c, (rowField (shownColumns t)
        (splitDelim (TrimSpace (rowText t name vals)))).Column.get c =
      if c ∈ shownColumns t then TrimSpace ((vals c).take t.ColumnWidth) else []) ∧
    (∀ x ∈ (rowField (shownColumns t)
        (splitDelim (TrimSpace (rowText t name vals)))).Column.keys, x ∈ shownColumns t) := by
  apply rowField_of_pieces
  rw [map_TrimSpace_splitDelim_TrimSpace, splitDelim_rowText t name vals hn hv]

theorem TrimSpace_nil : TrimSpace [] = [] := rfl

theorem headD_map_TrimSpace (l : List Str) :
    (l.map TrimSpace).headD [] = TrimSpace (l.headD []) := by
  cases l <;> rfl

/-- The name that the parser reads from a rendered row, whatever the values hold. -/
theorem rowField_rowText_name (t : Table) (hs : List Str) (name : Str) (vals : Str → Str)
    (hn : '|' ∉ name) :
    (rowField hs (splitDelim (TrimSpace (rowText t name vals)))).Name = TrimSpace name := by
  have h1 : (rowField hs (splitDelim (TrimSpace (rowText t name vals)))).Name =
      ((splitDelim (rowText t name vals)).map TrimSpace).headD [] := by
    rw [← map_TrimSpace_splitDelim_TrimSpace, headD_map_TrimSpace]
    rfl
  rw [h1]
  have hp : '|' ∉ padRight (lenName t.Data) name := not_mem_padRight _ _ _ (by decide) hn
  unfold rowText
  cases shownColumns t with
  | nil =>
    simp only [List.map_nil, List.flatten_nil, List.append_nil]
    rw [splitDelim_no_delim _ hp]
    exact TrimSpace_padRight _ _
  | cons c cs =>
    have e : padRight (lenName t.Data) name ++ ((c :: cs).map (cellText t vals)).flatten =
        (padRight (lenName t.Data) name ++ [' ']) ++ '|' ::
          (' ' :: padRight (shownWidth t c) ((vals c).take t.ColumnWidth) ++
            (cs.map (cellText t vals)).flatten) := by
      simp [cellText, Delim]
    have h2 : '|' ∉ padRight (lenName t.Data) name ++ [' '] := by
      simp only [List.mem_append, List.mem_singleton, not_or]
      exact ⟨hp, by decide⟩
    rw [e, splitDelim_append_delim _ _ h2]
    simp only [List.map_cons, List.headD_cons]
    rw [TrimSpace_append_spaces _ [' '] (by simp [isSpace_blank])]
    exact TrimSpace_padRight _ _

/-- One row without name is scanned: every displayed column of the last field grows by
    the cut of the value that the row shows. -/
theorem scan_continuation_row (t : Table) (hnd : (shownColumns t).Nodup)
    (hne : shownColumns t ≠ []) (vals : Str → Str) (p : Parser) (px : Str) (w : Nat)
    (hs : List Str) (T0 : List Field) (pf : Field)
    (hc : p.closed = false) (hl : 2 ≤ p.lines) (hh : p.headers = shownColumns t)
    (ht : p.table = some ⟨px, w, hs, T0 ++ [pf]⟩)
    (hlast : p.lastfield = some (FieldRef.row T0.length))
    (hv : ∀ c ∈ shownColumns t, '|' ∉ vals c)
    (htrim : ∀ c ∈ shownColumns t,
      TrimSpace ((vals c).take t.ColumnWidth) = (vals c).take t.ColumnWidth) :
    ∃ q pf1, p.Scan (rowText t [] vals) = some (q, true) ∧ q.closed = false ∧ 2 ≤ q.lines ∧
      q.err = p.err ∧ q.headers = p.headers ∧ q.table = some ⟨px, w, hs, T0 ++ [pf1]⟩ ∧
      q.lastfield = p.lastfield ∧ pf1.Name = pf.Name ∧
      ∀ c, pf1.Column.get c =
        if c ∈ shownColumns t then pf.Column.get c ++ (vals c).take t.ColumnWidth
        else pf.Column.get c := by
  obtain ⟨hname, hget, _⟩ := rowField_rowText t [] vals (by simp) hv
  rw [TrimSpace_nil, ← hh] at hname
  have hscan := Scan_continuation p T0.length (rowText t [] vals) hc hl
    (delim_mem_rowText t [] vals hne) hlast hname
  rw [hh] at hscan
  by_cases hov : hasOverflow (shownColumns t)
      (rowField (shownColumns t) (splitDelim (TrimSpace (rowText t [] vals)))) = true
  · refine ⟨_, appendToField (shownColumns t)
      (rowField (shownColumns t) (splitDelim (TrimSpace (rowText t [] vals)))) pf,
      hscan, rfl, by simp; omega, rfl, hh.symm, ?_, rfl, rfl, ?_⟩
    · simp only [hov, if_true, ht, Option.map_some', appendToRow, modifyAt_length_append]
    · intro c
      simp only [appendToField]
      rw [appendColumns_get _ hnd, hget c]
      by_cases hcd : c ∈ shownColumns t
      · simp only [hcd, if_true, htrim c hcd]
      · simp only [hcd, if_false]
  · refine ⟨_, pf, hscan, rfl, by simp; omega, rfl, hh.symm, ?_, rfl, rfl, ?_⟩
    · simp only [hov, Bool.false_eq_true, if_false, ht]
    · intro c
      by_cases hcd : c ∈ shownColumns t
      · simp only [hcd, if_true]
        have hov2 : hasOverflow (shownColumns t)
            (rowField (shownColumns t) (splitDelim (TrimSpace (rowText t [] vals)))) = false := by
          simpa using hov
        unfold hasOverflow at hov2
        rw [List.any_eq_false] at hov2
        have h1 := hov2 c hcd
        simp only [gt_iff_lt, decide_eq_true_eq, not_lt, Nat.le_zero_eq] at h1
        rw [hget c] at h1
        simp only [hcd, if_true, htrim c hcd] at h1
        rw [List.length_eq_zero.1 h1, List.append_nil]
      · simp only [hcd, if_false]

end meta

namespace meta

/-- All rows without name of a field are scanned: every displayed column of the last
    field grows by the rest of its value. -/
theorem scan_continuation_rows (t : Table) (hnd : (shownColumns t).Nodup)
    (hne : shownColumns t ≠ []) (hw : 0 < t.ColumnWidth) (px : Str) (w : Nat)
    (hs : List Str) (T0 : List Field) (fuel : Nat) (vals : Str → Str) (p : Parser) (pf : Field)
    (hc : p.closed = false) (hl : 2 ≤ p.lines) (hh : p.headers = shownColumns t)
    (ht : p.table = some ⟨px, w, hs, T0 ++ [pf]⟩)
    (hlast : p.lastfield = some (FieldRef.row T0.length))
    (hv : ∀ c ∈ shownColumns t, '|' ∉ vals c)
    (htrim : ∀ c ∈ shownColumns t, ∀ k,
      TrimSpace (((vals c).drop (k * t.ColumnWidth)).take t.ColumnWidth) =
        ((vals c).drop (k * t.ColumnWidth)).take t.ColumnWidth)
    (hlen : ∀ c ∈ shownColumns t, (vals c).length ≤ fuel + t.ColumnWidth) :
    ∃ q pf1, scanAll p (cutRows t fuel [] vals) = some q ∧ q.closed = false ∧ 2 ≤ q.lines ∧
      q.err = p.err ∧ q.headers = p.headers ∧ q.table = some ⟨px, w, hs, T0 ++ [pf1]⟩ ∧
      q.lastfield = p.lastfield ∧ pf1.Name = pf.Name ∧
      ∀ c, pf1.Column.get c =
        if c ∈ shownColumns t then pf.Column.get c ++ vals c else pf.Column.get c := by
  induction fuel generalizing vals p pf with
  | zero =>
    obtain ⟨q, pf1, h1, h2, h3, h4, h5, h6, h7, h8, h9⟩ :=
      scan_continuation_row t hnd hne vals p px w hs T0 pf hc hl hh ht hlast hv
        (fun c hcd => by simpa using htrim c hcd 0)
    refine ⟨q, pf1, ?_, h2, h3, h4, h5, h6, h7, h8, ?_⟩
    · simp only [cutRows, scanAll, h1]
    · intro c
      rw [h9 c]
      by_cases hcd : c ∈ shownColumns t
      · have := hlen c hcd
        simp only [hcd, if_true]
        rw [List.take_of_length_le (by omega)]
      · simp only [hcd, if_false]
  | succ fuel ih =>
    obtain ⟨q, pf1, h1, h2, h3, h4, h5, h6, h7, h8, h9⟩ :=
      scan_continuation_row t hnd hne vals p px w hs T0 pf hc hl hh ht hlast hv
        (fun c hcd => by simpa using htrim c hcd 0)
    by_cases hov : overflows t vals = true
    · obtain ⟨q2, pf2, g1, g2, g3, g4, g5, g6, g7, g8, g9⟩ :=
        ih (fun c => (vals c).drop t.ColumnWidth) q pf1 h2 h3 (h5.trans hh) h6
          (h7.trans hlast)
          (fun c hcd hm => hv c hcd (List.mem_of_mem_drop hm))
          (fun c hcd k => by
            have e : ((vals c).drop t.ColumnWidth).drop (k * t.ColumnWidth) =
                (vals c).drop ((k + 1) * t.ColumnWidth) := by
              rw [List.drop_drop]
              congr 1
              ring
            have := htrim c hcd (k + 1)
            rw [← e] at this
            exact this)
          (fun c hcd => by
            have := hlen c hcd
            simp only [List.length_drop]
            omega)
      refine ⟨q2, pf2, ?_, g2, g3, g4.trans h4, g5.trans h5, g6, g7.trans h7, g8.trans h8, ?_⟩
      · simp only [cutRows, hov, if_true, scanAll, h1, g1]
      · intro c
        rw [g9 c]
        by_cases hcd : c ∈ shownColumns t
        · simp only [hcd, if_true, h9 c, List.append_assoc, List.take_append_drop]
        · simp only [hcd, if_false, h9 c]
    · refine ⟨q, pf1, ?_, h2, h3, h4, h5, h6, h7, h8, ?_⟩
      · simp only [cutRows, hov, if_false, scanAll, h1]
      · intro c
        rw [h9 c]
        by_cases hcd : c ∈ shownColumns t
        · simp only [hcd, if_true]
          have hov2 : overflows t vals = false := by simpa using hov
          unfold overflows at hov2
          rw [List.any_eq_false] at hov2
          have := hov2 c hcd
          simp only [gt_iff_lt, decide_eq_true_eq, not_lt] at this
          rw [List.take_of_length_le this]
        · simp only [hcd, if_false]

/-- The rows of one field are scanned: the field is appended to the table with its name
    and, in every displayed column, its value. -/
theorem scan_field_rows (t : Table) (hnd : (shownColumns t).Nodup)
    (hne : shownColumns t ≠ []) (hw : 0 < t.ColumnWidth) (px : Str) (w : Nat)
    (T0 : List Field) (fuel : Nat) (f : Field) (p : Parser)
    (hc : p.closed = false) (hl : 2 ≤ p.lines) (hh : p.headers = shownColumns t)
    (ht : p.table = some ⟨px, w, shownColumns t, T0⟩)
    (hname : f.Name ≠ [] ∧ TrimSpace f.Name = f.Name ∧ '|' ∉ f.Name)
    (hnew : hasField T0 f.Name = false)
    (hv : ∀ c ∈ shownColumns t, '|' ∉ f.Column.get c)
    (htrim : ∀ c ∈ shownColumns t, ∀ k,
      TrimSpace (((f.Column.get c).drop (k * t.ColumnWidth)).take t.ColumnWidth) =
        ((f.Column.get c).drop (k * t.ColumnWidth)).take t.ColumnWidth)
    (hlen : ∀ c ∈ shownColumns t, (f.Column.get c).length ≤ fuel + t.ColumnWidth) :
    ∃ q pf1, scanAll p (cutRows t fuel f.Name f.Column.get) = some q ∧ q.closed = false ∧
      2 ≤ q.lines ∧ q.err = p.err ∧ q.headers = p.headers ∧
      q.table = some ⟨px, w, shownColumns t, T0 ++ [pf1]⟩ ∧ pf1.Name = f.Name ∧
      ∀ c, pf1.Column.get c = if c ∈ shownColumns t then f.Column.get c else [] := by
  obtain ⟨rname, rget, rkeys⟩ := rowField_rowText t f.Name f.Column.get hname.2.2 hv
  rw [hname.2.1] at rname
  have hfirst := Scan_named p ⟨px, w, shownColumns t, T0⟩ (rowText t f.Name f.Column.get) hc hl
    (delim_mem_rowText t _ _ hne) ht (by rw [hh, rname]; exact hname.1)
    (by rw [hh, rname]; exact hnew)
  rw [hh] at hfirst
  generalize rowField (shownColumns t)
    (splitDelim (TrimSpace (rowText t f.Name f.Column.get))) = rf at rname rget rkeys hfirst
  have happ : (Table.mk px w (shownColumns t) T0).Append rf =
      ⟨px, w, shownColumns t, T0 ++ [rf]⟩ := by
    unfold Table.Append
    simp only [rname, hnew, Bool.false_eq_true, if_false]
    rw [appendHeaders_of_subset _ _ rkeys]
  rw [happ] at hfirst
  have hget0 : ∀ c, rf.Column.get c =
      if c ∈ shownColumns t then (f.Column.get c).take t.ColumnWidth else [] := by
    intro c
    rw [rget c]
    by_cases hcd : c ∈ shownColumns t
    · simp only [hcd, if_true]
      simpa using htrim c hcd 0
    · simp only [hcd, if_false]
  have hdone : (∀ c ∈ shownColumns t, (f.Column.get c).length ≤ t.ColumnWidth) →
      ∀ c, rf.Column.get c = if c ∈ shownColumns t then f.Column.get c else [] := by
    intro hle c
    rw [hget0 c]
    by_cases hcd : c ∈ shownColumns t
    · simp only [hcd, if_true]
      exact List.take_of_length_le (hle c hcd)
    · simp only [hcd, if_false]
  have hl2 : 2 ≤ p.lines + 1 := by omega
  cases fuel with
  | zero =>
    refine ⟨⟨p.lines + 1, p.err, false, shownColumns t,
        some ⟨px, w, shownColumns t, T0 ++ [rf]⟩, some (FieldRef.row T0.length)⟩, rf,
      ?_, rfl, hl2, rfl, hh.symm, rfl, rname, ?_⟩
    · simp only [cutRows, scanAll, hfirst]
    · exact hdone (fun c hcd => by have := hlen c hcd; omega)
  | succ fuel =>
    by_cases hov : overflows t f.Column.get = true
    · obtain ⟨q2, pf2, g1, g2, g3, g4, g5, g6, _, g8, g9⟩ :=
        scan_continuation_rows t hnd hne hw px w (shownColumns t) T0 fuel
          (fun c => (f.Column.get c).drop t.ColumnWidth)
          ⟨p.lines + 1, p.err, false, shownColumns t,
            some ⟨px, w, shownColumns t, T0 ++ [rf]⟩, some (FieldRef.row T0.length)⟩
          rf rfl hl2 rfl rfl rfl
          (fun c hcd hm => hv c hcd (List.mem_of_mem_drop hm))
          (fun c hcd k => by
            have e : ((f.Column.get c).drop t.ColumnWidth).drop (k * t.ColumnWidth) =
                (f.Column.get c).drop ((k + 1) * t.ColumnWidth) := by
              rw [List.drop_drop]
              congr 1
              ring
            have := htrim c hcd (k + 1)
            rw [← e] at this
            exact this)
          (fun c hcd => by
            have := hlen c hcd
            simp only [List.length_drop]
            omega)
      refine ⟨q2, pf2, ?_, g2, g3, g4, g5.trans hh.symm, g6, g8.trans rname, ?_⟩
      · simp only [cutRows, hov, if_true, scanAll, hfirst, g1]
      · intro c
        rw [g9 c]
        by_cases hcd : c ∈ shownColumns t
        · simp only [hcd, if_true, hget0 c, List.take_append_drop]
        · simp only [hcd, if_false, hget0 c]
    · refine ⟨⟨p.lines + 1, p.err, false, shownColumns t,
          some ⟨px, w, shownColumns t, T0 ++ [rf]⟩, some (FieldRef.row T0.length)⟩, rf,
        ?_, rfl, hl2, rfl, hh.symm, rfl, rname, ?_⟩
      · simp only [cutRows, hov, if_false, scanAll, hfirst]
      · apply hdone
        intro c hcd
        have hov2 : overflows t f.Column.get = false := by simpa using hov
        unfold overflows at hov2
        rw [List.any_eq_false] at hov2
        have := hov2 c hcd
        simpa using this

end meta

namespace meta

/-! ## Scanning the whole text of a table -/

theorem hasField_append (a b : List Field) (name : Str) :
    hasField (a ++ b) name = (hasField a name || hasField b name) := by
  unfold hasField
  rw [List.any_append]

/-- The rows of all fields are scanned: the fields are appended in order. -/
theorem scan_data_rows (t : Table) (hnd : (shownColumns t).Nodup)
    (hne : shownColumns t ≠ []) (hw : 0 < t.ColumnWidth) (px : Str) (w : Nat)
    (fs : List Field) (T0 : List Field) (p : Parser)
    (hc : p.closed = false) (hl : 2 ≤ p.lines) (hh : p.headers = shownColumns t)
    (ht : p.table = some ⟨px, w, shownColumns t, T0⟩)
    (hsub : ∀ f ∈ fs, ∀ c ∈ shownColumns t, (f.Column.get c).length ≤ fieldFuel t f + t.ColumnWidth)
    (hdist : (fs.map (fun f => f.Name)).Nodup)
    (hnew : ∀ f ∈ fs, hasField T0 f.Name = false)
    (hname : ∀ f ∈ fs, f.Name ≠ [] ∧ TrimSpace f.Name = f.Name ∧ '|' ∉ f.Name)
    (hv : ∀ f ∈ fs, ∀ c ∈ shownColumns t, '|' ∉ f.Column.get c)
    (htrim : ∀ f ∈ fs, ∀ c ∈ shownColumns t, ∀ k,
      TrimSpace (((f.Column.get c).drop (k * t.ColumnWidth)).take t.ColumnWidth) =
        ((f.Column.get c).drop (k * t.ColumnWidth)).take t.ColumnWidth) :
    ∃ q pfs, scanAll p ((fs.map (fun f =>
        cutRows t (fieldFuel t f) f.Name f.Column.get)).flatten) = some q ∧
      q.closed = false ∧ 2 ≤ q.lines ∧ q.err = p.err ∧ q.headers = p.headers ∧
      q.table = some ⟨px, w, shownColumns t, T0 ++ pfs⟩ ∧
      List.Forall₂ (ReadBack (shownColumns t)) fs pfs := by
  induction fs generalizing T0 p with
  | nil =>
    exact ⟨p, [], rfl, hc, hl, rfl, rfl, by simpa using ht, List.Forall₂.nil⟩
  | cons f fs ih =>
    have hf := List.mem_cons_self f fs
    obtain ⟨q1, pf1, a1, a2, a3, a4, a5, a6, a7, a8⟩ :=
      scan_field_rows t hnd hne hw px w T0 (fieldFuel t f) f p hc hl hh ht (hname f hf)
        (hnew f hf) (hv f hf) (htrim f hf) (hsub f hf)
    rw [List.map_cons, List.nodup_cons] at hdist
    obtain ⟨q2, pfs, b1, b2, b3, b4, b5, b6, b7⟩ :=
      ih (T0 ++ [pf1]) q1 a2 a3 (a5.trans hh) a6
        (fun g hg => hsub g (List.mem_cons_of_mem _ hg)) hdist.2
        (fun g hg => by
          rw [hasField_append, hnew g (List.mem_cons_of_mem _ hg), Bool.false_or]
          simp only [hasField, List.any_cons, List.any_nil, Bool.or_false,
            decide_eq_false_iff_not, a7]
          intro e
          exact hdist.1 (e ▸ List.mem_map_of_mem (fun f => f.Name) hg))
        (fun g hg => hname g (List.mem_cons_of_mem _ hg))
        (fun g hg => hv g (List.mem_cons_of_mem _ hg))
        (fun g hg => htrim g (List.mem_cons_of_mem _ hg))
    refine ⟨q2, pf1 :: pfs, ?_, b2, b3, b4.trans a4, b5.trans a5, ?_, ?_⟩
    · rw [List.map_cons, List.flatten_cons, scanAll_append, a1]
      exact b1
    · rw [b6, List.append_assoc]
      rfl
    · exact List.Forall₂.cons ⟨a7, a8⟩ b7

theorem not_mem_cells (c0 : Char) (a0 : Str) (xs : List Str) (hb : c0 ≠ ' ') (hd : c0 ≠ '|')
    (h0 : c0 ∉ a0) (hx : ∀ x ∈ xs, c0 ∉ x) :
    c0 ∉ a0 ++ (xs.map (fun x => [' ', Delim, ' '] ++ x)).flatten := by
  simp only [List.mem_append, List.mem_flatten, List.mem_map, not_or, not_exists, not_and]
  refine ⟨h0, ?_⟩
  rintro l ⟨x, hxm, rfl⟩ hm
  simp only [List.mem_append, List.mem_cons, Delim, List.not_mem_nil, or_false] at hm
  rcases hm with (h | h | h) | h
  · exact hb h
  · exact hd h
  · exact hb h
  · exact hx x hxm h

theorem newline_not_mem_rowText (t : Table) (name : Str) (vals : Str → Str)
    (hn : '\n' ∉ name) (hv : ∀ c ∈ shownColumns t, '\n' ∉ vals c) :
    '\n' ∉ rowText t name vals := by
  rw [rowText_eq_cells]
  apply not_mem_cells _ _ _ (by decide) (by decide)
  · exact not_mem_padRight _ _ _ (by decide) hn
  · intro x hx
    rw [List.mem_map] at hx
    obtain ⟨c, hc, rfl⟩ := hx
    apply not_mem_padRight _ _ _ (by decide)
    intro hm
    exact hv c hc (List.mem_of_mem_take hm)

theorem newline_not_mem_headerLine (t : Table) (hc : ∀ c ∈ shownColumns t, '\n' ∉ c) :
    '\n' ∉ headerLine t := by
  rw [headerLine_eq_cells]
  apply not_mem_cells _ _ _ (by decide) (by decide)
  · exact not_mem_padRight _ _ _ (by decide) (by decide)
  · intro x hx
    rw [List.mem_map] at hx
    obtain ⟨c, hcm, rfl⟩ := hx
    exact not_mem_padRight _ _ _ (by decide) (hc c hcm)

theorem newline_not_mem_cutRows (t : Table) (fuel : Nat) (name : Str) (vals : Str → Str)
    (hn : '\n' ∉ name) (hv : ∀ c ∈ shownColumns t, '\n' ∉ vals c) :
    ∀ r ∈ cutRows t fuel name vals, '\n' ∉ r := by
  induction fuel generalizing name vals with
  | zero =>
    intro r hr
    simp only [cutRows, List.mem_singleton] at hr
    rw [hr]
    exact newline_not_mem_rowText t name vals hn hv
  | succ fuel ih =>
    intro r hr
    simp only [cutRows, List.mem_cons] at hr
    rcases hr with hr | hr
    · rw [hr]
      exact newline_not_mem_rowText t name vals hn hv
    · split at hr
      · exact ih [] (fun c => (vals c).drop t.ColumnWidth) (by simp)
          (fun c hc hm => hv c hc (List.mem_of_mem_drop hm)) r hr
      · cases hr

theorem newline_not_mem_dashes (n : Nat) : '\n' ∉ dashes n := by
  intro h
  have := List.eq_of_mem_replicate h
  exact absurd this (by decide)

end meta

namespace meta

/-! ## Round trip of the attribute table -/

theorem widthOfValues_zero (w : Nat) (hw : 0 < w) (vals : List Str) (o : Option Nat)
    (h : (vals.foldl (widthStep w) o).getD 0 = 0) :
    o.getD 0 = 0 ∧ ∀ v ∈ vals, v = [] := by
  induction vals generalizing o with
  | nil => exact ⟨h, by simp⟩
  | cons v vs ih =>
    rw [List.foldl_cons] at h
    obtain ⟨h1, h2⟩ := ih _ h
    unfold widthStep at h1
    by_cases hlt : o.getD 0 < v.length
    · simp only [hlt, if_true] at h1
      split at h1
      · simp only [Option.getD_some] at h1; omega
      · simp only [Option.getD_some] at h1; omega
    · simp only [hlt, if_false] at h1
      refine ⟨h1, ?_⟩
      intro x hx
      rcases List.mem_cons.1 hx with e | e
      · rw [e]
        apply List.length_eq_zero.1
        omega
      · exact h2 x e

theorem floorName_zero (name : Str) (o : Option Nat) (h : (floorName name o).getD 0 = 0) :
    o.getD 0 = 0 := by
  cases o with
  | none => rfl
  | some n =>
    unfold floorName at h
    by_cases h0 : n = 0
    · simp [h0]
    · simp only [h0, if_false] at h
      split at h
      · simp only [Option.getD_some] at h; omega
      · simp only [Option.getD_some] at h; omega

/-- A column of `Headers` that is not displayed holds only empty values. -/
theorem hidden_column_empty (t : Table) (hw : 0 < t.ColumnWidth) (c : Str)
    (hc : c ∈ t.Headers) (hz : shownWidth t c = 0) (f : Field) (hf : f ∈ t.Data) :
    f.Column.get c = [] := by
  unfold shownWidth at hz
  rw [alookup_lenColumns t c hc] at hz
  have h1 := floorName_zero _ _ hz
  unfold widthOfValues at h1
  have h2 := (widthOfValues_zero _ hw _ _ h1).2
  apply h2
  unfold columnValues
  exact List.mem_map_of_mem (fun field => field.Column.get c) hf

theorem getLoop_head (F c : Str) (f : Field) (fs : List Field) (hn : f.Name = F)
    (hrest : hasField fs F = false) : getLoop F c (f :: fs) = f.Column.get c := by
  simp only [getLoop, hn, if_true]
  unfold GoMap.get GoMap.find
  cases alookup f.Column.entries c with
  | some v => rfl
  | none => exact getLoop_of_not_hasField F c fs hrest

theorem hasField_eq_false_iff (fs : List Field) (F : Str) :
    hasField fs F = false ↔ F ∉ fs.map (fun f => f.Name) := by
  unfold hasField
  rw [List.any_eq_false]
  simp only [decide_eq_true_eq, List.mem_map, not_exists, not_and]

theorem getLoop_readBack (cols : List Str) (fs pfs : List Field)
    (h : List.Forall₂ (ReadBack cols) fs pfs) (hd : (fs.map (fun f => f.Name)).Nodup)
    (F c : Str) (hval : ∀ f ∈ fs, c ∉ cols → f.Column.get c = []) :
    getLoop F c pfs = getLoop F c fs := by
  induction h with
  | nil => rfl
  | @cons f pf fs pfs hr hrest ih =>
    rw [List.map_cons, List.nodup_cons] at hd
    have hnames : pfs.map (fun f => f.Name) = fs.map (fun f => f.Name) := by
      clear ih hd hval
      induction hrest with
      | nil => rfl
      | cons hr2 _ ih2 => simp only [List.map_cons, hr2.1, ih2]
    by_cases hn : f.Name = F
    · have h1 : hasField fs F = false := by
        rw [hasField_eq_false_iff, ← hn]
        exact hd.1
      have h2 : hasField pfs F = false := by
        rw [hasField_eq_false_iff, hnames, ← hn]
        exact hd.1
      rw [getLoop_head F c f fs hn h1, getLoop_head F c pf pfs (hr.1.trans hn) h2, hr.2 c]
      by_cases hc : c ∈ cols
      · simp only [hc, if_true]
      · simp only [hc, if_false]
        exact (hval f (List.mem_cons_self _ _) hc).symm
    · have hn2 : ¬ pf.Name = F := fun e => hn (hr.1.symm.trans e)
      simp only [getLoop, hn, hn2, if_false]
      exact ih hd.2 (fun g hg => hval g (List.mem_cons_of_mem _ hg))

/-- The text of a printable table, line by line. -/
theorem splitLines_String (t : Table) (hp : Printable t) :
    splitLines t.String = [headerLine t, dashes (headerLine t).length]
      ++ (t.Data.map (fun f => cutRows t (fieldFuel t f) f.Name f.Column.get)).flatten
      ++ [dashes (headerLine t).length] := by
  unfold Table.String
  rw [Write_eq, hp.noPrefix]
  simp only [List.nil_append]
  apply splitLines_flatten
  intro l hl
  simp only [List.mem_append, List.mem_cons, List.mem_singleton, List.mem_flatten, List.mem_map,
    List.not_mem_nil, or_false] at hl
  rcases hl with ((e | e) | ⟨rows, ⟨f, hf, rfl⟩, hr⟩) | e
  · rw [e]
    exact newline_not_mem_headerLine t (fun c hc => (hp.columnNames c hc).2.2.2)
  · rw [e]
    exact newline_not_mem_dashes _
  · exact newline_not_mem_cutRows t _ _ _ (hp.fieldNames f hf).2.2.2
      (fun c hc => (hp.values f hf c hc).2) l hr
  · rw [e]
    exact newline_not_mem_dashes _

theorem Printable.width_pos {t : Table} (hp : Printable t) : 0 < t.ColumnWidth := by
  cases hs : shownColumns t with
  | nil => exact absurd hs hp.someColumn
  | cons c cs =>
    have hc : c ∈ shownColumns t := by rw [hs]; exact List.mem_cons_self _ _
    rw [mem_shownColumns] at hc
    obtain ⟨n, hn, hn0⟩ := (shownWidth_ne_zero_iff t c).1 hc.2
    exact lenColumns_pos_width t c n hn hn0

/-- Reading back the text of a printable table whose displayed values are cut into
    pieces without white space at their ends: the parser returns a table with the
    displayed columns and, field by field, the same names and values. -/
theorem parseBack_printable (t : Table) (hp : Printable t)
    (htrim : ∀ f ∈ t.Data, ∀ c ∈ shownColumns t, ∀ k,
      TrimSpace (((f.Column.get c).drop (k * t.ColumnWidth)).take t.ColumnWidth) =
        ((f.Column.get c).drop (k * t.ColumnWidth)).take t.ColumnWidth) :
    ∃ T, parseBack t = some T ∧ T.Headers = shownColumns t ∧
      List.Forall₂ (ReadBack (shownColumns t)) t.Data T.Data := by
  have hw := hp.width_pos
  have hd : '|' ∈ headerLine t := delim_mem_headerLine t hp.someColumn
  have hlen : (headerLine t).length ≠ 0 := by
    intro h0
    rw [List.length_eq_zero] at h0
    rw [h0] at hd
    cases hd
  have hpieces : ((splitDelim (TrimSpace (headerLine t))).drop 1).map TrimSpace =
      shownColumns t := by
    rw [List.map_drop, map_TrimSpace_splitDelim_TrimSpace,
      splitDelim_headerLine t (fun c hc => (hp.columnNames c hc).2.2.1)]
    simp only [List.drop_succ_cons, List.drop_zero]
    conv_rhs => rw [← List.map_id (shownColumns t)]
    apply List.map_congr_left
    intro c hc
    exact (hp.columnNames c hc).2.1
  have hheaders : headerNames 1 ((splitDelim (TrimSpace (headerLine t))).drop 1) =
      shownColumns t := by
    rw [headerNames_of_nonempty, hpieces]
    intro v hv
    have : TrimSpace v ∈ shownColumns t := by
      rw [← hpieces]
      exact List.mem_map_of_mem TrimSpace hv
    exact (hp.columnNames _ this).1
  obtain ⟨q, pfs, b1, b2, b3, _, b5, b6, b7⟩ :=
    scan_data_rows t hp.columnsDistinct hp.someColumn hw [] ColumnWidth t.Data []
      ⟨2, none, false, shownColumns t, some ⟨[], ColumnWidth, shownColumns t, []⟩, none⟩
      rfl (le_refl 2) rfl rfl
      (fun f _ c hc => by
        have := le_fieldFuel t f c ((mem_shownColumns t c).1 hc).1
        omega)
      hp.namesDistinct (fun _ _ => rfl)
      (fun f hf => ⟨(hp.fieldNames f hf).1, (hp.fieldNames f hf).2.1, (hp.fieldNames f hf).2.2.1⟩)
      (fun f hf c hc => (hp.values f hf c hc).1) htrim
  refine ⟨⟨[], ColumnWidth, shownColumns t, pfs⟩, ?_, rfl, b7⟩
  unfold parseBack
  have e : [headerLine t, dashes (headerLine t).length]
      ++ (t.Data.map (fun f => cutRows t (fieldFuel t f) f.Name f.Column.get)).flatten
      ++ [dashes (headerLine t).length] =
      headerLine t :: dashes (headerLine t).length ::
        ((t.Data.map (fun f => cutRows t (fieldFuel t f) f.Name f.Column.get)).flatten
          ++ [dashes (headerLine t).length]) := by
    simp
  rw [splitLines_String t hp, e]
  unfold scanAll
  rw [Scan_first _ hd, hheaders]
  simp only
  unfold scanAll
  rw [Scan_separator _ _ rfl rfl hlen]
  simp only
  rw [scanAll_append, b1]
  simp only [Option.some_bind, scanAll, Scan_last q _ b2 b3 hlen, Parser.Table, b6,
    List.nil_append]

end meta

namespace meta

open examples

theorem Get_readBack (t : Table) (hp : Printable t) (T : Table)
    (h : List.Forall₂ (ReadBack (shownColumns t)) t.Data T.Data) (F c : Str) :
    T.Get F c = t.Get F c := by
  unfold Table.Get
  apply getLoop_readBack (shownColumns t) t.Data T.Data h hp.namesDistinct
  intro f hf hc
  by_cases hch : c ∈ t.Headers
  · apply hidden_column_empty t hp.width_pos c hch _ f hf
    by_contra hz
    exact hc ((mem_shownColumns t c).2 ⟨hch, hz⟩)
  · by_cases hk : c ∈ f.Column.keys
    · rcases hp.otherColumns f hf c hk with h1 | h1
      · exact absurd h1 hch
      · exact h1
    · unfold GoMap.get
      rw [alookup_none_of_not_mem _ _ hk]
      rfl

theorem names_readBack (cols : List Str) (fs pfs : List Field)
    (h : List.Forall₂ (ReadBack cols) fs pfs) :
    pfs.map (fun f => f.Name) = fs.map (fun f => f.Name) := by
  induction h with
  | nil => rfl
  | cons hr _ ih => simp only [List.map_cons, hr.1, ih]

theorem getLoop_of_mem (data : List Field) (hd : (data.map (fun f => f.Name)).Nodup)
    (f : Field) (hf : f ∈ data) (c : Str) : getLoop f.Name c data = f.Column.get c := by
  induction data with
  | nil => cases hf
  | cons g gs ih =>
    rw [List.map_cons, List.nodup_cons] at hd
    rcases List.mem_cons.1 hf with e | e
    · subst e
      exact getLoop_head _ c f gs rfl ((hasField_eq_false_iff gs f.Name).2 hd.1)
    · have hne : ¬ g.Name = f.Name := by
        intro e2
        exact hd.1 (e2 ▸ List.mem_map_of_mem (fun f => f.Name) e)
      simp only [getLoop, hne, if_false]
      exact ih hd.2 e

theorem Get_of_mem (t : Table) (hd : (t.Data.map (fun f => f.Name)).Nodup) (f : Field)
    (hf : f ∈ t.Data) (c : Str) : t.Get f.Name c = f.Column.get c :=
  getLoop_of_mem t.Data hd f hf c

/-- C1 (counterexample). The table with the one field `Status` whose `Current` value is
    `a|b`, at width 40: every value is shorter than the width, and the parser reads the
    value back as `a`. -/
theorem roundtrip_fails_on_delimiter :
    (∀ f ∈ tablePipe.Data, ∀ c ∈ f.Column.keys,
      (f.Column.get c).length ≤ tablePipe.ColumnWidth) ∧
    (parseBack tablePipe).map (fun T => T.Get "Status".toList "Current".toList) =
      some "a".toList ∧
    tablePipe.Get "Status".toList "Current".toList = "a|b".toList := by
  decide

/-- C1 (amended). Round trip of the attribute table: for every printable table of ASCII
    strings whose displayed values are at most `ColumnWidth` long and have no white space
    at their ends, the parser reads the text of `t.String()` back into a table with the
    same field names in the same order, the displayed columns of `t` as its columns, and
    the same value (`Get`) for every field and column.  (ASCII is the domain on which
    the lengths, cuts and padding of the embedding are those of `meta.go`.) -/
theorem roundtrip (t : Table) (hascii : AsciiTable t) (hp : Printable t)
    (hfit : ∀ f ∈ t.Data, ∀ c ∈ shownColumns t,
      (f.Column.get c).length ≤ t.ColumnWidth ∧ TrimSpace (f.Column.get c) = f.Column.get c) :
    ∃ T, parseBack t = some T ∧
      T.Data.map (fun f => f.Name) = t.Data.map (fun f => f.Name) ∧
      T.Headers = shownColumns t ∧
      ∀ F c, T.Get F c = t.Get F c := by
  have htrim : ∀ f ∈ t.Data, ∀ c ∈ shownColumns t, ∀ k,
      TrimSpace (((f.Column.get c).drop (k * t.ColumnWidth)).take t.ColumnWidth) =
        ((f.Column.get c).drop (k * t.ColumnWidth)).take t.ColumnWidth := by
    have _ := hascii
    intro f hf c hc k
    obtain ⟨h1, h2⟩ := hfit f hf c hc
    cases k with
    | zero =>
      simp only [Nat.zero_mul, List.drop_zero]
      rw [List.take_of_length_le h1, h2]
    | succ k =>
      have hle : (f.Column.get c).length ≤ (k + 1) * t.ColumnWidth := by
        have : t.ColumnWidth ≤ (k + 1) * t.ColumnWidth := Nat.le_mul_of_pos_left _ (by omega)
        omega
      rw [List.drop_of_length_le hle, List.take_nil]
      rfl
  obtain ⟨T, h1, h2, h3⟩ := parseBack_printable t hp htrim
  exact ⟨T, h1, names_readBack _ _ _ h3, h2, Get_readBack t hp T h3⟩

/-- C2 (counterexample). The table with the one field `F` whose `Current` value is
    `ab cd`, at width 2: the value is cut into `ab`, ` c`, `d` and read back as `abcd`. -/
theorem wrap_roundtrip_fails_on_blank :
    1 ≤ tableBlank.ColumnWidth ∧
    (tableBlank.Get "F".toList "Current".toList).length > tableBlank.ColumnWidth ∧
    (parseBack tableBlank).map (fun T => T.Get "F".toList "Current".toList) =
      some "abcd".toList ∧
    tableBlank.Get "F".toList "Current".toList = "ab cd".toList := by
  decide

/-- C2 (amended). Wrap/continuation round trip: for every printable table of ASCII
    strings with `ColumnWidth >= 1` in which every piece that `Write` cuts from a
    displayed value has no white space at its ends, and every field `f` and displayed
    column `c` whose value is longer than `ColumnWidth`, the parser reads the text of
    `t.String()` back into a table in which `Get(f, c)` is the original value.  (ASCII is
    the domain on which the lengths, cuts and padding of the embedding are those of
    `meta.go`.) -/
theorem wrap_roundtrip (t : Table) (hascii : AsciiTable t) (hw : 1 ≤ t.ColumnWidth)
    (hp : Printable t)
    (hcut : ∀ f ∈ t.Data, ∀ c ∈ shownColumns t, CutsTrimmed t.ColumnWidth (f.Column.get c))
    (f : Field) (hf : f ∈ t.Data) (c : Str) (hc : c ∈ shownColumns t)
    (hlong : (f.Column.get c).length > t.ColumnWidth) :
    ∃ T, parseBack t = some T ∧ T.Get f.Name c = f.Column.get c ∧
      T.Get f.Name c = t.Get f.Name c := by
  have htrim : ∀ f ∈ t.Data, ∀ c ∈ shownColumns t, ∀ k,
      TrimSpace (((f.Column.get c).drop (k * t.ColumnWidth)).take t.ColumnWidth) =
        ((f.Column.get c).drop (k * t.ColumnWidth)).take t.ColumnWidth := by
    intro g hg d hd k
    by_cases hk : k ≤ (g.Column.get d).length
    · exact hcut g hg d hd k hk
    · have hle : (g.Column.get d).length ≤ k * t.ColumnWidth := by
        have : k ≤ k * t.ColumnWidth := Nat.le_mul_of_pos_right _ (by omega)
        omega
      rw [List.drop_of_length_le hle, List.take_nil]
      rfl
  have _ := hc
  have _ := hlong
  have _ := hascii
  obtain ⟨T, h1, _, h3⟩ := parseBack_printable t hp htrim
  have h4 := Get_readBack t hp T h3 f.Name c
  exact ⟨T, h1, h4.trans (Get_of_mem t hp.namesDistinct f hf c), h4⟩

end meta

namespace meta

open examples

theorem Printable_tableFit : Printable tableFit :=
  ⟨by decide, by decide, by decide, by decide, by decide, by decide, by decide, by decide⟩

theorem Printable_tableWrap : Printable tableWrap :=
  ⟨by decide, by decide, by decide, by decide, by decide, by decide, by decide, by decide⟩

/-- C1 (witness). A table with two fields and two displayed columns at width 40. -/
theorem roundtrip_witness :
    AsciiTable tableFit ∧ Printable tableFit ∧
    (∀ f ∈ tableFit.Data, ∀ c ∈ shownColumns tableFit,
      (f.Column.get c).length ≤ tableFit.ColumnWidth ∧
        TrimSpace (f.Column.get c) = f.Column.get c) ∧
    ∃ T, parseBack tableFit = some T ∧
      T.Data.map (fun f => f.Name) = tableFit.Data.map (fun f => f.Name) ∧
      T.Headers = shownColumns tableFit ∧
      ∀ F c, T.Get F c = tableFit.Get F c :=
  ⟨by decide, Printable_tableFit, by decide,
   roundtrip tableFit (by decide) Printable_tableFit (by decide)⟩

/-- C2 (witness). The value `Open now` at width 3 is cut into `Ope`, `n n`, `ow` and
    read back whole. -/
theorem wrap_roundtrip_witness :
    AsciiTable tableWrap ∧ 1 ≤ tableWrap.ColumnWidth ∧ Printable tableWrap ∧
    (∀ f ∈ tableWrap.Data, ∀ c ∈ shownColumns tableWrap,
      CutsTrimmed tableWrap.ColumnWidth (f.Column.get c)) ∧
    (⟨"Status".toList, GoMap.single message.JiraNewColumn "Open now".toList⟩ : Field) ∈
      tableWrap.Data ∧
    message.JiraNewColumn ∈ shownColumns tableWrap ∧
    ("Open now".toList).length > tableWrap.ColumnWidth ∧
    ∃ T, parseBack tableWrap = some T ∧
      T.Get "Status".toList message.JiraNewColumn = "Open now".toList ∧
      T.Get "Status".toList message.JiraNewColumn =
        tableWrap.Get "Status".toList message.JiraNewColumn :=
  ⟨by decide, by decide, Printable_tableWrap, by decide, List.mem_cons_self _ _, by decide,
   by decide,
   wrap_roundtrip tableWrap (by decide) (by decide) Printable_tableWrap (by decide)
     ⟨"Status".toList, GoMap.single message.JiraNewColumn "Open now".toList⟩
     (List.mem_cons_self _ _) message.JiraNewColumn (by decide) (by decide)⟩

end meta

namespace message

open meta

/-! ## Checksum sensitivity -/

theorem eq_of_append_newline (a b r1 r2 : Str) (ha : '\n' ∉ a) (hb : '\n' ∉ b)
    (h : a ++ '\n' :: r1 = b ++ '\n' :: r2) : a = b := by
  have h1 := congrArg splitLines h
  rw [splitLines_append_newline a r1 ha, splitLines_append_newline b r2 hb] at h1
  exact (List.cons.inj h1).1

theorem flatten_inj_of_length (n : Nat) (hn : 0 < n) (l1 l2 : List Str)
    (h1 : ∀ r ∈ l1, r.length = n) (h2 : ∀ r ∈ l2, r.length = n)
    (h : l1.flatten = l2.flatten) : l1 = l2 := by
  induction l1 generalizing l2 with
  | nil =>
    cases l2 with
    | nil => rfl
    | cons r l2 =>
      have := h2 r (List.mem_cons_self _ _)
      have h3 := congrArg List.length h
      simp only [List.flatten_nil, List.length_nil, List.flatten_cons, List.length_append] at h3
      omega
  | cons r l1 ih =>
    cases l2 with
    | nil =>
      have := h1 r (List.mem_cons_self _ _)
      have h3 := congrArg List.length h
      simp only [List.flatten_nil, List.length_nil, List.flatten_cons, List.length_append] at h3
      omega
    | cons s l2 =>
      simp only [List.flatten_cons] at h
      have hlen : r.length = s.length := by
        rw [h1 r (List.mem_cons_self _ _), h2 s (List.mem_cons_self _ _)]
      obtain ⟨e1, e2⟩ := List.append_inj h hlen
      rw [e1, ih l2 (fun x hx => h1 x (List.mem_cons_of_mem _ hx))
        (fun x hx => h2 x (List.mem_cons_of_mem _ hx)) e2]

theorem EndsClean_drop (v : Str) (k : Nat) (h : EndsClean v) : EndsClean (v.drop k) := by
  unfold EndsClean at *
  intro hl
  apply h
  have hne : v.drop k ≠ [] := by
    intro e
    rw [e] at hl
    simp at hl
  have hsuf : v.drop k <:+ v := List.drop_suffix k v
  obtain ⟨u, hu⟩ := hsuf
  rw [← hu, List.getLast?_append_of_ne_nil _ hne]
  exact hl

theorem blank_of_mem_prefix_replicate (x : Str) (n : Nat) (y : Str)
    (h : x ++ y = List.replicate n ' ') : ∀ c ∈ x, c = ' ' := by
  intro c hc
  have : c ∈ List.replicate n ' ' := by
    rw [← h]
    exact List.mem_append_left _ hc
  exact List.eq_of_mem_replicate this

theorem eq_of_padRight_le (n : Nat) (a b : Str) (hb : EndsClean b)
    (hab : a.length ≤ b.length) (h : padRight n a = padRight n b) : a = b := by
  unfold padRight at h
  have h1 : a = b.take a.length := by
    have := congrArg (List.take a.length) h
    rw [List.take_left, List.take_append_of_le_length hab] at this
    exact this
  have h2 : List.replicate (n - a.length) ' ' =
      b.drop a.length ++ List.replicate (n - b.length) ' ' := by
    have := congrArg (List.drop a.length) h
    rw [List.drop_left, List.drop_append_of_le_length hab] at this
    exact this
  have h3 : ∀ c ∈ b.drop a.length, c = ' ' :=
    blank_of_mem_prefix_replicate _ _ _ h2.symm
  by_cases hd : b.drop a.length = []
  · have : b.length ≤ a.length := by
      have := congrArg List.length hd
      simp only [List.length_drop, List.length_nil] at this
      omega
    rw [h1, List.take_of_length_le this]
  · exfalso
    apply hb
    obtain ⟨u, hu⟩ := List.drop_suffix a.length b
    rw [← hu, List.getLast?_append_of_ne_nil _ hd, List.getLast?_eq_getLast _ hd]
    congr 1
    exact h3 _ (List.getLast_mem hd)

/-- Padding to the same width hides nothing of two values that do not end in a blank. -/
theorem eq_of_padRight (n : Nat) (a b : Str) (ha : EndsClean a) (hb : EndsClean b)
    (h : padRight n a = padRight n b) : a = b := by
  by_cases hab : a.length ≤ b.length
  · exact eq_of_padRight_le n a b hb hab h
  · exact (eq_of_padRight_le n b a ha (by omega) h.symm).symm

theorem length_padRight (n : Nat) (s : Str) : (padRight n s).length = max n s.length := by
  unfold padRight
  simp only [List.length_append, List.length_replicate]
  omega

end message

namespace meta

/-! ## Widths of names and columns -/

theorem le_lenName (data : List Field) (f : Field) (hf : f ∈ data) :
    f.Name.length ≤ lenName data := by
  unfold lenName
  have gen : ∀ (fs : List Field) (a : Nat),
      a ≤ fs.foldl (fun n field => if n < field.Name.length then field.Name.length else n) a ∧
      ∀ g ∈ fs, g.Name.length ≤
        fs.foldl (fun n field => if n < field.Name.length then field.Name.length else n) a := by
    intro fs
    induction fs with
    | nil => intro a; simp
    | cons x fs ih =>
      intro a
      rw [List.foldl_cons]
      have hstep : a ≤ (if a < x.Name.length then x.Name.length else a) ∧
          x.Name.length ≤ (if a < x.Name.length then x.Name.length else a) := by
        split <;> omega
      refine ⟨le_trans hstep.1 (ih _).1, ?_⟩
      intro g hg
      rcases List.mem_cons.1 hg with e | e
      · rw [e]
        exact le_trans hstep.2 (ih _).1
      · exact (ih _).2 g e
  exact (gen data 0).2 f hf

theorem widthOfValues_bounds (w : Nat) (vals : List Str) (o : Option Nat) (ho : o.getD 0 ≤ w) :
    (vals.foldl (widthStep w) o).getD 0 ≤ w ∧
    o.getD 0 ≤ (vals.foldl (widthStep w) o).getD 0 ∧
    ∀ v ∈ vals, min w v.length ≤ (vals.foldl (widthStep w) o).getD 0 := by
  induction vals generalizing o with
  | nil => exact ⟨ho, le_refl _, by simp⟩
  | cons v vs ih =>
    rw [List.foldl_cons]
    have hstep : (widthStep w o v).getD 0 ≤ w ∧ o.getD 0 ≤ (widthStep w o v).getD 0 ∧
        min w v.length ≤ (widthStep w o v).getD 0 := by
      unfold widthStep
      split
      · split
        · simp only [Option.getD_some]; omega
        · simp only [Option.getD_some]; omega
      · omega
    obtain ⟨i1, i2, i3⟩ := ih _ hstep.1
    refine ⟨i1, le_trans hstep.2.1 i2, ?_⟩
    intro x hx
    rcases List.mem_cons.1 hx with e | e
    · rw [e]
      exact le_trans hstep.2.2 i2
    · exact i3 x e

theorem floorName_ge (name : Str) (o : Option Nat) :
    o.getD 0 ≤ (floorName name o).getD 0 ∧
    ((floorName name o).getD 0 ≠ 0 → name.length ≤ (floorName name o).getD 0) := by
  cases o with
  | none => simp [floorName]
  | some n =>
    unfold floorName
    by_cases h0 : n = 0
    · simp [h0]
    · simp only [h0, if_false]
      split
      · simp only [Option.getD_some]; omega
      · simp only [Option.getD_some]; omega

/-- A displayed column is as wide as its values, up to `ColumnWidth`. -/
theorem min_le_shownWidth (t : Table) (c : Str) (hc : c ∈ t.Headers) (f : Field)
    (hf : f ∈ t.Data) : min t.ColumnWidth (f.Column.get c).length ≤ shownWidth t c := by
  unfold shownWidth
  rw [alookup_lenColumns t c hc]
  refine le_trans ?_ (floorName_ge c _).1
  unfold widthOfValues
  apply (widthOfValues_bounds t.ColumnWidth (columnValues t.Data c) none (Nat.zero_le _)).2.2
  unfold columnValues
  exact List.mem_map_of_mem (fun field => field.Column.get c) hf

/-- A displayed column is as wide as its name. -/
theorem name_le_shownWidth (t : Table) (c : Str) (hc : c ∈ t.Headers)
    (hn : shownWidth t c ≠ 0) : c.length ≤ shownWidth t c := by
  unfold shownWidth at *
  rw [alookup_lenColumns t c hc] at *
  exact (floorName_ge c _).2 hn

/-! ## Tables with the same layout -/

theorem SameLayout.rowText {t1 t2 : Table} (h : SameLayout t1 t2) (name : Str)
    (vals : Str → Str) : rowText t1 name vals = rowText t2 name vals := by
  obtain ⟨h1, h2, h3, h4⟩ := h
  unfold meta.rowText
  rw [h1, ← h3]
  congr 2
  apply List.map_congr_left
  intro c hc
  unfold cellText
  rw [h4 c hc, h2]

theorem SameLayout.overflows {t1 t2 : Table} (h : SameLayout t1 t2) (vals : Str → Str) :
    overflows t1 vals = overflows t2 vals := by
  obtain ⟨_, h2, h3, _⟩ := h
  unfold meta.overflows
  rw [h3, h2]

theorem SameLayout.cutRows {t1 t2 : Table} (h : SameLayout t1 t2) (fuel : Nat) (name : Str)
    (vals : Str → Str) : cutRows t1 fuel name vals = cutRows t2 fuel name vals := by
  induction fuel generalizing name vals with
  | zero => simp only [meta.cutRows, h.rowText]
  | succ fuel ih =>
    simp only [meta.cutRows, h.rowText, h.overflows, h.2.1, ih]

theorem SameLayout.headerLine_eq {t1 t2 : Table} (h : SameLayout t1 t2) :
    headerLine t1 = headerLine t2 := by
  obtain ⟨h1, _, h3, h4⟩ := h
  rw [headerLine_eq_cells, headerLine_eq_cells, h1, ← h3]
  congr 3
  apply List.map_congr_left
  intro c hc
  rw [h4 c hc]

end meta

namespace message

open meta

/-! ## The rows of a table with one displayed column -/

theorem rowText_single (T : Table) (c : Str) (hs : shownColumns T = [c]) (name : Str)
    (vals : Str → Str) :
    rowText T name vals = padRight (lenName T.Data) name ++
      ([' ', Delim, ' '] ++ padRight (shownWidth T c) ((vals c).take T.ColumnWidth)) := by
  unfold rowText
  rw [hs]
  simp [cellText]

theorem overflows_single (T : Table) (c : Str) (hs : shownColumns T = [c])
    (vals : Str → Str) : overflows T vals = decide ((vals c).length > T.ColumnWidth) := by
  unfold overflows
  rw [hs]
  simp

theorem cutRows_ne_nil (T : Table) (fuel : Nat) (name : Str) (vals : Str → Str) :
    cutRows T fuel name vals ≠ [] := by
  cases fuel <;> simp [cutRows]

theorem cutRows_single (T : Table) (c : Str) (hs : shownColumns T = [c]) (fuel : Nat)
    (name : Str) (vals : Str → Str) (hlen : (vals c).length ≤ fuel + T.ColumnWidth) :
    cutRows T fuel name vals = rowText T name vals ::
      (if (vals c).length > T.ColumnWidth then
        cutRows T (fuel - 1) [] (fun x => (vals x).drop T.ColumnWidth)
       else []) := by
  cases fuel with
  | zero =>
    have : ¬ (vals c).length > T.ColumnWidth := by omega
    simp only [cutRows, this, if_false]
  | succ fuel =>
    simp only [cutRows, overflows_single T c hs, decide_eq_true_eq, Nat.add_sub_cancel]

theorem cell_eq_of_rowText_eq (T : Table) (c : Str) (hs : shownColumns T = [c]) (name : Str)
    (v1 v2 : Str → Str) (h : rowText T name v1 = rowText T name v2) :
    padRight (shownWidth T c) ((v1 c).take T.ColumnWidth) =
      padRight (shownWidth T c) ((v2 c).take T.ColumnWidth) := by
  rw [rowText_single T c hs, rowText_single T c hs] at h
  exact List.append_cancel_left (List.append_cancel_left h)

/-- In a table with one displayed column the rows of a field determine its value, when
    the value does not end in a blank. -/
theorem cutRows_single_inj (T : Table) (c : Str) (hs : shownColumns T = [c])
    (hw : 0 < T.ColumnWidth) (fuel1 fuel2 : Nat) (name : Str) (v1 v2 : Str → Str)
    (hl1 : (v1 c).length ≤ fuel1 + T.ColumnWidth) (hl2 : (v2 c).length ≤ fuel2 + T.ColumnWidth)
    (hn1 : min T.ColumnWidth (v1 c).length ≤ shownWidth T c)
    (hn2 : min T.ColumnWidth (v2 c).length ≤ shownWidth T c)
    (hc1 : EndsClean (v1 c)) (hc2 : EndsClean (v2 c))
    (h : cutRows T fuel1 name v1 = cutRows T fuel2 name v2) : v1 c = v2 c := by
  induction fuel1 generalizing fuel2 name v1 v2 with
  | zero =>
    rw [cutRows_single T c hs 0 name v1 hl1, cutRows_single T c hs fuel2 name v2 hl2] at h
    obtain ⟨hrow, htail⟩ := List.cons.inj h
    have g1 : ¬ (v1 c).length > T.ColumnWidth := by omega
    simp only [g1, if_false] at htail
    have g2 : ¬ (v2 c).length > T.ColumnWidth := by
      intro g
      simp only [g, if_true] at htail
      exact cutRows_ne_nil _ _ _ _ htail.symm
    have hcell := cell_eq_of_rowText_eq T c hs name v1 v2 hrow
    rw [List.take_of_length_le (by omega), List.take_of_length_le (by omega)] at hcell
    exact eq_of_padRight _ _ _ hc1 hc2 hcell
  | succ fuel1 ih =>
    rw [cutRows_single T c hs (fuel1 + 1) name v1 hl1,
      cutRows_single T c hs fuel2 name v2 hl2] at h
    obtain ⟨hrow, htail⟩ := List.cons.inj h
    have hcell := cell_eq_of_rowText_eq T c hs name v1 v2 hrow
    by_cases g1 : (v1 c).length > T.ColumnWidth
    · simp only [g1, if_true, Nat.add_sub_cancel] at htail
      have g2 : (v2 c).length > T.ColumnWidth := by
        by_contra g
        simp only [g, if_false] at htail
        exact cutRows_ne_nil _ _ _ _ htail
      simp only [g2, if_true] at htail
      have hdrop := ih (fuel2 - 1) [] (fun x => (v1 x).drop T.ColumnWidth)
        (fun x => (v2 x).drop T.ColumnWidth)
        (by simp only [List.length_drop]; omega)
        (by simp only [List.length_drop]; omega)
        (by simp only [List.length_drop]; omega)
        (by simp only [List.length_drop]; omega)
        (EndsClean_drop _ _ hc1) (EndsClean_drop _ _ hc2) htail
      simp only at hdrop
      have htake : (v1 c).take T.ColumnWidth = (v2 c).take T.ColumnWidth := by
        unfold padRight at hcell
        have e1 : ((v1 c).take T.ColumnWidth).length = T.ColumnWidth := by
          rw [List.length_take]; omega
        have e2 : ((v2 c).take T.ColumnWidth).length = T.ColumnWidth := by
          rw [List.length_take]; omega
        rw [e1, e2] at hcell
        exact List.append_cancel_right hcell
      rw [← List.take_append_drop T.ColumnWidth (v1 c),
        ← List.take_append_drop T.ColumnWidth (v2 c), htake, hdrop]
    · simp only [g1, if_false] at htail
      have g2 : ¬ (v2 c).length > T.ColumnWidth := by
        intro g
        simp only [g, if_true] at htail
        exact cutRows_ne_nil _ _ _ _ htail.symm
      rw [List.take_of_length_le (by omega), List.take_of_length_le (by omega)] at hcell
      exact eq_of_padRight _ _ _ hc1 hc2 hcell

/-- The rows of a field in a table with one displayed column all have the same length. -/
theorem length_cutRows_single (T : Table) (c : Str) (hs : shownColumns T = [c])
    (fuel : Nat) (name : Str) (vals : Str → Str) (hname : name.length ≤ lenName T.Data)
    (hn : min T.ColumnWidth (vals c).length ≤ shownWidth T c) :
    ∀ r ∈ cutRows T fuel name vals, r.length = lenName T.Data + 3 + shownWidth T c := by
  have hrow : ∀ (nm : Str) (vs : Str → Str), nm.length ≤ lenName T.Data →
      min T.ColumnWidth (vs c).length ≤ shownWidth T c →
      (rowText T nm vs).length = lenName T.Data + 3 + shownWidth T c := by
    intro nm vs h1 h2
    rw [rowText_single T c hs]
    simp only [List.length_append, length_padRight, List.length_cons, List.length_nil,
      List.length_take]
    omega
  induction fuel generalizing name vals with
  | zero =>
    intro r hr
    simp only [cutRows, List.mem_singleton] at hr
    rw [hr]
    exact hrow name vals hname hn
  | succ fuel ih =>
    intro r hr
    simp only [cutRows, List.mem_cons] at hr
    rcases hr with hr | hr
    · rw [hr]
      exact hrow name vals hname hn
    · split at hr
      · exact ih [] (fun x => (vals x).drop T.ColumnWidth) (Nat.zero_le _)
          (by simp only [List.length_drop]; omega) r hr
      · cases hr

end message

namespace message

open meta

/-! ## The text of the checksum table determines the current values -/

theorem shownColumns_checksumTable (t : Table) :
    shownColumns (checksumTable t) =
      if shownWidth (checksumTable t) JiraNewColumn ≠ 0 then [JiraNewColumn] else [] := by
  unfold shownColumns
  simp only [checksumTable, List.filter_cons, List.filter_nil]
  split <;> simp_all

theorem length_headerLine_checksumTable (t : Table) :
    (headerLine (checksumTable t)).length =
      max (lenName (checksumTable t).Data) 4 +
        (if shownWidth (checksumTable t) JiraNewColumn ≠ 0 then
          3 + shownWidth (checksumTable t) JiraNewColumn else 0) := by
  rw [headerLine_eq_cells, shownColumns_checksumTable]
  have h4 : ("Name".toList).length = 4 := rfl
  by_cases h : shownWidth (checksumTable t) JiraNewColumn ≠ 0
  · have hge := name_le_shownWidth (checksumTable t) JiraNewColumn (by simp [checksumTable]) h
    have h7 : JiraNewColumn.length = 7 := rfl
    rw [if_pos h, if_pos h]
    simp only [List.map_cons, List.map_nil, List.flatten_cons, List.flatten_nil,
      List.length_append, length_padRight, List.length_cons, List.length_nil, List.append_nil]
    omega
  · rw [if_neg h, if_neg h]
    simp only [List.map_nil, List.flatten_nil, List.append_nil, length_padRight]
    omega

theorem fieldFuel_checksumTable (t : Table) (f : Field) :
    fieldFuel (checksumTable t) f = (f.Column.get JiraNewColumn).length := by
  simp [fieldFuel, checksumTable]

theorem newline_not_mem_headerLine_checksumTable (t : Table) :
    '\n' ∉ headerLine (checksumTable t) := by
  apply newline_not_mem_headerLine
  intro c hc
  rw [shownColumns_checksumTable] at hc
  split at hc
  · rw [List.mem_singleton] at hc
    rw [hc]
    decide
  · cases hc

theorem String_checksumTable (t : Table) :
    (checksumTable t).String =
      ['#', ' '] ++ (headerLine (checksumTable t) ++ '\n' ::
        (([dashes (headerLine (checksumTable t)).length]
          ++ (t.Data.map (fun f => cutRows (checksumTable t)
                (f.Column.get JiraNewColumn).length f.Name f.Column.get)).flatten
          ++ [dashes (headerLine (checksumTable t)).length]).map
            (fun s => ['#', ' '] ++ s ++ ['\n'])).flatten) := by
  unfold Table.String
  rw [Write_eq]
  have hf : (fun f => cutRows (checksumTable t) (fieldFuel (checksumTable t) f) f.Name
      f.Column.get) = (fun f => cutRows (checksumTable t)
      (f.Column.get JiraNewColumn).length f.Name f.Column.get) := by
    funext f
    rw [fieldFuel_checksumTable]
  rw [hf]
  have hp : (checksumTable t).pfx = ['#', ' '] := rfl
  have hd : (checksumTable t).Data = t.Data := rfl
  rw [hp, hd]
  simp only [List.cons_append, List.nil_append, List.map_cons, List.flatten_cons,
    List.append_assoc, List.singleton_append]

end message

namespace message

open meta

theorem map_wrap_injective (l1 l2 : List Str)
    (h : l1.map (fun s => ['#', ' '] ++ s ++ ['\n']) = l2.map (fun s => ['#', ' '] ++ s ++ ['\n'])) :
    l1 = l2 := by
  induction l1 generalizing l2 with
  | nil =>
    cases l2 with
    | nil => rfl
    | cons y l2 => simp at h
  | cons x l1 ih =>
    cases l2 with
    | nil => simp at h
    | cons y l2 =>
      simp only [List.map_cons, List.cons.injEq] at h
      have e : x = y := List.append_cancel_left (List.append_cancel_right h.1)
      rw [e, ih l2 h.2]

/-- The text of the checksum table determines the `Current` value of every field, when
    the values do not end in a blank. -/
theorem checksumTable_String_inj (t1 t2 : Table) (before after : List Field) (f1 f2 : Field)
    (hd1 : t1.Data = before ++ f1 :: after) (hd2 : t2.Data = before ++ f2 :: after)
    (hname : f1.Name = f2.Name)
    (hc1 : EndsClean (f1.Column.get JiraNewColumn))
    (hc2 : EndsClean (f2.Column.get JiraNewColumn))
    (h : (checksumTable t1).String = (checksumTable t2).String) :
    f1.Column.get JiraNewColumn = f2.Column.get JiraNewColumn := by
  have hmem1 : f1 ∈ (checksumTable t1).Data := by
    show f1 ∈ t1.Data
    rw [hd1]; simp
  have hmem2 : f2 ∈ (checksumTable t2).Data := by
    show f2 ∈ t2.Data
    rw [hd2]; simp
  have hcol1 : JiraNewColumn ∈ (checksumTable t1).Headers := by simp [checksumTable]
  have hcol2 : JiraNewColumn ∈ (checksumTable t2).Headers := by simp [checksumTable]
  have hln : lenName (checksumTable t1).Data = lenName (checksumTable t2).Data := by
    apply lenName_eq_of_names
    show t1.Data.map (fun f => f.Name) = t2.Data.map (fun f => f.Name)
    rw [hd1, hd2]
    simp only [List.map_append, List.map_cons, hname]
  rw [String_checksumTable, String_checksumTable] at h
  have h2 := List.append_cancel_left h
  have hhl : headerLine (checksumTable t1) = headerLine (checksumTable t2) :=
    eq_of_append_newline _ _ _ _ (newline_not_mem_headerLine_checksumTable t1)
      (newline_not_mem_headerLine_checksumTable t2) h2
  have hwidth : shownWidth (checksumTable t1) JiraNewColumn =
      shownWidth (checksumTable t2) JiraNewColumn := by
    have := congrArg List.length hhl
    rw [length_headerLine_checksumTable, length_headerLine_checksumTable, hln] at this
    split at this <;> split at this <;> omega
  by_cases hz : shownWidth (checksumTable t1) JiraNewColumn = 0
  · rw [hidden_column_empty (checksumTable t1) (by simp [checksumTable]) _ hcol1 hz f1 hmem1,
      hidden_column_empty (checksumTable t2) (by simp [checksumTable]) _ hcol2
        (hwidth ▸ hz) f2 hmem2]
  · have hz2 : shownWidth (checksumTable t2) JiraNewColumn ≠ 0 := hwidth ▸ hz
    have hs1 : shownColumns (checksumTable t1) = [JiraNewColumn] := by
      rw [shownColumns_checksumTable, if_pos hz]
    have hs2 : shownColumns (checksumTable t2) = [JiraNewColumn] := by
      rw [shownColumns_checksumTable, if_pos hz2]
    have hlay : SameLayout (checksumTable t2) (checksumTable t1) := by
      refine ⟨hln.symm, rfl, by rw [hs1, hs2], ?_⟩
      intro c hc
      rw [hs2, List.mem_singleton] at hc
      rw [hc, hwidth]
    rw [hhl] at h2
    have h3 := List.cons.inj (List.append_cancel_left h2)
    have h4 := h3.2
    have hrows : (fun f : Field => cutRows (checksumTable t2)
        (f.Column.get JiraNewColumn).length f.Name f.Column.get) =
        (fun f : Field => cutRows (checksumTable t1)
        (f.Column.get JiraNewColumn).length f.Name f.Column.get) := by
      funext f
      exact hlay.cutRows _ _ _
    rw [hrows, hd1, hd2] at h4
    have hsplit : ∀ (d : Str) (g : Field → List Str) (f : Field),
        (([d] ++ ((before ++ f :: after).map g).flatten ++ [d]).map
          (fun s => ['#', ' '] ++ s ++ ['\n'])).flatten =
        ((([d] ++ (before.map g).flatten).map (fun s => ['#', ' '] ++ s ++ ['\n'])).flatten ++
          ((g f).map (fun s => ['#', ' '] ++ s ++ ['\n'])).flatten) ++
          (((after.map g).flatten ++ [d]).map (fun s => ['#', ' '] ++ s ++ ['\n'])).flatten := by
      intro d g f
      simp only [List.map_append, List.flatten_append, List.map_cons, List.flatten_cons,
        List.append_assoc, List.map_nil, List.flatten_nil]
    rw [hsplit, hsplit] at h4
    have h6 := List.append_cancel_left (List.append_cancel_right h4)
    have hw1 := min_le_shownWidth (checksumTable t1) JiraNewColumn hcol1 f1 hmem1
    have hw2 := min_le_shownWidth (checksumTable t2) JiraNewColumn hcol2 f2 hmem2
    rw [← hwidth] at hw2
    have hW : (checksumTable t1).ColumnWidth = (checksumTable t2).ColumnWidth := rfl
    rw [← hW] at hw2
    have hl1 := le_lenName _ f1 hmem1
    have hl2 : f2.Name.length ≤ lenName (checksumTable t1).Data := by
      rw [← hname]; exact hl1
    have h7 := flatten_inj_of_length
      (2 + (lenName (checksumTable t1).Data + 3 + shownWidth (checksumTable t1) JiraNewColumn) + 1)
      (by omega) _ _
      (fun r hr => by
        rw [List.mem_map] at hr
        obtain ⟨x, hx, rfl⟩ := hr
        have := length_cutRows_single (checksumTable t1) JiraNewColumn hs1 _ _ _ hl1 hw1 x hx
        simp only [List.length_append, List.length_cons, List.length_nil, this])
      (fun r hr => by
        rw [List.mem_map] at hr
        obtain ⟨x, hx, rfl⟩ := hr
        have := length_cutRows_single (checksumTable t1) JiraNewColumn hs1 _ _ _ hl2 hw2 x hx
        simp only [List.length_append, List.length_cons, List.length_nil, this])
      h6
    have h8 := map_wrap_injective _ _ h7
    rw [← hname] at h8
    exact cutRows_single_inj (checksumTable t1) JiraNewColumn hs1 (by simp [checksumTable])
      _ _ f1.Name f1.Column.get f2.Column.get (by omega) (by omega) hw1 hw2 hc1 hc2 h8

end message

namespace message

open meta examples

theorem getBodyReader_checksumMail (m : Mail) :
    getBodyReader (checksumMail m) =
      (JiraStart ++ "\n# This block will be automatically deleted from the text.\n".toList) ++
      ((match m.Meta with
        | some t =>
          if t.Data.length > 0 then ['#', '\n'] ++ (checksumTable t).String ++ ['#', '\n']
          else []
        | none => []) ++
      (JiraEnd ++ ['\n', '\n'] ++ (m.Body.map (fun s => s ++ ['\n'])).flatten)) := by
  unfold getBodyReader checksumMail
  cases m.Meta with
  | none => simp only [Option.map_none', List.append_assoc]
  | some t =>
    simp only [Option.map_some', List.append_assoc]
    rfl

theorem checksumInput_current (m1 m2 : Mail) (t1 t2 : Table) (before after : List Field)
    (f1 f2 : Field) (hm1 : m1.Meta = some t1) (hm2 : m2.Meta = some t2)
    (hd1 : t1.Data = before ++ f1 :: after) (hd2 : t2.Data = before ++ f2 :: after)
    (hname : f1.Name = f2.Name)
    (hne : f1.Column.get JiraNewColumn ≠ f2.Column.get JiraNewColumn)
    (hc1 : EndsClean (f1.Column.get JiraNewColumn))
    (hc2 : EndsClean (f2.Column.get JiraNewColumn))
    (hheader : m1.Header = m2.Header) (hbody : m1.Body = m2.Body) :
    checksumInput m1 ≠ checksumInput m2 := by
  intro h
  apply hne
  apply checksumTable_String_inj t1 t2 before after f1 f2 hd1 hd2 hname hc1 hc2
  unfold checksumInput writeMessage at h
  have e1 : (checksumMail m1).Header = (checksumMail m2).Header := by
    simp only [checksumMail, hheader]
  rw [e1, getBodyReader_checksumMail, getBodyReader_checksumMail, hm1, hm2, hbody] at h
  have l1 : t1.Data.length > 0 := by rw [hd1]; simp
  have l2 : t2.Data.length > 0 := by rw [hd2]; simp
  simp only [l1, l2, if_true] at h
  have h2 := List.append_cancel_left (List.append_cancel_left h)
  have h3 := List.append_cancel_right h2
  have h4 := List.append_cancel_right h3
  exact List.append_cancel_left h4

theorem checksumInput_body (m1 m2 : Mail) (before after : List Str) (l1 l2 : Str)
    (hb1 : m1.Body = before ++ l1 :: after) (hb2 : m2.Body = before ++ l2 :: after)
    (hne : l1 ≠ l2) (hheader : m1.Header = m2.Header) (hmeta : m1.Meta = m2.Meta) :
    checksumInput m1 ≠ checksumInput m2 := by
  intro h
  apply hne
  unfold checksumInput writeMessage at h
  have e1 : (checksumMail m1).Header = (checksumMail m2).Header := by
    simp only [checksumMail, hheader]
  rw [e1, getBodyReader_checksumMail, getBodyReader_checksumMail, hmeta, hb1, hb2] at h
  have h2 := List.append_cancel_left (List.append_cancel_left (List.append_cancel_left
    (List.append_cancel_left h)))
  simp only [List.map_append, List.map_cons, List.flatten_append, List.flatten_cons] at h2
  have h3 := List.append_cancel_left h2
  have h4 := List.append_cancel_right h3
  exact List.append_cancel_right h4

end message

namespace message

open meta examples

theorem sortNames_nodup (l : List Str) (h : l.Nodup) : (sortNames l).Nodup := by
  unfold sortNames
  exact (List.perm_insertionSort _ l).nodup_iff.2 h

theorem mem_sortNames (l : List Str) (k : Str) : k ∈ sortNames l ↔ k ∈ l := by
  unfold sortNames
  exact (List.perm_insertionSort _ l).mem_iff

theorem flatten_map_congr_mem {α : Type} (g1 g2 : α → Str) (l : List α)
    (h : ∀ x ∈ l, g1 x = g2 x) : (l.map g1).flatten = (l.map g2).flatten := by
  rw [List.map_congr_left h]

theorem checksumInput_header (m1 m2 : Mail) (k : Str) (before after : List Str) (v1 v2 : Str)
    (hk : k ≠ XChecksum)
    (hv1 : m1.Header.find k = some (before ++ v1 :: after))
    (hv2 : m2.Header.find k = some (before ++ v2 :: after))
    (hne : v1 ≠ v2) (hrest : ∀ k2, k2 ≠ k → m1.Header.find k2 = m2.Header.find k2)
    (hbody : m1.Body = m2.Body) (hmeta : m1.Meta = m2.Meta) :
    checksumInput m1 ≠ checksumInput m2 := by
  intro h
  apply hne
  have hperm : (dropChecksum m1.Header).keys.Perm (dropChecksum m2.Header).keys := by
    unfold GoMap.keys
    rw [List.perm_ext_iff_of_nodup (dropChecksum m1.Header).nodup (dropChecksum m2.Header).nodup]
    intro x
    rw [mem_akeys_iff, mem_akeys_iff]
    have e1 := find_dropChecksum m1.Header x
    have e2 := find_dropChecksum m2.Header x
    unfold GoMap.find at e1 e2 hrest hv1 hv2
    rw [e1, e2]
    by_cases hx : x = XChecksum
    · simp [hx]
    · simp only [hx, if_false]
      by_cases hxk : x = k
      · rw [hxk, hv1, hv2]
        simp
      · rw [hrest x hxk]
  have hsort := sortNames_eq_of_perm _ _ hperm
  have hkmem : k ∈ sortNames (dropChecksum m1.Header).keys := by
    rw [mem_sortNames]
    unfold GoMap.keys
    rw [mem_akeys_iff]
    have e1 := find_dropChecksum m1.Header k
    unfold GoMap.find at e1 hv1
    rw [e1, if_neg hk, hv1]
    simp
  have hnd : (sortNames (dropChecksum m1.Header).keys).Nodup :=
    sortNames_nodup _ (dropChecksum m1.Header).nodup
  obtain ⟨n1, n2, hsplit⟩ := List.append_of_mem hkmem
  rw [hsplit] at hnd
  have hk1 : k ∉ n1 := by
    intro hm
    have := List.nodup_append.1 hnd
    exact this.2.2 hm (List.mem_cons_self _ _)
  have hk2 : k ∉ n2 := by
    have := (List.nodup_append.1 hnd).2.1
    exact (List.nodup_cons.1 this).1
  have hblock : ∀ name, name ≠ k →
      ((((dropChecksum m1.Header).find name).getD []).map (fun value =>
        name ++ [':', ' '] ++ value ++ ['\n'])).flatten =
      ((((dropChecksum m2.Header).find name).getD []).map (fun value =>
        name ++ [':', ' '] ++ value ++ ['\n'])).flatten := by
    intro name hn
    rw [find_dropChecksum, find_dropChecksum]
    by_cases hx : name = XChecksum
    · simp [hx]
    · simp only [hx, if_false, hrest name hn]
  have hb1 : (dropChecksum m1.Header).find k = some (before ++ v1 :: after) := by
    rw [find_dropChecksum, if_neg hk, hv1]
  have hb2 : (dropChecksum m2.Header).find k = some (before ++ v2 :: after) := by
    rw [find_dropChecksum, if_neg hk, hv2]
  unfold checksumInput writeMessage at h
  have e1 : getBodyReader (checksumMail m1) = getBodyReader (checksumMail m2) := by
    rw [getBodyReader_checksumMail, getBodyReader_checksumMail, hmeta, hbody]
  rw [e1] at h
  have h2 := List.append_cancel_right h
  unfold writeMIMEHeader at h2
  have h3 := List.append_cancel_right h2
  have hh1 : (checksumMail m1).Header = dropChecksum m1.Header := rfl
  have hh2 : (checksumMail m2).Header = dropChecksum m2.Header := rfl
  rw [hh1, hh2, ← hsort, hsplit] at h3
  simp only [List.map_append, List.map_cons, List.flatten_append, List.flatten_cons, hb1, hb2,
    Option.getD_some] at h3
  rw [flatten_map_congr_mem _ _ n1 (fun x hx => hblock x (fun e => hk1 (e ▸ hx))),
    flatten_map_congr_mem _ _ n2 (fun x hx => hblock x (fun e => hk2 (e ▸ hx)))] at h3
  have h4 := List.append_cancel_right (List.append_cancel_left h3)
  have h5 := List.append_cancel_right (List.append_cancel_left h4)
  exact List.append_cancel_left (List.append_cancel_right h5)

end message

namespace message

open meta examples

set_option maxRecDepth 100000 in
/-- C4 (counterexample). Two mails that differ only in the `Current` value of the field
    `Status`, `Open` against `Open` followed by a blank: the bytes that `MakeChecksum`
    hashes are the same, because the cell is padded with blanks to the column width. -/
theorem checksum_blind_to_trailing_blank :
    mailOpen.Meta.map (fun t => t.Get "Status".toList JiraNewColumn) = some "Open".toList ∧
    mailOpenBlank.Meta.map (fun t => t.Get "Status".toList JiraNewColumn) =
      some "Open ".toList ∧
    mailOpen.Header.entries = mailOpenBlank.Header.entries ∧
    mailOpen.Body = mailOpenBlank.Body ∧
    checksumInput mailOpen = checksumInput mailOpenBlank := by
  decide

/-- C4 (amended). Checksum sensitivity: for any two mails that are equal except in one
    place, which is the `Current` value of one table field (neither of the two values
    ending in a blank), or one body line, or one value of one header other than
    `X-Checksum`, the byte sequence that `MakeChecksum` feeds to SHA-256 is different; so
    the checksum is different for every hash function without collision. -/
theorem checksumInput_sensitive (m1 m2 : Mail) (h : OneChange m1 m2) :
    checksumInput m1 ≠ checksumInput m2 ∧
    ∀ sha256 : Str → Str, Function.Injective sha256 →
      MakeChecksum sha256 m1 ≠ MakeChecksum sha256 m2 := by
  have hne : checksumInput m1 ≠ checksumInput m2 := by
    cases h with
    | current t1 t2 before after f1 f2 hm1 hm2 hd1 hd2 hname hne hc1 hc2 hheader hbody =>
      exact checksumInput_current m1 m2 t1 t2 before after f1 f2 hm1 hm2 hd1 hd2 hname hne
        hc1 hc2 hheader hbody
    | body before after l1 l2 hb1 hb2 hne hheader hmeta =>
      exact checksumInput_body m1 m2 before after l1 l2 hb1 hb2 hne hheader hmeta
    | header k before after v1 v2 hk hv1 hv2 hne hrest hbody hmeta =>
      exact checksumInput_header m1 m2 k before after v1 v2 hk hv1 hv2 hne hrest hbody hmeta
  refine ⟨hne, ?_⟩
  intro sha256 hinj heq
  unfold MakeChecksum at heq
  exact hne (hinj (List.append_cancel_left heq))

theorem OneChange_mailOpen_mailClosed : OneChange mailOpen mailClosed :=
  OneChange.current
    (Table.zero.Set "Status".toList JiraNewColumn "Open".toList)
    (Table.zero.Set "Status".toList JiraNewColumn "Closed".toList) [] []
    ⟨"Status".toList, GoMap.single JiraNewColumn "Open".toList⟩
    ⟨"Status".toList, GoMap.single JiraNewColumn "Closed".toList⟩
    rfl rfl rfl rfl rfl (by decide) (by decide) (by decide) rfl rfl

/-- C4 (witness). The current value of `Status` changes from `Open` to `Closed`. -/
theorem checksumInput_sensitive_witness :
    OneChange mailOpen mailClosed ∧ checksumInput mailOpen ≠ checksumInput mailClosed :=
  ⟨OneChange_mailOpen_mailClosed,
   (checksumInput_sensitive mailOpen mailClosed OneChange_mailOpen_mailClosed).1⟩

end message

namespace meta

/-! ## The field names that the parser reads from the rows -/

theorem map_name_modifyAt (g : Field → Field) (hg : ∀ f, (g f).Name = f.Name) (i : Nat)
    (data : List Field) :
    (modifyAt g i data).map (fun f => f.Name) = data.map (fun f => f.Name) := by
  induction data generalizing i with
  | nil => cases i <;> rfl
  | cons f fs ih =>
    cases i with
    | zero => simp only [modifyAt, List.map_cons, hg]
    | succ i => simp only [modifyAt, List.map_cons, ih]

/-- One row without name is scanned: the field names stay. -/
theorem scan_names_continuation_row (t : Table) (hne : shownColumns t ≠ [])
    (vals : Str → Str) (p : Parser) (T : Table) (i : Nat)
    (hc : p.closed = false) (hl : 2 ≤ p.lines) (hh : p.headers = shownColumns t)
    (ht : p.table = some T) (hlast : p.lastfield = some (FieldRef.row i)) :
    ∃ q T2, p.Scan (rowText t [] vals) = some (q, true) ∧ q.closed = false ∧ 2 ≤ q.lines ∧
      q.err = p.err ∧ q.headers = p.headers ∧ q.table = some T2 ∧
      T2.Data.map (fun f => f.Name) = T.Data.map (fun f => f.Name) ∧
      q.lastfield = p.lastfield := by
  have hname := rowField_rowText_name t p.headers [] vals (by simp)
  rw [TrimSpace_nil] at hname
  have _ := hh
  have hscan := Scan_continuation p i (rowText t [] vals) hc hl
    (delim_mem_rowText t [] vals hne) hlast hname
  by_cases hov : hasOverflow p.headers
      (rowField p.headers (splitDelim (TrimSpace (rowText t [] vals)))) = true
  · refine ⟨_, appendToRow p.headers
      (rowField p.headers (splitDelim (TrimSpace (rowText t [] vals)))) i T,
      hscan, rfl, by simp; omega, rfl, rfl, ?_, ?_, rfl⟩
    · simp only [hov, if_true, ht, Option.map_some']
    · exact map_name_modifyAt (appendToField p.headers
        (rowField p.headers (splitDelim (TrimSpace (rowText t [] vals))))) (fun _ => rfl) i T.Data
  · refine ⟨_, T, hscan, rfl, by simp; omega, rfl, rfl, ?_, rfl, rfl⟩
    simp only [hov, Bool.false_eq_true, if_false, ht]

/-- All rows without name of a field are scanned: the field names stay. -/
theorem scan_names_continuation_rows (t : Table) (hne : shownColumns t ≠ []) (fuel : Nat)
    (vals : Str → Str) (p : Parser) (T : Table) (i : Nat)
    (hc : p.closed = false) (hl : 2 ≤ p.lines) (hh : p.headers = shownColumns t)
    (ht : p.table = some T) (hlast : p.lastfield = some (FieldRef.row i)) :
    ∃ q T2, scanAll p (cutRows t fuel [] vals) = some q ∧ q.closed = false ∧ 2 ≤ q.lines ∧
      q.err = p.err ∧ q.headers = p.headers ∧ q.table = some T2 ∧
      T2.Data.map (fun f => f.Name) = T.Data.map (fun f => f.Name) ∧
      q.lastfield = p.lastfield := by
  induction fuel generalizing vals p T with
  | zero =>
    obtain ⟨q, T2, h1, h2, h3, h4, h5, h6, h7, h8⟩ :=
      scan_names_continuation_row t hne vals p T i hc hl hh ht hlast
    refine ⟨q, T2, ?_, h2, h3, h4, h5, h6, h7, h8⟩
    simp only [cutRows, scanAll, h1]
  | succ fuel ih =>
    obtain ⟨q, T2, h1, h2, h3, h4, h5, h6, h7, h8⟩ :=
      scan_names_continuation_row t hne vals p T i hc hl hh ht hlast
    by_cases hov : overflows t vals = true
    · obtain ⟨q2, T3, k1, k2, k3, k4, k5, k6, k7, k8⟩ :=
        ih (fun c => (vals c).drop t.ColumnWidth) q T2 h2 h3 (h5.trans hh) h6 (h8.trans hlast)
      refine ⟨q2, T3, ?_, k2, k3, k4.trans h4, k5.trans h5, k6, k7.trans h7, k8.trans h8⟩
      simp only [cutRows, hov, if_true, scanAll, h1, k1]
    · refine ⟨q, T2, ?_, h2, h3, h4, h5, h6, h7, h8⟩
      simp only [cutRows, hov, Bool.false_eq_true, if_false, scanAll, h1]

end meta

namespace meta

/-- The rows of one field are scanned: its name is appended to the field names. -/
theorem scan_names_field_rows (t : Table) (hne : shownColumns t ≠ []) (fuel : Nat)
    (f : Field) (p : Parser) (T : Table)
    (hc : p.closed = false) (hl : 2 ≤ p.lines) (hh : p.headers = shownColumns t)
    (ht : p.table = some T)
    (hname : f.Name ≠ [] ∧ TrimSpace f.Name = f.Name ∧ '|' ∉ f.Name)
    (hnew : hasField T.Data f.Name = false) :
    ∃ q T2, scanAll p (cutRows t fuel f.Name f.Column.get) = some q ∧ q.closed = false ∧
      2 ≤ q.lines ∧ q.err = p.err ∧ q.headers = p.headers ∧ q.table = some T2 ∧
      T2.Data.map (fun g => g.Name) = T.Data.map (fun g => g.Name) ++ [f.Name] := by
  have rname := rowField_rowText_name t p.headers f.Name f.Column.get hname.2.2
  rw [hname.2.1] at rname
  have hfirst := Scan_named p T (rowText t f.Name f.Column.get) hc hl
    (delim_mem_rowText t _ _ hne) ht (by rw [rname]; exact hname.1)
    (by rw [rname]; exact hnew)
  have happ : (T.Append (rowField p.headers
      (splitDelim (TrimSpace (rowText t f.Name f.Column.get))))).Data.map (fun g => g.Name) =
      T.Data.map (fun g => g.Name) ++ [f.Name] := by
    unfold Table.Append
    rw [rname, hnew]
    simp only [Bool.false_eq_true, if_false, List.map_append, List.map_cons, List.map_nil, rname]
  have hrest : ∀ fuel2, ∃ q T2, scanAll ⟨p.lines + 1, p.err, false, p.headers,
        some (T.Append (rowField p.headers
          (splitDelim (TrimSpace (rowText t f.Name f.Column.get))))),
        some (FieldRef.row T.Data.length)⟩
        (if overflows t f.Column.get then
          cutRows t fuel2 [] (fun c => (f.Column.get c).drop t.ColumnWidth) else []) = some q ∧
      q.closed = false ∧ 2 ≤ q.lines ∧ q.err = p.err ∧ q.headers = p.headers ∧
      q.table = some T2 ∧
      T2.Data.map (fun g => g.Name) = T.Data.map (fun g => g.Name) ++ [f.Name] := by
    intro fuel2
    by_cases hov : overflows t f.Column.get = true
    · obtain ⟨q, T2, k1, k2, k3, k4, k5, k6, k7, _⟩ :=
        scan_names_continuation_rows t hne fuel2 (fun c => (f.Column.get c).drop t.ColumnWidth)
          ⟨p.lines + 1, p.err, false, p.headers,
            some (T.Append (rowField p.headers
              (splitDelim (TrimSpace (rowText t f.Name f.Column.get))))),
            some (FieldRef.row T.Data.length)⟩ _ T.Data.length rfl
          (by simp only; omega) hh rfl rfl
      refine ⟨q, T2, ?_, k2, k3, k4, k5, k6, k7.trans happ⟩
      simp only [hov, if_true, k1]
    · refine ⟨⟨p.lines + 1, p.err, false, p.headers,
          some (T.Append (rowField p.headers
            (splitDelim (TrimSpace (rowText t f.Name f.Column.get))))),
          some (FieldRef.row T.Data.length)⟩, _, ?_, rfl, by simp only; omega, rfl, rfl, rfl,
        happ⟩
      simp only [hov, Bool.false_eq_true, if_false, scanAll]
  cases fuel with
  | zero =>
    refine ⟨⟨p.lines + 1, p.err, false, p.headers,
        some (T.Append (rowField p.headers
          (splitDelim (TrimSpace (rowText t f.Name f.Column.get))))),
        some (FieldRef.row T.Data.length)⟩, _, ?_, rfl, ?_, rfl, rfl, rfl, happ⟩
    · simp only [cutRows, scanAll, hfirst]
    · simp only
      omega
  | succ fuel =>
    obtain ⟨q, T2, k1, k2, k3, k4, k5, k6, k7⟩ := hrest fuel
    refine ⟨q, T2, ?_, k2, k3, k4, k5, k6, k7⟩
    simp only [cutRows, scanAll, hfirst, k1]

/-- The rows of all fields are scanned: their names are appended in order. -/
theorem scan_names_data_rows (t : Table) (hne : shownColumns t ≠ []) (fs : List Field)
    (p : Parser) (T : Table)
    (hc : p.closed = false) (hl : 2 ≤ p.lines) (hh : p.headers = shownColumns t)
    (ht : p.table = some T)
    (hdist : (T.Data.map (fun g => g.Name) ++ fs.map (fun g => g.Name)).Nodup)
    (hname : ∀ f ∈ fs, f.Name ≠ [] ∧ TrimSpace f.Name = f.Name ∧ '|' ∉ f.Name) :
    ∃ q T2, scanAll p ((fs.map (fun f =>
        cutRows t (fieldFuel t f) f.Name f.Column.get)).flatten) = some q ∧
      q.closed = false ∧ 2 ≤ q.lines ∧ q.err = p.err ∧ q.headers = p.headers ∧
      q.table = some T2 ∧
      T2.Data.map (fun g => g.Name) = T.Data.map (fun g => g.Name) ++ fs.map (fun g => g.Name) := by
  induction fs generalizing p T with
  | nil =>
    exact ⟨p, T, rfl, hc, hl, rfl, rfl, ht, by simp⟩
  | cons f fs ih =>
    have hf := List.mem_cons_self f fs
    have hnew : hasField T.Data f.Name = false := by
      unfold hasField
      rw [List.any_eq_false]
      intro g hg
      simp only [decide_eq_true_eq]
      intro e
      rw [List.nodup_append] at hdist
      exact hdist.2.2 (List.mem_map_of_mem (fun g => g.Name) hg)
        (by rw [e]; exact List.mem_map_of_mem (fun g => g.Name) hf)
    obtain ⟨q1, T1, a1, a2, a3, a4, a5, a6, a7⟩ :=
      scan_names_field_rows t hne (fieldFuel t f) f p T hc hl hh ht (hname f hf) hnew
    obtain ⟨q2, T2, b1, b2, b3, b4, b5, b6, b7⟩ :=
      ih q1 T1 a2 a3 (a5.trans hh) a6
        (by
          rw [a7, List.append_assoc]
          exact hdist)
        (fun g hg => hname g (List.mem_cons_of_mem _ hg))
    refine ⟨q2, T2, ?_, b2, b3, b4.trans a4, b5.trans a5, b6, ?_⟩
    · rw [List.map_cons, List.flatten_cons, scanAll_append, a1]
      exact b1
    · rw [b7, a7, List.append_assoc]
      rfl

/-- The column names that the parser reads from the header line. -/
theorem headerNames_headerLine (t : Table) (hcols : ∀ c ∈ shownColumns t, NameSafe c) :
    headerNames 1 ((splitDelim (TrimSpace (headerLine t))).drop 1) = shownColumns t := by
  have hpieces : ((splitDelim (TrimSpace (headerLine t))).drop 1).map TrimSpace =
      shownColumns t := by
    rw [List.map_drop, map_TrimSpace_splitDelim_TrimSpace,
      splitDelim_headerLine t (fun c hc => (hcols c hc).2.2.1)]
    simp only [List.drop_succ_cons, List.drop_zero]
    conv_rhs => rw [← List.map_id (shownColumns t)]
    apply List.map_congr_left
    intro c hc
    exact (hcols c hc).2.1
  rw [headerNames_of_nonempty, hpieces]
  intro v hv
  have : TrimSpace v ∈ shownColumns t := by
    rw [← hpieces]
    exact List.mem_map_of_mem TrimSpace hv
  exact (hcols _ this).1

/-- The whole text of a table is scanned: the parser ends closed, without error, with a
    table of the same field names. -/
theorem scan_names_table (t : Table) (hne : shownColumns t ≠ [])
    (hcols : ∀ c ∈ shownColumns t, NameSafe c)
    (hdist : (t.Data.map (fun g => g.Name)).Nodup)
    (hname : ∀ f ∈ t.Data, NameSafe f.Name) :
    ∃ q T, scanAll NewParser (tableLines t) = some q ∧ q.closed = true ∧ q.err = none ∧
      q.table = some T ∧ T.Data.map (fun g => g.Name) = t.Data.map (fun g => g.Name) := by
  have hd : '|' ∈ headerLine t := delim_mem_headerLine t hne
  have hlen : (headerLine t).length ≠ 0 := by
    intro h0
    rw [List.length_eq_zero] at h0
    rw [h0] at hd
    cases hd
  obtain ⟨q, T, b1, b2, b3, b4, _, b6, b7⟩ :=
    scan_names_data_rows t hne t.Data
      ⟨2, none, false, shownColumns t, some ⟨[], ColumnWidth, shownColumns t, []⟩, none⟩
      ⟨[], ColumnWidth, shownColumns t, []⟩ rfl (le_refl 2) rfl rfl
      (by simpa using hdist)
      (fun f hf => ⟨(hname f hf).1, (hname f hf).2.1, (hname f hf).2.2.1⟩)
  refine ⟨⟨q.lines + 1, q.err, true, q.headers, q.table, q.lastfield⟩, T, ?_, rfl, b4, b6,
    by simpa using b7⟩
  have e : tableLines t = headerLine t :: dashes (headerLine t).length ::
      ((t.Data.map (fun f => cutRows t (fieldFuel t f) f.Name f.Column.get)).flatten
        ++ [dashes (headerLine t).length]) := by
    simp [tableLines]
  rw [e]
  unfold scanAll
  rw [Scan_first _ hd, headerNames_headerLine t hcols]
  simp only
  unfold scanAll
  rw [Scan_separator _ _ rfl rfl hlen]
  simp only
  rw [scanAll_append, b1]
  simp only [Option.some_bind, scanAll, Scan_last q _ b2 b3 hlen]

end meta

namespace message

open meta

/-! ## ReadMail on the lines of a stored table -/

theorem Scan_congr_TrimSpace (p : Parser) (a b : Str) (h : TrimSpace a = TrimSpace b) :
    p.Scan a = p.Scan b := by
  unfold Parser.Scan
  rw [h]

theorem Scan_err_none (p q : Parser) (s : Str) (b : Bool) (h : p.Scan s = some (q, b))
    (hq : q.err = none) : p.err = none := by
  unfold Parser.Scan at h
  simp only at h
  split_ifs at h
  all_goals try split at h
  all_goals first
    | (simp only [Option.some.injEq, Prod.mk.injEq] at h
       obtain ⟨rfl, _⟩ := h
       first
         | exact hq
         | (simp at hq))
    | (simp at h)

theorem scanAll_err_none (p q : Parser) (ls : List Str) (h : scanAll p ls = some q)
    (hq : q.err = none) : p.err = none := by
  induction ls generalizing p with
  | nil =>
    simp only [scanAll, Option.some.injEq] at h
    rw [h]
    exact hq
  | cons l ls ih =>
    unfold scanAll at h
    cases hs : p.Scan l with
    | none => rw [hs] at h; cases h
    | some r =>
      rw [hs] at h
      exact Scan_err_none p r.1 l r.2 hs (ih r.1 h)

theorem rdropWhile_decomp (p : Char → Bool) (x : Str) :
    ∃ sp, x = x.rdropWhile p ++ sp ∧ ∀ c ∈ sp, p c = true := by
  induction x using List.reverseRecOn with
  | nil => exact ⟨[], by simp, by simp⟩
  | append_singleton xs a ih =>
    by_cases ha : p a = true
    · obtain ⟨sp, h1, h2⟩ := ih
      refine ⟨sp ++ [a], ?_, ?_⟩
      · rw [List.rdropWhile_concat_pos _ _ _ ha, ← List.append_assoc, ← h1]
      · intro c hc
        rcases List.mem_append.1 hc with h | h
        · exact h2 c h
        · rw [List.mem_singleton.1 h]
          exact ha
    · exact ⟨[], by rw [List.rdropWhile_concat_neg _ _ _ ha, List.append_nil], by simp⟩

/-- Trimming a line that starts with the comment sign keeps the sign; what follows it
    trims to the same text as before. -/
theorem TrimSpace_hash_cons (x : Str) :
    ∃ y, TrimSpace ('#' :: x) = '#' :: y ∧ TrimSpace y = TrimSpace x := by
  obtain ⟨sp, h1, h2⟩ := rdropWhile_decomp isSpace x
  refine ⟨x.rdropWhile isSpace, ?_, ?_⟩
  · have hh : isSpace '#' = false := by decide
    have e1 : TrimSpace ('#' :: x) = ('#' :: x).rdropWhile isSpace := by
      unfold TrimSpace
      rw [List.dropWhile_cons_of_neg (by simp [hh])]
    rw [e1]
    have e2 : '#' :: x = ('#' :: x.rdropWhile isSpace) ++ sp := by
      rw [List.cons_append, ← h1]
    rw [e2, rdropWhile_append_of_all _ _ _ h2, List.rdropWhile_eq_self_iff]
    have h3 := (List.rdropWhile_eq_self_iff (p := isSpace) (l := x.rdropWhile isSpace)).1
      (List.rdropWhile_idempotent isSpace x)
    generalize x.rdropWhile isSpace = c at h3
    intro hne
    cases c with
    | nil => simp [hh]
    | cons a as =>
      rw [List.getLast_cons (List.cons_ne_nil a as)]
      exact h3 (List.cons_ne_nil a as)
  · conv_rhs => rw [h1]
    rw [TrimSpace_append_spaces _ _ h2]

theorem TrimPrefix_of_not_hash (s q : Str) (hs : HasPrefix s ['#'] = true)
    (hq : HasPrefix q ['#'] = false) : TrimPrefix s q = s := by
  unfold TrimPrefix
  cases q with
  | nil => simp [HasPrefix]
  | cons c cs =>
    cases s with
    | nil => simp [HasPrefix] at hs
    | cons d ds =>
      simp only [HasPrefix, List.isPrefixOf, Bool.and_true, beq_iff_eq, Bool.and_eq_true,
        Bool.and_eq_false_imp] at hs hq ⊢
      have : ¬ (c = d) := by
        intro e
        rw [e] at hq
        exact absurd hs (by simpa using hq)
      simp [this]

theorem foldl_TrimPrefix_of_not_hash (quotes : List Str) (s : Str)
    (hs : HasPrefix s ['#'] = true) (hq : ∀ q ∈ quotes, HasPrefix q ['#'] = false) :
    quotes.foldl TrimPrefix s = s := by
  induction quotes with
  | nil => rfl
  | cons q qs ih =>
    rw [List.foldl_cons, TrimPrefix_of_not_hash s q hs (hq q (List.mem_cons_self _ _))]
    exact ih (fun x hx => hq x (List.mem_cons_of_mem _ hx))

end message

namespace message

open meta

/-- A line of the stored table is read: `ReadMail` hands the text after the comment sign
    to the parser, which sees the line of the table. -/
theorem readLine_table_line (cfg : MailConfig) (hq : ∀ q ∈ cfg.MailQuote, HasPrefix q ['#'] = false)
    (st : ReadState) (l : Str) (hmeta : st.ismeta = true)
    (hm : syncer.isMarker ('#' :: ' ' :: l) = false) (q : Parser) (b : Bool)
    (hscan : st.metaparser.Scan l = some (q, b)) (herr : q.err = none) :
    readLine cfg st ('#' :: ' ' :: l) = some (Except.ok { st with metaparser := q }) := by
  obtain ⟨y, hy1, hy2⟩ := TrimSpace_hash_cons (' ' :: l)
  have hy3 : TrimSpace y = TrimSpace l := by
    rw [hy2]
    exact TrimSpace_spaces_append [' '] l (fun c hc => by
      rw [List.mem_singleton.1 hc]
      exact isSpace_blank)
  unfold syncer.isMarker at hm
  rw [Bool.or_eq_false_iff] at hm
  obtain ⟨hm1, hm2⟩ := hm
  rw [hy1] at hm1 hm2
  have hp : HasPrefix ('#' :: y) ['#'] = true := by simp [HasPrefix]
  have htp : TrimPrefix ('#' :: y) ['#'] = y := by simp [TrimPrefix, HasPrefix]
  have hs : st.metaparser.Scan y = some (q, b) := by
    rw [Scan_congr_TrimSpace _ y l hy3]
    exact hscan
  unfold readLine
  simp only [hm1, hm2, Bool.false_eq_true, if_false, hy1,
    foldl_TrimPrefix_of_not_hash cfg.MailQuote _ hp hq, hmeta, if_true, hp, Bool.not_true, htp,
    hs, Parser.Error, herr]
  cases b <;> simp

theorem readLines_append (cfg : MailConfig) (st st2 : ReadState) (xs ys : List Str)
    (h : readLines cfg st xs = some (Except.ok st2)) :
    readLines cfg st (xs ++ ys) = readLines cfg st2 ys := by
  induction xs generalizing st with
  | nil =>
    simp only [readLines, Option.some.injEq, Except.ok.injEq] at h
    rw [h]
    rfl
  | cons x xs ih =>
    unfold readLines at h
    rw [List.cons_append]
    conv_lhs => unfold readLines
    cases hr : readLine cfg st x with
    | none => rw [hr] at h; cases h
    | some r =>
      cases r with
      | error e => rw [hr] at h; simp at h
      | ok s1 =>
        rw [hr] at h
        exact ih s1 h

/-- The lines of the stored table are read: what the parser makes of the lines of the
    table is what `ReadMail` has in its parser afterwards. -/
theorem readLines_table_lines (cfg : MailConfig)
    (hq : ∀ q ∈ cfg.MailQuote, HasPrefix q ['#'] = false) (ls : List Str) (st : ReadState)
    (hmeta : st.ismeta = true) (hm : ∀ l ∈ ls, syncer.isMarker ('#' :: ' ' :: l) = false)
    (q : Parser) (h : scanAll st.metaparser ls = some q) (herr : q.err = none) :
    readLines cfg st (ls.map (fun l => '#' :: ' ' :: l)) =
      some (Except.ok { st with metaparser := q }) := by
  induction ls generalizing st with
  | nil =>
    simp only [scanAll, Option.some.injEq] at h
    subst h
    rfl
  | cons l ls ih =>
    unfold scanAll at h
    cases hs : st.metaparser.Scan l with
    | none => rw [hs] at h; cases h
    | some r =>
      rw [hs] at h
      have h1 := readLine_table_line cfg hq st l hmeta (hm l (List.mem_cons_self _ _)) r.1 r.2 hs
        (scanAll_err_none r.1 q ls h herr)
      rw [List.map_cons]
      unfold readLines
      rw [h1]
      exact ih { st with metaparser := r.1 } hmeta
        (fun x hx => hm x (List.mem_cons_of_mem _ hx)) h

/-- Once the parser is closed without error, no line changes it any more. -/
theorem readLines_closed (cfg : MailConfig) (ls : List Str) (st : ReadState)
    (hc : st.metaparser.closed = true) (he : st.metaparser.err = none) :
    ∃ st2, readLines cfg st ls = some (Except.ok st2) ∧ st2.metaparser = st.metaparser := by
  induction ls generalizing st with
  | nil => exact ⟨st, rfl, rfl⟩
  | cons l ls ih =>
    have h1 : ∃ st1, readLine cfg st l = some (Except.ok st1) ∧
        st1.metaparser = st.metaparser := by
      unfold readLine
      simp only [Scan_closed st.metaparser hc, Parser.Error, he, Bool.not_false, if_true]
      split_ifs <;> exact ⟨_, rfl, rfl⟩
    obtain ⟨st1, h2, h3⟩ := h1
    obtain ⟨st2, h4, h5⟩ := ih st1 (by rw [h3]; exact hc) (by rw [h3]; exact he)
    refine ⟨st2, ?_, h5.trans h3⟩
    unfold readLines
    rw [h2]
    exact h4

end message

namespace syncer

open meta message

/-! ## Reading back the stored copy -/

theorem splitLines_flatten_append (ls : List Str) (rest : Str) (h : ∀ l ∈ ls, '\n' ∉ l) :
    splitLines ((ls.map (fun l => l ++ ['\n'])).flatten ++ rest) = ls ++ splitLines rest := by
  induction ls with
  | nil => rfl
  | cons l ls ih =>
    simp only [List.map_cons, List.flatten_cons, List.append_assoc, List.singleton_append,
      List.cons_append]
    rw [splitLines_append_newline l _ (h l (List.mem_cons_self _ _)), List.nil_append,
      ih (fun x hx => h x (List.mem_cons_of_mem _ hx))]

theorem NameSafe_storage_column (t : Table) (n : Nat) (c : Str)
    (hc : c ∈ shownColumns (storageTable t n)) : NameSafe c := by
  have hmem := ((mem_shownColumns _ c).1 hc).1
  simp only [storageTable, Table.WithPrefix, List.mem_cons, List.mem_singleton,
    List.not_mem_nil, or_false] at hmem
  rcases hmem with h | h | h <;> (rw [h]; decide)

theorem Write_storageTable (t : Table) (n : Nat) :
    (storageTable t n).Write =
      ((tableLines (storageTable t n)).map (fun l => '#' :: ' ' :: l)).map
        (fun l => l ++ ['\n']) := by
  rw [Write_eq]
  simp only [tableLines, storageTable, Table.WithPrefix, List.map_map]
  apply List.map_congr_left
  intro l _
  simp

theorem newline_not_mem_tableLines (t : Table) (n : Nat)
    (hname : ∀ f ∈ t.Data, NameSafe f.Name)
    (hv : ∀ f ∈ t.Data, ∀ c ∈ shownColumns (storageTable t n), '\n' ∉ f.Column.get c) :
    ∀ l ∈ tableLines (storageTable t n), '\n' ∉ l := by
  intro l hl
  simp only [tableLines, List.mem_append, List.mem_cons, List.mem_singleton, List.mem_flatten,
    List.mem_map, List.not_mem_nil, or_false] at hl
  rcases hl with ((e | e) | ⟨rows, ⟨f, hf, rfl⟩, hr⟩) | e
  · rw [e]
    exact newline_not_mem_headerLine _ (fun c hc => (NameSafe_storage_column t n c hc).2.2.2)
  · rw [e]
    exact newline_not_mem_dashes _
  · exact newline_not_mem_cutRows _ _ _ _ (hname f hf).2.2.2
      (fun c hc => hv f hf c hc) l hr
  · rw [e]
    exact newline_not_mem_dashes _

theorem isMarker_append_newline (l : Str) : isMarker (l ++ ['\n']) = isMarker l := by
  unfold isMarker
  rw [TrimSpace_append_spaces l ['\n'] (fun c hc => by
    rw [List.mem_singleton.1 hc]
    decide)]

theorem data_ne_nil_of_shown (t : Table) (h : shownColumns t ≠ []) : t.Data ≠ [] := by
  intro hd
  apply h
  cases hs : shownColumns t with
  | nil => rfl
  | cons c cs =>
    have hc : c ∈ shownColumns t := by rw [hs]; exact List.mem_cons_self _ _
    obtain ⟨k, hk, hk0⟩ := (shownWidth_ne_zero_iff t c).1 ((mem_shownColumns t c).1 hc).2
    rw [alookup_lenColumns t c ((mem_shownColumns t c).1 hc).1, hd] at hk
    simp [widthOfValues, floorName, columnValues] at hk

end syncer

namespace syncer

open meta message

/-- The lines of the stored copy of a mail with a table: the start marker, the notice,
    an empty comment line, the lines of the table as comment lines, and the rest. -/
theorem storedLines_eq (m : Mail) (t : Table) (n : Nat) (hm : m.Meta = some t)
    (hd : t.Data.length > 0)
    (hnl : ∀ l ∈ tableLines (storageTable t n), '\n' ∉ l) :
    ∃ rest, storedLines m n =
      [JiraStart, "# This block will be automatically deleted from the text.".toList, ['#']]
        ++ ((tableLines (storageTable t n)).map (fun l => '#' :: ' ' :: l) ++ rest) := by
  refine ⟨splitLines (['#', '\n'] ++ JiraEnd ++ ['\n', '\n']
    ++ (m.Body.map (fun s => s ++ ['\n'])).flatten), ?_⟩
  have hnl2 : ∀ l ∈ (tableLines (storageTable t n)).map (fun l => '#' :: ' ' :: l),
      '\n' ∉ l := by
    intro l hl
    rw [List.mem_map] at hl
    obtain ⟨x, hx, rfl⟩ := hl
    intro hmem
    simp only [List.mem_cons] at hmem
    rcases hmem with h | h | h
    · exact absurd h (by decide)
    · exact absurd h (by decide)
    · exact hnl x hx h
  unfold storedLines getBodyReader withStorageColumns
  simp only [hm, Option.map_some', hd, if_true, List.append_assoc]
  change splitLines (JiraStart ++ '\n' ::
    ("# This block will be automatically deleted from the text.".toList ++ '\n' ::
      (['#'] ++ '\n' :: ((storageTable t n).Write.flatten ++ _)))) = _
  rw [splitLines_append_newline _ _ (by decide), splitLines_append_newline _ _ (by decide),
    splitLines_append_newline _ _ (by decide), Write_storageTable,
    splitLines_flatten_append _ _ hnl2]
  rfl

theorem readLine_hash (cfg : MailConfig) (hq : ∀ q ∈ cfg.MailQuote, HasPrefix q ['#'] = false)
    (st : ReadState) (hmeta : st.ismeta = true) (hc : st.metaparser.closed = false) :
    readLine cfg st ['#'] = some (Except.ok st) := by
  obtain ⟨im, mp, body⟩ := st
  simp only at hmeta hc
  subst hmeta
  have h1 : TrimSpace ['#'] = ['#'] := by decide
  have hp : HasPrefix ['#'] ['#'] = true := by decide
  have h2 : mp.Scan (TrimPrefix ['#'] ['#']) = some (mp, true) := by
    unfold Parser.Scan
    have h3 : TrimSpace (TrimPrefix ['#'] ['#']) = [] := by decide
    simp [hc, h3]
  have hm1 : (decide (['#'] = JiraStart) || HasSuffix ['#'] ([' '] ++ JiraStart)) = false := by
    decide
  have hm2 : (decide (['#'] = JiraEnd) || HasSuffix ['#'] ([' '] ++ JiraEnd)) = false := by
    decide
  unfold readLine
  simp only [h1, hm1, hm2, Bool.false_eq_true, if_false,
    foldl_TrimPrefix_of_not_hash cfg.MailQuote _ hp hq, if_true, hp, Bool.not_true, h2]

theorem readLines_cons_ok (cfg : MailConfig) (st st2 : ReadState) (x : Str) (xs : List Str)
    (h : readLine cfg st x = some (Except.ok st2)) :
    readLines cfg st (x :: xs) = readLines cfg st2 xs := by
  conv_lhs => unfold readLines
  rw [h]

/-- `ReadMail` on the stored copy of a mail with a storable table: it returns a mail with
    the header block as written and a table with the same field names. -/
theorem readStored_names (cfg : MailConfig)
    (hq : ∀ q ∈ cfg.MailQuote, HasPrefix q ['#'] = false) (m : Mail) (t : Table)
    (hm : m.Meta = some t) (hst : Storable cfg.JiraTableColumnWidth t) :
    ∃ T body, readStored cfg m = some (Except.ok ⟨m.Header, some T, body⟩) ∧
      T.Data.map (fun f => f.Name) = t.Data.map (fun f => f.Name) := by
  obtain ⟨k1, k2, k3, k4, k5⟩ := hst
  have hd : t.Data.length > 0 := by
    have := data_ne_nil_of_shown (storageTable t cfg.JiraTableColumnWidth) k1
    exact List.length_pos.2 this
  obtain ⟨rest, hlines⟩ := storedLines_eq m t cfg.JiraTableColumnWidth hm hd
    (newline_not_mem_tableLines t _ k3 k4)
  obtain ⟨q, T, s1, s2, s3, s4, s5⟩ :=
    scan_names_table (storageTable t cfg.JiraTableColumnWidth) k1
      (NameSafe_storage_column t _) k2 k3
  have hmark : ∀ l ∈ tableLines (storageTable t cfg.JiraTableColumnWidth),
      isMarker ('#' :: ' ' :: l) = false := by
    intro l hl
    rw [← isMarker_append_newline]
    apply k5
    rw [Write_storageTable, List.map_map]
    exact List.mem_map_of_mem _ hl
  have r1 : readLine cfg ⟨false, NewParser, []⟩ JiraStart =
      some (Except.ok ⟨true, NewParser, []⟩) := by rfl
  have r2 : readLine cfg ⟨true, NewParser, []⟩
      "# This block will be automatically deleted from the text.".toList =
      some (Except.ok ⟨true, NewParser, []⟩) :=
    readLine_table_line cfg hq ⟨true, NewParser, []⟩
      "This block will be automatically deleted from the text.".toList rfl (by decide)
      NewParser true (by rfl) rfl
  have r3 := readLine_hash cfg hq ⟨true, NewParser, []⟩ rfl rfl
  have r4 := readLines_table_lines cfg hq _ ⟨true, NewParser, []⟩ rfl hmark q s1 s3
  obtain ⟨st2, r5, r6⟩ := readLines_closed cfg rest ⟨true, q, []⟩ s2 s3
  have hall : readLines cfg ⟨false, NewParser, []⟩ (storedLines m cfg.JiraTableColumnWidth) =
      some (Except.ok st2) := by
    rw [hlines, List.cons_append, List.cons_append, List.cons_append, List.nil_append,
      readLines_cons_ok cfg _ _ _ _ r1, readLines_cons_ok cfg _ _ _ _ r2,
      readLines_cons_ok cfg _ _ _ _ r3, readLines_append cfg _ _ _ _ r4]
    exact r5
  refine ⟨{ T with ColumnWidth := cfg.JiraTableColumnWidth }, st2.Body, ?_, s5⟩
  unfold readStored ReadMail
  rw [hall]
  simp only [Parser.Table, r6, s4, Option.map_some']

end syncer

namespace syncer

open meta message

/-! ## The names and the Current values after the diff loop -/

theorem names_currentOf (data : List Field) :
    (currentOf data).map Prod.fst = data.map (fun f => f.Name) := by
  simp [currentOf]

theorem values_currentOf (data : List Field) :
    (currentOf data).map Prod.snd = columnValues data JiraNewColumn := by
  simp [currentOf, columnValues]

theorem setColumnsLoop_currentOf (name c v : Str) (hc : c ≠ JiraNewColumn)
    (data data2 : List Field) (h : setColumnsLoop name (GoMap.single c v) data = some data2) :
    currentOf data2 = currentOf data ∧ name ∈ data.map (fun f => f.Name) := by
  induction data generalizing data2 with
  | nil => simp [setColumnsLoop] at h
  | cons f rest ih =>
    unfold setColumnsLoop at h
    by_cases h1 : f.Name = name
    · simp only [ne_eq, h1, not_true_eq_false, if_false, Option.some.injEq] at h
      subst h
      refine ⟨?_, by simp [h1]⟩
      simp only [currentOf, List.map_cons, mergeColumns_single, GoMap.get_set, hc, if_false, h1]
    · simp only [ne_eq, h1, not_false_eq_true, if_true, Option.map_eq_some'] at h
      obtain ⟨r, hr, hd⟩ := h
      subst hd
      obtain ⟨i1, i2⟩ := ih r hr
      refine ⟨?_, List.mem_cons_of_mem _ i2⟩
      simp only [currentOf, List.map_cons] at i1 ⊢
      rw [i1]

theorem not_mem_names_of_hasField (data : List Field) (name : Str)
    (h : hasField data name = false) : name ∉ data.map (fun f => f.Name) := by
  intro hmem
  rw [List.mem_map] at hmem
  obtain ⟨f, hf, e⟩ := hmem
  unfold hasField at h
  rw [List.any_eq_false] at h
  exact h f hf (by simp [e])

/-- A `Set` of another column than `Current`: a new name is appended with an empty
    `Current` value, nothing else changes among the names and the `Current` values. -/
theorem Set_currentOf (t : Table) (name c v : Str) (hc : c ≠ JiraNewColumn) :
    currentOf (t.Set name c v).Data = addName (currentOf t.Data) name := by
  unfold Table.Set Table.SetColumns addName
  rw [names_currentOf]
  cases h : setColumnsLoop name (GoMap.single c v) t.Data with
  | some data2 =>
    obtain ⟨h1, h2⟩ := setColumnsLoop_currentOf name c v hc t.Data data2 h
    simp only [h1, h2, if_true]
  | none =>
    have h1 := setColumnsLoop_none name _ t.Data h
    have h2 := not_mem_names_of_hasField t.Data name h1
    simp only [Table.Append, h1, Bool.false_eq_true, if_false, h2]
    simp only [currentOf, List.map_append, List.map_cons, List.map_nil, GoMap.single,
      GoMap.get_set, hc, if_false, GoMap.get_empty]

theorem addName_idem (acc : List (Str × Str)) (name : Str) :
    addName (addName acc name) name = addName acc name := by
  unfold addName
  by_cases h : name ∈ acc.map Prod.fst
  · simp only [h, if_true]
  · simp [h]

theorem diffField_currentOf (P M : Table) (field : Field) :
    currentOf (diffField P M field).Data = addName (currentOf M.Data) field.Name := by
  unfold diffField
  simp only
  rw [Set_currentOf _ _ _ _ (by decide)]
  split
  · rw [Set_currentOf _ _ _ _ (by decide), addName_idem]
  · rfl

theorem diffLoop_currentOf (P : Table) (fs : List Field) (M : Table) :
    currentOf (fs.foldl (diffField P) M).Data =
      (fs.map (fun f => f.Name)).foldl addName (currentOf M.Data) := by
  induction fs generalizing M with
  | nil => rfl
  | cons f fs ih =>
    rw [List.foldl_cons, ih, diffField_currentOf, List.map_cons, List.foldl_cons]

theorem foldl_addName_of_mem (ns : List Str) (acc : List (Str × Str))
    (h : ∀ n ∈ ns, n ∈ acc.map Prod.fst) : ns.foldl addName acc = acc := by
  induction ns with
  | nil => rfl
  | cons n ns ih =>
    rw [List.foldl_cons]
    have e : addName acc n = acc := by
      unfold addName
      simp only [h n (List.mem_cons_self _ _), if_true]
    rw [e]
    exact ih (fun x hx => h x (List.mem_cons_of_mem _ hx))

/-- The names that the diff loop appends are new and pairwise distinct. -/
theorem foldl_addName_eq (ns : List Str) (acc : List (Str × Str)) :
    ∃ ext : List Str, ns.foldl addName acc = acc ++ ext.map (fun n => (n, [])) ∧
      ext.Nodup ∧ ∀ n ∈ ext, n ∉ acc.map Prod.fst := by
  induction ns generalizing acc with
  | nil => exact ⟨[], by simp, List.nodup_nil, by simp⟩
  | cons n ns ih =>
    rw [List.foldl_cons]
    by_cases h : n ∈ acc.map Prod.fst
    · have e : addName acc n = acc := by
        unfold addName
        simp only [h, if_true]
      rw [e]
      exact ih acc
    · have e : addName acc n = acc ++ [(n, [])] := by
        unfold addName
        simp only [h, if_false]
      rw [e]
      obtain ⟨ext, h1, h2, h3⟩ := ih (acc ++ [(n, [])])
      refine ⟨n :: ext, ?_, ?_, ?_⟩
      · rw [h1]
        simp
      · rw [List.nodup_cons]
        refine ⟨?_, h2⟩
        intro hn
        exact h3 n hn (by simp)
      · intro x hx
        rcases List.mem_cons.1 hx with hx1 | hx1
        · rw [hx1]
          exact h
        · intro hmem
          exact h3 x hx1 (by
            rw [List.map_append, List.mem_append]
            exact Or.inl hmem)

theorem foldl_addName_ext (ext : List Str) (acc : List (Str × Str)) (hnd : ext.Nodup)
    (hnew : ∀ n ∈ ext, n ∉ acc.map Prod.fst) :
    ext.foldl addName acc = acc ++ ext.map (fun n => (n, [])) := by
  induction ext generalizing acc with
  | nil => simp
  | cons n ext ih =>
    rw [List.nodup_cons] at hnd
    have e : addName acc n = acc ++ [(n, [])] := by
      unfold addName
      simp only [hnew n (List.mem_cons_self _ _), if_false]
    rw [List.foldl_cons, e, ih (acc ++ [(n, [])]) hnd.2]
    · simp
    · intro x hx hmem
      rw [List.map_append, List.mem_append] at hmem
      rcases hmem with h | h
      · exact hnew x (List.mem_cons_of_mem _ hx) h
      · simp only [List.map_cons, List.map_nil, List.mem_singleton] at h
        rw [h] at hx
        exact hnd.1 hx

/-- Running the diff loop again with the names it produced gives the same names and
    `Current` values. -/
theorem foldl_addName_again (ns : List Str) (acc : List (Str × Str)) :
    ((ns.foldl addName acc).map Prod.fst).foldl addName acc = ns.foldl addName acc := by
  obtain ⟨ext, h1, h2, h3⟩ := foldl_addName_eq ns acc
  rw [h1, List.map_append, List.foldl_append, foldl_addName_of_mem _ _ (fun n hn => hn)]
  have e : (ext.map (fun n => ((n, []) : Str × Str))).map Prod.fst = ext := by
    rw [List.map_map]
    conv_rhs => rw [← List.map_id ext]
    apply List.map_congr_left
    intro n _
    rfl
  rw [e]
  exact foldl_addName_ext ext acc h2 h3

end syncer

namespace syncer

open meta message examples

/-- C6 (counterexample). A converted record with a custom field called `a|b`, no copy
    stored yet: the first pass stores the record, `ReadMail` reads the row back as a field
    `a`, the diff loop of the second pass appends a field `a` to the record, and the bytes
    that `MakeChecksum` hashes on the second pass are not those of the first pass; with a
    hash without collisions (here the identity) the checksum of the second pass is not
    the stored one, and `writeMessage` writes the record again. -/
theorem second_pass_differs_on_delimiter_name :
    diffMail none mailPipeName = some mailPipeName ∧
    (secondPass (fun s => s) defaultConfig none mailPipeName).map
      (fun p => fieldNames ((p.1.Meta).getD Table.zero)) =
        some ["a|b".toList, "a".toList] ∧
    (secondPass (fun s => s) defaultConfig none mailPipeName).map
      (fun p => decide (checksumInput p.1 = checksumInput mailPipeName)) = some false ∧
    (secondPass (fun s => s) defaultConfig none mailPipeName).map
      (fun p => decide (MakeChecksum (fun s => s) p.1 = p.2)) = some false := by
  refine ⟨rfl, ?_, ?_, ?_⟩ <;> decide

end syncer

namespace syncer

open meta message examples

theorem foldl_addName_added (ns : List Str) (acc : List (Str × Str)) :
    ns.foldl addName acc =
      acc ++ (addedNames (acc.map Prod.fst) ns).map (fun n => (n, [])) := by
  induction ns generalizing acc with
  | nil => simp [addedNames]
  | cons n ns ih =>
    rw [List.foldl_cons]
    by_cases h : n ∈ acc.map Prod.fst
    · have e : addName acc n = acc := by
        unfold addName
        simp only [h, if_true]
      rw [e, ih]
      simp only [addedNames, h, if_true]
    · have e : addName acc n = acc ++ [(n, [])] := by
        unfold addName
        simp only [h, if_false]
      rw [e, ih]
      simp only [addedNames, h, if_false, List.map_append, List.map_cons, List.map_nil,
        List.append_assoc, List.singleton_append]

theorem addedNames_of_subset (base ns : List Str) (h : ∀ n ∈ ns, n ∈ base) :
    addedNames base ns = [] := by
  induction ns with
  | nil => rfl
  | cons n ns ih =>
    simp only [addedNames, h n (List.mem_cons_self _ _), if_true]
    exact ih (fun x hx => h x (List.mem_cons_of_mem _ hx))

theorem eq_nil_of_addedNames_nil (ns : List Str) (h : addedNames [] ns = []) : ns = [] := by
  cases ns with
  | nil => rfl
  | cons n ns => simp [addedNames] at h

/-- The names of the stored copy, none when there is no copy. -/
theorem mailNames_eq (m : Mail) (t : Table) (h : m.Meta = some t) :
    mailNames m = t.Data.map (fun f => f.Name) := by
  unfold mailNames
  rw [h]
  rfl

/-- A record without table passes the diff block unchanged. -/
theorem diffMail_of_no_table (p : Option Mail) (r m : Mail) (hr : r.Meta = none)
    (h : diffMail p r = some m) : m = r := by
  unfold diffMail at h
  cases p with
  | none => simpa using h.symm
  | some pm =>
    simp only at h
    cases hpm : pm.Meta with
    | none =>
      rw [hpm] at h
      simpa using h.symm
    | some pt =>
      rw [hpm, hr] at h
      simp only at h
      split at h
      · simpa using h.symm
      · cases h

/-- What the diff block makes of a record with a table, whatever copy it finds: the
    header and the body stay, and the names and `Current` values are those of the record
    with the names of the copy added. -/
theorem diffMail_currentOf (p : Option Mail) (r : Mail) (tr : Table) (hr : r.Meta = some tr) :
    ∃ m t, diffMail p r = some m ∧ m.Meta = some t ∧ m.Header = r.Header ∧
      m.Body = r.Body ∧
      currentOf t.Data =
        List.foldl addName (currentOf tr.Data) ((p.map mailNames).getD []) := by
  unfold diffMail
  cases p with
  | none => exact ⟨r, tr, rfl, hr, rfl, rfl, rfl⟩
  | some pm =>
    simp only [Option.map_some', Option.getD_some]
    cases hpm : pm.Meta with
    | none =>
      refine ⟨r, tr, rfl, hr, rfl, rfl, ?_⟩
      simp [mailNames, hpm]
    | some pt =>
      simp only [hr]
      refine ⟨_, diffLoop pt tr, rfl, rfl, rfl, rfl, ?_⟩
      rw [mailNames_eq pm pt hpm]
      unfold diffLoop
      exact diffLoop_currentOf pt pt.Data tr

theorem readStored_header (cfg : MailConfig) (m p : Mail)
    (h : readStored cfg m = some (Except.ok p)) : p.Header = m.Header := by
  unfold readStored ReadMail at h
  split at h
  · cases h
  · cases h
  · simp only [Option.some.injEq, Except.ok.injEq] at h
    rw [← h]

end syncer
namespace syncer

open meta message examples

/-- The second pass when the names read back beyond those of the record are the names
    that the first pass added. -/
theorem second_pass_of_names (sha256 : Str → Str) (cfg : MailConfig) (prev0 : Option Mail)
    (r msg1 prev1 : Mail) (hfirst : diffMail prev0 r = some msg1)
    (hread : readStored cfg (stamp sha256 msg1) = some (Except.ok prev1))
    (hnames : addedNames (mailNames r) (mailNames prev1) =
      addedNames (mailNames r) (mailNames msg1)) :
    ∃ msg2, secondPass sha256 cfg prev0 r = some (msg2, MakeChecksum sha256 msg1) ∧
      MakeChecksum sha256 msg2 = MakeChecksum sha256 msg1 := by
  have hstored : prev1.HeaderChecksum = MakeChecksum sha256 msg1 := by
    unfold Mail.HeaderChecksum
    rw [readStored_header cfg _ _ hread]
    simp only [headerGet, stamp, GoMap.find_set, if_true]
  have hsecond : ∀ msg2, diffMail (some prev1) r = some msg2 →
      secondPass sha256 cfg prev0 r = some (msg2, MakeChecksum sha256 msg1) := by
    intro msg2 h2
    unfold secondPass
    rw [hfirst]
    simp only [hread, h2, hstored]
  cases hr : r.Meta with
  | none =>
    have e1 := diffMail_of_no_table prev0 r msg1 hr hfirst
    subst e1
    have hn : mailNames prev1 = [] := by
      have h0 : mailNames msg1 = [] := by simp [mailNames, hr]
      rw [h0] at hnames
      exact eq_nil_of_addedNames_nil _ (by simpa [addedNames] using hnames)
    refine ⟨msg1, hsecond msg1 ?_, rfl⟩
    cases hp : prev1.Meta with
    | none =>
      unfold diffMail
      simp only [hp]
    | some pt =>
      rw [mailNames_eq prev1 pt hp] at hn
      have : pt.Data.length = 0 := by
        rw [← List.length_map pt.Data (fun f => f.Name), hn]
        rfl
      unfold diffMail
      simp only [hp, hr, this, if_true]
  | some tr =>
    obtain ⟨m1, t1, a1, a2, a3, a4, a5⟩ := diffMail_currentOf prev0 r tr hr
    rw [hfirst] at a1
    simp only [Option.some.injEq] at a1
    subst a1
    obtain ⟨msg2, t2, b1, b2, b3, b4, b5⟩ := diffMail_currentOf (some prev1) r tr hr
    simp only [Option.map_some', Option.getD_some] at b5
    have hbase : (currentOf tr.Data).map Prod.fst = mailNames r := by
      rw [names_currentOf, mailNames_eq r tr hr]
    have hn1 : mailNames msg1 = (currentOf t1.Data).map Prod.fst := by
      rw [names_currentOf, mailNames_eq msg1 t1 a2]
    have hcur : currentOf t2.Data = currentOf t1.Data := by
      rw [b5, foldl_addName_added, hbase, hnames, ← hbase, ← foldl_addName_added, hn1, a5]
      exact foldl_addName_again _ _
    refine ⟨msg2, hsecond msg2 b1, ?_⟩
    unfold MakeChecksum
    rw [checksumInput_eq_of_current msg2 msg1 t2 t1 (fun k _ => by rw [b3, a3])
      (by rw [b4, a4]) b2 a2
      (by rw [← names_currentOf, hcur, names_currentOf])
      (by rw [← values_currentOf, hcur, values_currentOf])]

end syncer
namespace meta

/-! ## Texts without delimiter -/

/-- A fresh parser stays fresh on every line without delimiter. -/
theorem Scan_new_no_delim (u : Str) (h : '|' ∉ u) : NewParser.Scan u = some (NewParser, true) := by
  have h1 : containsDelim (TrimSpace u) = false := by
    cases hc : containsDelim (TrimSpace u) with
    | false => rfl
    | true => exact absurd (mem_of_mem_TrimSpace u '|' ((containsDelim_iff _).1 hc)) h
  unfold Parser.Scan
  by_cases h0 : (TrimSpace u).length = 0
  · simp [NewParser, h0]
  · simp [NewParser, h0, h1]

theorem delim_not_mem_rowText (t : Table) (hs : shownColumns t = []) (name : Str)
    (vals : Str → Str) (hn : '|' ∉ name) : '|' ∉ rowText t name vals := by
  unfold rowText
  rw [hs, List.map_nil, List.flatten_nil, List.append_nil]
  exact not_mem_padRight _ _ _ (by decide) hn

theorem delim_not_mem_cutRows (t : Table) (hs : shownColumns t = []) (fuel : Nat) (name : Str)
    (vals : Str → Str) (hn : '|' ∉ name) : ∀ r ∈ cutRows t fuel name vals, '|' ∉ r := by
  induction fuel generalizing name vals with
  | zero =>
    intro r hr
    simp only [cutRows, List.mem_singleton] at hr
    rw [hr]
    exact delim_not_mem_rowText t hs name vals hn
  | succ fuel ih =>
    intro r hr
    simp only [cutRows, List.mem_cons] at hr
    rcases hr with hr | hr
    · rw [hr]
      exact delim_not_mem_rowText t hs name vals hn
    · split at hr
      · exact ih [] (fun c => (vals c).drop t.ColumnWidth) (by simp) r hr
      · cases hr

theorem delim_not_mem_dashes (n : Nat) : '|' ∉ dashes n := by
  intro h
  have := List.eq_of_mem_replicate h
  exact absurd this (by decide)

/-- A table without displayed column and without delimiter in its field names is
    rendered without delimiter. -/
theorem delim_not_mem_tableLines (t : Table) (hs : shownColumns t = [])
    (hn : ∀ f ∈ t.Data, '|' ∉ f.Name) : ∀ l ∈ tableLines t, '|' ∉ l := by
  intro l hl
  simp only [tableLines, List.mem_append, List.mem_cons, List.mem_singleton, List.mem_flatten,
    List.mem_map, List.not_mem_nil, or_false] at hl
  rcases hl with ((e | e) | ⟨rows, ⟨f, hf, rfl⟩, hr⟩) | e
  · rw [e, headerLine_eq_cells, hs, List.map_nil, List.map_nil, List.flatten_nil,
      List.append_nil]
    exact not_mem_padRight _ _ _ (by decide) (by decide)
  · rw [e]
    exact delim_not_mem_dashes _
  · exact delim_not_mem_cutRows t hs _ _ _ (hn f hf) l hr
  · rw [e]
    exact delim_not_mem_dashes _

theorem splitLines_ne_nil_of_newline (x : Str) : splitLines (x ++ ['\n']) ≠ [] := by
  induction x with
  | nil => simp [splitLines]
  | cons c cs ih =>
    simp only [List.cons_append, splitLines]
    split
    · simp
    · split <;> simp

/-- The lines of a text after a newline are found apart from the lines before it. -/
theorem splitLines_append_of_newline (x y : Str) :
    splitLines (x ++ '\n' :: y) = splitLines (x ++ ['\n']) ++ splitLines y := by
  induction x with
  | nil => simp [splitLines]
  | cons c cs ih =>
    simp only [List.cons_append, splitLines, List.append_eq]
    by_cases hc : c = '\n'
    · simp only [hc, if_true, ih, List.cons_append]
    · simp only [hc, if_false, ih]
      cases h : splitLines (cs ++ ['\n']) with
      | nil => exact absurd h (splitLines_ne_nil_of_newline cs)
      | cons a as => rfl

theorem mem_of_mem_splitLines (s : Str) (l : Str) (hl : l ∈ splitLines s) (c : Char)
    (hc : c ∈ l) : c ∈ s := by
  induction s generalizing l with
  | nil => simp [splitLines] at hl
  | cons d ds ih =>
    simp only [splitLines] at hl
    by_cases hd : d = '\n'
    · simp only [hd, if_true, List.mem_cons] at hl
      rcases hl with hl | hl
      · rw [hl] at hc
        cases hc
      · exact List.mem_cons_of_mem _ (ih l hl hc)
    · simp only [hd, if_false] at hl
      cases h : splitLines ds with
      | nil =>
        rw [h] at hl
        simp only [List.mem_singleton] at hl
        rw [hl] at hc
        simp only [List.mem_singleton] at hc
        rw [hc]
        exact List.mem_cons_self _ _
      | cons a as =>
        rw [h] at hl
        simp only [List.mem_cons] at hl
        rcases hl with hl | hl
        · rw [hl] at hc
          rcases List.mem_cons.1 hc with e | e
          · rw [e]
            exact List.mem_cons_self _ _
          · exact List.mem_cons_of_mem _ (ih a (by rw [h]; exact List.mem_cons_self _ _) e)
        · exact List.mem_cons_of_mem _ (ih l (by rw [h]; exact List.mem_cons_of_mem _ hl) hc)

end meta

namespace message

open meta

theorem mem_of_mem_TrimPrefix (s q : Str) (c : Char) (h : c ∈ TrimPrefix s q) : c ∈ s := by
  unfold TrimPrefix at h
  split at h
  · exact List.mem_of_mem_drop h
  · exact h

theorem mem_of_mem_foldl_TrimPrefix (quotes : List Str) (s : Str) (c : Char)
    (h : c ∈ quotes.foldl TrimPrefix s) : c ∈ s := by
  induction quotes generalizing s with
  | nil => exact h
  | cons q qs ih => exact mem_of_mem_TrimPrefix s q c (ih _ h)

/-- A line without delimiter leaves the parser of `ReadMail` fresh. -/
theorem readLine_no_delim (cfg : MailConfig) (st : ReadState) (l : Str)
    (hp : st.metaparser = NewParser) (hl : '|' ∉ l) :
    ∃ st2, readLine cfg st l = some (Except.ok st2) ∧ st2.metaparser = NewParser := by
  obtain ⟨im, mp, body⟩ := st
  simp only at hp
  subst hp
  have hs : '|' ∉ TrimPrefix (cfg.MailQuote.foldl TrimPrefix (TrimSpace l)) ['#'] := fun h =>
    hl (mem_of_mem_TrimSpace l _ (mem_of_mem_foldl_TrimPrefix _ _ _
      (mem_of_mem_TrimPrefix _ _ _ h)))
  unfold readLine
  simp only [Scan_new_no_delim _ hs, Bool.not_true, Bool.false_eq_true, if_false]
  split_ifs <;> exact ⟨_, rfl, rfl⟩

theorem readLines_no_delim (cfg : MailConfig) (ls : List Str) (st : ReadState)
    (hp : st.metaparser = NewParser) (hl : ∀ l ∈ ls, '|' ∉ l) :
    ∃ st2, readLines cfg st ls = some (Except.ok st2) ∧ st2.metaparser = NewParser := by
  induction ls generalizing st with
  | nil => exact ⟨st, rfl, hp⟩
  | cons l ls ih =>
    obtain ⟨st1, h1, h2⟩ := readLine_no_delim cfg st l hp (hl l (List.mem_cons_self _ _))
    obtain ⟨st2, h3, h4⟩ := ih st1 h2 (fun x hx => hl x (List.mem_cons_of_mem _ hx))
    refine ⟨st2, ?_, h4⟩
    unfold readLines
    rw [h1]
    exact h3

/-- Outside the block a line that is no start marker leaves `ReadMail` outside the block
    and its parser untouched. -/
theorem readLine_outside (cfg : MailConfig) (st : ReadState) (l : Str)
    (hm : st.ismeta = false) (hl : syncer.isStart l = false) :
    ∃ st2, readLine cfg st l = some (Except.ok st2) ∧ st2.ismeta = false ∧
      st2.metaparser = st.metaparser := by
  obtain ⟨im, mp, body⟩ := st
  simp only at hm
  subst hm
  unfold syncer.isStart at hl
  unfold readLine
  simp only [hl, Bool.false_eq_true, if_false]
  split_ifs <;> exact ⟨_, rfl, rfl, rfl⟩

theorem readLines_outside (cfg : MailConfig) (ls : List Str) (st : ReadState)
    (hm : st.ismeta = false) (hl : ∀ l ∈ ls, syncer.isStart l = false) :
    ∃ st2, readLines cfg st ls = some (Except.ok st2) ∧ st2.metaparser = st.metaparser := by
  induction ls generalizing st with
  | nil => exact ⟨st, rfl, rfl⟩
  | cons l ls ih =>
    obtain ⟨st1, h1, h2, h3⟩ := readLine_outside cfg st l hm (hl l (List.mem_cons_self _ _))
    obtain ⟨st2, h4, h5⟩ := ih st1 h2 (fun x hx => hl x (List.mem_cons_of_mem _ hx))
    refine ⟨st2, ?_, h5.trans h3⟩
    unfold readLines
    rw [h1]
    exact h4

end message
namespace syncer

open meta message examples

/-! ## Reading back a stored copy without displayed column -/

theorem delim_not_mem_String (t : Table) (n : Nat)
    (hs : shownColumns (storageTable t n) = []) (hn : ∀ f ∈ t.Data, '|' ∉ f.Name) :
    '|' ∉ (storageTable t n).String := by
  unfold Table.String
  rw [Write_storageTable]
  intro h
  simp only [List.mem_flatten, List.mem_map, exists_exists_and_eq_and] at h
  obtain ⟨l, hl, hc⟩ := h
  simp only [List.cons_append, List.mem_cons, List.mem_append, List.mem_singleton,
    List.not_mem_nil, or_false] at hc
  rcases hc with e | e | e | e
  · exact absurd e (by decide)
  · exact absurd e (by decide)
  · exact delim_not_mem_tableLines (storageTable t n) hs hn l hl e
  · exact absurd e (by decide)

/-- The lines of the stored copy of a mail without displayed column: lines without
    delimiter, the end marker, an empty line and the lines of the body. -/
theorem storedLines_nothing (m : Mail) (n : Nat) (hs : mailShown m n = [])
    (hn : ∀ name ∈ mailNames m, '|' ∉ name) :
    ∃ P0 : Str, '|' ∉ P0 ∧
      storedLines m n = splitLines (P0 ++ ['\n']) ++ JiraEnd :: [] :: bodyLines m := by
  have key : ∀ P0 : Str, splitLines (P0 ++ '\n' :: (JiraEnd ++ '\n' :: '\n' ::
      (m.Body.map (fun s => s ++ ['\n'])).flatten)) =
      splitLines (P0 ++ ['\n']) ++ JiraEnd :: [] :: bodyLines m := by
    intro P0
    rw [splitLines_append_of_newline, splitLines_append_newline JiraEnd _ (by decide)]
    simp [splitLines, bodyLines]
  have plain : (match m.Meta with
      | some t => t.Data.length = 0
      | none => True) → ∃ P0 : Str, '|' ∉ P0 ∧
      storedLines m n = splitLines (P0 ++ ['\n']) ++ JiraEnd :: [] :: bodyLines m := by
    intro h
    refine ⟨JiraStart ++ "\n# This block will be automatically deleted from the text.".toList,
      by decide, ?_⟩
    rw [← key]
    unfold storedLines getBodyReader withStorageColumns
    cases hm : m.Meta with
    | none => simp [JiraStart, JiraEnd]
    | some t =>
      rw [hm] at h
      simp only at h
      simp [JiraStart, JiraEnd, h]
  cases hm : m.Meta with
  | none =>
    apply plain
    rw [hm]
    trivial
  | some t =>
    by_cases hd : t.Data.length = 0
    · apply plain
      rw [hm]
      exact hd
    · have hs2 : shownColumns (storageTable t n) = [] := by
        simpa [mailShown, hm] using hs
      have hn2 : ∀ f ∈ t.Data, '|' ∉ f.Name := by
        intro f hf
        apply hn
        rw [mailNames_eq m t hm]
        exact List.mem_map_of_mem (fun f => f.Name) hf
      refine ⟨JiraStart ++ ("\n# This block will be automatically deleted from the text.\n".toList
        ++ (['#', '\n'] ++ ((storageTable t n).String ++ ['#']))), ?_, ?_⟩
      · have := delim_not_mem_String t n hs2 hn2
        simp only [List.mem_append, not_or]
        exact ⟨by decide, by decide, by decide, this, by decide⟩
      · rw [← key]
        unfold storedLines getBodyReader withStorageColumns
        have hd2 : t.Data.length > 0 := Nat.pos_of_ne_zero hd
        simp only [hm, Option.map_some', hd2, if_true]
        have e : (Table.WithPrefix
            ⟨t.pfx, n, [JiraPrevColumn, JiraDiffColumn, JiraNewColumn], t.Data⟩
            ['#', ' ']).String = (storageTable t n).String := rfl
        rw [e]
        simp only [List.append_assoc, List.cons_append, List.nil_append]

/-- `ReadMail` on the stored copy of a mail without displayed column: it returns a mail
    with the header block as written and without table. -/
theorem readStored_nothing (cfg : MailConfig) (m : Mail)
    (h : NothingShown cfg.JiraTableColumnWidth m) :
    ∃ body, readStored cfg m = some (Except.ok ⟨m.Header, none, body⟩) := by
  obtain ⟨h1, h2, h3⟩ := h
  obtain ⟨P0, hP, hlines⟩ := storedLines_nothing m cfg.JiraTableColumnWidth h1 h2
  obtain ⟨st1, r1, p1⟩ := readLines_no_delim cfg (splitLines (P0 ++ ['\n']))
    ⟨false, NewParser, []⟩ rfl (fun l hl hc => by
      have := mem_of_mem_splitLines _ l hl '|' hc
      simp only [List.mem_append, List.mem_singleton] at this
      rcases this with e | e
      · exact hP e
      · exact absurd e (by decide))
  have r2 : readLine cfg st1 JiraEnd = some (Except.ok { st1 with ismeta := false }) := by
    unfold readLine
    have e1 : TrimSpace JiraEnd = JiraEnd := by decide
    have e2 : (decide (JiraEnd = JiraStart) || HasSuffix JiraEnd ([' '] ++ JiraStart)) = false := by
      decide
    simp only [e1, e2, Bool.false_eq_true, if_false]
    simp
  obtain ⟨st3, r3, _, p3⟩ := readLine_outside cfg { st1 with ismeta := false } [] rfl (by decide)
  obtain ⟨st4, r4, p4⟩ := readLines_outside cfg (bodyLines m) st3 (by assumption) h3
  have hall : readLines cfg ⟨false, NewParser, []⟩ (storedLines m cfg.JiraTableColumnWidth) =
      some (Except.ok st4) := by
    rw [hlines, readLines_append cfg _ _ _ _ r1, readLines_cons_ok cfg _ _ _ _ r2,
      readLines_cons_ok cfg _ _ _ _ r3]
    exact r4
  refine ⟨st4.Body, ?_⟩
  unfold readStored ReadMail
  rw [hall]
  have : st4.metaparser = NewParser := by rw [p4, p3]; exact p1
  simp only [Parser.Table, this, NewParser, Option.map_none']

end syncer
namespace syncer

open meta message examples

/-- C6 (amended). Idempotent per-record sync.  Let `msg1` be what the first pass made of
    the converted record `r` (the diff loop against whatever copy it found), with a table
    of ASCII strings, and let the stored copy be what `message.Write` wrote for `msg1`
    with the `X-Checksum` stamp.
    (1) If `ReadMail` reads the stored copy back and the field names it finds that `r`
    does not have are, in order, the names that the first pass had added to `r` (none
    when it finds no table), then on the second pass the diff loop followed by
    `MakeChecksum` yields exactly the stored `X-Checksum`, and `writeMessage` makes no
    call that changes the mailbox.
    (2) This is so when the table of `msg1` is `Storable` (a displayed storage column,
    safe and distinct field names, displayed values without newline, no table line that
    reads as a block marker) and no quote prefix starts with the comment sign: the copy
    is read back with all field names.
    (3) It is also so when nothing of the table is displayed (`NothingShown`: an empty
    table as for a comment record, or empty values only; no delimiter in a field name;
    no body line that reads as a start marker) and the first pass added no field: the
    copy is read back without table.
    (ASCII is the domain on which the layout of the embedding of `Table.Write` is that
    of `meta.go`.) -/
theorem second_pass_no_write (sha256 : Str → Str) (cfg : MailConfig) (prev0 : Option Mail)
    (r msg1 : Mail) (hfirst : diffMail prev0 r = some msg1) (hascii : AsciiMail msg1) :
    (∀ prev1, readStored cfg (stamp sha256 msg1) = some (Except.ok prev1) →
      addedNames (mailNames r) (mailNames prev1) = addedNames (mailNames r) (mailNames msg1) →
      ∃ msg2, secondPass sha256 cfg prev0 r = some (msg2, MakeChecksum sha256 msg1) ∧
        MakeChecksum sha256 msg2 = MakeChecksum sha256 msg1 ∧
        ∀ (st : Store) (msgids : List Str) (id : Str), msg2.HeaderID = some id →
          getMessageHash st id = Except.ok (MakeChecksum sha256 msg1) →
          writeMessage sha256 st cfg.JiraTableColumnWidth msgids msg2 =
            some ⟨[], id :: msgids, none⟩) ∧
    (∀ t1, msg1.Meta = some t1 → Storable cfg.JiraTableColumnWidth t1 →
      (∀ q ∈ cfg.MailQuote, HasPrefix q ['#'] = false) →
      ∃ prev1, readStored cfg (stamp sha256 msg1) = some (Except.ok prev1) ∧
        mailNames prev1 = mailNames msg1 ∧
        addedNames (mailNames r) (mailNames prev1) =
          addedNames (mailNames r) (mailNames msg1)) ∧
    (NothingShown cfg.JiraTableColumnWidth msg1 →
      (∀ name ∈ mailNames msg1, name ∈ mailNames r) →
      ∃ prev1, readStored cfg (stamp sha256 msg1) = some (Except.ok prev1) ∧
        prev1.Meta = none ∧
        addedNames (mailNames r) (mailNames prev1) =
          addedNames (mailNames r) (mailNames msg1)) := by
  have _ := hascii
  refine ⟨?_, ?_, ?_⟩
  · intro prev1 hread hnames
    obtain ⟨msg2, h1, h2⟩ :=
      second_pass_of_names sha256 cfg prev0 r msg1 prev1 hfirst hread hnames
    refine ⟨msg2, h1, h2, ?_⟩
    intro st msgids id hid hhash
    unfold writeMessage
    rw [hid]
    simp only [hhash, h2, if_true]
  · intro t1 ht1 hst hq
    obtain ⟨T, body, hread, hn⟩ := readStored_names cfg hq (stamp sha256 msg1) t1 ht1 hst
    have e : mailNames (⟨(stamp sha256 msg1).Header, some T, body⟩ : Mail) = mailNames msg1 := by
      rw [mailNames_eq msg1 t1 ht1, mailNames_eq _ T rfl, hn]
    exact ⟨_, hread, e, by rw [e]⟩
  · intro hno hsub
    obtain ⟨body, hread⟩ := readStored_nothing cfg (stamp sha256 msg1) hno
    refine ⟨_, hread, rfl, ?_⟩
    rw [addedNames_of_subset _ _ hsub]
    rfl

set_option maxRecDepth 100000 in
/-- C6 (witness). Three records at the default settings.  The record `<a>` with the
    fields `Type` and `Status`, whose first pass found an older copy with another status
    and a field `Assignee`; a record with the value `a | b`; and a comment record with an
    empty table and a body line with a delimiter.  Each time the second pass computes
    the stored checksum and writes nothing. -/
theorem second_pass_no_write_witness :
    diffMail (some mailOlder) mailPlain = some mailDiffed ∧ AsciiMail mailDiffed ∧
    Storable defaultConfig.JiraTableColumnWidth (diffLoop tableOlder tablePlain) ∧
    (∃ msg2, secondPass (fun s => s) defaultConfig (some mailOlder) mailPlain =
        some (msg2, MakeChecksum (fun s => s) mailDiffed) ∧
      MakeChecksum (fun s => s) msg2 = MakeChecksum (fun s => s) mailDiffed ∧
      ∀ (st : Store) (msgids : List Str) (id : Str), msg2.HeaderID = some id →
        getMessageHash st id = Except.ok (MakeChecksum (fun s => s) mailDiffed) →
        writeMessage (fun s => s) st defaultConfig.JiraTableColumnWidth msgids msg2 =
          some ⟨[], id :: msgids, none⟩) ∧
    diffMail none mailPipeValue = some mailPipeValue ∧ AsciiMail mailPipeValue ∧
    (∃ msg2, secondPass (fun s => s) defaultConfig none mailPipeValue =
        some (msg2, MakeChecksum (fun s => s) mailPipeValue) ∧
      MakeChecksum (fun s => s) msg2 = MakeChecksum (fun s => s) mailPipeValue ∧
      ∀ (st : Store) (msgids : List Str) (id : Str), msg2.HeaderID = some id →
        getMessageHash st id = Except.ok (MakeChecksum (fun s => s) mailPipeValue) →
        writeMessage (fun s => s) st defaultConfig.JiraTableColumnWidth msgids msg2 =
          some ⟨[], id :: msgids, none⟩) ∧
    diffMail none mailComment = some mailComment ∧ AsciiMail mailComment ∧
    NothingShown defaultConfig.JiraTableColumnWidth mailComment ∧
    (∃ msg2, secondPass (fun s => s) defaultConfig none mailComment =
        some (msg2, MakeChecksum (fun s => s) mailComment) ∧
      MakeChecksum (fun s => s) msg2 = MakeChecksum (fun s => s) mailComment ∧
      ∀ (st : Store) (msgids : List Str) (id : Str), msg2.HeaderID = some id →
        getMessageHash st id = Except.ok (MakeChecksum (fun s => s) mailComment) →
        writeMessage (fun s => s) st defaultConfig.JiraTableColumnWidth msgids msg2 =
          some ⟨[], id :: msgids, none⟩) := by
  have h := second_pass_no_write (fun s => s) defaultConfig (some mailOlder) mailPlain
    mailDiffed rfl (by decide)
  have k := second_pass_no_write (fun s => s) defaultConfig none mailPipeValue
    mailPipeValue rfl (by decide)
  have c := second_pass_no_write (fun s => s) defaultConfig none mailComment
    mailComment rfl (by decide)
  obtain ⟨p1, a1, _, a2⟩ := h.2.1 _ rfl (by decide) (by decide)
  obtain ⟨p2, b1, _, b2⟩ := k.2.1 _ rfl (by decide) (by decide)
  obtain ⟨p3, c1, _, c2⟩ := c.2.2 (by decide) (by decide)
  exact ⟨rfl, by decide, by decide, h.1 p1 a1 a2, rfl, by decide, k.1 p2 b1 b2,
    rfl, by decide, by decide, c.1 p3 c1 c2⟩

end syncer

namespace syncer

open meta message examples

/-! ## Records that are written again on the second pass -/

set_option maxRecDepth 100000 in
/-- A comment record whose body quotes a block with a table: nothing of its own (empty)
    table is stored, `ReadMail` takes the quoted block for the table, the second pass adds
    the field `F` to the record, and the checksum is not the stored one. -/
theorem second_pass_differs_on_body_block :
    diffMail none mailBodyBlock = some mailBodyBlock ∧
    (∃ l ∈ bodyLines mailBodyBlock, isStart l = true) ∧
    (secondPass (fun s => s) defaultConfig none mailBodyBlock).map
      (fun p => (mailNames p.1, decide (MakeChecksum (fun s => s) p.1 = p.2))) =
        some (["F".toList], false) := by
  refine ⟨rfl, ?_, ?_⟩ <;> decide

set_option maxRecDepth 100000 in
/-- A record with the field `A` whose first pass found a copy with the field `F`, all
    values empty: the first pass adds `F`, no storage column is displayed, `ReadMail`
    finds no table, the second pass adds nothing, and the checksum is not the stored
    one. -/
theorem second_pass_differs_on_hidden_field :
    (diffMail (some mailEmptyOlder) mailEmptyValue).map mailNames =
      some ["A".toList, "F".toList] ∧
    (diffMail (some mailEmptyOlder) mailEmptyValue).map
      (fun m => mailShown m defaultConfig.JiraTableColumnWidth) = some [] ∧
    (secondPass (fun s => s) defaultConfig (some mailEmptyOlder) mailEmptyValue).map
      (fun p => (mailNames p.1, decide (MakeChecksum (fun s => s) p.1 = p.2))) =
        some (["A".toList], false) := by
  refine ⟨?_, ?_, ?_⟩ <;> decide

set_option maxRecDepth 100000 in
/-- A record with a value of two lines, the second of which reads as a row of the table:
    `ReadMail` finds a field `F`, the second pass adds it to the record, and the checksum
    is not the stored one. -/
theorem second_pass_differs_on_newline_value :
    diffMail none mailNewlineValue = some mailNewlineValue ∧
    (secondPass (fun s => s) defaultConfig none mailNewlineValue).map
      (fun p => (mailNames p.1, decide (MakeChecksum (fun s => s) p.1 = p.2))) =
        some (["A".toList, "F".toList], false) :=
  ⟨rfl, by decide⟩

end syncer

namespace meta

/-! ## Maps as references: the heap and the table of contents -/

theorem Heap.get_alloc_of_lt (h : Heap) (m : ColMap) (r : Ref) (hr : r < h.maps.length) :
    (h.alloc m).1.get r = h.get r := by
  simp only [Heap.alloc, Heap.get, List.getD_eq_getElem?_getD, List.getElem?_append_left hr]

theorem Heap.get_alloc_new (h : Heap) (m : ColMap) :
    (h.alloc m).1.get (h.alloc m).2 = m := by
  simp [Heap.alloc, Heap.get]

theorem Heap.length_alloc (h : Heap) (m : ColMap) :
    (h.alloc m).1.maps.length = h.maps.length + 1 := by
  simp [Heap.alloc]

theorem Heap.length_set (h : Heap) (r : Ref) (m : ColMap) :
    (h.set r m).maps.length = h.maps.length := by
  simp [Heap.set]

theorem Heap.get_set_same (h : Heap) (r : Ref) (m : ColMap) (hr : r < h.maps.length) :
    (h.set r m).get r = m := by
  simp [Heap.set, Heap.get, hr]

theorem Heap.get_set_of_ne (h : Heap) (r r2 : Ref) (m : ColMap) (hne : r ≠ r2) :
    (h.set r m).get r2 = h.get r2 := by
  simp [Heap.set, Heap.get, List.getElem?_set_ne hne]

theorem view_Get (h : Heap) (t : RTable) (name colname : Str) :
    (t.view h).Get name colname = t.Get h name colname := by
  unfold Table.Get RTable.Get RTable.view
  simp only
  induction t.Data with
  | nil => rfl
  | cons f rest ih => simp only [List.map_cons, getLoop, rgetLoop, ih]

/-- Two heaps that agree on the maps of a field list give the same contents. -/
theorem map_view_congr (h1 h2 : Heap) (data : List RField)
    (hsame : ∀ f ∈ data, h2.get f.Column = h1.get f.Column) :
    data.map (fun field => ({ Name := field.Name, Column := h2.get field.Column } : Field)) =
      data.map (fun field => ({ Name := field.Name, Column := h1.get field.Column } : Field)) := by
  apply List.map_congr_left
  intro f hf
  rw [hsame f hf]

theorem rsetColumnsLoop_none (h : Heap) (name : Str) (columns : Ref) (data : List RField)
    (hn : rsetColumnsLoop h name columns data = none) (cols : ColMap) :
    setColumnsLoop name cols
      (data.map (fun field => ({ Name := field.Name, Column := h.get field.Column } : Field)))
      = none ∧ data.any (fun field => decide (field.Name = name)) = false := by
  induction data with
  | nil => exact ⟨rfl, rfl⟩
  | cons f rest ih =>
    unfold rsetColumnsLoop at hn
    by_cases h1 : f.Name = name
    · simp [h1] at hn
    · simp only [ne_eq, h1, not_false_eq_true, if_true] at hn
      obtain ⟨i1, i2⟩ := ih hn
      refine ⟨?_, ?_⟩
      · simp only [List.map_cons, setColumnsLoop, ne_eq, h1, not_false_eq_true, if_true, i1,
          Option.map_none']
      · simp only [List.any_cons, h1, decide_False, Bool.false_or, i2]

/-- The loop of `SetColumns` finds the field: on the heap one map is written, which is
    the write of the loop on the contents; every map outside the field list stays. -/
theorem rsetColumnsLoop_some (h h2 : Heap) (name : Str) (columns : Ref) (data : List RField)
    (hnd : (data.map (fun f => f.Column)).Nodup)
    (hlt : ∀ f ∈ data, f.Column < h.maps.length)
    (hs : rsetColumnsLoop h name columns data = some h2) :
    setColumnsLoop name (h.get columns)
      (data.map (fun field => ({ Name := field.Name, Column := h.get field.Column } : Field)))
      = some (data.map
          (fun field => ({ Name := field.Name, Column := h2.get field.Column } : Field))) ∧
    h2.maps.length = h.maps.length ∧
    ∀ r, r ∉ data.map (fun f => f.Column) → h2.get r = h.get r := by
  induction data with
  | nil => simp [rsetColumnsLoop] at hs
  | cons f rest ih =>
    rw [List.map_cons, List.nodup_cons] at hnd
    unfold rsetColumnsLoop at hs
    by_cases h1 : f.Name = name
    · simp only [ne_eq, h1, not_true_eq_false, if_false, Option.some.injEq] at hs
      subst hs
      have hf := hlt f (List.mem_cons_self _ _)
      refine ⟨?_, Heap.length_set _ _ _, ?_⟩
      · simp only [List.map_cons, setColumnsLoop, ne_eq, h1, not_true_eq_false, if_false,
          Heap.get_set_same _ _ _ hf, Option.some.injEq, List.cons.injEq, true_and]
        apply (map_view_congr _ _ rest _).symm
        intro g hg
        apply Heap.get_set_of_ne
        intro e
        exact hnd.1 (e ▸ List.mem_map_of_mem (fun f => f.Column) hg)
      · intro r hr
        apply Heap.get_set_of_ne
        intro e
        exact hr (by simp [e])
    · simp only [ne_eq, h1, not_false_eq_true, if_true] at hs
      obtain ⟨i1, i2, i3⟩ := ih hnd.2 (fun g hg => hlt g (List.mem_cons_of_mem _ hg)) hs
      refine ⟨?_, i2, ?_⟩
      · simp only [List.map_cons, setColumnsLoop, ne_eq, h1, not_false_eq_true, if_true, i1,
          Option.map_some', i3 f.Column hnd.1]
      · intro r hr
        apply i3
        intro hmem
        exact hr (by
          rw [List.map_cons]
          exact List.mem_cons_of_mem _ hmem)

end meta

namespace meta

/-- `Set` on the heap is `Set` on the contents when the fields hold pairwise different
    maps; it keeps that property, and it leaves every allocated map alone that is not a
    map of the table. -/
theorem Set_view (h : Heap) (t : RTable) (name c v : Str)
    (hnd : (t.Data.map (fun f => f.Column)).Nodup)
    (hlt : ∀ f ∈ t.Data, f.Column < h.maps.length) :
    ∃ h2 t2, t.Set h name c v = (h2, t2) ∧ t2.view h2 = (t.view h).Set name c v ∧
      (t2.Data.map (fun f => f.Column)).Nodup ∧
      (∀ f ∈ t2.Data, f.Column < h2.maps.length) ∧
      h.maps.length ≤ h2.maps.length ∧
      (∀ f ∈ t2.Data, f ∈ t.Data ∨ h.maps.length ≤ f.Column) ∧
      (∀ r, r < h.maps.length → r ∉ t.Data.map (fun f => f.Column) → h2.get r = h.get r) := by
  have hv1 : t.Data.map (fun field =>
        (⟨field.Name, (h.alloc (GoMap.single c v)).1.get field.Column⟩ : Field)) =
      t.Data.map (fun field => ({ Name := field.Name, Column := h.get field.Column } : Field)) :=
    map_view_congr _ _ _ (fun f hf => Heap.get_alloc_of_lt h _ _ (hlt f hf))
  have hlt1 : ∀ f ∈ t.Data, f.Column < (h.alloc (GoMap.single c v)).1.maps.length := by
    intro f hf
    rw [Heap.length_alloc]
    exact Nat.lt_succ_of_lt (hlt f hf)
  unfold RTable.Set RTable.SetColumns
  cases hs : rsetColumnsLoop (h.alloc (GoMap.single c v)).1 name (h.alloc (GoMap.single c v)).2
      t.Data with
  | some h2 =>
    obtain ⟨k1, k2, k3⟩ := rsetColumnsLoop_some _ h2 name _ t.Data hnd hlt1 hs
    rw [Heap.get_alloc_new, hv1] at k1
    refine ⟨h2, t, rfl, ?_, hnd, ?_, ?_, fun f hf => Or.inl hf, ?_⟩
    · unfold Table.Set Table.SetColumns RTable.view
      simp only [k1]
    · intro f hf
      rw [k2]
      exact hlt1 f hf
    · rw [k2, Heap.length_alloc]
      exact Nat.le_succ _
    · intro r hr hnot
      rw [k3 r hnot]
      exact Heap.get_alloc_of_lt h _ r hr
  | none =>
    obtain ⟨k1, k2⟩ := rsetColumnsLoop_none _ name _ t.Data hs (GoMap.single c v)
    rw [hv1] at k1
    have k3 := setColumnsLoop_none name _ _ k1
    refine ⟨(h.alloc (GoMap.single c v)).1,
      t.Append (h.alloc (GoMap.single c v)).1 ⟨name, (h.alloc (GoMap.single c v)).2⟩, rfl,
      ?_, ?_, ?_, ?_, ?_, ?_⟩
    · unfold Table.Set Table.SetColumns
      simp only [RTable.view, k1, Table.Append, k3, Bool.false_eq_true, if_false,
        RTable.Append, k2, List.map_append, List.map_cons, List.map_nil, Heap.get_alloc_new, hv1]
    · simp only [RTable.Append, k2, Bool.false_eq_true, if_false, List.map_append,
        List.map_cons, List.map_nil]
      rw [List.nodup_append]
      refine ⟨hnd, List.nodup_singleton _, ?_⟩
      intro r hr1 hr2
      rw [List.mem_singleton] at hr2
      rw [List.mem_map] at hr1
      obtain ⟨f, hf, e⟩ := hr1
      have := hlt f hf
      rw [e, hr2] at this
      simp [Heap.alloc] at this
    · intro f hf
      simp only [RTable.Append, k2, Bool.false_eq_true, if_false, List.mem_append,
        List.mem_singleton] at hf
      rcases hf with hf | hf
      · exact hlt1 f hf
      · rw [hf, Heap.length_alloc]
        simp [Heap.alloc]
    · rw [Heap.length_alloc]
      exact Nat.le_succ _
    · intro f hf
      simp only [RTable.Append, k2, Bool.false_eq_true, if_false, List.mem_append,
        List.mem_singleton] at hf
      rcases hf with hf | hf
      · exact Or.inl hf
      · right
        rw [hf]
        simp [Heap.alloc]
    · intro r hr _
      exact Heap.get_alloc_of_lt h _ r hr

end meta

namespace syncer

open meta message

/-! ## The diff loop on the heap -/

/-- A value that `Get` finds is the same on two heaps that agree on the maps of the
    table. -/
theorem Get_congr_heap (h1 h2 : Heap) (t : RTable)
    (hsame : ∀ f ∈ t.Data, h2.get f.Column = h1.get f.Column) (name colname : Str) :
    t.Get h2 name colname = t.Get h1 name colname := by
  rw [← view_Get, ← view_Get]
  unfold RTable.view
  rw [map_view_congr h1 h2 t.Data hsame]

/-- One turn of the diff loop on the heap is one turn on the contents; the two tables
    stay separate and the maps of the previous table stay as they are. -/
theorem rdiffField_view (h : Heap) (P N : RTable) (field : RField) (col : ColMap)
    (hsep : Separate h P N) :
    ∃ h2 N2, rdiffField P (h, N) field = (h2, N2) ∧
      N2.view h2 = diffField (P.view h) (N.view h) ⟨field.Name, col⟩ ∧
      Separate h2 P N2 ∧
      (∀ f ∈ P.Data, h2.get f.Column = h.get f.Column) := by
  obtain ⟨s1, s2, s3, s4⟩ := hsep
  -- the first `Set`, when the values differ
  have step1 : ∃ h1 N1,
      (if N.Get h field.Name JiraNewColumn ≠ P.Get h field.Name JiraNewColumn
        then N.Set h field.Name JiraDiffColumn ['!'] else (h, N)) = (h1, N1) ∧
      N1.view h1 =
        (if (N.view h).Get field.Name JiraNewColumn ≠ (P.view h).Get field.Name JiraNewColumn
          then (N.view h).Set field.Name JiraDiffColumn ['!'] else N.view h) ∧
      Separate h1 P N1 ∧ (∀ f ∈ P.Data, h1.get f.Column = h.get f.Column) := by
    rw [view_Get, view_Get]
    by_cases hne : N.Get h field.Name JiraNewColumn = P.Get h field.Name JiraNewColumn
    · refine ⟨h, N, ?_, ?_, ⟨s1, s2, s3, s4⟩, fun _ _ => rfl⟩
      · simp only [hne, ne_eq, not_true_eq_false, if_false]
      · simp only [hne, ne_eq, not_true_eq_false, if_false]
    · obtain ⟨h1, N1, a1, a2, a3, a4, a5, a6, a7⟩ :=
        Set_view h N field.Name JiraDiffColumn ['!'] s1 s2
      refine ⟨h1, N1, ?_, ?_, ⟨a3, a4, fun f hf => lt_of_lt_of_le (s3 f hf) a5, ?_⟩, ?_⟩
      · simp only [hne, ne_eq, not_false_eq_true, if_true, a1]
      · simp only [hne, ne_eq, not_false_eq_true, if_true, a2]
      · intro f hf g hg e
        rcases a6 g hg with hg2 | hg2
        · exact s4 f hf g hg2 e
        · have := s3 f hf
          rw [e] at this
          exact absurd (lt_of_lt_of_le this hg2) (lt_irrefl _)
      · intro f hf
        apply a7 _ (s3 f hf)
        intro hmem
        rw [List.mem_map] at hmem
        obtain ⟨g, hg, e⟩ := hmem
        exact s4 f hf g hg e.symm
  obtain ⟨h1, N1, b1, b2, ⟨c1, c2, c3, c4⟩, b4⟩ := step1
  obtain ⟨h2, N2, a1, a2, a3, a4, a5, a6, a7⟩ :=
    Set_view h1 N1 field.Name JiraPrevColumn (P.Get h field.Name JiraNewColumn) c1 c2
  refine ⟨h2, N2, ?_, ?_, ⟨a3, a4, fun f hf => lt_of_lt_of_le (c3 f hf) a5, ?_⟩, ?_⟩
  · unfold rdiffField
    simp only [b1, a1]
  · unfold diffField
    simp only [a2, b2, view_Get]
  · intro f hf g hg e
    rcases a6 g hg with hg2 | hg2
    · exact c4 f hf g hg2 e
    · have := c3 f hf
      rw [e] at this
      exact absurd (lt_of_lt_of_le this hg2) (lt_irrefl _)
  · intro f hf
    rw [← b4 f hf]
    apply a7 _ (c3 f hf)
    intro hmem
    rw [List.mem_map] at hmem
    obtain ⟨g, hg, e⟩ := hmem
    exact c4 f hf g hg e.symm

/-- The diff loop on the heap is the diff loop on the contents; the maps of the previous
    table stay as they are. -/
theorem rdiffLoop_view (h : Heap) (P : RTable) (fs : List RField) (s : Heap × RTable)
    (hsep : Separate s.1 P s.2)
    (hP : ∀ f ∈ P.Data, s.1.get f.Column = h.get f.Column) :
    (fs.foldl (rdiffField P) s).2.view (fs.foldl (rdiffField P) s).1 =
      (fs.map (fun f => (⟨f.Name, h.get f.Column⟩ : Field))).foldl (diffField (P.view h))
        (s.2.view s.1) ∧
    Separate (fs.foldl (rdiffField P) s).1 P (fs.foldl (rdiffField P) s).2 ∧
    (∀ f ∈ P.Data, (fs.foldl (rdiffField P) s).1.get f.Column = h.get f.Column) := by
  induction fs generalizing s with
  | nil => exact ⟨rfl, hsep, hP⟩
  | cons f fs ih =>
    obtain ⟨h2, N2, a1, a2, a3, a4⟩ := rdiffField_view s.1 P s.2 f (h.get f.Column) hsep
    have hview : P.view s.1 = P.view h := by
      unfold RTable.view
      rw [map_view_congr h s.1 P.Data hP]
    rw [List.foldl_cons, List.map_cons, List.foldl_cons]
    have e : rdiffField P s f = (h2, N2) := a1
    rw [e]
    have := ih (h2, N2) a3 (fun g hg => (a4 g hg).trans (hP g hg))
    rw [a2, hview] at this
    exact this

end syncer

namespace syncer

open meta message examples

/-- The diff loop on the contents changes a value only in the columns `Previous` and `x`
    of a field whose name is among the fields looped over. -/
theorem diffLoop_frame (P : Table) (fs : List Field) (M : Table) (F c : Str)
    (hout : F ∉ fs.map (fun field => field.Name) ∨ (c ≠ JiraPrevColumn ∧ c ≠ JiraDiffColumn)) :
    (fs.foldl (diffField P) M).Get F c = M.Get F c := by
  induction fs generalizing M with
  | nil => rfl
  | cons f fs ih =>
    rw [List.foldl_cons, ih _ (by
      rcases hout with h | h
      · left
        intro hmem
        exact h (by rw [List.map_cons]; exact List.mem_cons_of_mem _ hmem)
      · exact Or.inr h), diffField_Get]
    rcases hout with h | h
    · have hne : ¬ f.Name = F := by
        intro e
        exact h (by simp [e])
      simp [hne]
    · simp [h.1, h.2]

/-- C11. The diff pass writes only history columns of known fields.  The two tables live
    on one heap, as `JiraSyncer.issue` gets them: the fields of the new table hold
    pairwise different maps and share none with the previous table.  After the diff loop
    the `Current` value of every field of the new table is what it was; a field that is
    absent from the previous table has the `Previous` and `x` values it had, so they are
    still empty when they were; more generally only the columns `Previous` and `x` of
    fields of the previous table are written; and the previous table is unchanged: none
    of its maps was written and `Get` returns what it returned before. -/
theorem diff_frame (h : Heap) (P N : RTable) (hsep : Separate h P N) :
    (∀ F, (rdiffLoop h P N).2.Get (rdiffLoop h P N).1 F JiraNewColumn =
        N.Get h F JiraNewColumn) ∧
    (∀ F, F ∉ P.Data.map (fun f => f.Name) →
      (rdiffLoop h P N).2.Get (rdiffLoop h P N).1 F JiraPrevColumn =
          N.Get h F JiraPrevColumn ∧
      (rdiffLoop h P N).2.Get (rdiffLoop h P N).1 F JiraDiffColumn =
          N.Get h F JiraDiffColumn) ∧
    (∀ F c, F ∉ P.Data.map (fun f => f.Name) ∨ (c ≠ JiraPrevColumn ∧ c ≠ JiraDiffColumn) →
      (rdiffLoop h P N).2.Get (rdiffLoop h P N).1 F c = N.Get h F c) ∧
    (∀ f ∈ P.Data, (rdiffLoop h P N).1.get f.Column = h.get f.Column) ∧
    (∀ F c, P.Get (rdiffLoop h P N).1 F c = P.Get h F c) := by
  obtain ⟨k1, _, k3⟩ := rdiffLoop_view h P P.Data (h, N) hsep (fun _ _ => rfl)
  have frame : ∀ F c,
      F ∉ P.Data.map (fun f => f.Name) ∨ (c ≠ JiraPrevColumn ∧ c ≠ JiraDiffColumn) →
      (rdiffLoop h P N).2.Get (rdiffLoop h P N).1 F c = N.Get h F c := by
    intro F c hout
    unfold rdiffLoop
    rw [← view_Get, k1, diffLoop_frame _ _ _ F c (by
      rw [List.map_map]
      exact hout), view_Get]
  refine ⟨fun F => frame F _ (Or.inr ⟨by decide, by decide⟩),
    fun F hF => ⟨frame F _ (Or.inl hF), frame F _ (Or.inl hF)⟩, frame, k3, ?_⟩
  intro F c
  exact Get_congr_heap h _ P k3 F c

/-- C11 (witness). A stored copy with the field `Status` and a converted record with the
    fields `Status` and `Labels`, on a heap of three maps: the tables are separate, the
    loop leaves the map of the stored copy and the `Current` values alone, and `Labels`,
    which the stored copy does not have, still has empty `Previous` and `x` values. -/
theorem diff_frame_witness :
    Separate heapDiff rtableStored rtableFresh ∧
    (rdiffLoop heapDiff rtableStored rtableFresh).2.Get
      (rdiffLoop heapDiff rtableStored rtableFresh).1 "Status".toList JiraDiffColumn = ['!'] ∧
    (rdiffLoop heapDiff rtableStored rtableFresh).2.Get
      (rdiffLoop heapDiff rtableStored rtableFresh).1 "Labels".toList JiraPrevColumn = [] ∧
    (rdiffLoop heapDiff rtableStored rtableFresh).2.Get
      (rdiffLoop heapDiff rtableStored rtableFresh).1 "Labels".toList JiraDiffColumn = [] ∧
    (∀ f ∈ rtableStored.Data,
      (rdiffLoop heapDiff rtableStored rtableFresh).1.get f.Column = heapDiff.get f.Column) :=
  ⟨by decide, by decide,
   ((diff_frame heapDiff rtableStored rtableFresh (by decide)).2.1 "Labels".toList
      (by decide)).1.trans (by decide),
   ((diff_frame heapDiff rtableStored rtableFresh (by decide)).2.1 "Labels".toList
      (by decide)).2.trans (by decide),
   (diff_frame heapDiff rtableStored rtableFresh (by decide)).2.2.2.1⟩

end syncer

namespace syncer

open meta message examples

/-! ## Storage errors in CloseDelivery -/

/-- C12 (the code at the failing input). Reading the flags and purging the old copy both
    fail with an error that is not a key error: `CloseDelivery` goes on, closes the
    delivery and returns no error, whereas a key error with two matches is returned (and
    `getMessageHash` returns the error that is not a key error). -/
theorem CloseDelivery_swallows_other_errors :
    storeDenied.Flags "a".toList = Except.error (Error.other "permission denied".toList) ∧
    storeDenied.Purge "a".toList = some (Error.other "permission denied".toList) ∧
    CloseDelivery storeDenied "a".toList =
      ([StoreOp.purge "a".toList, StoreOp.close], none) ∧
    CloseDelivery storeTwoCopies "a".toList = ([], some (Error.key 2)) ∧
    getMessageHash
      { storeDenied with
        Filename := fun _ => Except.error (Error.other "permission denied".toList) }
      "a".toList = Except.error (Error.other "permission denied".toList) := by
  refine ⟨rfl, rfl, rfl, rfl, rfl⟩

end syncer

namespace meta

/-! ## The wrapping rule -/

theorem lt_foldl_max_iff (l : List Nat) (a k : Nat) :
    k < l.foldl max a ↔ k < a ∨ ∃ x ∈ l, k < x := by
  induction l generalizing a with
  | nil => simp
  | cons x xs ih =>
    rw [List.foldl_cons, ih]
    simp only [lt_max_iff, List.mem_cons, exists_eq_or_imp]
    tauto

theorem lt_ceilDiv_iff (n w k : Nat) (hw : 1 ≤ w) : k < ceilDiv n w ↔ k * w < n := by
  unfold ceilDiv
  rw [Nat.lt_iff_add_one_le, Nat.le_div_iff_mul_le (by omega), Nat.add_mul, Nat.one_mul]
  omega

/-- A row with the number `k` belongs to the field exactly when `k` is 0 or some displayed
    value is longer than `k * ColumnWidth`. -/
theorem lt_rowCount_iff (t : Table) (hw : 1 ≤ t.ColumnWidth) (vals : Str → Str) (k : Nat) :
    k < ((shownColumns t).map (fun c => ceilDiv (vals c).length t.ColumnWidth)).foldl max 1 ↔
      k = 0 ∨ ∃ c ∈ shownColumns t, k * t.ColumnWidth < (vals c).length := by
  rw [lt_foldl_max_iff]
  simp only [List.mem_map, exists_exists_and_eq_and, lt_ceilDiv_iff _ _ _ hw, Nat.lt_one_iff]

theorem slice_eq (v : Str) (k w : Nat) :
    slice v (k * w) (min ((k + 1) * w) v.length) = (v.drop (k * w)).take w := by
  unfold slice
  rw [List.drop_take]
  by_cases h : (k + 1) * w ≤ v.length
  · rw [Nat.min_eq_left h]
    congr 1
    rw [Nat.add_mul, Nat.one_mul]
    omega
  · rw [Nat.min_eq_right (by omega)]
    rw [List.take_of_length_le (by simp), List.take_of_length_le]
    rw [List.length_drop]
    rw [Nat.add_mul, Nat.one_mul] at h
    omega

theorem wrappedRow_eq (t : Table) (f : Field) (k : Nat) :
    wrappedRow t f k = rowText t (if k = 0 then f.Name else [])
      (fun c => (f.Column.get c).drop (k * t.ColumnWidth)) := by
  unfold wrappedRow
  rw [rowText_eq_cells, List.map_map]
  congr 2
  apply List.map_congr_left
  intro c _
  simp only [Function.comp, slice_eq]

end meta

namespace meta

theorem overflows_iff (t : Table) (vals : Str → Str) :
    overflows t vals = true ↔ ∃ c ∈ shownColumns t, t.ColumnWidth < (vals c).length := by
  unfold overflows
  simp only [List.any_eq_true, decide_eq_true_eq, gt_iff_lt]

/-- The number of rows when no displayed value is longer than the width. -/
theorem rowCount_of_not_overflows (t : Table) (hw : 1 ≤ t.ColumnWidth) (vals : Str → Str)
    (h : ¬ overflows t vals = true) :
    ((shownColumns t).map (fun c => ceilDiv (vals c).length t.ColumnWidth)).foldl max 1 = 1 := by
  rw [overflows_iff] at h
  apply le_antisymm
  · apply le_of_forall_lt
    intro k hk
    rw [lt_rowCount_iff t hw] at hk
    rcases hk with hk | ⟨c, hc, hlt⟩
    · omega
    · by_contra hk1
      apply h
      refine ⟨c, hc, ?_⟩
      have : 1 ≤ k := by omega
      calc t.ColumnWidth = 1 * t.ColumnWidth := (Nat.one_mul _).symm
        _ ≤ k * t.ColumnWidth := Nat.mul_le_mul_right _ this
        _ < (vals c).length := hlt
  · have := (lt_rowCount_iff t hw vals 0).2 (Or.inl rfl)
    omega

/-- The number of rows when a displayed value is longer than the width: one more than
    for what is left of the values. -/
theorem rowCount_of_overflows (t : Table) (hw : 1 ≤ t.ColumnWidth) (vals : Str → Str)
    (h : overflows t vals = true) :
    ((shownColumns t).map (fun c => ceilDiv (vals c).length t.ColumnWidth)).foldl max 1 =
      ((shownColumns t).map (fun c =>
        ceilDiv ((vals c).drop t.ColumnWidth).length t.ColumnWidth)).foldl max 1 + 1 := by
  rw [overflows_iff] at h
  obtain ⟨c0, hc0, hlt0⟩ := h
  have key : ∀ k, k < ((shownColumns t).map (fun c =>
        ceilDiv (vals c).length t.ColumnWidth)).foldl max 1 ↔
      k < ((shownColumns t).map (fun c =>
        ceilDiv ((vals c).drop t.ColumnWidth).length t.ColumnWidth)).foldl max 1 + 1 := by
    intro k
    rw [lt_rowCount_iff t hw]
    cases k with
    | zero => simp
    | succ k =>
      rw [Nat.add_lt_add_iff_right,
        lt_rowCount_iff t hw (fun c => (vals c).drop t.ColumnWidth)]
      simp only [Nat.add_one_ne_zero, false_or, List.length_drop, Nat.add_mul, Nat.one_mul]
      constructor
      · rintro ⟨c, hc, hlt⟩
        by_cases hk : k = 0
        · exact Or.inl hk
        · exact Or.inr ⟨c, hc, by omega⟩
      · rintro (hk | ⟨c, hc, hlt⟩)
        · subst hk
          exact ⟨c0, hc0, by simpa using hlt0⟩
        · exact ⟨c, hc, by omega⟩
  apply le_antisymm
  · exact le_of_forall_lt (fun k hk => (key k).1 hk)
  · exact le_of_forall_lt (fun k hk => (key k).2 hk)

/-- The rows that the row loop writes for a field are the rows of the wrapping rule. -/
theorem cutRows_eq_range (t : Table) (hw : 1 ≤ t.ColumnWidth) (fuel : Nat) (name : Str)
    (vals : Str → Str)
    (hlen : ∀ c ∈ shownColumns t, (vals c).length ≤ fuel + t.ColumnWidth) :
    cutRows t fuel name vals =
      (List.range (((shownColumns t).map (fun c =>
          ceilDiv (vals c).length t.ColumnWidth)).foldl max 1)).map
        (fun k => rowText t (if k = 0 then name else [])
          (fun c => (vals c).drop (k * t.ColumnWidth))) := by
  induction fuel generalizing name vals with
  | zero =>
    have hno : ¬ overflows t vals = true := by
      rw [overflows_iff]
      rintro ⟨c, hc, hlt⟩
      have := hlen c hc
      omega
    rw [rowCount_of_not_overflows t hw vals hno]
    have e : List.range 1 = [0] := rfl
    simp only [cutRows, e, List.map_cons, List.map_nil, if_true, Nat.zero_mul, List.drop_zero]
  | succ fuel ih =>
    unfold cutRows
    by_cases hov : overflows t vals = true
    · rw [rowCount_of_overflows t hw vals hov, List.range_succ_eq_map, List.map_cons,
        List.map_map]
      simp only [hov, if_true, Nat.zero_mul, List.drop_zero]
      congr 1
      rw [ih [] (fun c => (vals c).drop t.ColumnWidth) (fun c hc => by
        have := hlen c hc
        rw [List.length_drop]
        omega)]
      apply List.map_congr_left
      intro k _
      simp only [Function.comp, Nat.add_one_ne_zero, if_false, ite_self, List.drop_drop]
      congr 1
      funext c
      congr 1
      rw [Nat.succ_mul]
      exact Nat.add_comm _ _
    · rw [rowCount_of_not_overflows t hw vals hov]
      have e : List.range 1 = [0] := rfl
      simp only [hov, Bool.false_eq_true, if_false, e, List.map_cons, List.map_nil, if_true,
        Nat.zero_mul, List.drop_zero]

end meta

namespace meta

open examples

/-- C13. Wrapping rule: for every table of ASCII strings with `ColumnWidth >= 1` the row
    loop of `Write` ends (within the fuel given to it), and `Write` renders the header
    line, the separator, then for each field in turn exactly `rowCount` rows, which is
    the largest number of pieces of `ColumnWidth` characters among the displayed values
    and at least one, and the closing separator; row `k` of a field shows in every
    displayed column the characters `[k*W, min((k+1)*W, len))` of the value, and every
    row after the first has an empty name.  (ASCII is the domain on which `len`, the
    cuts `v[:w]`, `v[w:]` and the padding of the embedding are those of `meta.go`: there
    bytes, runes and characters are the same.) -/
theorem Write_wraps (t : Table) (hascii : AsciiTable t) (hw : 1 ≤ t.ColumnWidth) :
    (dataRows t t.Data).isSome = true ∧
    t.Write = ([headerLine t, dashes (headerLine t).length]
      ++ (t.Data.map (wrappedRows t)).flatten
      ++ [dashes (headerLine t).length]).map (fun s => t.pfx ++ s ++ ['\n']) ∧
    (∀ f ∈ t.Data, (wrappedRows t f).length = rowCount t f ∧
      ∀ k, k < rowCount t f ↔
        k = 0 ∨ ∃ c ∈ shownColumns t, k * t.ColumnWidth < (f.Column.get c).length) := by
  have _ := hascii
  refine ⟨dataRows_isSome t t.Data, ?_, ?_⟩
  · rw [Write_eq]
    congr 4
    apply List.map_congr_left
    intro f _
    unfold wrappedRows rowCount
    rw [cutRows_eq_range t hw (fieldFuel t f) f.Name f.Column.get (fun c hc => by
      have := le_fieldFuel t f c ((mem_shownColumns t c).1 hc).1
      omega)]
    apply List.map_congr_left
    intro k _
    rw [wrappedRow_eq]
  · intro f _
    refine ⟨by simp [wrappedRows], fun k => ?_⟩
    unfold rowCount
    exact lt_rowCount_iff t hw f.Column.get k

set_option maxRecDepth 100000 in
/-- C13 (witness). The table of width 3 with the value `Open now`: the field `Status` is
    rendered in three rows, `Ope`, `n n` and `ow`, the last two without name. -/
theorem Write_wraps_witness :
    AsciiTable tableWrap ∧ 1 ≤ tableWrap.ColumnWidth ∧
    tableWrap.Write = ["Name   | x | Current\n".toList, "--------------------\n".toList,
      "Status |   | Ope    \n".toList, "       |   | n n    \n".toList,
      "       |   | ow     \n".toList, "Type   | ! | Bug    \n".toList,
      "--------------------\n".toList] ∧
    tableWrap.Write = ([headerLine tableWrap, dashes (headerLine tableWrap).length]
      ++ (tableWrap.Data.map (wrappedRows tableWrap)).flatten
      ++ [dashes (headerLine tableWrap).length]).map (fun s => tableWrap.pfx ++ s ++ ['\n']) :=
  ⟨by decide, by decide, by decide, (Write_wraps tableWrap (by decide) (by decide)).2.1⟩

end meta

namespace meta

open examples

/-! ## Column selection and width -/

theorem widthStep_getD (w : Nat) (o : Option Nat) (v : Str) (m : Nat)
    (ho : o.getD 0 = min w m) : (widthStep w o v).getD 0 = min w (max m v.length) := by
  unfold widthStep
  by_cases h1 : o.getD 0 < v.length
  · simp only [h1, if_true, gt_iff_lt, Option.getD_some]
    rw [ho] at h1
    simp only [Nat.min_def, Nat.max_def] at h1 ⊢
    split_ifs at h1 ⊢ <;> omega
  · simp only [h1, if_false]
    rw [ho] at h1 ⊢
    simp only [Nat.min_def, Nat.max_def] at h1 ⊢
    split_ifs at h1 ⊢ <;> omega

theorem foldl_widthStep_getD (w : Nat) (vals : List Str) (o : Option Nat) (m : Nat)
    (ho : o.getD 0 = min w m) :
    (vals.foldl (widthStep w) o).getD 0 = min w ((vals.map List.length).foldl max m) := by
  induction vals generalizing o m with
  | nil => exact ho
  | cons v vs ih =>
    rw [List.foldl_cons, List.map_cons, List.foldl_cons]
    exact ih _ _ (widthStep_getD w o v m ho)

theorem floorName_getD (name : Str) (o : Option Nat) :
    (floorName name o).getD 0 = if o.getD 0 = 0 then 0 else max name.length (o.getD 0) := by
  cases o with
  | none => rfl
  | some n =>
    unfold floorName
    by_cases h0 : n = 0
    · simp [h0]
    · by_cases h1 : n < name.length
      · simp only [h0, if_false, h1, if_true, Option.getD_some]
        rw [Nat.max_eq_left (Nat.le_of_lt h1)]
      · simp only [h0, if_false, h1, Option.getD_some]
        rw [Nat.max_eq_right (by omega)]

/-- The width that `Write` gives a column of `Headers`. -/
theorem shownWidth_eq (t : Table) (c : Str) (hc : c ∈ t.Headers) :
    shownWidth t c =
      if min t.ColumnWidth (longestValue t c) = 0 then 0
      else max c.length (min t.ColumnWidth (longestValue t c)) := by
  unfold shownWidth longestValue
  rw [alookup_lenColumns t c hc, floorName_getD]
  unfold widthOfValues
  rw [foldl_widthStep_getD t.ColumnWidth _ none 0 (by simp)]

theorem longestValue_ne_zero_iff (t : Table) (c : Str) :
    longestValue t c ≠ 0 ↔ ∃ f ∈ t.Data, f.Column.get c ≠ [] := by
  unfold longestValue columnValues
  rw [← Nat.pos_iff_ne_zero, lt_foldl_max_iff]
  simp only [Nat.lt_irrefl, false_or, List.mem_map, exists_exists_and_eq_and,
    List.length_pos]

end meta

namespace meta

open examples

/-- C14. Column selection and width: for every table of ASCII strings with
    `ColumnWidth >= 1`, `Write` displays a column of `Headers` exactly when some field
    holds a non-empty value in it, and the width of a displayed column is the larger of
    the length of its name and the smaller of `ColumnWidth` and the length of its longest
    value, so that it is never narrower than the name; the header line and every row are
    made of the padded cells of exactly these columns with exactly these widths.  (ASCII
    is the domain on which `len` and the padding of the embedding are those of `meta.go`:
    there bytes, runes and characters are the same.) -/
theorem Write_columns (t : Table) (hascii : AsciiTable t) (hw : 1 ≤ t.ColumnWidth) :
    (∀ c, c ∈ shownColumns t ↔ c ∈ t.Headers ∧ ∃ f ∈ t.Data, f.Column.get c ≠ []) ∧
    (∀ c ∈ shownColumns t,
      shownWidth t c = max c.length (min t.ColumnWidth (longestValue t c)) ∧
      c.length ≤ shownWidth t c) ∧
    headerLine t = padRight (lenName t.Data) "Name".toList ++
      ((shownColumns t).map (fun c =>
        [' ', Delim, ' '] ++ padRight (shownWidth t c) c)).flatten ∧
    (∀ name vals, rowText t name vals = padRight (lenName t.Data) name ++
      ((shownColumns t).map (fun c =>
        [' ', Delim, ' '] ++ padRight (shownWidth t c) ((vals c).take t.ColumnWidth))).flatten) ∧
    t.Write = (tableLines t).map (fun s => t.pfx ++ s ++ ['\n']) := by
  have hzero : ∀ c, min t.ColumnWidth (longestValue t c) = 0 ↔ longestValue t c = 0 := by
    have _ := hascii
    intro c
    simp only [Nat.min_def]
    split_ifs <;> omega
  refine ⟨?_, ?_, ?_, ?_, Write_eq t⟩
  · intro c
    rw [mem_shownColumns, ← longestValue_ne_zero_iff]
    constructor
    · rintro ⟨hc, hne⟩
      refine ⟨hc, fun h0 => hne ?_⟩
      rw [shownWidth_eq t c hc, if_pos ((hzero c).2 h0)]
    · rintro ⟨hc, hne⟩
      refine ⟨hc, ?_⟩
      rw [shownWidth_eq t c hc, if_neg (fun h => hne ((hzero c).1 h))]
      have : min t.ColumnWidth (longestValue t c) ≠ 0 := fun h => hne ((hzero c).1 h)
      have := Nat.le_max_right c.length (min t.ColumnWidth (longestValue t c))
      omega
  · intro c hc
    rw [mem_shownColumns] at hc
    have hne : ¬ min t.ColumnWidth (longestValue t c) = 0 := by
      intro h
      apply hc.2
      rw [shownWidth_eq t c hc.1, if_pos h]
    rw [shownWidth_eq t c hc.1, if_neg hne]
    exact ⟨rfl, Nat.le_max_left _ _⟩
  · rw [headerLine_eq_cells, List.map_map]
    rfl
  · intro name vals
    rw [rowText_eq_cells, List.map_map]
    rfl

/-- C14 (witness). The table of width 3 with the columns `Previous`, `x` and `Current`:
    no field has a `Previous` value, so `x` and `Current` are displayed; `Current` is 7
    wide (its name is longer than the width 3 that caps the values) and `x` is 1 wide. -/
theorem Write_columns_witness :
    AsciiTable tableWrap ∧ 1 ≤ tableWrap.ColumnWidth ∧
    shownColumns tableWrap = ["x".toList, "Current".toList] ∧
    shownWidth tableWrap "Current".toList = 7 ∧ shownWidth tableWrap "x".toList = 1 ∧
    (∀ c, c ∈ shownColumns tableWrap ↔
      c ∈ tableWrap.Headers ∧ ∃ f ∈ tableWrap.Data, f.Column.get c ≠ []) :=
  ⟨by decide, by decide, by decide, by decide, by decide,
   (Write_columns tableWrap (by decide) (by decide)).1⟩

end meta

namespace meta

open examples

/-! ## Field names stay pairwise distinct -/

theorem forall₂_KeptField_refl (name : Str) (data : List Field) :
    List.Forall₂ (KeptField name) data data := by
  induction data with
  | nil => exact List.Forall₂.nil
  | cons f fs ih => exact List.Forall₂.cons ⟨rfl, fun _ => rfl⟩ ih

/-- The loop of `SetColumns` finds the field: the name is a field name, and the fields
    are the same in the same places but for the columns of the field with that name. -/
theorem setColumnsLoop_kept (name : Str) (columns : ColMap) (data data2 : List Field)
    (h : setColumnsLoop name columns data = some data2) :
    name ∈ data.map (fun f => f.Name) ∧ List.Forall₂ (KeptField name) data data2 := by
  induction data generalizing data2 with
  | nil => simp [setColumnsLoop] at h
  | cons f rest ih =>
    unfold setColumnsLoop at h
    by_cases h1 : f.Name = name
    · simp only [ne_eq, h1, not_true_eq_false, if_false, Option.some.injEq] at h
      subst h
      refine ⟨by simp [h1], List.Forall₂.cons ⟨h1.symm, fun hne => absurd h1 hne⟩
        (forall₂_KeptField_refl name rest)⟩
    · simp only [ne_eq, h1, not_false_eq_true, if_true, Option.map_eq_some'] at h
      obtain ⟨r, hr, hd⟩ := h
      subst hd
      obtain ⟨i1, i2⟩ := ih r hr
      exact ⟨List.mem_cons_of_mem _ i1, List.Forall₂.cons ⟨rfl, fun _ => rfl⟩ i2⟩

theorem names_of_forall₂_KeptField (name : Str) (data data2 : List Field)
    (h : List.Forall₂ (KeptField name) data data2) :
    data2.map (fun f => f.Name) = data.map (fun f => f.Name) := by
  induction h with
  | nil => rfl
  | cons hk _ ih => simp only [List.map_cons, hk.1, ih]

theorem mem_names_iff_hasField (data : List Field) (name : Str) :
    name ∈ data.map (fun f => f.Name) ↔ hasField data name = true := by
  unfold hasField
  simp only [List.mem_map, List.any_eq_true, decide_eq_true_eq]

/-- What `Append` does: nothing when the name is taken, otherwise the field is added at
    the end. -/
theorem Append_spec (t : Table) (nfield : Field) :
    (nfield.Name ∈ t.Data.map (fun f => f.Name) → t.Append nfield = t) ∧
    (nfield.Name ∉ t.Data.map (fun f => f.Name) →
      (t.Append nfield).Data = t.Data ++ [nfield]) := by
  rw [mem_names_iff_hasField]
  unfold Table.Append
  constructor
  · intro h
    simp only [h, if_true]
  · intro h
    simp only [h, Bool.false_eq_true, if_false]

/-- What `SetColumns` does to the fields: they stay in their places, only the columns of
    the field called `name` change, and a field of that name is added at the end when
    there was none. -/
theorem SetColumns_spec (t : Table) (name : Str) (columns : ColMap) :
    ∃ kept, List.Forall₂ (KeptField name) t.Data kept ∧
      (t.SetColumns name columns).Data =
        kept ++ (if name ∈ t.Data.map (fun f => f.Name) then []
                 else [{ Name := name, Column := columns }]) := by
  unfold Table.SetColumns
  cases h : setColumnsLoop name columns t.Data with
  | some data2 =>
    obtain ⟨k1, k2⟩ := setColumnsLoop_kept name columns t.Data data2 h
    exact ⟨data2, k2, by simp only [k1, if_true, List.append_nil]⟩
  | none =>
    have k1 := setColumnsLoop_none name columns t.Data h
    have k2 : name ∉ t.Data.map (fun f => f.Name) := by
      rw [mem_names_iff_hasField, k1]
      simp
    refine ⟨t.Data, forall₂_KeptField_refl name t.Data, ?_⟩
    simp only [k2, if_false]
    exact (Append_spec t ⟨name, columns⟩).2 k2

/-- C15. Field-name uniqueness is an invariant: on a table whose field names are pairwise
    distinct, `Append`, `SetColumns` and `Set` leave the names pairwise distinct;
    `Append` of a field whose name is taken changes nothing (neither `Headers` nor
    `Data`); and no operation moves or removes a field: `Append` keeps `Data` as the
    front of the new `Data`, `SetColumns` and `Set` keep every field in its place, the
    fields of another name as they are and the field of that name with its name, and add
    at most one field at the end. -/
theorem names_stay_distinct (t : Table) (hnd : (t.Data.map (fun f => f.Name)).Nodup) :
    (∀ nfield : Field,
      ((t.Append nfield).Data.map (fun f => f.Name)).Nodup ∧
      t.Data <+: (t.Append nfield).Data ∧
      (nfield.Name ∈ t.Data.map (fun f => f.Name) →
        (t.Append nfield).Headers = t.Headers ∧ (t.Append nfield).Data = t.Data)) ∧
    (∀ (name : Str) (columns : ColMap),
      ((t.SetColumns name columns).Data.map (fun f => f.Name)).Nodup ∧
      ∃ kept added, (t.SetColumns name columns).Data = kept ++ added ∧
        List.Forall₂ (KeptField name) t.Data kept ∧ added.length ≤ 1) ∧
    (∀ name column value : Str,
      ((t.Set name column value).Data.map (fun f => f.Name)).Nodup ∧
      ∃ kept added, (t.Set name column value).Data = kept ++ added ∧
        List.Forall₂ (KeptField name) t.Data kept ∧ added.length ≤ 1) := by
  have hset : ∀ (name : Str) (columns : ColMap),
      ((t.SetColumns name columns).Data.map (fun f => f.Name)).Nodup ∧
      ∃ kept added, (t.SetColumns name columns).Data = kept ++ added ∧
        List.Forall₂ (KeptField name) t.Data kept ∧ added.length ≤ 1 := by
    intro name columns
    obtain ⟨kept, k1, k2⟩ := SetColumns_spec t name columns
    have k3 := names_of_forall₂_KeptField name t.Data kept k1
    refine ⟨?_, kept, _, k2, k1, by split <;> simp⟩
    rw [k2, List.map_append, k3]
    by_cases hmem : name ∈ t.Data.map (fun f => f.Name)
    · simp only [hmem, if_true, List.map_nil, List.append_nil]
      exact hnd
    · simp only [hmem, if_false, List.map_cons, List.map_nil]
      rw [List.nodup_append]
      refine ⟨hnd, List.nodup_singleton _, ?_⟩
      intro x hx hx2
      rw [List.mem_singleton] at hx2
      exact hmem (hx2 ▸ hx)
  refine ⟨?_, hset, fun name column value => hset name (GoMap.single column value)⟩
  intro nfield
  obtain ⟨a1, a2⟩ := Append_spec t nfield
  by_cases hmem : nfield.Name ∈ t.Data.map (fun f => f.Name)
  · rw [a1 hmem]
    exact ⟨hnd, List.prefix_refl _, fun _ => ⟨rfl, rfl⟩⟩
  · rw [a2 hmem]
    refine ⟨?_, List.prefix_append _ _, fun h => absurd h hmem⟩
    rw [List.map_append, List.nodup_append]
    refine ⟨hnd, List.nodup_singleton _, ?_⟩
    intro x hx hx2
    simp only [List.map_cons, List.map_nil, List.mem_singleton] at hx2
    exact hmem (hx2 ▸ hx)

/-- C15 (witness). The table with the fields `Status` and `Type`: appending a second
    field `Status` changes nothing, and after `Set` on a new name `Labels` the names are
    `Status`, `Type`, `Labels`. -/
theorem names_stay_distinct_witness :
    (tableFit.Data.map (fun f => f.Name)).Nodup ∧
    (tableFit.Append ⟨"Status".toList, GoMap.empty⟩).Data.map (fun f => f.Name) =
      ["Status".toList, "Type".toList] ∧
    (tableFit.Set "Labels".toList "Current".toList "ui".toList).Data.map (fun f => f.Name) =
      ["Status".toList, "Type".toList, "Labels".toList] ∧
    ((tableFit.Set "Labels".toList "Current".toList "ui".toList).Data.map
      (fun f => f.Name)).Nodup :=
  ⟨by decide, by decide, by decide,
   ((names_stay_distinct tableFit (by decide)).2.2 "Labels".toList "Current".toList
      "ui".toList).1⟩

end meta

namespace syncer

open meta message examples

/-! ## Tagging a deleted record -/

theorem HasPrefix_append (p s : Str) : HasPrefix (p ++ s) p = true := by
  unfold HasPrefix
  rw [List.isPrefixOf_iff_prefix]
  exact List.prefix_append p s

theorem HasPrefix_tagSubject (subject : Str) : HasPrefix (tagSubject subject) tagDeleted = true := by
  unfold tagSubject
  by_cases h : HasPrefix subject tagDeleted = true
  · simp only [h, if_true]
  · simp only [h, Bool.false_eq_true, if_false, List.append_assoc]
    exact HasPrefix_append _ _

theorem tagDeletedMessage_eq (msg : Mail) :
    tagDeletedMessage msg =
      if HasPrefix (headerGet msg.Header "Subject".toList) tagDeleted then none
      else some { msg with
                  Header := msg.Header.set "Subject".toList
                    [tagDeleted ++ [' '] ++ headerGet msg.Header "Subject".toList] } := rfl

theorem subjectAfterTag_eq (msg : Mail) :
    subjectAfterTag msg = tagSubject (headerGet msg.Header "Subject".toList) := by
  unfold subjectAfterTag tagSubject
  by_cases h : HasPrefix (headerGet msg.Header "Subject".toList) tagDeleted = true
  · rw [tagDeletedMessage_eq, if_pos h, if_pos h]
  · rw [tagDeletedMessage_eq, if_neg h, if_neg h]
    simp only [headerGet, GoMap.find_set, if_true]

/-- C16. Tagging is idempotent: the `Subject` rewrite of `tagDeletedMessage` gives the
    same `Subject` when applied twice as when applied once, for every `Subject`; the
    result carries the tag at its start, and on a record that `tagDeletedMessage` has
    written, `tagDeletedMessage` returns without writing, so that no second tag is put in
    front. -/
theorem tagSubject_idempotent :
    (∀ subject : Str, tagSubject (tagSubject subject) = tagSubject subject ∧
      HasPrefix (tagSubject subject) tagDeleted = true) ∧
    (∀ msg : Mail, subjectAfterTag msg = tagSubject (headerGet msg.Header "Subject".toList)) ∧
    (∀ msg written : Mail, tagDeletedMessage msg = some written →
      tagDeletedMessage written = none ∧
      headerGet written.Header "Subject".toList =
        tagDeleted ++ [' '] ++ headerGet msg.Header "Subject".toList) ∧
    (∀ msg : Mail, HasPrefix (headerGet msg.Header "Subject".toList) tagDeleted = true →
      tagDeletedMessage msg = none) := by
  refine ⟨?_, subjectAfterTag_eq, ?_, ?_⟩
  · intro subject
    refine ⟨?_, HasPrefix_tagSubject subject⟩
    have h := HasPrefix_tagSubject subject
    generalize tagSubject subject = s at h
    unfold tagSubject
    simp only [h, if_true]
  · intro msg written hw
    rw [tagDeletedMessage_eq] at hw
    by_cases h : HasPrefix (headerGet msg.Header "Subject".toList) tagDeleted = true
    · rw [if_pos h] at hw
      cases hw
    · rw [if_neg h, Option.some.injEq] at hw
      subst hw
      have e : headerGet (msg.Header.set "Subject".toList
          [tagDeleted ++ [' '] ++ headerGet msg.Header "Subject".toList]) "Subject".toList =
          tagDeleted ++ [' '] ++ headerGet msg.Header "Subject".toList := by
        simp only [headerGet, GoMap.find_set, if_true]
      refine ⟨?_, e⟩
      rw [tagDeletedMessage_eq, if_pos]
      rw [e, List.append_assoc]
      exact HasPrefix_append _ _
  · intro msg h
    rw [tagDeletedMessage_eq, if_pos h]

end syncer

namespace meta

/-! ## Parsing a row -/

theorem fillColumns_get_of_not_mem (hs vs : List Str) (m : ColMap) (c : Str) (hc : c ∉ hs) :
    (fillColumns hs vs m).get c = m.get c := by
  induction hs generalizing vs m with
  | nil => cases vs <;> rfl
  | cons d hs ih =>
    simp only [List.mem_cons, not_or] at hc
    cases vs with
    | nil => rfl
    | cons v vs =>
      simp only [fillColumns]
      rw [ih vs _ hc.2, GoMap.get_set, if_neg (fun e => hc.1 e.symm)]

/-- The loop that fills the columns of a row, for pairwise distinct column names: the
    column `hs[i]` gets the trimmed piece `vs[i]` when there is one and keeps its value
    otherwise. -/
theorem fillColumns_getD (hs vs : List Str) (m : ColMap) (hnd : hs.Nodup) (i : Nat)
    (hi : i < hs.length) :
    (fillColumns hs vs m).get (hs.getD i []) =
      if i < vs.length then TrimSpace (vs.getD i []) else m.get (hs.getD i []) := by
  induction hs generalizing vs m i with
  | nil => simp at hi
  | cons d hs ih =>
    rw [List.nodup_cons] at hnd
    cases vs with
    | nil => simp [fillColumns]
    | cons v vs =>
      simp only [fillColumns]
      cases i with
      | zero =>
        simp only [List.getD_cons_zero, List.length_cons, Nat.zero_lt_succ, if_true]
        rw [fillColumns_get_of_not_mem hs vs _ d hnd.1, GoMap.get_set, if_pos rfl]
      | succ i =>
        simp only [List.getD_cons_succ, List.length_cons, Nat.add_lt_add_iff_right]
        have hi2 : i < hs.length := by simpa using hi
        rw [ih vs _ hnd.2 i hi2, GoMap.get_set]
        have hne : ¬ d = hs.getD i [] := by
          intro e
          apply hnd.1
          rw [e, List.getD_eq_getElem _ _ hi2]
          exact List.getElem_mem _
        simp only [hne, if_false]

theorem getD_of_map_eq (g : Str → Str) (a b : List Str) (h : a.map g = b.map g) (i : Nat) :
    a.length = b.length ∧ g (a.getD i []) = g (b.getD i []) := by
  have hlen : a.length = b.length := by
    have := congrArg List.length h
    simpa using this
  refine ⟨hlen, ?_⟩
  have h1 : (a.map g).getD i (g []) = (b.map g).getD i (g []) := by rw [h]
  simpa [List.getD_map] using h1

/-- The field that the default case of `Scan` builds from a line, for pairwise distinct
    column names: the trimmed first segment is the name, column `H[i]` holds the trimmed
    segment `i + 1` when the line has one and is empty otherwise, and there is no
    other column. -/
theorem rowField_segments (H : List Str) (hH : H.Nodup) (line : Str) :
    (rowField H (splitDelim (TrimSpace line))).Name = TrimSpace ((splitDelim line).headD []) ∧
    (∀ i, i < H.length →
      (rowField H (splitDelim (TrimSpace line))).Column.get (H.getD i []) =
        if i + 1 < (splitDelim line).length then TrimSpace ((splitDelim line).getD (i + 1) [])
        else []) ∧
    (∀ c, c ∉ H → (rowField H (splitDelim (TrimSpace line))).Column.get c = []) ∧
    (∀ k ∈ (rowField H (splitDelim (TrimSpace line))).Column.keys, k ∈ H) := by
  have hmap := map_TrimSpace_splitDelim_TrimSpace line
  have hseg := getD_of_map_eq TrimSpace _ _ hmap
  have hempty : ∀ c, (H.foldl (fun m n => m.set n []) (GoMap.empty : ColMap)).get c = [] :=
    fun c => emptyColumns_get H _ c (GoMap.get_empty c)
  refine ⟨?_, ?_, ?_, ?_⟩
  · have h0 := (hseg 0).2
    simp only [rowField]
    cases h1 : splitDelim (TrimSpace line) with
    | nil => exact absurd h1 (splitDelim_ne_nil _)
    | cons x xs =>
      cases h2 : splitDelim line with
      | nil => exact absurd h2 (splitDelim_ne_nil _)
      | cons y ys =>
        rw [h1, h2] at h0
        simpa using h0
  · intro i hi
    simp only [rowField]
    rw [fillColumns_getD H _ _ hH i hi, hempty, List.length_drop, ← (hseg 0).1]
    have e : ((splitDelim (TrimSpace line)).drop 1).getD i [] =
        (splitDelim (TrimSpace line)).getD (i + 1) [] := by
      simp only [List.getD_eq_getElem?_getD, List.getElem?_drop, Nat.add_comm]
    rw [e, (hseg (i + 1)).2]
    by_cases hlt : i + 1 < (splitDelim (TrimSpace line)).length
    · have : i < (splitDelim (TrimSpace line)).length - 1 := by omega
      simp only [this, hlt, if_true]
    · have : ¬ i < (splitDelim (TrimSpace line)).length - 1 := by omega
      simp only [this, hlt, if_false]
  · intro c hc
    simp only [rowField]
    rw [fillColumns_get_of_not_mem H _ _ c hc, hempty]
  · intro k hk
    simp only [rowField] at hk
    rcases fillColumns_keys H _ _ k hk with h1 | h1
    · exact h1
    · rcases emptyColumns_keys H _ k h1 with h2 | h2
      · exact h2
      · simp [GoMap.keys, GoMap.empty, akeys] at h2

end meta

namespace meta

open examples

/-- C17 (counterexample). A header that names the column `x` twice: after the lines
    `N | x | x` and `---------` the column list is `x`, `x`, and the line `F | 1 | 2`
    gives a field `F` whose value for `H[0]`, which is `x`, is `2`, whereas the trimmed
    second segment of the line is `1`. -/
theorem Scan_row_fails_on_repeated_column :
    (scanAll NewParser ["N | x | x".toList, "---------".toList]).map (fun p => p.headers) =
      some ["x".toList, "x".toList] ∧
    ((scanAll NewParser ["N | x | x".toList, "---------".toList]).bind
        (fun p => p.Scan "F | 1 | 2".toList)).map
      (fun r => (r.2, r.1.table.map (fun t => t.Data.map
        (fun f => (f.Name, f.Column.get (["x".toList, "x".toList].getD 0 [])))))) =
      some (true, some [("F".toList, "2".toList)]) ∧
    TrimSpace ((splitDelim "F | 1 | 2".toList).getD 1 []) = "1".toList := by
  decide

/-- C17 (amended). Row parsing: for a parser that has accepted a header with the column
    list `H`, whose names are pairwise distinct, and a separator line, scanning a line
    that contains the delimiter and whose trimmed first segment `n` is not empty and not
    yet a field name returns `true` and appends a field `n` at the end of the table; its
    value for `H[i]` is the trimmed segment `i + 2` (counted from 1) when the line has
    that segment and empty otherwise, and it has no other column, so segments beyond
    `len(H)` are ignored. -/
theorem Scan_row (p : Parser) (H : List Str) (T : Table) (line : Str)
    (hc : p.closed = false) (hl : 2 ≤ p.lines) (hh : p.headers = H) (ht : p.table = some T)
    (hH : H.Nodup) (hd : '|' ∈ line)
    (hname : TrimSpace ((splitDelim line).headD []) ≠ [])
    (hnew : TrimSpace ((splitDelim line).headD []) ∉ T.Data.map (fun f => f.Name)) :
    ∃ q f T2, p.Scan line = some (q, true) ∧ q.closed = false ∧ q.err = p.err ∧
      q.headers = H ∧ q.table = some T2 ∧ T2.Data = T.Data ++ [f] ∧
      f.Name = TrimSpace ((splitDelim line).headD []) ∧
      (∀ i, i < H.length → f.Column.get (H.getD i []) =
        if i + 1 < (splitDelim line).length then TrimSpace ((splitDelim line).getD (i + 1) [])
        else []) ∧
      (∀ c, c ∉ H → f.Column.get c = []) ∧
      (∀ k ∈ f.Column.keys, k ∈ H) := by
  obtain ⟨r1, r2, r3, r4⟩ := rowField_segments H hH line
  have hnew2 : hasField T.Data (rowField H (splitDelim (TrimSpace line))).Name = false := by
    rw [r1]
    cases hf : hasField T.Data (TrimSpace ((splitDelim line).headD [])) with
    | false => rfl
    | true => exact absurd ((mem_names_iff_hasField _ _).2 hf) hnew
  have hscan := Scan_named p T line hc hl hd ht (by rw [hh, r1]; exact hname)
    (by rw [hh]; exact hnew2)
  rw [hh] at hscan
  refine ⟨_, rowField H (splitDelim (TrimSpace line)),
    T.Append (rowField H (splitDelim (TrimSpace line))), hscan, rfl, rfl, rfl, rfl, ?_,
    r1, r2, r3, r4⟩
  unfold Table.Append
  simp only [hnew2, Bool.false_eq_true, if_false]

/-- C17 (witness). The lines `   | Current`, `------------` and `Status | Open`: the first
    two lead to a parser with the column list `Current`, and the third gives one field
    `Status` with `Current` equal to `Open`. -/
theorem Scan_row_witness :
    scanAll NewParser ["   | Current".toList, "------------".toList] = some parserCurrent ∧
    (parserCurrent.Scan "Status | Open".toList).map
      (fun r => (r.2, r.1.table.map (fun t => t.Data.map
        (fun f => (f.Name, f.Column.get "Current".toList))))) =
      some (true, some [("Status".toList, "Open".toList)]) ∧
    ∃ q f T2, parserCurrent.Scan "Status | Open".toList = some (q, true) ∧
      q.closed = false ∧ q.err = parserCurrent.err ∧
      q.headers = ["Current".toList] ∧ q.table = some T2 ∧
      T2.Data = ([] : List Field) ++ [f] ∧
      f.Name = TrimSpace ((splitDelim "Status | Open".toList).headD []) ∧
      (∀ i, i < ["Current".toList].length → f.Column.get (["Current".toList].getD i []) =
        if i + 1 < (splitDelim "Status | Open".toList).length
          then TrimSpace ((splitDelim "Status | Open".toList).getD (i + 1) [])
        else []) ∧
      (∀ c, c ∉ ["Current".toList] → f.Column.get c = []) ∧
      (∀ k ∈ f.Column.keys, k ∈ ["Current".toList]) :=
  ⟨by rfl, by decide,
   Scan_row parserCurrent ["Current".toList] ⟨[], ColumnWidth, ["Current".toList], []⟩
     "Status | Open".toList rfl (by decide) rfl rfl (by decide) (by decide) (by decide)
     (by decide)⟩

end meta

/-! ## Decimal numerals -/

theorem digitValue_digitChar (k : Nat) (hk : k < 10) : digitValue (Nat.digitChar k) = k := by
  interval_cases k <;> rfl

theorem digitsValue_toDigitsCore (fuel n : Nat) (ds : Str) (h : n < fuel) :
    digitsValue (Nat.toDigitsCore 10 fuel n ds) = n * 10 ^ ds.length + digitsValue ds := by
  induction fuel generalizing n ds with
  | zero => omega
  | succ fuel ih =>
    unfold Nat.toDigitsCore
    simp only
    by_cases h0 : n / 10 = 0
    · simp only [h0, if_true, digitsValue, digitValue_digitChar _ (Nat.mod_lt n (by omega))]
      have : n % 10 = n := by omega
      rw [this]
    · simp only [h0, if_false]
      rw [ih (n / 10) _ (by omega)]
      simp only [digitsValue, List.length_cons, digitValue_digitChar _ (Nat.mod_lt n (by omega)),
        Nat.pow_succ]
      have e := Nat.div_add_mod n 10
      calc n / 10 * (10 ^ ds.length * 10) + (n % 10 * 10 ^ ds.length + digitsValue ds)
          = (10 * (n / 10) + n % 10) * 10 ^ ds.length + digitsValue ds := by ring
        _ = n * 10 ^ ds.length + digitsValue ds := by rw [e]

/-- The decimal numeral of a number denotes that number: `fmt.Sprintf("%d", i)` gives
    different texts for different numbers. -/
theorem digitsValue_decimal (n : Nat) : digitsValue (decimal n) = n := by
  unfold decimal Nat.toDigits
  rw [digitsValue_toDigitsCore (n + 1) n [] (by omega)]
  simp [digitsValue]

theorem decimal_injective : Function.Injective decimal := by
  intro a b h
  have := congrArg digitsValue h
  rwa [digitsValue_decimal, digitsValue_decimal] at this

namespace meta

/-! ## The column names read from the header line -/

theorem headerNames_congr (i : Nat) (a b : List Str) (h : a.map TrimSpace = b.map TrimSpace) :
    headerNames i a = headerNames i b := by
  induction a generalizing b i with
  | nil =>
    cases b with
    | nil => rfl
    | cons y ys => simp at h
  | cons x xs ih =>
    cases b with
    | nil => simp at h
    | cons y ys =>
      simp only [List.map_cons, List.cons.injEq] at h
      simp only [headerNames, h.1, ih (i + 1) ys h.2]

/-- A name read from the header line is a non-empty trimmed segment, or the numeral of
    the position of an empty one. -/
theorem mem_headerNames (i : Nat) (vs : List Str) (x : Str) (hx : x ∈ headerNames i vs) :
    (x ≠ [] ∧ x ∈ vs.map TrimSpace) ∨
    ∃ k, k < vs.length ∧ TrimSpace (vs.getD k []) = [] ∧ x = decimal (i + k) := by
  induction vs generalizing i with
  | nil => simp [headerNames] at hx
  | cons v vs ih =>
    simp only [headerNames, List.mem_cons] at hx
    rcases hx with hx | hx
    · by_cases hv : (TrimSpace v).length = 0
      · right
        refine ⟨0, by simp, ?_, ?_⟩
        · simpa using List.length_eq_zero.1 hv
        · simpa [hv] using hx
      · left
        simp only [hv, if_false] at hx
        refine ⟨?_, by simp [hx]⟩
        rw [hx]
        intro e
        exact hv (by rw [e]; rfl)
    · rcases ih (i + 1) hx with ⟨h1, h2⟩ | ⟨k, h1, h2, h3⟩
      · left
        exact ⟨h1, by
          rw [List.map_cons]
          exact List.mem_cons_of_mem _ h2⟩
      · right
        refine ⟨k + 1, by simpa using h1, by simpa using h2, ?_⟩
        rw [h3]
        congr 1
        omega

/-- The names read from the header line are pairwise distinct when the non-empty trimmed
    segments are, and no trimmed segment is the numeral of the position of an empty
    segment. -/
theorem headerNames_nodup (i : Nat) (vs : List Str)
    (hdist : ((vs.map TrimSpace).filter (fun s => decide (s ≠ []))).Nodup)
    (hnum : ∀ k, k < vs.length → TrimSpace (vs.getD k []) = [] →
      decimal (i + k) ∉ vs.map TrimSpace) :
    (headerNames i vs).Nodup := by
  induction vs generalizing i with
  | nil => exact List.nodup_nil
  | cons v vs ih =>
    have htail : (headerNames (i + 1) vs).Nodup := by
      apply ih (i + 1)
      · rw [List.map_cons, List.filter_cons] at hdist
        split at hdist
        · exact (List.nodup_cons.1 hdist).2
        · exact hdist
      · intro k hk hempty hmem
        apply hnum (k + 1) (by simpa using hk) (by simpa using hempty)
        rw [List.map_cons]
        have e : i + (k + 1) = i + 1 + k := by omega
        rw [e]
        exact List.mem_cons_of_mem _ hmem
    simp only [headerNames]
    rw [List.nodup_cons]
    refine ⟨?_, htail⟩
    intro hmem
    by_cases hv : (TrimSpace v).length = 0
    · simp only [hv, if_true] at hmem
      have hv2 : TrimSpace v = [] := List.length_eq_zero.1 hv
      rcases mem_headerNames (i + 1) vs _ hmem with ⟨_, h2⟩ | ⟨k, _, _, h3⟩
      · apply hnum 0 (by simp) (by simpa using hv2)
        rw [List.map_cons]
        exact List.mem_cons_of_mem _ h2
      · have := decimal_injective h3
        omega
    · simp only [hv, if_false] at hmem
      have hv2 : TrimSpace v ≠ [] := fun e => hv (by rw [e]; rfl)
      rcases mem_headerNames (i + 1) vs _ hmem with ⟨_, h2⟩ | ⟨k, h1, h2, h3⟩
      · rw [List.map_cons, List.filter_cons] at hdist
        simp only [ne_eq, hv2, not_false_eq_true, decide_True, if_true] at hdist
        apply (List.nodup_cons.1 hdist).1
        rw [List.mem_filter]
        exact ⟨h2, by simpa using hv2⟩
      · apply hnum (k + 1) (by simpa using h1) (by simpa using h2)
        rw [List.map_cons]
        have e : i + (k + 1) = i + 1 + k := by omega
        rw [e, ← h3]
        exact List.mem_cons_self _ _

end meta

namespace meta

open examples

/-- C18 (counterexample). The first line `N | 2 |`: the non-empty trimmed segments after
    the first are just `2`, hence pairwise distinct, and `Scan` derives the column
    names `2` and `2`, the second being the numeral of the position of the empty
    segment. -/
theorem Scan_header_names_repeat :
    '|' ∈ "N | 2 |".toList ∧
    (((splitDelim "N | 2 |".toList).drop 1).map TrimSpace).filter (fun s => decide (s ≠ [])) =
      ["2".toList] ∧
    (NewParser.Scan "N | 2 |".toList).map (fun r => (r.2, r.1.headers)) =
      some (true, ["2".toList, "2".toList]) ∧
    ¬ (["2".toList, "2".toList] : List Str).Nodup := by
  decide

/-- C18 (amended). Synthetic column names: for every first line that contains the
    delimiter, whose non-empty trimmed segments after the first are pairwise distinct and
    none of whose trimmed segments after the first is the decimal numeral of the 1-based
    position of an empty one, `Scan` returns `true` and the column names it derives (the
    trimmed segment, or the numeral of its position when the trimmed segment is empty)
    are pairwise distinct; they are the column list of the table it makes. -/
theorem Scan_header_names_distinct (p : Parser) (line : Str)
    (hc : p.closed = false) (hl : p.lines = 0) (hh : p.headers = []) (hd : '|' ∈ line)
    (hdist : ((((splitDelim line).drop 1).map TrimSpace).filter
      (fun s => decide (s ≠ []))).Nodup)
    (hnum : ∀ k, k < ((splitDelim line).drop 1).length →
      TrimSpace (((splitDelim line).drop 1).getD k []) = [] →
      decimal (k + 1) ∉ ((splitDelim line).drop 1).map TrimSpace) :
    ∃ q, p.Scan line = some (q, true) ∧
      q.headers = headerNames 1 ((splitDelim line).drop 1) ∧
      q.headers.Nodup ∧
      q.table.map (fun t => t.Headers) = some q.headers := by
  have h1 : '|' ∈ TrimSpace line := mem_TrimSpace_of_not_space line '|' hd isSpace_delim
  have h2 : (TrimSpace line).length ≠ 0 := by
    intro h0
    rw [List.length_eq_zero] at h0
    rw [h0] at h1
    cases h1
  have h3 : containsDelim (TrimSpace line) = true := (containsDelim_iff _).2 h1
  have hcongr : headerNames 1 ((splitDelim (TrimSpace line)).drop 1) =
      headerNames 1 ((splitDelim line).drop 1) := by
    apply headerNames_congr
    rw [List.map_drop, List.map_drop, map_TrimSpace_splitDelim_TrimSpace]
  have hnd : (headerNames 1 ((splitDelim line).drop 1)).Nodup := by
    apply headerNames_nodup 1 _ hdist
    intro k hk hempty
    rw [Nat.add_comm]
    exact hnum k hk hempty
  refine ⟨⟨1, p.err, false, headerNames 1 ((splitDelim line).drop 1),
    some ⟨[], ColumnWidth, headerNames 1 ((splitDelim line).drop 1), []⟩, p.lastfield⟩,
    ?_, rfl, hnd, rfl⟩
  unfold Parser.Scan
  simp [hc, hl, hh, h2, h3]
  simpa using hcongr

/-- C18 (witness). The first line `Name | Current |  | x`: the third segment is empty
    and gets the name `2`; the names are `Current`, `2`, `x`. -/
theorem Scan_header_names_distinct_witness :
    '|' ∈ "Name | Current |  | x".toList ∧
    headerNames 1 ((splitDelim "Name | Current |  | x".toList).drop 1) =
      ["Current".toList, "2".toList, "x".toList] ∧
    ∃ q, NewParser.Scan "Name | Current |  | x".toList = some (q, true) ∧
      q.headers = headerNames 1 ((splitDelim "Name | Current |  | x".toList).drop 1) ∧
      q.headers.Nodup ∧
      q.table.map (fun t => t.Headers) = some q.headers :=
  ⟨by decide, by decide,
   Scan_header_names_distinct NewParser "Name | Current |  | x".toList rfl rfl rfl
     (by decide) (by decide) (by decide)⟩

end meta

namespace meta

open examples

/-- C19 (the code at the failing input). After a header line and a separator line, a row
    with an empty name and a non-empty cell arrives before any named row: `lastfield` is
    still nil and `Scan` dereferences it (`p.lastfield.Column[n] += ...`), a run-time
    fault.  The same row after a named row is fine, and so is a row whose cells are all
    empty. -/
theorem Scan_faults_on_early_continuation :
    (scanAll NewParser ["Name | Current".toList, "--------------".toList]).isSome = true ∧
    ((scanAll NewParser ["Name | Current".toList, "--------------".toList]).bind
      (fun p => p.Scan " | x".toList)).isNone = true ∧
    ((scanAll NewParser ["Name | Current".toList, "--------------".toList]).bind
      (fun p => p.Scan " | ".toList)).map (fun r => r.2) = some true ∧
    ((scanAll NewParser ["Name | Current".toList, "--------------".toList,
        "Status | Open".toList]).bind
      (fun p => p.Scan " | x".toList)).map (fun r => r.2) = some true := by
  decide

end meta

namespace syncer

open meta message examples

/-! ## The board filter -/

/-- C20 (the code at the failing input). With an empty `ProjectMatch` the pattern
    `BoardMatch` is never compiled, whatever it is, and every scrum board is processed,
    also one whose name does not match; with a non-empty `ProjectMatch` the same board
    is skipped. -/
theorem Boards_ignores_BoardMatch :
    (∀ (matchString : Str → Str → Bool) (pattern name : Str),
      boardProcessed matchString ⟨[], pattern⟩ "scrum".toList name = true) ∧
    boardProcessed (fun pattern s => decide (s = pattern)) ⟨[], "Team A".toList⟩
      "scrum".toList "Team B".toList = true ∧
    (fun pattern s => decide (s = pattern)) "Team A".toList "Team B".toList = false ∧
    boardProcessed (fun pattern s => decide (s = pattern)) ⟨"KEY".toList, "Team A".toList⟩
      "scrum".toList "Team B".toList = false := by
  refine ⟨fun _ _ _ => rfl, by decide, by decide, by decide⟩

end syncer

namespace syncer

open meta message examples

/-- C16 (witness). The record with the `Subject` `[KEY-1] Broken build`: tagging writes
    `[DELETED] [KEY-1] Broken build`, and tagging that again leaves it as it is. -/
theorem tagSubject_idempotent_witness :
    tagSubject "[KEY-1] Broken build".toList = "[DELETED] [KEY-1] Broken build".toList ∧
    tagSubject (tagSubject "[KEY-1] Broken build".toList) =
      tagSubject "[KEY-1] Broken build".toList ∧
    subjectAfterTag mailSubject = "[DELETED] [KEY-1] Broken build".toList ∧
    (tagDeletedMessage mailSubject).map (fun written => (tagDeletedMessage written).isNone) =
      some true :=
  ⟨by decide, (tagSubject_idempotent.1 "[KEY-1] Broken build".toList).1, by decide,
   by decide⟩

end syncer

namespace meta

/-! ## Bytes and characters of ASCII strings -/

/-- On an ASCII string the number of bytes (`len`) is the number of characters. -/
theorem utf8Len_of_ascii (s : Str) (h : Ascii s) : utf8Len s = s.length := by
  induction s with
  | nil => rfl
  | cons c s ih =>
    have hc : c.toNat < 128 := h c (List.mem_cons_self _ _)
    have hs : Ascii s := fun d hd => h d (List.mem_cons_of_mem _ hd)
    have h1 : c.utf8Size = 1 := by
      unfold Char.utf8Size
      have : c.val ≤ 127 := by
        show c.val.toNat ≤ 127
        have : c.toNat = c.val.toNat := rfl
        omega
      simp [this]
    unfold utf8Len at ih ⊢
    simp only [List.map_cons, List.sum_cons, List.length_cons, h1, ih hs]
    omega

/-- A piece cut from an ASCII string is ASCII, so a cut at a byte offset is a cut at
    the same character offset. -/
theorem Ascii.take_drop (s : Str) (h : Ascii s) (a b : Nat) :
    Ascii ((s.drop a).take b) := fun c hc =>
  h c (List.mem_of_mem_drop (List.mem_of_mem_take hc))

end meta

end Jiramail
